import Mathlib

/-!
# Inference core of the prover: shallow embedding and verified properties

The definitions below embed, function by function, the inference rules found under
`Inferences/`, `Kernel/` and `SMTSubsumption/`.  Conventions of the embedding:

* A `Term*` / `Literal*` / `Clause*` is embedded as the value it points to.  Terms and
  literals are perfectly shared in the program, so pointer equality on them is structural
  equality here.  A null pointer result is `none`.
* A function with debug assertions returns an `Outcome`; a failed `ASS…` is
  `Outcome.assertionViolation`.
* A `bool` result with out-parameters is an `Option` (or a small inductive type) carrying
  exactly the out-parameters that are defined when the function returns `true`.
* Symbols carry the information that the program looks up in the signature and in the
  theory object (interpretation, numeral value); distinct groups stay in a `Signature`.
* The inference record (rule, parent units), the age and the statistics counters of a
  clause are not represented: none of the embedded operations reads them.
-/

namespace Vampire

/-! ## Outcomes -/

/-- Result of a routine guarded by debug assertions. -/
inductive Outcome (α : Type) where
  | ret (a : α)
  | assertionViolation
deriving DecidableEq

/-! ## Term universe -/

/-- Modelled from the spec: the interpretation tags of the theory symbols
(`Theory::Interpretation`, §3 Symbol), as far as the embedded sources mention them. -/
inductive Interpretation where
  | EQUAL
  | INT_UNARY_MINUS | INT_SUCCESSOR
  | INT_PLUS | INT_MINUS | INT_MULTIPLY | INT_DIVIDE | INT_MODULO
  | INT_GREATER | INT_GREATER_EQUAL | INT_LESS | INT_LESS_EQUAL | INT_DIVIDES
  | RAT_UNARY_MINUS
  | RAT_PLUS | RAT_MINUS | RAT_MULTIPLY | RAT_DIVIDE
  | RAT_GREATER | RAT_GREATER_EQUAL | RAT_LESS | RAT_LESS_EQUAL | RAT_IS_INT
  | REAL_UNARY_MINUS
  | REAL_PLUS | REAL_MINUS | REAL_MULTIPLY | REAL_DIVIDE
  | REAL_GREATER | REAL_GREATER_EQUAL | REAL_LESS | REAL_LESS_EQUAL
  | REAL_IS_INT | REAL_IS_RAT
deriving DecidableEq

/-- Modelled from the spec: a function symbol (§3 Symbol; the `functor()` of a term) together
with what the signature and the theory object record about it: an uninterpreted symbol
identified by its number, a numeral
of one of the three arithmetic sorts, or an interpreted operation. -/
inductive Symbol where
  | user (number : Nat)
  | integerConstant (v : Int)
  | rationalConstant (q : Rat)
  | realConstant (q : Rat)
  | interpreted (itp : Interpretation)
deriving DecidableEq

/-- Modelled from the spec: a predicate symbol (§3 Symbol; the `functor()` of a literal).
Equality is the predicate whose interpretation is `Theory::EQUAL`. -/
inductive PredSymbol where
  | user (number : Nat)
  | interpreted (itp : Interpretation)
deriving DecidableEq

/-- Modelled from the spec: a `TermList` (§3 Term): a variable or a compound term
`f(t₁,…,tₙ)`. -/
inductive TermList where
  | var (v : Nat)
  | term (functor : Symbol) (args : List TermList)

mutual
/-- Structural equality of terms (pointer equality of shared terms). -/
def TermList.decEq : (a b : TermList) → Decidable (a = b)
  | .var x, .var y =>
    if h : x = y then isTrue (by rw [h]) else isFalse (by intro e; cases e; exact h rfl)
  | .var _, .term _ _ => isFalse (by intro e; cases e)
  | .term _ _, .var _ => isFalse (by intro e; cases e)
  | .term f as, .term g bs =>
    if h : f = g then
      match TermList.decEqArgs as bs with
      | isTrue h2 => isTrue (by rw [h, h2])
      | isFalse h2 => isFalse (by intro e; cases e; exact h2 rfl)
    else isFalse (by intro e; cases e; exact h rfl)
/-- Structural equality of argument lists. -/
def TermList.decEqArgs : (as bs : List TermList) → Decidable (as = bs)
  | [], [] => isTrue rfl
  | [], _ :: _ => isFalse (by intro e; cases e)
  | _ :: _, [] => isFalse (by intro e; cases e)
  | a :: as, b :: bs =>
    match TermList.decEq a b with
    | isTrue h1 =>
      match TermList.decEqArgs as bs with
      | isTrue h2 => isTrue (by rw [h1, h2])
      | isFalse h2 => isFalse (by intro e; cases e; exact h2 rfl)
    | isFalse h1 => isFalse (by intro e; cases e; exact h1 rfl)
end

instance : DecidableEq TermList := TermList.decEq

/-- Modelled from the spec: `TermList::isVar`. -/
def TermList.isVar : TermList → Bool
  | .var _ => true
  | .term _ _ => false

/-- Modelled from the spec: `TermList::isTerm`. -/
def TermList.isTerm : TermList → Bool
  | .var _ => false
  | .term _ _ => true

/-- Modelled from the spec: a literal (§3 Literal): predicate symbol, polarity and
arguments. -/
structure Literal where
  functor : PredSymbol
  polarity : Bool
  args : List TermList
deriving DecidableEq

/-- Modelled from the spec: `Literal::isEquality`. -/
def Literal.isEquality (l : Literal) : Bool :=
  decide (l.functor = PredSymbol.interpreted Interpretation.EQUAL)

/-- Modelled from the spec: `Literal::isNegative`. -/
def Literal.isNegative (l : Literal) : Bool := !l.polarity

/-- Modelled from the spec: `Literal::isPositive`. -/
def Literal.isPositive (l : Literal) : Bool := l.polarity

/-- Modelled from the spec: `Term::arity` of a literal. -/
def Literal.arity (l : Literal) : Nat := l.args.length

/-- Modelled from the spec: `Term::nthArgument` of a literal.  The program only calls it below
the arity; the embedding returns variable 0 beyond it. -/
def Literal.nthArgument (l : Literal) (n : Nat) : TermList := l.args.getD n (TermList.var 0)

/-- Modelled from the spec: `Literal::createEquality(polarity, l, r, sort)`; argument order is
preserved and the sort is not represented. -/
def Literal.createEquality (polarity : Bool) (l r : TermList) : Literal :=
  { functor := PredSymbol.interpreted Interpretation.EQUAL, polarity := polarity, args := [l, r] }

/-- Modelled from the spec: `Unit::InputType`. -/
inductive InputType where
  | AXIOM | ASSUMPTION | LEMMA | CONJECTURE
deriving DecidableEq

/-- Modelled from the spec: a clause (§3 Clause): its literals in order, its input type and
the number of selected (leading) literals. -/
structure Clause where
  lits : List Literal
  inputType : InputType
  numSelected : Nat
deriving DecidableEq

/-- Modelled from the spec: `Clause::length`. -/
def Clause.length (cl : Clause) : Nat := cl.lits.length

/-- Modelled from the spec: `Clause::fromStack(lits, inputType, inference)`: a fresh clause
holding the literals of the stack bottom first; nothing is selected in a fresh clause. -/
def Clause.fromStack (lits : List Literal) (inputType : InputType) : Clause :=
  { lits := lits, inputType := inputType, numSelected := 0 }

/-- Modelled from the spec: the part of `env.signature` read by the embedded rules (§3
Symbol, Distinct group): the distinct groups of each
function symbol (`Signature::Symbol::distinctGroups`, a null list being `[]`). -/
structure Signature where
  distinctGroups : Symbol → List Nat

/-! ## Distinct-equality simplification (`Inferences/DistinctEqualitySimplifier.cpp`) -/

namespace DistinctEqualitySimplifier

/-- Embeds `mustBeDistinct(t1, t2, grp)`: `some grp` when the function returns `true` having set
`grp`, `none` when it returns `false`. -/
def mustBeDistinct (sig : Signature) (t1 t2 : TermList) : Option Nat :=
  match t1, t2 with
  | .term fn1 [], .term fn2 [] =>
    let dlst1 := sig.distinctGroups fn1
    if dlst1.isEmpty then none
    else
      let dlst2 := sig.distinctGroups fn2
      if dlst2.isEmpty then none
      else dlst1.find? (fun candGrp => decide (candGrp ∈ dlst2))
  | _, _ => none

/-- The two-argument overload `mustBeDistinct(t1, t2)`. -/
def mustBeDistinct2 (sig : Signature) (t1 t2 : TermList) : Bool :=
  (mustBeDistinct sig t1 t2).isSome

/-- Embeds `canSimplify(cl)`. -/
def canSimplify (sig : Signature) (cl : Clause) : Bool :=
  cl.lits.any (fun lit =>
    lit.isEquality && mustBeDistinct2 sig (lit.nthArgument 0) (lit.nthArgument 1))

/-- The `for` loop of `simplify` over the remaining literals, with the stack `lits` built so
far; `none` is the early `return 0`. -/
def simplifyLoop (sig : Signature) : List Literal → List Literal → Option (List Literal)
  | [], lits => some lits
  | lit :: rest, lits =>
    if !lit.isEquality ||
        !(mustBeDistinct sig (lit.nthArgument 0) (lit.nthArgument 1)).isSome then
      simplifyLoop sig rest (lits ++ [lit])
    else if lit.isNegative then none
    else simplifyLoop sig rest lits

/-- Embeds `DistinctEqualitySimplifier::simplify(cl)`. -/
def simplify (sig : Signature) (cl : Clause) : Outcome (Option Clause) :=
  if !canSimplify sig cl then Outcome.ret (some cl)
  else
    match simplifyLoop sig cl.lits [] with
    | none => Outcome.ret none
    | some lits =>
      if lits.length < cl.length then
        Outcome.ret (some (Clause.fromStack lits cl.inputType))
      else Outcome.assertionViolation

end DistinctEqualitySimplifier

/-! ## Interpreted evaluation (`Inferences/InterpretedEvaluation.cpp`) -/

/-- Modelled from the spec: the `ArithmeticException` thrown by the number types (§7). -/
structure ArithmeticException where
deriving DecidableEq

/-- Modelled from the spec: the sorts of the arithmetic theories (§3 Sort;
`Sorts::SRT_INTEGER`, …). -/
inductive Sorts where
  | SRT_INTEGER | SRT_RATIONAL | SRT_REAL
deriving DecidableEq

namespace IntegerConstantType

/-- Modelled from the spec: `IntegerConstantType` (not under `src/`) wraps a machine `int`;
an operation whose exact result is not representable raises `ArithmeticException`
(§4.7, §7 "overflow, division by zero").  `checked` is that range test. -/
def checked (v : Int) : Except ArithmeticException Int :=
  if -(2 : Int) ^ 31 ≤ v ∧ v < (2 : Int) ^ 31 then Except.ok v
  else Except.error ArithmeticException.mk

/-- Modelled from the spec: unary minus of `IntegerConstantType`. -/
def neg (a : Int) : Except ArithmeticException Int := checked (-a)
/-- Modelled from the spec: `operator+` of `IntegerConstantType`. -/
def add (a b : Int) : Except ArithmeticException Int := checked (a + b)
/-- Modelled from the spec: `operator-` of `IntegerConstantType`. -/
def sub (a b : Int) : Except ArithmeticException Int := checked (a - b)
/-- Modelled from the spec: `operator*` of `IntegerConstantType`. -/
def mul (a b : Int) : Except ArithmeticException Int := checked (a * b)
/-- Modelled from the spec: `operator/` of `IntegerConstantType`, the truncating division
of the machine; division by zero raises. -/
def div (a b : Int) : Except ArithmeticException Int :=
  if b = 0 then Except.error ArithmeticException.mk else checked (Int.tdiv a b)
/-- Modelled from the spec: `operator%` of `IntegerConstantType`, the remainder of the
truncating division; remainder by zero raises. -/
def mod (a b : Int) : Except ArithmeticException Int :=
  if b = 0 then Except.error ArithmeticException.mk else checked (Int.tmod a b)

end IntegerConstantType

namespace RationalConstantType

/-- Modelled from the spec: `RationalConstantType` / `RealConstantType` (not under `src/`)
are exact rationals whose numerator and denominator are `IntegerConstantType`s; a result
that is not representable raises `ArithmeticException`. -/
def checked (q : Rat) : Except ArithmeticException Rat :=
  if -(2 : Int) ^ 31 ≤ q.num ∧ q.num < (2 : Int) ^ 31 ∧ (q.den : Int) < (2 : Int) ^ 31 then
    Except.ok q
  else Except.error ArithmeticException.mk

/-- Modelled from the spec: unary minus of the rational types. -/
def neg (a : Rat) : Except ArithmeticException Rat := checked (-a)
/-- Modelled from the spec: `operator+` of the rational types. -/
def add (a b : Rat) : Except ArithmeticException Rat := checked (a + b)
/-- Modelled from the spec: `operator-` of the rational types. -/
def sub (a b : Rat) : Except ArithmeticException Rat := checked (a - b)
/-- Modelled from the spec: `operator*` of the rational types. -/
def mul (a b : Rat) : Except ArithmeticException Rat := checked (a * b)
/-- Modelled from the spec: `operator/` of the rational types; division by zero raises. -/
def div (a b : Rat) : Except ArithmeticException Rat :=
  if b = 0 then Except.error ArithmeticException.mk else checked (a / b)

end RationalConstantType

namespace Theory

/-- Modelled from the spec: `Theory::isFunction` (not under `src/`): the interpretation is an
operation returning a number, not a predicate. -/
def isFunction : Interpretation → Bool
  | .INT_UNARY_MINUS | .INT_SUCCESSOR | .INT_PLUS | .INT_MINUS | .INT_MULTIPLY
  | .INT_DIVIDE | .INT_MODULO
  | .RAT_UNARY_MINUS | .RAT_PLUS | .RAT_MINUS | .RAT_MULTIPLY | .RAT_DIVIDE
  | .REAL_UNARY_MINUS | .REAL_PLUS | .REAL_MINUS | .REAL_MULTIPLY | .REAL_DIVIDE => true
  | _ => false

/-- Modelled from the spec: `Theory::getArity` (not under `src/`). -/
def getArity : Interpretation → Nat
  | .INT_UNARY_MINUS | .INT_SUCCESSOR | .RAT_UNARY_MINUS | .REAL_UNARY_MINUS
  | .RAT_IS_INT | .REAL_IS_INT | .REAL_IS_RAT => 1
  | _ => 2

/-- Modelled from the spec: `Theory::getOperationSort` (not under `src/`); it is not defined
for `EQUAL`. -/
def getOperationSort : Interpretation → Option Sorts
  | .EQUAL => none
  | .INT_UNARY_MINUS | .INT_SUCCESSOR | .INT_PLUS | .INT_MINUS | .INT_MULTIPLY
  | .INT_DIVIDE | .INT_MODULO | .INT_GREATER | .INT_GREATER_EQUAL | .INT_LESS
  | .INT_LESS_EQUAL | .INT_DIVIDES => some Sorts.SRT_INTEGER
  | .RAT_UNARY_MINUS | .RAT_PLUS | .RAT_MINUS | .RAT_MULTIPLY | .RAT_DIVIDE
  | .RAT_GREATER | .RAT_GREATER_EQUAL | .RAT_LESS | .RAT_LESS_EQUAL
  | .RAT_IS_INT => some Sorts.SRT_RATIONAL
  | .REAL_UNARY_MINUS | .REAL_PLUS | .REAL_MINUS | .REAL_MULTIPLY | .REAL_DIVIDE
  | .REAL_GREATER | .REAL_GREATER_EQUAL | .REAL_LESS | .REAL_LESS_EQUAL
  | .REAL_IS_INT | .REAL_IS_RAT => some Sorts.SRT_REAL

/-- Modelled from the spec: `Theory::interpretFunction` together with
`Theory::isInterpretedFunction(unsigned)` (not under `src/`): the interpretation of an
interpreted function symbol of non-zero arity, `none` for every other symbol (numerals
included: they are interpreted constants, not interpreted functions). -/
def interpretFunction : Symbol → Option Interpretation
  | .interpreted itp => if isFunction itp then some itp else none
  | _ => none

/-- Modelled from the spec: `Theory::isInterpretedFunction(unsigned)`. -/
def isInterpretedFunction (func : Symbol) : Bool := (interpretFunction func).isSome

/-- Modelled from the spec: `Theory::interpretPredicate` together with
`Theory::isInterpretedPredicate(unsigned)` (not under `src/`); equality is an interpreted
predicate, with interpretation `EQUAL`. -/
def interpretPredicate : PredSymbol → Option Interpretation
  | .interpreted itp => if isFunction itp then none else some itp
  | .user _ => none

/-- Modelled from the spec: `Theory::isInterpretedPredicate(unsigned)`. -/
def isInterpretedPredicate (pred : PredSymbol) : Bool := (interpretPredicate pred).isSome

/-- Modelled from the spec: `Theory::isInterpretedConstant(unsigned)` (not under `src/`):
the symbol is a numeral. -/
def isInterpretedConstant : Symbol → Bool
  | .integerConstant _ | .rationalConstant _ | .realConstant _ => true
  | _ => false

/-- Modelled from the spec: `Theory::tryInterpretConstant(TermList, IntegerConstantType&)`. -/
def tryInterpretConstantInt : TermList → Option Int
  | .term (.integerConstant v) [] => some v
  | _ => none

/-- Modelled from the spec: `Theory::tryInterpretConstant(TermList, RationalConstantType&)`. -/
def tryInterpretConstantRat : TermList → Option Rat
  | .term (.rationalConstant q) [] => some q
  | _ => none

/-- Modelled from the spec: `Theory::tryInterpretConstant(TermList, RealConstantType&)`. -/
def tryInterpretConstantReal : TermList → Option Rat
  | .term (.realConstant q) [] => some q
  | _ => none

/-- Modelled from the spec: `Theory::representConstant(const IntegerConstantType&)`. -/
def representConstantInt (v : Int) : TermList := TermList.term (Symbol.integerConstant v) []
/-- Modelled from the spec: `Theory::representConstant(const RationalConstantType&)`. -/
def representConstantRat (q : Rat) : TermList := TermList.term (Symbol.rationalConstant q) []
/-- Modelled from the spec: `Theory::representConstant(const RealConstantType&)`. -/
def representConstantReal (q : Rat) : TermList := TermList.term (Symbol.realConstant q) []

end Theory

namespace InterpretedEvaluation

/-- The abstract class `Evaluator`: its sort and its two pure virtual methods.  A `bool`
result `false` is `none`; on `true` the out-parameter is returned. -/
structure Evaluator where
  sort : Sorts
  tryEvaluateFunc : Symbol → List TermList → Option TermList
  tryEvaluatePred : Literal → Option Bool

/-- Embeds `Evaluator::canEvaluate`. -/
def Evaluator.canEvaluate (ev : Evaluator) (interp : Interpretation) : Bool :=
  if interp = Interpretation.EQUAL then false
  else decide (Theory.getOperationSort interp = some ev.sort)

/-- Embeds `Evaluator::canEvaluateFunc`. -/
def Evaluator.canEvaluateFunc (ev : Evaluator) (func : Symbol) : Bool :=
  match Theory.interpretFunction func with
  | none => false
  | some interp => ev.canEvaluate interp

/-- Embeds `Evaluator::canEvaluatePred`. -/
def Evaluator.canEvaluatePred (ev : Evaluator) (pred : PredSymbol) : Bool :=
  match Theory.interpretPredicate pred with
  | none => false
  | some interp => ev.canEvaluate interp

/-- The class template `TypedEvaluator<T>`: the number type's sort and its conversion from and
to terms, and the four protected virtual methods.  A method may throw
(`Except.error`), answer `false` (`Except.ok none`) or answer `true` with a result. -/
structure TypedEvaluator (T : Type) where
  sort : Sorts
  tryInterpretConstant : TermList → Option T
  representConstant : T → TermList
  tryEvaluateUnaryFunc : Interpretation → T → Except ArithmeticException (Option T)
  tryEvaluateBinaryFunc : Interpretation → T → T → Except ArithmeticException (Option T)
  tryEvaluateUnaryPred : Interpretation → T → Except ArithmeticException (Option Bool)
  tryEvaluateBinaryPred : Interpretation → T → T → Except ArithmeticException (Option Bool)

/-- The conversion `catch(ArithmeticException) { return false; }`. -/
def catchArithmetic {α : Type} : Except ArithmeticException (Option α) → Option α
  | Except.ok r => r
  | Except.error _ => none

/-- Embeds `TypedEvaluator<T>::tryEvaluateFunc(trm, res)` for `trm = functor(args)`.  The entry
assertions hold at its only call site (after `canEvaluateFunc`); outside them, and for an
arity other than 1 or 2 (which no interpretation has), the embedding answers `false`. -/
def TypedEvaluator.tryEvaluateFunc {T : Type} (ev : TypedEvaluator T)
    (functor : Symbol) (args : List TermList) : Option TermList :=
  match Theory.interpretFunction functor with
  | none => none
  | some itp =>
    let arity := Theory.getArity itp
    if arity ≠ 1 ∧ arity ≠ 2 then none
    else
      match ev.tryInterpretConstant (args.getD 0 (TermList.var 0)) with
      | none => none
      | some arg1 =>
        if arity = 1 then
          (catchArithmetic (ev.tryEvaluateUnaryFunc itp arg1)).map ev.representConstant
        else
          match ev.tryInterpretConstant (args.getD 1 (TermList.var 0)) with
          | none => none
          | some arg2 =>
            (catchArithmetic (ev.tryEvaluateBinaryFunc itp arg1 arg2)).map ev.representConstant

/-- Embeds `TypedEvaluator<T>::tryEvaluatePred(lit, res)`, under the same conventions as
`tryEvaluateFunc`. -/
def TypedEvaluator.tryEvaluatePred {T : Type} (ev : TypedEvaluator T)
    (lit : Literal) : Option Bool :=
  match Theory.interpretPredicate lit.functor with
  | none => none
  | some itp =>
    let arity := Theory.getArity itp
    if arity ≠ 1 ∧ arity ≠ 2 then none
    else
      match ev.tryInterpretConstant (lit.nthArgument 0) with
      | none => none
      | some arg1 =>
        let res :=
          if arity = 1 then catchArithmetic (ev.tryEvaluateUnaryPred itp arg1)
          else
            match ev.tryInterpretConstant (lit.nthArgument 1) with
            | none => none
            | some arg2 => catchArithmetic (ev.tryEvaluateBinaryPred itp arg1 arg2)
        res.map (fun r => if lit.isNegative then !r else r)

/-- A `TypedEvaluator<T>` seen through its base class. -/
def TypedEvaluator.toEvaluator {T : Type} (ev : TypedEvaluator T) : Evaluator :=
  { sort := ev.sort
    tryEvaluateFunc := ev.tryEvaluateFunc
    tryEvaluatePred := ev.tryEvaluatePred }

/-- The class `IntEvaluator`. -/
def IntEvaluator : TypedEvaluator Int :=
  { sort := Sorts.SRT_INTEGER
    tryInterpretConstant := Theory.tryInterpretConstantInt
    representConstant := Theory.representConstantInt
    tryEvaluateUnaryFunc := fun op arg =>
      match op with
      | .INT_UNARY_MINUS => (IntegerConstantType.neg arg).map some
      | .INT_SUCCESSOR => (IntegerConstantType.add arg 1).map some
      | _ => Except.ok none
    tryEvaluateBinaryFunc := fun op arg1 arg2 =>
      match op with
      | .INT_PLUS => (IntegerConstantType.add arg1 arg2).map some
      | .INT_MINUS => (IntegerConstantType.sub arg1 arg2).map some
      | .INT_MULTIPLY => (IntegerConstantType.mul arg1 arg2).map some
      | .INT_DIVIDE => (IntegerConstantType.div arg1 arg2).map some
      | .INT_MODULO => (IntegerConstantType.mod arg1 arg2).map some
      | _ => Except.ok none
    tryEvaluateUnaryPred := fun _ _ => Except.ok none
    tryEvaluateBinaryPred := fun op arg1 arg2 =>
      match op with
      | .INT_GREATER => Except.ok (some (decide (arg1 > arg2)))
      | .INT_GREATER_EQUAL => Except.ok (some (decide (arg1 ≥ arg2)))
      | .INT_LESS => Except.ok (some (decide (arg1 < arg2)))
      | .INT_LESS_EQUAL => Except.ok (some (decide (arg1 ≤ arg2)))
      | .INT_DIVIDES => (IntegerConstantType.mod arg1 arg2).map (fun r => some (decide (r = 0)))
      | _ => Except.ok none }

/-- The class `RatEvaluator`. -/
def RatEvaluator : TypedEvaluator Rat :=
  { sort := Sorts.SRT_RATIONAL
    tryInterpretConstant := Theory.tryInterpretConstantRat
    representConstant := Theory.representConstantRat
    tryEvaluateUnaryFunc := fun op arg =>
      match op with
      | .RAT_UNARY_MINUS => (RationalConstantType.neg arg).map some
      | _ => Except.ok none
    tryEvaluateBinaryFunc := fun op arg1 arg2 =>
      match op with
      | .RAT_PLUS => (RationalConstantType.add arg1 arg2).map some
      | .RAT_MINUS => (RationalConstantType.sub arg1 arg2).map some
      | .RAT_MULTIPLY => (RationalConstantType.mul arg1 arg2).map some
      | .RAT_DIVIDE => (RationalConstantType.div arg1 arg2).map some
      | _ => Except.ok none
    tryEvaluateUnaryPred := fun op arg1 =>
      match op with
      | .RAT_IS_INT => Except.ok (some arg1.isInt)
      | _ => Except.ok none
    tryEvaluateBinaryPred := fun op arg1 arg2 =>
      match op with
      | .RAT_GREATER => Except.ok (some (decide (arg1 > arg2)))
      | .RAT_GREATER_EQUAL => Except.ok (some (decide (arg1 ≥ arg2)))
      | .RAT_LESS => Except.ok (some (decide (arg1 < arg2)))
      | .RAT_LESS_EQUAL => Except.ok (some (decide (arg1 ≤ arg2)))
      | _ => Except.ok none }

/-- The class `RealEvaluator`. -/
def RealEvaluator : TypedEvaluator Rat :=
  { sort := Sorts.SRT_REAL
    tryInterpretConstant := Theory.tryInterpretConstantReal
    representConstant := Theory.representConstantReal
    tryEvaluateUnaryFunc := fun op arg =>
      match op with
      | .REAL_UNARY_MINUS => (RationalConstantType.neg arg).map some
      | _ => Except.ok none
    tryEvaluateBinaryFunc := fun op arg1 arg2 =>
      match op with
      | .REAL_PLUS => (RationalConstantType.add arg1 arg2).map some
      | .REAL_MINUS => (RationalConstantType.sub arg1 arg2).map some
      | .REAL_MULTIPLY => (RationalConstantType.mul arg1 arg2).map some
      | .REAL_DIVIDE => (RationalConstantType.div arg1 arg2).map some
      | _ => Except.ok none
    tryEvaluateUnaryPred := fun op arg1 =>
      match op with
      | .REAL_IS_INT => Except.ok (some arg1.isInt)
      | .REAL_IS_RAT => Except.ok (some true)
      | _ => Except.ok none
    tryEvaluateBinaryPred := fun op arg1 arg2 =>
      match op with
      | .REAL_GREATER => Except.ok (some (decide (arg1 > arg2)))
      | .REAL_GREATER_EQUAL => Except.ok (some (decide (arg1 ≥ arg2)))
      | .REAL_LESS => Except.ok (some (decide (arg1 < arg2)))
      | .REAL_LESS_EQUAL => Except.ok (some (decide (arg1 ≤ arg2)))
      | _ => Except.ok none }

/-- The stack `_evals` filled by the constructor of `LiteralSimplifier`, in the order in which
its iterator visits it. -/
def LiteralSimplifier.evals : List Evaluator :=
  [RealEvaluator.toEvaluator, RatEvaluator.toEvaluator, IntEvaluator.toEvaluator]

/-- Embeds `LiteralSimplifier::transform(TermList)`. -/
def LiteralSimplifier.transform (trm : TermList) : TermList :=
  match trm with
  | .var _ => trm
  | .term func args =>
    match LiteralSimplifier.evals.findSome? (fun ev =>
        if !ev.canEvaluateFunc func then none else ev.tryEvaluateFunc func args) with
    | some res => res
    | none => trm

end InterpretedEvaluation

namespace TermTransformer

mutual
/-- Modelled from the spec: the traversal of `TermTransformer` (not under `src/`).  §4.7: the
literal is walked bottom-up and the subclass's `transform(TermList)` is applied at every
subterm, after its arguments have been transformed. -/
def transformTerm (transform : TermList → TermList) : TermList → TermList
  | .var v => transform (TermList.var v)
  | .term f args => transform (TermList.term f (transformArgs transform args))
/-- Modelled from the spec: the traversal of `TermTransformer` on an argument list. -/
def transformArgs (transform : TermList → TermList) : List TermList → List TermList
  | [] => []
  | t :: ts => transformTerm transform t :: transformArgs transform ts
end

/-- Modelled from the spec: `TermTransformer::transform(Literal*)` (not under `src/`): the
literal with every argument transformed bottom-up; predicate and polarity are kept. -/
def transformLiteral (transform : TermList → TermList) (lit : Literal) : Literal :=
  { lit with args := transformArgs transform lit.args }

end TermTransformer

namespace InterpretedEvaluation

/-- What `LiteralSimplifier::evaluate` and `simplifyLiteral` report: `false`
(`notModified`), `true` with `isConstant` and the truth value `resConst` (`constant`), or
`true` with `isConstant == false` and the new literal `resLit` (`simplified`). -/
inductive LiteralResult where
  | notModified
  | constant (resConst : Bool)
  | simplified (resLit : Literal)
deriving DecidableEq

/-- Embeds `LiteralSimplifier::evaluate(lit, isConstant, resLit, resConst)`. -/
def LiteralSimplifier.evaluate (lit : Literal) : LiteralResult :=
  let resLit := TermTransformer.transformLiteral LiteralSimplifier.transform lit
  let pred := resLit.functor
  match LiteralSimplifier.evals.findSome? (fun ev =>
      if !ev.canEvaluatePred pred then none else ev.tryEvaluatePred resLit) with
  | some resConst => LiteralResult.constant resConst
  | none => if resLit ≠ lit then LiteralResult.simplified resLit else LiteralResult.notModified

/-- Embeds `InterpretedEvaluation::simplifyLiteral(lit, constant, res, constantTrue)`. -/
def simplifyLiteral (lit : Literal) : LiteralResult :=
  if lit.arity = 0 then LiteralResult.notModified
  else LiteralSimplifier.evaluate lit

/-- The `for` loop of `InterpretedEvaluation::simplify` over the remaining literals, with the
filled prefix of `newLits` and the flag `modified`; `none` is the early `return 0`. -/
def simplifyLoop : List Literal → List Literal → Bool → Option (List Literal × Bool)
  | [], newLits, modified => some (newLits, modified)
  | lit :: rest, newLits, modified =>
    match simplifyLiteral lit with
    | LiteralResult.notModified => simplifyLoop rest (newLits ++ [lit]) modified
    | LiteralResult.constant constTrue =>
      if constTrue then none else simplifyLoop rest newLits true
    | LiteralResult.simplified res => simplifyLoop rest (newLits ++ [res]) true

/-- Embeds `InterpretedEvaluation::simplify(cl)`. -/
def simplify (cl : Clause) : Option Clause :=
  match simplifyLoop cl.lits [] false with
  | none => none
  | some (newLits, modified) =>
    if !modified then some cl
    else some { lits := newLits, inputType := cl.inputType, numSelected := 0 }

/-- The simplified form of a literal: the literal built by `simplifyLiteral` when it reports
a non-constant modification, the literal itself otherwise. -/
def simplifiedForm (lit : Literal) : Literal :=
  match simplifyLiteral lit with
  | LiteralResult.simplified res => res
  | _ => lit

end InterpretedEvaluation

/-! ## Substitution and unification (`Kernel/RobSubstitution`, not under `src/`) -/

mutual
/-- Simultaneous replacement of the variables of a term. -/
def TermList.subst (f : Nat → TermList) : TermList → TermList
  | .var v => f v
  | .term g args => TermList.term g (TermList.substArgs f args)
/-- Simultaneous replacement of the variables of an argument list. -/
def TermList.substArgs (f : Nat → TermList) : List TermList → List TermList
  | [] => []
  | t :: ts => TermList.subst f t :: TermList.substArgs f ts
end

mutual
/-- The variable `x` occurs in the term (`TermList::containsSubterm` for a variable). -/
def TermList.containsVar (x : Nat) : TermList → Bool
  | .var v => decide (v = x)
  | .term _ args => TermList.containsVarArgs x args
/-- The variable `x` occurs in one of the arguments. -/
def TermList.containsVarArgs (x : Nat) : List TermList → Bool
  | [] => false
  | t :: ts => TermList.containsVar x t || TermList.containsVarArgs x ts
end

mutual
/-- Modelled from the spec: `Term::ground`: the term has no variable. -/
def TermList.ground : TermList → Bool
  | .var _ => false
  | .term _ args => TermList.groundArgs args
/-- No argument has a variable. -/
def TermList.groundArgs : List TermList → Bool
  | [] => true
  | t :: ts => TermList.ground t && TermList.groundArgs ts
end

mutual
/-- Number of symbols of a term. -/
def TermList.weight : TermList → Nat
  | .var _ => 1
  | .term _ args => 1 + TermList.weightArgs args
/-- Number of symbols of an argument list. -/
def TermList.weightArgs : List TermList → Nat
  | [] => 0
  | t :: ts => TermList.weight t + TermList.weightArgs ts
end

/-- Modelled from the spec: `Literal::ground`. -/
def Literal.ground (l : Literal) : Bool := TermList.groundArgs l.args

/-- The replacement of the single variable `x` by `t`. -/
def TermList.single (x : Nat) (t : TermList) : Nat → TermList :=
  fun v => if v = x then t else TermList.var v

/-- Modelled from the spec: `RobSubstitution` (not under `src/`), "a finite partial mapping
from (variable, bank) pairs to terms" (§3).  The embedded rules use the single bank 0, so a
binding is a pair of a variable and a term.  The bindings are kept fully resolved (no bound
variable occurs in a bound term), so that one look-up per variable is the full
walk-and-rebuild of `apply`. -/
structure RobSubstitution where
  bindings : List (Nat × TermList)
deriving DecidableEq

namespace RobSubstitution

/-- The substitution after `reset()`. -/
def empty : RobSubstitution := { bindings := [] }

/-- The term bound to a variable, the variable itself when it is unbound. -/
def lookup (σ : RobSubstitution) (v : Nat) : TermList :=
  match σ.bindings.lookup v with
  | some t => t
  | none => TermList.var v

/-- Modelled from the spec: `RobSubstitution::apply(TermList, bank)`. -/
def apply (σ : RobSubstitution) (t : TermList) : TermList := t.subst σ.lookup

/-- Modelled from the spec: `RobSubstitution::apply(Literal*, bank)`: every argument is
rebuilt, predicate and polarity are kept. -/
def applyLit (σ : RobSubstitution) (l : Literal) : Literal :=
  { l with args := TermList.substArgs σ.lookup l.args }

/-- Modelled from the spec: the extension of the substitution by the binding `x ↦ t`, made
by `bind` once the occurs check has passed. -/
def bind (σ : RobSubstitution) (x : Nat) (t : TermList) : RobSubstitution :=
  { bindings := σ.bindings.map (fun b => (b.1, b.2.subst (TermList.single x t))) ++ [(x, t)] }

/-- Modelled from the spec: `RobSubstitution::unify` with an optional mismatch handler
(§4.2): classical Robinson unification of the pending pairs `eqs`, which are kept under
the bindings made so far.  A variable is bound to the other side unless it occurs in it
(occurs check); two compound terms with the same functor are decomposed; when the functors
clash, the handler, if there is one and it accepts the pair, records the pair as a
constraint and unification goes on as if the pair unified.  The result is the final
substitution and the constraints in the order of their emission.  `fuel` bounds the number
of pairs processed. -/
def unifyLoop (hndlr : Option (TermList → TermList → Bool)) :
    Nat → List (TermList × TermList) → RobSubstitution →
      Option (RobSubstitution × List (TermList × TermList))
  | 0, _, _ => none
  | _ + 1, [], σ => some (σ, [])
  | fuel + 1, (s, t) :: rest, σ =>
    if s = t then unifyLoop hndlr fuel rest σ
    else
      match s, t with
      | .var x, _ =>
        if t.containsVar x then none
        else unifyLoop hndlr fuel
          (rest.map (fun p => (p.1.subst (TermList.single x t), p.2.subst (TermList.single x t))))
          (σ.bind x t)
      | .term f as, .var y =>
        if (TermList.term f as).containsVar y then none
        else unifyLoop hndlr fuel
          (rest.map (fun p => (p.1.subst (TermList.single y (TermList.term f as)),
            p.2.subst (TermList.single y (TermList.term f as)))))
          (σ.bind y (TermList.term f as))
      | .term f as, .term g bs =>
        if f = g ∧ as.length = bs.length then unifyLoop hndlr fuel (as.zip bs ++ rest) σ
        else
          match hndlr with
          | none => none
          | some handle =>
            if handle (TermList.term f as) (TermList.term g bs) then
              (unifyLoop hndlr fuel rest σ).map (fun r =>
                (r.1, (TermList.term f as, TermList.term g bs) :: r.2))
            else none

/-- Modelled from the spec: `subst.unify(s, 0, t, 0, hndlr)` on a freshly reset substitution.
The bound on the number of processed pairs is exponential in the size of the two terms. -/
def unify (hndlr : Option (TermList → TermList → Bool)) (s t : TermList) :
    Option (RobSubstitution × List (TermList × TermList)) :=
  unifyLoop hndlr (2 ^ (s.weight + t.weight)) [(s, t)] empty

end RobSubstitution

/-- Modelled from the spec: `Options::UnificationWithAbstraction`, with the policies of the
configuration bundle (§6): off, ground, full. -/
inductive UnificationWithAbstraction where
  | OFF | GROUND | FULL
deriving DecidableEq

namespace Theory

/-- Modelled from the spec: `Theory::isInterpretedFunction(TermList)`: the term is compound and
its functor is an interpreted function. -/
def isInterpretedFunctionTerm : TermList → Bool
  | .var _ => false
  | .term f _ => isInterpretedFunction f

/-- Modelled from the spec: `Theory::isInterpretedConstant(TermList)`: the term is a numeral. -/
def isInterpretedConstantTerm : TermList → Bool
  | .var _ => false
  | .term f _ => isInterpretedConstant f

end Theory

/-- Modelled from the spec: `UWAMismatchHandler::handle` (not under `src/`), deciding whether
a clash between two compound terms is abstracted (§4.2): under FULL on any clash; under
GROUND on a clash between two theory terms, or between two terms that are both non-theory
and non-ground; never under OFF. -/
def UWAMismatchHandler.handle (uwa : UnificationWithAbstraction) (l r : TermList) : Bool :=
  let lTheory := Theory.isInterpretedFunctionTerm l || Theory.isInterpretedConstantTerm l
  let rTheory := Theory.isInterpretedFunctionTerm r || Theory.isInterpretedConstantTerm r
  match uwa with
  | .OFF => false
  | .FULL => true
  | .GROUND => (lTheory && rTheory) || (!lTheory && !rTheory && !l.ground && !r.ground)

/-! ## Equality resolution (`Inferences/EqualityResolution.cpp`) -/

namespace EqualityResolution

/-- Embeds `IsNegativeEqualityFn`. -/
def IsNegativeEqualityFn (l : Literal) : Bool := l.isEquality && l.isNegative

/-- The functor of a compound term (`term()->functor()`). -/
def functorOf : TermList → Option Symbol
  | .var _ => none
  | .term f _ => some f

/-- Lines 77–107 of `ResultFn::operator()`: the choice of `use_handler` and the call of
`subst.unify`; `none` is the `return 0` on failure, otherwise the substitution and the
stack `constraints`. -/
def unifySides (uwa : UnificationWithAbstraction) (lit : Literal) :
    Option (RobSubstitution × List (TermList × TermList)) :=
  let use_handler := decide (uwa ≠ UnificationWithAbstraction.OFF)
  let use_handler :=
    if use_handler && (lit.nthArgument 0).isTerm && (lit.nthArgument 1).isTerm &&
        decide (functorOf (lit.nthArgument 0) = functorOf (lit.nthArgument 1)) then false
    else use_handler
  if use_handler then
    RobSubstitution.unify (some (UWAMismatchHandler.handle uwa))
      (lit.nthArgument 0) (lit.nthArgument 1)
  else RobSubstitution.unify none (lit.nthArgument 0) (lit.nthArgument 1)

/-- The first `for` loop of `ResultFn::operator()` from index `i` on: the literals written
into the result, `none` when the ordering aftercheck returns 0.  `greater l1 l2` is the test
`_ord->compare(l1, l2) == Ordering::GREATER` of the ordering handed to `ResultFn`. -/
def copyLoop (subst : RobSubstitution) (litAfter : Option Literal)
    (greater : Literal → Literal → Bool) (numSelected : Nat) (lit : Literal) :
    List Literal → Nat → Option (List Literal)
  | [], _ => some []
  | curr :: rest, i =>
    if curr ≠ lit then
      let currAfter := subst.applyLit curr
      let blocked :=
        match litAfter with
        | some la => decide (i < numSelected) && greater currAfter la
        | none => false
      if blocked then none
      else (copyLoop subst litAfter greater numSelected lit rest (i + 1)).map
        (fun ls => currAfter :: ls)
    else copyLoop subst litAfter greater numSelected lit rest (i + 1)

/-- The second `for` loop of `ResultFn::operator()`: one disequality per constraint, `none`
when the GROUND policy rejects the inference. -/
def constraintLoop (uwa : UnificationWithAbstraction) (subst : RobSubstitution) :
    List (TermList × TermList) → Option (List Literal)
  | [] => some []
  | con :: rest =>
    let qT := subst.apply con.1
    let rT := subst.apply con.2
    let constraint := Literal.createEquality false qT rT
    if decide (uwa = UnificationWithAbstraction.GROUND) && !constraint.ground &&
        (!Theory.isInterpretedFunctionTerm qT && !Theory.isInterpretedConstantTerm qT) &&
        (!Theory.isInterpretedFunctionTerm rT && !Theory.isInterpretedConstantTerm rT) then none
    else (constraintLoop uwa subst rest).map (fun ls => constraint :: ls)

/-- Lines 110–160 of `ResultFn::operator()`, what follows the call of `subst.unify`: the
child built from the substitution `subst` and the stack `constraints` that the unification
has left, whatever mismatch handler has filled the stack.  Lengths are `unsigned`, so
`_cLen - 1` wraps modulo `2^32`. -/
def buildResult (uwa : UnificationWithAbstraction) (cl : Clause) (afterCheck : Bool)
    (greater : Literal → Literal → Bool) (lit : Literal) (subst : RobSubstitution)
    (constraints : List (TermList × TermList)) : Outcome (Option Clause) :=
  let cLen := cl.length
  let newLen := (cLen + 2 ^ 32 - 1 + constraints.length) % 2 ^ 32
  let litAfter :=
    if afterCheck && decide (cl.numSelected > 1) then some (subst.applyLit lit) else none
  match copyLoop subst litAfter greater cl.numSelected lit cl.lits 0 with
  | none => Outcome.ret none
  | some copied =>
    match constraintLoop uwa subst constraints with
    | none => Outcome.ret none
    | some extra =>
      if (copied ++ extra).length = newLen then
        Outcome.ret (some
          { lits := copied ++ extra, inputType := cl.inputType, numSelected := 0 })
      else Outcome.assertionViolation

/-- Embeds `ResultFn::operator()(lit)` for the functor `ResultFn(cl, afterCheck, ord)`, with the
option `uwa` read from the environment: the two assertions, the unification of the sides
(`unifySides`), and the construction of the child (`buildResult`). -/
def ResultFn (uwa : UnificationWithAbstraction) (cl : Clause) (afterCheck : Bool)
    (greater : Literal → Literal → Bool) (lit : Literal) : Outcome (Option Clause) :=
  if !lit.isEquality then Outcome.assertionViolation
  else if !lit.isNegative then Outcome.assertionViolation
  else
    match unifySides uwa lit with
    | none => Outcome.ret none
    | some (subst, constraints) => buildResult uwa cl afterCheck greater lit subst constraints

/-- Embeds `EqualityResolution::tryResolveEquality(cl, toResolve)`. -/
def tryResolveEquality (uwa : UnificationWithAbstraction) (cl : Clause) (toResolve : Literal) :
    Outcome (Option Clause) :=
  ResultFn uwa cl false (fun _ _ => false) toResolve

end EqualityResolution

/-! ## Subsumption by SAT solving (`SMTSubsumption/SMTSubsumption.cpp`) -/

/-- Replacement of the variables of a literal; predicate and polarity are kept. -/
def Literal.subst (f : Nat → TermList) (l : Literal) : Literal :=
  { l with args := TermList.substArgs f l.args }

/-- Modelled from the spec: `Literal::headersMatch(l1, l2, complementary)` (not under
`src/`): same predicate, and same polarity (opposite polarity when `complementary`). -/
def Literal.headersMatch (l1 l2 : Literal) (complementary : Bool) : Bool :=
  decide (l1.functor = l2.functor) &&
    decide (l1.polarity = (if complementary then !l2.polarity else l2.polarity))

/-- Modelled from the spec: `Literal::commutative` (not under `src/`): the literal is an
equality. -/
def Literal.commutative (l : Literal) : Bool := l.isEquality

/-- The binder of the matcher, as in the commented `MapBinder` of the source file: a map
from variables to terms. -/
structure MapBinder where
  bindings : List (Nat × TermList)
deriving DecidableEq

namespace MapBinder

/-- The binder after `reset()`. -/
def empty : MapBinder := { bindings := [] }

/-- Embeds `MapBinder::bind(var, term)`: records the binding of an unbound variable; on a bound
variable it succeeds exactly when the recorded term is `term`.  `none` is `false`. -/
def bind (b : MapBinder) (var : Nat) (term : TermList) : Option MapBinder :=
  match b.bindings.lookup var with
  | some aux => if aux = term then some b else none
  | none => some { bindings := b.bindings ++ [(var, term)] }

end MapBinder

namespace MatchingUtils

mutual
/-- Modelled from the spec: `MatchingUtils::matchTerms(base, instance, binder)` (not under
`src/`), one-sided unification (§4.2 `match`): only variables of `base` are bound. -/
def matchTerms : TermList → TermList → MapBinder → Option MapBinder
  | .var v, inst, b => b.bind v inst
  | .term _ _, .var _, _ => none
  | .term f as, .term g bs, b => if f = g then matchTermLists as bs b else none
/-- Modelled from the spec: matching of two argument lists, left to right. -/
def matchTermLists : List TermList → List TermList → MapBinder → Option MapBinder
  | [], [], b => some b
  | [], _ :: _, _ => none
  | _ :: _, [], _ => none
  | a :: as, c :: cs, b =>
    match matchTerms a c b with
    | some b1 => matchTermLists as cs b1
    | none => none
end

/-- Modelled from the spec: `MatchingUtils::matchArgs(base, instance, binder)`. -/
def matchArgs (base inst : Literal) (binder : MapBinder) : Option MapBinder :=
  matchTermLists base.args inst.args binder

/-- Modelled from the spec: `MatchingUtils::matchReversedArgs(base, instance, binder)`: the
first argument of `base` against the second of `instance` and the second against the
first. -/
def matchReversedArgs (base inst : Literal) (binder : MapBinder) : Option MapBinder :=
  match matchTerms (base.nthArgument 0) (inst.nthArgument 1) binder with
  | some b1 => matchTerms (base.nthArgument 1) (inst.nthArgument 0) b1
  | none => none

end MatchingUtils

namespace Minisat

/-- Modelled from the spec: a solver literal `Lit(var, sign)` of `Minisat`; `Lit(var)` is the
positive literal. -/
structure Lit where
  var : Nat
  sign : Bool
deriving DecidableEq

/-- Truth value of a solver literal under an assignment. -/
def Lit.value (m : List Bool) (l : Lit) : Bool := (m.getD l.var false) != l.sign

/-- Modelled from the spec: `SubstitutionAtom::from_binder`: the bindings of one match. -/
abbrev SubstitutionAtom := List (Nat × TermList)

/-- Modelled from the spec: `SubstitutionTheoryConfiguration`: the atom registered for each
solver variable. -/
abbrev SubstitutionTheoryConfiguration := List (Nat × SubstitutionAtom)

/-- Modelled from the spec: `Minisat::Solver` with its substitution theory (not under
`src/`): the number of variables made, the clauses, the at-most-one constraints and the
theory configuration. -/
structure Solver where
  nVars : Nat
  clauses : List (List Lit)
  atMostOnes : List (List Lit)
  theory : SubstitutionTheoryConfiguration

namespace Solver

/-- A fresh solver. -/
def empty : Solver := { nVars := 0, clauses := [], atMostOnes := [], theory := [] }

/-- Modelled from the spec: `Solver::newVar()`. -/
def newVar (s : Solver) : Nat × Solver := (s.nVars, { s with nVars := s.nVars + 1 })

/-- Modelled from the spec: `Solver::addClause`. -/
def addClause (s : Solver) (ls : List Lit) : Solver := { s with clauses := s.clauses ++ [ls] }

/-- Modelled from the spec: `Solver::addConstraint_AtMostOne`. -/
def addConstraint_AtMostOne (s : Solver) (ls : List Lit) : Solver :=
  { s with atMostOnes := s.atMostOnes ++ [ls] }

/-- Modelled from the spec: `Solver::setSubstitutionTheory`. -/
def setSubstitutionTheory (s : Solver) (stc : SubstitutionTheoryConfiguration) : Solver :=
  { s with theory := stc }

/-- Modelled from the spec: the chosen matchers are globally compatible, "their union is a
well-defined substitution" (§4.9): no variable is bound to two different terms. -/
def compatible (atoms : List SubstitutionAtom) : Bool :=
  atoms.flatten.all (fun p => atoms.flatten.all (fun q => decide (p.1 ≠ q.1) || decide (p.2 = q.2)))

/-- The atoms of the variables that an assignment makes true. -/
def trueAtoms (s : Solver) (m : List Bool) : List SubstitutionAtom :=
  (s.theory.filter (fun e => m.getD e.1 false)).map (fun e => e.2)

/-- Modelled from the spec: an assignment satisfies the solver's constraints: every clause
has a true literal, every at-most-one constraint has at most one true literal, and the
atoms of the true variables are compatible. -/
def satisfiedBy (s : Solver) (m : List Bool) : Bool :=
  s.clauses.all (fun c => c.any (Lit.value m)) &&
    s.atMostOnes.all (fun c => decide ((c.filter (Lit.value m)).length ≤ 1)) &&
    compatible (s.trueAtoms m)

/-- All assignments to `n` variables. -/
def assignments : Nat → List (List Bool)
  | 0 => [[]]
  | n + 1 => (assignments n).flatMap (fun m => [false :: m, true :: m])

/-- Modelled from the spec: `Solver::solve({})`: some assignment to the variables satisfies
the constraints. -/
def solve (s : Solver) : Bool := (assignments s.nVars).any s.satisfiedBy

end Solver

end Minisat

namespace SMTSubsumption

open Minisat

/-- The struct `Alt`: a possible match alternative for a literal of the side premise. -/
structure Alt where
  lit : Literal
  j : Nat
  b : Nat
  reversed : Bool
deriving DecidableEq

/-- The objects filled by pre-matching: the solver (for `newVar`), the configuration `stc`
and the vector `possible_base_vars`. -/
structure PreMatching where
  solver : Solver
  stc : SubstitutionTheoryConfiguration
  possible_base_vars : List (List Nat)

/-- Embeds `possible_base_vars[j].push_back(b)`. -/
def pushBaseVar : Nat → Nat → List (List Nat) → List (List Nat)
  | _, _, [] => []
  | 0, b, w :: ws => (w ++ [b]) :: ws
  | j + 1, b, w :: ws => w :: pushBaseVar j b ws

/-- The creation of one alternative: a new solver variable `b`, its atom registered in
`stc`, the alternative appended to `base_lit_alts` and `b` to `possible_base_vars[j]`. -/
def addAlt (j : Nat) (inst_lit : Literal) (reversed : Bool) (binder : MapBinder)
    (st : PreMatching) (base_lit_alts : List Alt) : PreMatching × List Alt :=
  let bs := st.solver.newVar
  ({ solver := bs.2
     stc := st.stc ++ [(bs.1, binder.bindings)]
     possible_base_vars := pushBaseVar j bs.1 st.possible_base_vars },
    base_lit_alts ++ [{ lit := inst_lit, j := j, b := bs.1, reversed := reversed }])

/-- The body of the inner loop of pre-matching for the literals `base_lit` and
`inst_lit = main_premise[j]`.  Its assertions restate what a successful match implies and
are not represented. -/
def matchInstance (base_lit : Literal) (j : Nat) (inst_lit : Literal) (st : PreMatching)
    (base_lit_alts : List Alt) : PreMatching × List Alt :=
  if !Literal.headersMatch base_lit inst_lit false then (st, base_lit_alts)
  else
    let forward :=
      match (if base_lit.arity = 0 then some MapBinder.empty
          else MatchingUtils.matchArgs base_lit inst_lit MapBinder.empty) with
      | some binder => addAlt j inst_lit false binder st base_lit_alts
      | none => (st, base_lit_alts)
    if base_lit.commutative then
      match MatchingUtils.matchReversedArgs base_lit inst_lit MapBinder.empty with
      | some binder => addAlt j inst_lit true binder forward.1 forward.2
      | none => forward
    else forward

/-- The inner loop of pre-matching over the literals of the main premise from index `j`. -/
def instanceLoop (base_lit : Literal) :
    List Literal → Nat → PreMatching → List Alt → PreMatching × List Alt
  | [], _, st, base_lit_alts => (st, base_lit_alts)
  | inst_lit :: rest, j, st, base_lit_alts =>
    let r := matchInstance base_lit j inst_lit st base_lit_alts
    instanceLoop base_lit rest (j + 1) r.1 r.2

/-- The outer loop of pre-matching over the literals of the side premise. -/
def baseLoop (main_lits : List Literal) :
    List Literal → PreMatching → List (List Alt) → PreMatching × List (List Alt)
  | [], st, alts => (st, alts)
  | base_lit :: rest, st, alts =>
    let r := instanceLoop base_lit main_lits 0 st []
    baseLoop main_lits rest r.1 (alts ++ [r.2])

/-- The first constraint loop: for each row of `alts` a clause over its variables and, when
it has at least two, an at-most-one constraint. -/
def addAltConstraints : List (List Alt) → Solver → Solver
  | [], solver => solver
  | v :: rest, solver =>
    let ls := v.map (fun alt => Lit.mk alt.b false)
    let solver := solver.addClause ls
    let solver := if ls.length ≥ 2 then solver.addConstraint_AtMostOne ls else solver
    addAltConstraints rest solver

/-- The second constraint loop: an at-most-one constraint for each main-premise literal with
at least two possible base variables. -/
def addBaseVarConstraints : List (List Nat) → Solver → Solver
  | [], solver => solver
  | w :: rest, solver =>
    let solver :=
      if w.length ≥ 2 then solver.addConstraint_AtMostOne (w.map (fun b => Lit.mk b false))
      else solver
    addBaseVarConstraints rest solver

/-- Embeds `ProofOfConcept::checkSubsumption(side_premise, main_premise, debug_messages)`; the
debug output is not represented. -/
def checkSubsumption (side_premise main_premise : Clause) : Bool :=
  let st0 : PreMatching :=
    { solver := Solver.empty, stc := [],
      possible_base_vars := List.replicate main_premise.length [] }
  let r := baseLoop main_premise.lits side_premise.lits st0 []
  let alts := r.2
  let solver := r.1.solver.setSubstitutionTheory r.1.stc
  if alts.any (fun v => v.isEmpty) then false
  else
    let solver := addAltConstraints alts solver
    let solver := addBaseVarConstraints r.1.possible_base_vars solver
    solver.solve

/-- The literal with its two first arguments exchanged. -/
def swapArgs (l : Literal) : Literal :=
  { l with args := [l.nthArgument 1, l.nthArgument 0] }

end SMTSubsumption

/-! ### Semantics used to state soundness of simplifications -/

/-- A first-order structure over the domain `D`: meaning of the function symbols and of the
predicate symbols other than equality. -/
structure Model (D : Type) where
  func : Symbol → List D → D
  pred : PredSymbol → List D → Prop

mutual
/-- Value of a term in a structure under a variable assignment. -/
def TermList.eval {D : Type} (M : Model D) (v : Nat → D) : TermList → D
  | .var x => v x
  | .term f args => M.func f (TermList.evalArgs M v args)
/-- Values of an argument list. -/
def TermList.evalArgs {D : Type} (M : Model D) (v : Nat → D) : List TermList → List D
  | [] => []
  | t :: ts => TermList.eval M v t :: TermList.evalArgs M v ts
end

/-- Truth of a literal; equality is interpreted as identity of the values of its two sides. -/
def Literal.holds {D : Type} (M : Model D) (v : Nat → D) (l : Literal) : Prop :=
  if l.isEquality then
    ((l.nthArgument 0).eval M v = (l.nthArgument 1).eval M v ↔ l.polarity = true)
  else (M.pred l.functor (TermList.evalArgs M v l.args) ↔ l.polarity = true)

/-- Truth of a clause: under every assignment some literal holds. -/
def Clause.holds {D : Type} (M : Model D) (cl : Clause) : Prop :=
  ∀ v : Nat → D, ∃ l ∈ cl.lits, l.holds M v

/-- The structure satisfies the distinctness premises: different constants sharing a
distinct group denote different elements. -/
def Model.respectsDistinctGroups {D : Type} (M : Model D) (sig : Signature) : Prop :=
  ∀ f g grp, f ≠ g → grp ∈ sig.distinctGroups f → grp ∈ sig.distinctGroups g →
    M.func f [] ≠ M.func g []

/-- Both terms are constants and some distinct group contains both of them. -/
def SharesDistinctGroup (sig : Signature) (t1 t2 : TermList) : Prop :=
  ∃ f g grp, t1 = TermList.term f [] ∧ t2 = TermList.term g [] ∧
    grp ∈ sig.distinctGroups f ∧ grp ∈ sig.distinctGroups g

/-- The literal is an equality (of either polarity) on which `mustBeDistinct` answers yes. -/
def DistinctEqualitySimplifier.isDistinctEquality (sig : Signature) (lit : Literal) : Bool :=
  lit.isEquality &&
    (DistinctEqualitySimplifier.mustBeDistinct sig (lit.nthArgument 0) (lit.nthArgument 1)).isSome

/-- The literal `inst` is `base` under `σ`, up to the orientation of an equality: either
`base σ` is `inst`, or `base` is an equality and `base σ` with its two sides exchanged is
`inst`. -/
def Literal.InstanceUpToOrientation (σ : Nat → TermList) (base inst : Literal) : Prop :=
  base.subst σ = inst ∨
    (base.isEquality = true ∧ SMTSubsumption.swapArgs (base.subst σ) = inst)

/-- The two clauses respect the arities of the signature: literals with the same predicate
have the same number of arguments, and an equality has two. -/
def SMTSubsumption.arityConsistent (side main : Clause) : Bool :=
  side.lits.all (fun c =>
    main.lits.all (fun d => decide (c.functor = d.functor → c.args.length = d.args.length)) &&
      decide (c.isEquality = true → c.args.length = 2))

/-- What pre-matching guarantees about an alternative `alt` recorded for the side literal
`base`: its variable was made by the solver, it points at the literal `alt.lit` of the main
premise at position `alt.j`, its variable is among the possible base variables of that
position, and an atom is registered for it whose bindings make `alt.lit` an instance of
`base` up to orientation. -/
abbrev SMTSubsumption.AltOK (main_lits : List Literal) (st : SMTSubsumption.PreMatching)
    (base : Literal) (alt : SMTSubsumption.Alt) : Prop :=
  alt.b < st.solver.nVars ∧
    main_lits[alt.j]? = some alt.lit ∧
    (∃ w, st.possible_base_vars[alt.j]? = some w ∧ alt.b ∈ w) ∧
    ∃ atom, (alt.b, atom) ∈ st.stc ∧
      ∀ σ : Nat → TermList, (∀ p ∈ atom, σ p.1 = p.2) →
        Literal.InstanceUpToOrientation σ base alt.lit

/-- The pre-matching state `st1` is a later state than `st`: variables, atoms and possible
base variables are only added. -/
abbrev SMTSubsumption.Extends (st st1 : SMTSubsumption.PreMatching) : Prop :=
  st.solver.nVars ≤ st1.solver.nVars ∧
    (∀ e ∈ st.stc, e ∈ st1.stc) ∧
    st1.possible_base_vars.length = st.possible_base_vars.length ∧
    ∀ (j : Nat) (w : List Nat), st.possible_base_vars[j]? = some w →
      ∃ w1 : List Nat, st1.possible_base_vars[j]? = some w1 ∧ ∀ b ∈ w, b ∈ w1

/-! ### Sample data -/

/-- The constant `a` (symbol 0). -/
def sampleA : TermList := TermList.term (Symbol.user 0) []
/-- The constant `b` (symbol 1). -/
def sampleB : TermList := TermList.term (Symbol.user 1) []
/-- The literal `r(x)`. -/
def sampleR : Literal := { functor := PredSymbol.user 0, polarity := true, args := [TermList.var 0] }
/-- A signature in which `a` and `b` belong to the distinct group 0. -/
def sampleSig : Signature :=
  { distinctGroups := fun f => if f = Symbol.user 0 ∨ f = Symbol.user 1 then [0] else [] }
/-- The clause `a = b ∨ r(x)`. -/
def sampleDistinctClause : Clause :=
  { lits := [Literal.createEquality true sampleA sampleB, sampleR],
    inputType := InputType.AXIOM, numSelected := 1 }
/-- The unit clause `a = a`. -/
def sampleReflexiveClause : Clause :=
  { lits := [Literal.createEquality true sampleA sampleA],
    inputType := InputType.AXIOM, numSelected := 1 }

/-- The integer numeral `n`. -/
def sampleNum (n : Int) : TermList := Theory.representConstantInt n
/-- The term `s + t` over the integers. -/
def samplePlus (s t : TermList) : TermList :=
  TermList.term (Symbol.interpreted Interpretation.INT_PLUS) [s, t]
/-- The literal `s < t` over the integers. -/
def sampleLess (s t : TermList) : Literal :=
  { functor := PredSymbol.interpreted Interpretation.INT_LESS, polarity := true, args := [s, t] }
/-- The literal `s(x)`. -/
def sampleS : Literal := { functor := PredSymbol.user 1, polarity := true, args := [TermList.var 0] }
/-- The clause `2 + 3 < 4 ∨ s(x)`. -/
def sampleEvalClause : Clause :=
  { lits := [sampleLess (samplePlus (sampleNum 2) (sampleNum 3)) (sampleNum 4), sampleS],
    inputType := InputType.AXIOM, numSelected := 1 }
/-- The clause `3 < 2 + 3 ∨ s(x)`. -/
def sampleTrueClause : Clause :=
  { lits := [sampleLess (sampleNum 3) (samplePlus (sampleNum 2) (sampleNum 3)), sampleS],
    inputType := InputType.AXIOM, numSelected := 1 }
/-- The clause `(2 + 3) + x < 4 ∨ s(x)`. -/
def sampleOpenClause : Clause :=
  { lits := [sampleLess (samplePlus (samplePlus (sampleNum 2) (sampleNum 3)) (TermList.var 0))
      (sampleNum 4), sampleS],
    inputType := InputType.AXIOM, numSelected := 1 }
/-- The clause `5 + x < 4 ∨ s(x)`, as rebuilt by interpreted evaluation. -/
def sampleOpenClauseEvaluated : Clause :=
  { lits := [sampleLess (samplePlus (sampleNum 5) (TermList.var 0)) (sampleNum 4), sampleS],
    inputType := InputType.AXIOM, numSelected := 0 }

/-- The term `f(t)`. -/
def sampleF (t : TermList) : TermList := TermList.term (Symbol.user 5) [t]
/-- The literal `p(t)`. -/
def sampleP (t : TermList) : Literal :=
  { functor := PredSymbol.user 7, polarity := true, args := [t] }
/-- The literal `f(x) ≠ f(a)`. -/
def sampleResolvedLiteral : Literal :=
  Literal.createEquality false (sampleF (TermList.var 0)) (sampleF sampleA)
/-- The clause `f(x) ≠ f(a) ∨ p(x)`, its first literal selected. -/
def sampleResolutionClause : Clause :=
  { lits := [sampleResolvedLiteral, sampleP (TermList.var 0)],
    inputType := InputType.AXIOM, numSelected := 1 }
/-- The clause `p(a)` produced from it by equality resolution. -/
def sampleResolutionChild : Clause :=
  { lits := [sampleP sampleA], inputType := InputType.AXIOM, numSelected := 0 }
/-- The term `a + 1`. -/
def sampleAPlusOne : TermList := samplePlus sampleA (sampleNum 1)
/-- The term `b * 2`. -/
def sampleBTimesTwo : TermList :=
  TermList.term (Symbol.interpreted Interpretation.INT_MULTIPLY) [sampleB, sampleNum 2]
/-- The literal `a + 1 ≠ b * 2`. -/
def sampleAbstractedLiteral : Literal :=
  Literal.createEquality false sampleAPlusOne sampleBTimesTwo
/-- The clause `a + 1 ≠ b * 2 ∨ p(a)`, its first literal selected. -/
def sampleAbstractionClause : Clause :=
  { lits := [sampleAbstractedLiteral, sampleP sampleA],
    inputType := InputType.AXIOM, numSelected := 1 }
/-- The clause `p(a) ∨ a + 1 ≠ b * 2` produced from it under full abstraction. -/
def sampleAbstractionChild : Clause :=
  { lits := [sampleP sampleA, sampleAbstractedLiteral],
    inputType := InputType.AXIOM, numSelected := 0 }

/-- The literal `p(t)` of the subsumption scenario. -/
def sampleSubP (t : TermList) : Literal :=
  { functor := PredSymbol.user 10, polarity := true, args := [t] }
/-- The literal `q(s, t)`. -/
def sampleSubQ (s t : TermList) : Literal :=
  { functor := PredSymbol.user 11, polarity := true, args := [s, t] }
/-- The propositional literal `r`. -/
def sampleSubR : Literal := { functor := PredSymbol.user 12, polarity := true, args := [] }
/-- The side premise `p(x) ∨ q(x, y)`. -/
def sampleSide : Clause :=
  { lits := [sampleSubP (TermList.var 0), sampleSubQ (TermList.var 0) (TermList.var 1)],
    inputType := InputType.AXIOM, numSelected := 0 }
/-- The main premise `p(a) ∨ q(a, b) ∨ r`. -/
def sampleMain : Clause :=
  { lits := [sampleSubP sampleA, sampleSubQ sampleA sampleB, sampleSubR],
    inputType := InputType.AXIOM, numSelected := 0 }
/-- The side premise `x = a`. -/
def sampleSideEq : Clause :=
  { lits := [Literal.createEquality true (TermList.var 0) sampleA],
    inputType := InputType.AXIOM, numSelected := 0 }
/-- The main premise `a = b`. -/
def sampleMainEq : Clause :=
  { lits := [Literal.createEquality true sampleA sampleB],
    inputType := InputType.AXIOM, numSelected := 0 }

/-! ### Arithmetic errors during interpreted evaluation -/

/-- The evaluation of the interpreted function of `functor(args)` on its constant arguments
raises an `ArithmeticException`: the function is interpreted, the arguments it needs are
constants of the evaluator's type, and the evaluator's operation on them throws. -/
def InterpretedEvaluation.TypedEvaluator.funcRaises {T : Type}
    (ev : InterpretedEvaluation.TypedEvaluator T) (functor : Symbol) (args : List TermList) :
    Prop :=
  ∃ itp arg1, Theory.interpretFunction functor = some itp ∧
    ev.tryInterpretConstant (args.getD 0 (TermList.var 0)) = some arg1 ∧
    ((Theory.getArity itp = 1 ∧ ∃ e, ev.tryEvaluateUnaryFunc itp arg1 = Except.error e) ∨
      (Theory.getArity itp = 2 ∧ ∃ arg2,
        ev.tryInterpretConstant (args.getD 1 (TermList.var 0)) = some arg2 ∧
          ∃ e, ev.tryEvaluateBinaryFunc itp arg1 arg2 = Except.error e))

/-- The evaluation of the interpreted predicate of the literal on its constant arguments
raises an `ArithmeticException`. -/
def InterpretedEvaluation.TypedEvaluator.predRaises {T : Type}
    (ev : InterpretedEvaluation.TypedEvaluator T) (lit : Literal) : Prop :=
  ∃ itp arg1, Theory.interpretPredicate lit.functor = some itp ∧
    ev.tryInterpretConstant (lit.nthArgument 0) = some arg1 ∧
    ((Theory.getArity itp = 1 ∧ ∃ e, ev.tryEvaluateUnaryPred itp arg1 = Except.error e) ∨
      (Theory.getArity itp = 2 ∧ ∃ arg2,
        ev.tryInterpretConstant (lit.nthArgument 1) = some arg2 ∧
          ∃ e, ev.tryEvaluateBinaryPred itp arg1 arg2 = Except.error e))

/-- The term `s / t` over the integers (`INT_DIVIDE`). -/
def sampleIntDivide (s t : TermList) : TermList :=
  TermList.term (Symbol.interpreted Interpretation.INT_DIVIDE) [s, t]
/-- The literal `divides(s, t)` over the integers, with the given polarity. -/
def sampleDivides (polarity : Bool) (s t : TermList) : Literal :=
  { functor := PredSymbol.interpreted Interpretation.INT_DIVIDES, polarity := polarity,
    args := [s, t] }

/-! ## Inverters of arithmetic operations (`Kernel/Rebalancing/Inverters.cpp`) -/

/-- Modelled from the spec: a compound term `Term` (§3 Term): its functor and its arguments. -/
structure Term where
  functor : Symbol
  args : List TermList
deriving DecidableEq

/-- Modelled from the spec: `Term::arity`. -/
def Term.arity (t : Term) : Nat := t.args.length

/-- Modelled from the spec: `Term::operator[]`, the argument at a position.  The program only
reads positions below the arity; the embedding returns variable 0 beyond it. -/
def Term.nthArg (t : Term) (n : Nat) : TermList := t.args.getD n (TermList.var 0)

/-- The term as a `TermList`. -/
def Term.toTermList (t : Term) : TermList := TermList.term t.functor t.args

namespace NumTraits

/-- Modelled from the spec: `NumTraits<sort>::addI` (`NumTraits` is not under `src/`): the
interpretation of the addition of the sort. -/
def addI : Sorts → Interpretation
  | .SRT_INTEGER => Interpretation.INT_PLUS
  | .SRT_RATIONAL => Interpretation.RAT_PLUS
  | .SRT_REAL => Interpretation.REAL_PLUS

/-- Modelled from the spec: `NumTraits<sort>::minusI`.  `Inverters.cpp` builds `number::minus`
terms with one argument (`number::minus(toWrap)`), so `minus` is the unary minus of the sort,
not the binary subtraction. -/
def minusI : Sorts → Interpretation
  | .SRT_INTEGER => Interpretation.INT_UNARY_MINUS
  | .SRT_RATIONAL => Interpretation.RAT_UNARY_MINUS
  | .SRT_REAL => Interpretation.REAL_UNARY_MINUS

/-- Modelled from the spec: `NumTraits<sort>::mulI`. -/
def mulI : Sorts → Interpretation
  | .SRT_INTEGER => Interpretation.INT_MULTIPLY
  | .SRT_RATIONAL => Interpretation.RAT_MULTIPLY
  | .SRT_REAL => Interpretation.REAL_MULTIPLY

/-- Modelled from the spec: `NumTraits<sort>::divI`; `Inverters.cpp` uses it for the
rationals and the reals only. -/
def divI : Sorts → Interpretation
  | .SRT_INTEGER => Interpretation.INT_DIVIDE
  | .SRT_RATIONAL => Interpretation.RAT_DIVIDE
  | .SRT_REAL => Interpretation.REAL_DIVIDE

/-- Modelled from the spec: `number::add(l, r)`, the term `l + r`. -/
def add (s : Sorts) (l r : TermList) : TermList :=
  TermList.term (Symbol.interpreted (addI s)) [l, r]

/-- Modelled from the spec: `number::minus(t)`, the term `-t`. -/
def minus (s : Sorts) (t : TermList) : TermList :=
  TermList.term (Symbol.interpreted (minusI s)) [t]

/-- Modelled from the spec: `number::mul(l, r)`, the term `l * r`. -/
def mul (s : Sorts) (l r : TermList) : TermList :=
  TermList.term (Symbol.interpreted (mulI s)) [l, r]

/-- Modelled from the spec: `number::div(l, r)`, the term `l / r`. -/
def div (s : Sorts) (l r : TermList) : TermList :=
  TermList.term (Symbol.interpreted (divI s)) [l, r]

/-- Modelled from the spec: `number::one()`, the numeral 1 of the sort. -/
def one : Sorts → TermList
  | .SRT_INTEGER => Theory.representConstantInt 1
  | .SRT_RATIONAL => Theory.representConstantRat 1
  | .SRT_REAL => Theory.representConstantReal 1

end NumTraits

namespace Rebalancing

/-- Modelled from the spec: `InversionContext` (declared in `Inverters.hpp`, not under
`src/`), as far as `Inverters.cpp` reads it: the term to invert (`topTerm()`), the argument
position to solve for (`topIdx()`) and the term the inverse is wrapped around
(`toWrap()`). -/
structure InversionContext where
  topTerm : Term
  topIdx : Nat
  toWrap : TermList
deriving DecidableEq

namespace Inverters

/-- The expression `t[1 - ctxt.topIdx()]` of `Inverters.cpp`: the subtraction is made on
`unsigned`, so it wraps modulo `2^32`. -/
def otherArg (ctxt : InversionContext) : TermList :=
  ctxt.topTerm.nthArg ((1 + 2 ^ 32 - ctxt.topIdx % 2 ^ 32) % 2 ^ 32)

/-- Embeds `nonZero<number>(t)`: the term is a numeral of the sort other than zero. -/
def nonZero (s : Sorts) (t : TermList) : Bool :=
  match s with
  | .SRT_INTEGER =>
    match Theory.tryInterpretConstantInt t with
    | some c => decide ((0 : Int) ≠ c)
    | none => false
  | .SRT_RATIONAL =>
    match Theory.tryInterpretConstantRat t with
    | some c => decide ((0 : Rat) ≠ c)
    | none => false
  | .SRT_REAL =>
    match Theory.tryInterpretConstantReal t with
    | some c => decide ((0 : Rat) ≠ c)
    | none => false

/-- Embeds `tryInvertMulInt(ctxt, out)`; `none` is the answer `false`. -/
def tryInvertMulInt (ctxt : InversionContext) : Option TermList :=
  let a_ := otherArg ctxt
  match Theory.tryInterpretConstantInt a_ with
  | some a =>
    if a = 1 then some ctxt.toWrap
    else if a = -1 then some (NumTraits.mul Sorts.SRT_INTEGER a_ ctxt.toWrap)
    else none
  | none => none

/-- Embeds `doInvertMulInt(ctxt)`; `ALWAYS` fails when `tryInvertMulInt` answers `false`. -/
def doInvertMulInt (ctxt : InversionContext) : Outcome TermList :=
  match tryInvertMulInt ctxt with
  | some out => Outcome.ret out
  | none => Outcome.assertionViolation

/-- Embeds `canInvertMulInt(ctxt)`. -/
def canInvertMulInt (ctxt : InversionContext) : Bool := (tryInvertMulInt ctxt).isSome

namespace NumberTheoryInverter

/-- Embeds `NumberTheoryInverter::canInvertTop(ctxt)`; the cases are those of the `switch`,
in its order. -/
def canInvertTop (ctxt : InversionContext) : Bool :=
  let t := ctxt.topTerm
  let fun_ := t.functor
  match Theory.interpretFunction fun_ with
  | some inter =>
    if inter = NumTraits.addI Sorts.SRT_REAL then true
    else if inter = NumTraits.addI Sorts.SRT_RATIONAL then true
    else if inter = NumTraits.minusI Sorts.SRT_REAL then true
    else if inter = NumTraits.minusI Sorts.SRT_RATIONAL then true
    else if inter = NumTraits.mulI Sorts.SRT_REAL then nonZero Sorts.SRT_REAL (otherArg ctxt)
    else if inter = NumTraits.mulI Sorts.SRT_RATIONAL then
      nonZero Sorts.SRT_RATIONAL (otherArg ctxt)
    else if inter = NumTraits.mulI Sorts.SRT_INTEGER then canInvertMulInt ctxt
    else if inter = NumTraits.addI Sorts.SRT_INTEGER then true
    else if inter = NumTraits.minusI Sorts.SRT_INTEGER then true
    else false
  | none => false

/-- Embeds `NumberTheoryInverter::invertTop(ctxt)`, with its entry assertion
`ASS(canInvertTop(ctxt))`; the cases are those of the `switch`, in its order. -/
def invertTop (ctxt : InversionContext) : Outcome TermList :=
  if !canInvertTop ctxt then Outcome.assertionViolation
  else
    let index := ctxt.topIdx
    let toWrap := ctxt.toWrap
    let other := ctxt.topTerm.nthArg ((1 + 2 ^ 32 - index % 2 ^ 32) % 2 ^ 32)
    match Theory.interpretFunction ctxt.topTerm.functor with
    | none => Outcome.assertionViolation
    | some inter =>
      if inter = NumTraits.addI Sorts.SRT_INTEGER then
        Outcome.ret (NumTraits.add Sorts.SRT_INTEGER toWrap
          (NumTraits.minus Sorts.SRT_INTEGER other))
      else if inter = NumTraits.addI Sorts.SRT_REAL then
        Outcome.ret (NumTraits.add Sorts.SRT_REAL toWrap (NumTraits.minus Sorts.SRT_REAL other))
      else if inter = NumTraits.addI Sorts.SRT_RATIONAL then
        Outcome.ret (NumTraits.add Sorts.SRT_RATIONAL toWrap
          (NumTraits.minus Sorts.SRT_RATIONAL other))
      else if inter = NumTraits.minusI Sorts.SRT_INTEGER then
        Outcome.ret (NumTraits.minus Sorts.SRT_INTEGER toWrap)
      else if inter = NumTraits.minusI Sorts.SRT_REAL then
        Outcome.ret (NumTraits.minus Sorts.SRT_REAL toWrap)
      else if inter = NumTraits.minusI Sorts.SRT_RATIONAL then
        Outcome.ret (NumTraits.minus Sorts.SRT_RATIONAL toWrap)
      else if inter = NumTraits.mulI Sorts.SRT_REAL then
        Outcome.ret (NumTraits.mul Sorts.SRT_REAL toWrap
          (NumTraits.div Sorts.SRT_REAL (NumTraits.one Sorts.SRT_REAL) other))
      else if inter = NumTraits.mulI Sorts.SRT_RATIONAL then
        Outcome.ret (NumTraits.mul Sorts.SRT_RATIONAL toWrap
          (NumTraits.div Sorts.SRT_RATIONAL (NumTraits.one Sorts.SRT_RATIONAL) other))
      else if inter = NumTraits.mulI Sorts.SRT_INTEGER then doInvertMulInt ctxt
      else Outcome.assertionViolation

/-- Modelled from the spec: `NumberTheoryInverter::canInvert(term, index)` (declared in
`Inverters.hpp`, not under `src/`), the test the balancer makes on a node of its path: the
term can be inverted at the argument position.  It is `canInvertTop` on the context of the
term and the position; `canInvertTop` does not read the wrapped term. -/
def canInvert (term : Term) (index : Nat) : Bool :=
  canInvertTop { topTerm := term, topIdx := index, toWrap := TermList.var 0 }

end NumberTheoryInverter

end Inverters

end Rebalancing

/-- The structure interprets addition, unary minus and multiplication of the sort and the
integer numerals as the operations and the integers of the ring `D`. -/
def Model.interpretsArithmetic {D : Type} [Ring D] (M : Model D) (s : Sorts) : Prop :=
  (∀ a b : D, M.func (Symbol.interpreted (NumTraits.addI s)) [a, b] = a + b) ∧
    (∀ a : D, M.func (Symbol.interpreted (NumTraits.minusI s)) [a] = -a) ∧
    (∀ a b : D, M.func (Symbol.interpreted (NumTraits.mulI s)) [a, b] = a * b) ∧
    (∀ v : Int, M.func (Symbol.integerConstant v) [] = (v : D))

/-- The integers with the arithmetic symbols of every sort read as the operations on the
integers; every other symbol denotes 0 and every predicate is false. -/
def sampleIntModel : Model Int :=
  { func := fun f args =>
      match f, args with
      | Symbol.integerConstant v, [] => v
      | Symbol.interpreted Interpretation.INT_PLUS, [a, b] => a + b
      | Symbol.interpreted Interpretation.RAT_PLUS, [a, b] => a + b
      | Symbol.interpreted Interpretation.REAL_PLUS, [a, b] => a + b
      | Symbol.interpreted Interpretation.INT_UNARY_MINUS, [a] => -a
      | Symbol.interpreted Interpretation.RAT_UNARY_MINUS, [a] => -a
      | Symbol.interpreted Interpretation.REAL_UNARY_MINUS, [a] => -a
      | Symbol.interpreted Interpretation.INT_MULTIPLY, [a, b] => a * b
      | Symbol.interpreted Interpretation.RAT_MULTIPLY, [a, b] => a * b
      | Symbol.interpreted Interpretation.REAL_MULTIPLY, [a, b] => a * b
      | _, _ => 0
    pred := fun _ _ => False }

/-- The context of the binary term `x0 ⋆ x1` with the given interpreted functor, to be
inverted at position `idx` around the variable `x2`. -/
def sampleBinaryContext (itp : Interpretation) (idx : Nat) : Rebalancing.InversionContext :=
  { topTerm := { functor := Symbol.interpreted itp, args := [TermList.var 0, TermList.var 1] }
    topIdx := idx
    toWrap := TermList.var 2 }

/-! ## Rebalancing (`Kernel/Rebalancing.hpp`) -/

/-- Result of a routine guarded by debug assertions whose loops are embedded with a bound on
the number of their iterations: a value, an assertion violation, or the bound was reached. -/
inductive Run (α : Type) where
  | value (a : α)
  | assertionViolation
  | outOfFuel
deriving DecidableEq

namespace Rebalancing

/-- Embeds `struct Node`: a term of the path and the position of the argument under
inspection. -/
structure Node where
  index : Nat
  term : Term
deriving DecidableEq

/-- Embeds the state of `BalanceIter<C>`: the stack `_path`, its top first, and `_litIndex`.
The literal of the balancer is passed to the functions that read it. -/
structure BalanceIter where
  path : List Node
  litIndex : Nat
deriving DecidableEq

namespace BalanceIter

/-- A bound on the number of iterations of each loop of the iterator over the literal: twice
the number of symbols of its arguments, plus four. -/
def loopBound (lit : Literal) : Nat := 2 * TermList.weightArgs lit.args + 4

/-- Embeds `BalanceIter::inRange()`. -/
def inRange (it : BalanceIter) : Bool := decide (it.litIndex < 2)

/-- Embeds `BalanceIter::derefPath()`. -/
def derefPath (lit : Literal) (it : BalanceIter) : Outcome TermList :=
  if ¬ it.litIndex < 2 then Outcome.assertionViolation
  else
    match it.path with
    | [] => Outcome.ret (lit.nthArgument it.litIndex)
    | node :: _ => Outcome.ret (node.term.nthArg node.index)

/-- Embeds `BalanceIter::canInvert()` for `C = NumberTheoryInverter`: only the top node of
the path is tested. -/
def canInvert (it : BalanceIter) : Bool :=
  match it.path with
  | [] => true
  | top :: _ => Inverters.NumberTheoryInverter.canInvert top.term top.index

/-- The inner loop `do { _path.pop(); inc(); } while (!_path.isEmpty() && peak().index >=
peak().term().arity())` of `incrementPath`, started on the path left by the first `pop`: `inc`
advances `_litIndex` on the empty path and the index of the top node otherwise. -/
def popLoop : List Node → Nat → BalanceIter
  | [], litIndex => { path := [], litIndex := litIndex + 1 }
  | peak :: rest, litIndex =>
    if peak.index + 1 ≥ peak.term.arity then popLoop rest litIndex
    else { path := { peak with index := peak.index + 1 } :: rest, litIndex := litIndex }

/-- The `else` branch of the body of the loop of `incrementPath` (the position under
inspection is a variable or a constant): `incLit()` on the empty path; otherwise `incPeak()`,
followed by the inner loop when the index has left the arity. -/
def advance (it : BalanceIter) : BalanceIter :=
  match it.path with
  | [] => { it with litIndex := it.litIndex + 1 }
  | peak :: rest =>
    if peak.index + 1 ≥ peak.term.arity then popLoop rest it.litIndex
    else { it with path := { peak with index := peak.index + 1 } :: rest }

/-- One pass through the body of the `do … while (!canInvert())` loop of `incrementPath`: a
compound term of non-zero arity under inspection is pushed with index 0; otherwise the
position advances. -/
def incrementStep (lit : Literal) (it : BalanceIter) : Outcome BalanceIter :=
  match derefPath lit it with
  | Outcome.assertionViolation => Outcome.assertionViolation
  | Outcome.ret (TermList.term f args) =>
    if args.length > 0 then
      Outcome.ret { it with path := { index := 0, term := { functor := f, args := args } } :: it.path }
    else Outcome.ret (advance it)
  | Outcome.ret (TermList.var _) => Outcome.ret (advance it)

/-- Embeds `BalanceIter::incrementPath()`: the body is repeated until `canInvert()` holds. -/
def incrementPath (lit : Literal) : Nat → BalanceIter → Run BalanceIter
  | 0, _ => Run.outOfFuel
  | fuel + 1, it =>
    match incrementStep lit it with
    | Outcome.assertionViolation => Run.assertionViolation
    | Outcome.ret it1 =>
      if canInvert it1 then Run.value it1 else incrementPath lit fuel it1

/-- Embeds `BalanceIter::findNextVar()`: `while (inRange() && !derefPath().isVar())
incrementPath();`. -/
def findNextVar (lit : Literal) : Nat → BalanceIter → Run BalanceIter
  | 0, _ => Run.outOfFuel
  | fuel + 1, it =>
    if !inRange it then Run.value it
    else
      match derefPath lit it with
      | Outcome.assertionViolation => Run.assertionViolation
      | Outcome.ret t =>
        if t.isVar then Run.value it
        else
          match incrementPath lit (loopBound lit) it with
          | Run.value it1 => findNextVar lit fuel it1
          | Run.assertionViolation => Run.assertionViolation
          | Run.outOfFuel => Run.outOfFuel

/-- Embeds `Balancer::begin()`, the constructor `BalanceIter(balancer, false)`. -/
def begin (lit : Literal) : Run BalanceIter :=
  if !lit.isEquality then Run.assertionViolation
  else findNextVar lit (loopBound lit) { path := [], litIndex := 0 }

/-- Embeds `Balancer::end()`, the constructor `BalanceIter(balancer, true)`. -/
def endIter : BalanceIter := { path := [], litIndex := 2 }

/-- Embeds `BalanceIter::operator++()`. -/
def next (lit : Literal) (it : BalanceIter) : Run BalanceIter :=
  match incrementPath lit (loopBound lit) it with
  | Run.value it1 => if inRange it1 then findNextVar lit (loopBound lit) it1 else Run.value it1
  | Run.assertionViolation => Run.assertionViolation
  | Run.outOfFuel => Run.outOfFuel

/-- Embeds `BalanceIter::lhs()`. -/
def lhs (lit : Literal) (it : BalanceIter) : Outcome TermList :=
  match derefPath lit it with
  | Outcome.assertionViolation => Outcome.assertionViolation
  | Outcome.ret out => if out.isVar then Outcome.ret out else Outcome.assertionViolation

/-- Embeds `BalanceIter::buildRhs()`, whose body is `UNIMPLEMENTED`, that is
`ASSERTION_VIOLATION`. -/
def buildRhs (_lit : Literal) (_it : BalanceIter) : Outcome TermList :=
  Outcome.assertionViolation

/-- Embeds `BalanceIter::build()`. -/
def build (lit : Literal) (it : BalanceIter) : Outcome Literal :=
  match lhs lit it with
  | Outcome.assertionViolation => Outcome.assertionViolation
  | Outcome.ret l =>
    match buildRhs lit it with
    | Outcome.assertionViolation => Outcome.assertionViolation
    | Outcome.ret r => Outcome.ret (Literal.createEquality lit.polarity l r)

/-- Spec-side comparison term, not an embedding of code: `BalanceIter::buildRhs()` is under
`src/` and is embedded as `buildRhs` above (its body is `UNIMPLEMENTED`). This definition
follows the words of the spec for the right-hand side that the code does not build (§4.6:
"rhs is built from the rest using interpreted inverses"; the comment of `BalanceIter`:
`x * 7 = y + 1` gives `y = (x * 7) - 1`): the other side of the equality, wrapped by the
inverse of every node of the path, from the root of the side to the variable. It is used only
to say what the code fails to return. -/
def buildRhsIntended (lit : Literal) (it : BalanceIter) : Outcome TermList :=
  it.path.foldr
    (fun node acc =>
      match acc with
      | Outcome.assertionViolation => Outcome.assertionViolation
      | Outcome.ret toWrap =>
        Inverters.NumberTheoryInverter.invertTop
          { topTerm := node.term, topIdx := node.index, toWrap := toWrap })
    (Outcome.ret (lit.nthArgument (1 - it.litIndex)))

end BalanceIter

end Rebalancing

/-! ## Gaussian variable elimination (`Inferences/GaussianVariableElimination.cpp`) -/

mutual
/-- Modelled from the spec: `TermList::containsSubterm(trm)` (not under `src/`): the term
`trm` occurs in the term, possibly as the term itself. -/
def TermList.containsSubterm : TermList → TermList → Bool
  | .var v, trm => decide (TermList.var v = trm)
  | .term f args, trm =>
    decide (TermList.term f args = trm) || TermList.containsSubtermArgs args trm
/-- Some argument contains the term. -/
def TermList.containsSubtermArgs : List TermList → TermList → Bool
  | [], _ => false
  | t :: ts, trm => TermList.containsSubterm t trm || TermList.containsSubtermArgs ts trm
end

namespace EqHelper

mutual
/-- Modelled from the spec: `EqHelper::replace(TermList, what, by)` (not under `src/`; §4.6
"rewrite every other literal of C replacing x with u"): every occurrence of `what` in the term
is replaced by `by`. -/
def replaceTerm (what replacement : TermList) : TermList → TermList
  | .var v => if TermList.var v = what then replacement else TermList.var v
  | .term f args =>
    if TermList.term f args = what then replacement
    else TermList.term f (replaceArgs what replacement args)
/-- Replacement in an argument list. -/
def replaceArgs (what replacement : TermList) : List TermList → List TermList
  | [] => []
  | t :: ts => replaceTerm what replacement t :: replaceArgs what replacement ts
end

/-- Modelled from the spec: `EqHelper::replace(Literal*, what, by)` (not under `src/`):
every occurrence of `what` in the literal is replaced by `by`; predicate and polarity are
kept. -/
def replace (lit : Literal) (what replacement : TermList) : Literal :=
  { lit with args := replaceArgs what replacement lit.args }

end EqHelper

/-- Modelled from the spec: `Clause::operator[]`.  The program only reads positions below the
length; the embedding returns the literal `x0 = x0` beyond it. -/
def Clause.get (cl : Clause) (i : Nat) : Literal :=
  cl.lits.getD i (Literal.createEquality true (TermList.var 0) (TermList.var 0))

namespace GaussianVariableElimination

/-- Embeds `GaussianVariableElimination::rewrite(cl, find, replace, skipLiteral)`.  `sz` is
computed on `unsigned`.  The first loop fills the positions below `skipLiteral`, the second
one the positions from `skipLiteral` to `sz`; the embedding answers with an assertion
violation when a loop would leave the bounds of `cl` or of `out`, which happens exactly when
`skipLiteral` is not a position of `cl`.  The new clause inherits the input type of its
premise and has no selected literal. -/
def rewrite (cl : Clause) (find replace : TermList) (skipLiteral : Nat) : Outcome Clause :=
  let sz := (cl.length + 2 ^ 32 - 1) % 2 ^ 32
  if cl.length = 0 ∨ skipLiteral > sz then Outcome.assertionViolation
  else
    Outcome.ret
      { lits :=
          (List.range skipLiteral).map (fun i => EqHelper.replace (cl.get i) find replace) ++
            (List.range' skipLiteral (sz - skipLiteral)).map
              (fun i => EqHelper.replace (cl.get (i + 1)) find replace)
        inputType := cl.inputType
        numSelected := 0 }

/-- The loop `for (auto b : Balancer(lit))` of `performStep` on the literal `cl[i]`, from the
iterator state `it`: `some out` is the `return *rewrite(…)` and `none` the end of the loop.
The function called for `b.buildRhs()` is a parameter. -/
def balanceLoop (buildRhs : Literal → Rebalancing.BalanceIter → Outcome TermList)
    (cl : Clause) (i : Nat) (lit : Literal) :
    Nat → Rebalancing.BalanceIter → Run (Option Clause)
  | 0, _ => Run.outOfFuel
  | fuel + 1, it =>
    if !it.inRange then Run.value none
    else
      match Rebalancing.BalanceIter.lhs lit it with
      | Outcome.assertionViolation => Run.assertionViolation
      | Outcome.ret lhs =>
        match buildRhs lit it with
        | Outcome.assertionViolation => Run.assertionViolation
        | Outcome.ret rhs =>
          if !rhs.containsSubterm lhs then
            match rewrite cl lhs rhs i with
            | Outcome.ret out => Run.value (some out)
            | Outcome.assertionViolation => Run.assertionViolation
          else
            match Rebalancing.BalanceIter.next lit it with
            | Run.value it1 => balanceLoop buildRhs cl i lit fuel it1
            | Run.assertionViolation => Run.assertionViolation
            | Run.outOfFuel => Run.outOfFuel

/-- The lambda `performStep` of `simplify`, from literal `i` on (`lits` are the literals of
`cl` from position `i`). -/
def performStep (buildRhs : Literal → Rebalancing.BalanceIter → Outcome TermList)
    (cl : Clause) : List Literal → Nat → Run Clause
  | [], _ => Run.value cl
  | lit :: rest, i =>
    if lit.isEquality && lit.isNegative then
      match Rebalancing.BalanceIter.begin lit with
      | Run.value it =>
        match balanceLoop buildRhs cl i lit (Rebalancing.BalanceIter.loopBound lit) it with
        | Run.value (some out) => Run.value out
        | Run.value none => performStep buildRhs cl rest (i + 1)
        | Run.assertionViolation => Run.assertionViolation
        | Run.outOfFuel => Run.outOfFuel
      | Run.assertionViolation => Run.assertionViolation
      | Run.outOfFuel => Run.outOfFuel
    else performStep buildRhs cl rest (i + 1)

/-- Embeds `GaussianVariableElimination::simplify(in)` with the function called for
`b.buildRhs()` as a parameter. -/
def simplifyWith (buildRhs : Literal → Rebalancing.BalanceIter → Outcome TermList)
    (cl : Clause) : Run Clause :=
  performStep buildRhs cl cl.lits 0

/-- Embeds `GaussianVariableElimination::simplify(in)`. -/
def simplify (cl : Clause) : Run Clause := simplifyWith Rebalancing.BalanceIter.buildRhs cl

end GaussianVariableElimination

/-- The literal `q(s, t)`. -/
def sampleQ (s t : TermList) : Literal :=
  { functor := PredSymbol.user 20, polarity := true, args := [s, t] }

/-- The clause `x + 1 ≠ y ∨ q(x, y)` of the worked example of §4.6 (`x` is variable 0, `y`
variable 1). -/
def sampleGaussClause : Clause :=
  { lits := [Literal.createEquality false (samplePlus (TermList.var 0) (sampleNum 1))
      (TermList.var 1), sampleQ (TermList.var 0) (TermList.var 1)]
    inputType := InputType.AXIOM
    numSelected := 0 }

/-- The clause `q(y + (-1), y)`. -/
def sampleGaussResult : Clause :=
  { lits := [sampleQ (NumTraits.add Sorts.SRT_INTEGER (TermList.var 1)
      (NumTraits.minus Sorts.SRT_INTEGER (sampleNum 1))) (TermList.var 1)]
    inputType := InputType.AXIOM
    numSelected := 0 }

/-! ### The iteration of a `Balancer` -/

namespace Rebalancing

namespace Balancer

mutual
/-- The code side: the states at which the iteration comes to a stop below the position
`(path, litIndex)`, where the term `t` stands, from left to right.  They are the occurrences
of variables for which `BalanceIter::canInvert()` holds, and that function tests the top node
of the path only: an occurrence below a node that cannot be inverted is among them as soon as
the term just above the occurrence can be inverted. -/
def stopsIn (path : List Node) (litIndex : Nat) : TermList → List BalanceIter
  | .var _ =>
    if BalanceIter.canInvert { path := path, litIndex := litIndex } then
      [{ path := path, litIndex := litIndex }]
    else []
  | .term f args => stopsInArgs path litIndex { functor := f, args := args } 0 args
/-- The states at which the iteration stops in the arguments `args` of the term `t`, the first
of which is argument `i` of `t`. -/
def stopsInArgs (path : List Node) (litIndex : Nat) (t : Term) :
    Nat → List TermList → List BalanceIter
  | _, [] => []
  | i, a :: as =>
    stopsIn ({ index := i, term := t } :: path) litIndex a ++
      stopsInArgs path litIndex t (i + 1) as
end

mutual
/-- The spec side: the occurrences of variables reachable from the position
`(path, litIndex)`, where the term `t` stands, through argument positions that can be
inverted, from left to right; an argument position that cannot be inverted is not entered. -/
def reachableIn (path : List Node) (litIndex : Nat) : TermList → List BalanceIter
  | .var _ => [{ path := path, litIndex := litIndex }]
  | .term f args => reachableInArgs path litIndex { functor := f, args := args } 0 args
/-- The occurrences of variables reachable in the arguments `args` of the term `t`, the first
of which is argument `i` of `t`. -/
def reachableInArgs (path : List Node) (litIndex : Nat) (t : Term) :
    Nat → List TermList → List BalanceIter
  | _, [] => []
  | i, a :: as =>
    (if Inverters.NumberTheoryInverter.canInvert t i then
        reachableIn ({ index := i, term := t } :: path) litIndex a
      else []) ++
      reachableInArgs path litIndex t (i + 1) as
end

end Balancer

namespace BalanceIter

/-- Every node of the path of the state can be inverted: a right-hand side can be built for
the rebalancing by inverting along the path. -/
def invertiblePath (it : BalanceIter) : Bool :=
  it.path.all (fun node => Inverters.NumberTheoryInverter.canInvert node.term node.index)

/-- The state is one at which the iteration stops and yields: in range, accepted by
`canInvert()`, and with a variable under inspection. -/
def yields (lit : Literal) (it : BalanceIter) : Bool :=
  canInvert it && inRange it &&
    (match derefPath lit it with
      | Outcome.ret t => t.isVar
      | Outcome.assertionViolation => false)

/-- The state after `n` passes through the body of the loop of `incrementPath`. -/
def steps (lit : Literal) : Nat → BalanceIter → Outcome BalanceIter
  | 0, it => Outcome.ret it
  | n + 1, it =>
    match incrementStep lit it with
    | Outcome.ret it1 => steps lit n it1
    | Outcome.assertionViolation => Outcome.assertionViolation

/-- The yielding states among `it` and the `n - 1` states that follow it. -/
def visited (lit : Literal) : Nat → BalanceIter → List BalanceIter
  | 0, _ => []
  | n + 1, it =>
    match incrementStep lit it with
    | Outcome.ret it1 => (if yields lit it then [it] else []) ++ visited lit n it1
    | Outcome.assertionViolation => []

end BalanceIter

end Rebalancing

/-- The literal `f(x + 1) ≠ y` with the uninterpreted function `f`. -/
def sampleNestedLiteral : Literal :=
  Literal.createEquality false (sampleF (samplePlus (TermList.var 0) (sampleNum 1)))
    (TermList.var 1)

/-- The iterator state at the occurrence of `x` in `f(x + 1) ≠ y`: the path holds `x + 1` at
argument 0, above it `f(x + 1)` at argument 0. -/
def sampleNestedIter : Rebalancing.BalanceIter :=
  { path := [{ index := 0
               term := { functor := Symbol.interpreted Interpretation.INT_PLUS,
                         args := [TermList.var 0, sampleNum 1] } },
             { index := 0
               term := { functor := Symbol.user 5,
                         args := [samplePlus (TermList.var 0) (sampleNum 1)] } }]
    litIndex := 0 }

/-- The literal `f(x) ≠ a`. -/
def sampleUninterpretedLiteral : Literal :=
  Literal.createEquality false (sampleF (TermList.var 0)) sampleA

/-- The clause `f(x) ≠ f(a) ∨ f(x) ≠ f(a) ∨ p(x)`, which holds the literal `f(x) ≠ f(a)`
twice; its first two literals are selected. -/
def sampleDuplicateClause : Clause :=
  { lits := [sampleResolvedLiteral, sampleResolvedLiteral, sampleP (TermList.var 0)],
    inputType := InputType.AXIOM, numSelected := 2 }

/-! ### Equality resolution: the cases without a child -/

/-- The literal-maximality aftercheck rejects the inference under the substitution `σ`: the
aftercheck is enabled, the premise has more than one selected literal, and some selected
literal other than the resolved one is greater than the resolved literal once `σ` is
applied to both. -/
def EqualityResolution.aftercheckBlocks (cl : Clause) (afterCheck : Bool)
    (greater : Literal → Literal → Bool) (lit : Literal) (σ : RobSubstitution) : Prop :=
  afterCheck = true ∧ cl.numSelected > 1 ∧
    ∃ i curr, i < cl.numSelected ∧ cl.lits[i]? = some curr ∧ curr ≠ lit ∧
      greater (σ.applyLit curr) (σ.applyLit lit) = true

/-- The disequality that the child receives for a constraint. -/
def EqualityResolution.constraintLiteral (σ : RobSubstitution) (con : TermList × TermList) :
    Literal :=
  Literal.createEquality false (σ.apply con.1) (σ.apply con.2)

/-- The spec side (§4.4): both sides of the constraint remain non-ground and non-theory once
`σ` is applied. -/
def EqualityResolution.remainsNonGroundNonTheory (σ : RobSubstitution)
    (con : TermList × TermList) : Prop :=
  (σ.apply con.1).ground = false ∧ (σ.apply con.2).ground = false ∧
    Theory.isInterpretedFunctionTerm (σ.apply con.1) = false ∧
    Theory.isInterpretedConstantTerm (σ.apply con.1) = false ∧
    Theory.isInterpretedFunctionTerm (σ.apply con.2) = false ∧
    Theory.isInterpretedConstantTerm (σ.apply con.2) = false

/-- The test that the second loop of `ResultFn` makes on a constraint under the GROUND policy
(lines 148–151): once `σ` is applied, the constraint literal is not ground, that is, at least
one of its sides is not ground, and neither side is a theory term. -/
def EqualityResolution.rejectedConstraint (σ : RobSubstitution) (con : TermList × TermList) :
    Prop :=
  ((σ.apply con.1).ground = false ∨ (σ.apply con.2).ground = false) ∧
    Theory.isInterpretedFunctionTerm (σ.apply con.1) = false ∧
    Theory.isInterpretedConstantTerm (σ.apply con.1) = false ∧
    Theory.isInterpretedFunctionTerm (σ.apply con.2) = false ∧
    Theory.isInterpretedConstantTerm (σ.apply con.2) = false

/-- The term `g(t)`. -/
def sampleG (t : TermList) : TermList := TermList.term (Symbol.user 6) [t]

/-- The clause `f(x) ≠ a ∨ p(x)`, its first literal selected. -/
def sampleHalfGroundClause : Clause :=
  { lits := [sampleUninterpretedLiteral, sampleP (TermList.var 0)],
    inputType := InputType.AXIOM, numSelected := 1 }

/-- The literal `f(x) ≠ g(y)`, a clash of two uninterpreted non-ground terms. -/
def sampleClashLiteral : Literal :=
  Literal.createEquality false (sampleF (TermList.var 0)) (sampleG (TermList.var 1))

/-- The clause `f(x) ≠ g(y) ∨ p(x)`, its first literal selected. -/
def sampleClashClause : Clause :=
  { lits := [sampleClashLiteral, sampleP (TermList.var 0)],
    inputType := InputType.AXIOM, numSelected := 1 }

/-- The clause `p(x) ∨ f(x) ≠ f(a)` with both literals selected. -/
def sampleAftercheckClause : Clause :=
  { lits := [sampleP (TermList.var 0), sampleResolvedLiteral],
    inputType := InputType.AXIOM, numSelected := 2 }

/-! ### Subsumption: the encoding, the two implementations of the benchmark, colors -/

namespace SMTSubsumption

open Minisat

/-- The pre-matching part of `checkSubsumption`: the state filled by the two nested loops and
the vector `alts`. -/
def preMatching (side_premise main_premise : Clause) : PreMatching × List (List Alt) :=
  baseLoop main_premise.lits side_premise.lits
    { solver := Solver.empty, stc := [],
      possible_base_vars := List.replicate main_premise.length [] } []

/-- The solver on which `checkSubsumption` calls `solve`: the variables and the theory of the
pre-matching, with the constraints of the two constraint loops. -/
def encoding (side_premise main_premise : Clause) : Solver :=
  let r := preMatching side_premise main_premise
  addBaseVarConstraints r.1.possible_base_vars
    (addAltConstraints r.2 (r.1.solver.setSubstitutionTheory r.1.stc))

/-- Embeds `ProofOfConcept::checkSubsumption` with the procedure called for
`solver.solve({})` as a parameter. -/
def checkSubsumptionWith (solve : Solver → Bool) (side_premise main_premise : Clause) : Bool :=
  if (preMatching side_premise main_premise).2.any (fun v => v.isEmpty) then false
  else solve (encoding side_premise main_premise)

/-- The literal `inst` is an alternative for `base`: the headers match and the arguments match
directly or, for a commutative `base`, with the two arguments of `inst` exchanged.  It is the
condition under which the body of the inner loop of pre-matching adds an alternative. -/
def hasAlternative (base inst : Literal) : Bool :=
  Literal.headersMatch base inst false &&
    ((if base.arity = 0 then some MapBinder.empty
        else MatchingUtils.matchArgs base inst MapBinder.empty).isSome ||
      (base.commutative &&
        (MatchingUtils.matchReversedArgs base inst MapBinder.empty).isSome))

/-- The alternative is selected by the assignment: its variable `b` is true. -/
def Alt.selected (m : List Bool) (alt : Alt) : Bool := m.getD alt.b false

/-- The alternatives of the list have variables of the solver, each pushed to the possible
base variables of the main-premise literal of its alternative, and pairwise different. -/
def AltsFresh (st : PreMatching) (l : List Alt) : Prop :=
  (∀ a ∈ l, a.b < st.solver.nVars ∧
      ∃ w, st.possible_base_vars[a.j]? = some w ∧ a.b ∈ w) ∧
    (l.map (fun a => a.b)).Nodup

/-- Embeds `SMTSubsumptionImpl::checkSubsumption` on a freshly constructed object, as in
`bench_smt_alloc`; its body is, statement for statement, the body of
`ProofOfConcept::checkSubsumption` without the debug output. -/
def SMTSubsumptionImpl.checkSubsumption (side_premise main_premise : Clause) : Bool :=
  checkSubsumptionWith Solver.solve side_premise main_premise

end SMTSubsumption

/-- Modelled from the spec: the color of a clause (§4.9 "color compatibility", "color
clash"): transparent, left or right. -/
inductive Color where
  | COLOR_TRANSPARENT | COLOR_LEFT | COLOR_RIGHT
deriving DecidableEq

/-- Modelled from the spec: `ColorHelper::compatible` (not under `src/`): two colors clash
when one is left and the other is right. -/
def ColorHelper.compatible (c1 c2 : Color) : Bool :=
  !((decide (c1 = Color.COLOR_LEFT) && decide (c2 = Color.COLOR_RIGHT)) ||
    (decide (c1 = Color.COLOR_RIGHT) && decide (c2 = Color.COLOR_LEFT)))

namespace OriginalSubsumption

/-- Modelled from the spec: `LiteralMiniIndex::InstanceIterator(miniIndex, base, false)` (not
under `src/`): the literals of the indexed clause that are instances of `base`, an equality
being matched in both orientations (§4.9 step 1). -/
def instances (cl : Clause) (base : Literal) : List Literal :=
  cl.lits.filter (fun inst => SMTSubsumption.hasAlternative base inst)

/-- Embeds `ClauseMatches::fillInMatches`: for each literal of the clause of the object, the
list of its matches. -/
def ClauseMatches.fillInMatches (mcl cl : Clause) : List (List Literal) :=
  mcl.lits.map (instances cl)

/-- Embeds `ClauseMatches::anyNonMatched`. -/
def ClauseMatches.anyNonMatched (matches_ : List (List Literal)) : Bool :=
  matches_.any (fun ms => ms.isEmpty)

/-- The binders of the matches of `base` onto `inst` that extend `binder`: the direct one and,
for a commutative `base`, the one with the arguments exchanged. -/
def matchers (base inst : Literal) (binder : MapBinder) : List MapBinder :=
  if !Literal.headersMatch base inst false then []
  else
    (match (if base.arity = 0 then some binder
        else MatchingUtils.matchArgs base inst binder) with
      | some b => [b]
      | none => []) ++
    (if base.commutative then
      match MatchingUtils.matchReversedArgs base inst binder with
      | some b => [b]
      | none => []
    else [])

/-- Modelled from the spec: the search of `MLMatcher` (not under `src/`) in multiset mode
(§4.9 step 2): a backtracking search that maps the base literals, in order, to distinct
literals of the instance clause under one common substitution. -/
def MLMatcher.search (insts : List Literal) : List Literal → List Nat → MapBinder → Bool
  | [], _, _ => true
  | base :: rest, used, binder =>
    (List.range insts.length).any (fun j =>
      !used.contains j &&
        (match insts[j]? with
          | some inst => (matchers base inst binder).any (fun b => search insts rest (j :: used) b)
          | none => false))

/-- Modelled from the spec: `matcher.init(mcl, cl, matches, true)` followed by
`matcher.nextMatch()`: there is a multiset match of `mcl` into `cl`. -/
def MLMatcher.nextMatch (mcl cl : Clause) : Bool :=
  MLMatcher.search cl.lits mcl.lits [] MapBinder.empty

/-- Embeds `OriginalSubsumptionImpl::checkSubsumption(side_premise, main_premise)`.  `color`
stands for `Clause::color()`, which the clause record of the embedding does not hold. -/
def OriginalSubsumptionImpl.checkSubsumption (color : Clause → Color)
    (side_premise main_premise : Clause) : Outcome Bool :=
  let mcl := side_premise
  let cl := main_premise
  let mlen := mcl.length
  if ¬ mlen > 1 then Outcome.assertionViolation
  else
    let cms := ClauseMatches.fillInMatches mcl cl
    if ClauseMatches.anyNonMatched cms then Outcome.ret false
    else
      Outcome.ret (MLMatcher.nextMatch mcl cl && ColorHelper.compatible (color cl) (color mcl))

end OriginalSubsumption

/-- The main premise `p(a) ∨ r`, in which `q(x, y)` has no match. -/
def sampleMainNoQ : Clause :=
  { lits := [sampleSubP sampleA, sampleSubR], inputType := InputType.AXIOM, numSelected := 0 }

/-- A coloring of the clauses: the side premise `p(x) ∨ q(x, y)` is left, the main premise
`p(a) ∨ q(a, b) ∨ r` is right, every other clause is transparent. -/
def sampleColor (cl : Clause) : Color :=
  if cl = sampleSide then Color.COLOR_LEFT
  else if cl = sampleMain then Color.COLOR_RIGHT
  else Color.COLOR_TRANSPARENT

/-- The unit side premise `p(x)`. -/
def sampleUnitSide : Clause :=
  { lits := [sampleSubP (TermList.var 0)], inputType := InputType.AXIOM, numSelected := 0 }

/-- The side premise `x = y`. -/
def sampleSideXY : Clause :=
  { lits := [Literal.createEquality true (TermList.var 0) (TermList.var 1)],
    inputType := InputType.AXIOM, numSelected := 0 }

/-! ## Induction (`Inferences/Induction.cpp`): the provenance of the produced clauses -/

/-- Modelled from the spec: the rule ids of the inference records that `produceClauses` and
its collaborators create (§3 Clause, §4.8). -/
inductive InferenceRule where
  | INPUT | INDUCTION_AXIOM | GEN_INDUCTION_AXIOM | ENNF | CLAUSIFY | RESOLUTION
deriving DecidableEq

/-- Modelled from the spec: an inference record (§3 Clause): the rule id, the induction depth
and the records of the parents. -/
inductive Inference where
  | mk (rule : InferenceRule) (inductionDepth : Nat) (premises : List Inference)

namespace Inference

/-- Modelled from the spec: `Inference::rule()`. -/
def rule : Inference → InferenceRule
  | mk r _ _ => r

/-- Modelled from the spec: `Inference::inductionDepth()`. -/
def inductionDepth : Inference → Nat
  | mk _ d _ => d

/-- The records of the parents. -/
def premises : Inference → List Inference
  | mk _ _ ps => ps

/-- Modelled from the spec: `Inference::setInductionDepth(d)`. -/
def setInductionDepth : Inference → Nat → Inference
  | mk r _ ps, d => mk r d ps

/-- The record `inf` derives from the record `anc`: `anc` is `inf` itself or lies above it in
the proof DAG. -/
inductive DerivesFrom : Inference → Inference → Prop where
  | refl (inf : Inference) : DerivesFrom inf inf
  | step (inf parent anc : Inference) : parent ∈ inf.premises → DerivesFrom parent anc →
      DerivesFrom inf anc

end Inference

/-- Modelled from the spec: `NonspecificInference0(inputType, rule)`: a record without parents,
of induction depth 0. -/
def NonspecificInference0 (rule : InferenceRule) : Inference := Inference.mk rule 0 []

/-- Modelled from the spec: `FormulaTransformation(rule, premise)`: a record with one parent,
whose induction depth it inherits (§3: the induction depth counts the induction axioms
above a unit in the proof DAG). -/
def FormulaTransformation (rule : InferenceRule) (premise : Inference) : Inference :=
  Inference.mk rule premise.inductionDepth [premise]

/-- Modelled from the spec: `GeneratingInference2(rule, premise1, premise2)`: a record with two
parents and the larger of their induction depths. -/
def GeneratingInference2 (rule : InferenceRule) (premise1 premise2 : Inference) : Inference :=
  Inference.mk rule (max premise1.inductionDepth premise2.inductionDepth) [premise1, premise2]

/-- Modelled from the spec: a unit (a clause or a formula) with its inference record. -/
structure UnitOf (α : Type) where
  content : α
  inference : Inference

/-- Modelled from the spec: `NNF::ennf(unit)` (not under `src/`): the unit itself when its
formula is already in extended negation normal form (`ennf` answers `none`), otherwise a
new unit that derives from it by the rule `ENNF`. -/
def NNF.ennf {Formula : Type} (ennf : Formula → Option Formula) (u : UnitOf Formula) :
    UnitOf Formula :=
  match ennf u.content with
  | none => u
  | some f => { content := f, inference := FormulaTransformation InferenceRule.ENNF u.inference }

/-- Modelled from the spec: `NewCNF::clausify(unit, stack)` (not under `src/`): the clauses of
the conjunctive normal form of the formula (given by `cnf`), each deriving from the unit by
the rule `CLAUSIFY`. -/
def NewCNF.clausify {Formula : Type} (cnf : Formula → List (List Literal))
    (u : UnitOf Formula) : List (UnitOf Clause) :=
  (cnf u.content).map (fun lits =>
    { content := Clause.fromStack lits InputType.AXIOM
      inference := FormulaTransformation InferenceRule.CLAUSIFY u.inference })

/-- Modelled from the spec: `BinaryResolution::generateClause(queryCl, queryLit, qr, opts)` (not
under `src/`): the resolvent (its literals are given by `resolve`), deriving from the two
resolved clauses by the rule `RESOLUTION`. -/
def BinaryResolution.generateClause
    (resolve : Clause → Literal → Literal → Clause → List Literal)
    (queryCl : UnitOf Clause) (queryLit : Literal) (resultLit : Literal)
    (resultCl : UnitOf Clause) : UnitOf Clause :=
  { content := Clause.fromStack (resolve queryCl.content queryLit resultLit resultCl.content)
      InputType.AXIOM
    inference := GeneratingInference2 InferenceRule.RESOLUTION queryCl.inference
      resultCl.inference }

/-- Embeds `InductionClauseIterator::produceClauses(premise, origLit, hypothesis, conclusion,
rule, substitution)`: the clauses pushed to `_clauses`, in the order of the pushes (the stack
iterator visits `hyp_clauses` from its top).  The logical content of the collaborators
(`ennf`, `cnf`, `resolve`, the last with the substitution applied) is a parameter; the
statistics counters are not represented. -/
def InductionClauseIterator.produceClauses {Formula : Type}
    (ennf : Formula → Option Formula) (cnf : Formula → List (List Literal))
    (resolve : Clause → Literal → Literal → Clause → List Literal)
    (premise : UnitOf Clause) (origLit : Literal) (hypothesis : Formula)
    (conclusion : Literal) (rule : InferenceRule) : List (UnitOf Clause) :=
  let inf := (NonspecificInference0 rule).setInductionDepth
    (premise.inference.inductionDepth + 1)
  let fu : UnitOf Formula := { content := hypothesis, inference := inf }
  let hyp_clauses := NewCNF.clausify cnf (NNF.ennf ennf fu)
  hyp_clauses.reverse.map (fun c =>
    if c.content.lits.contains conclusion then
      BinaryResolution.generateClause resolve c conclusion origLit premise
    else c)

/-- A premise unit `¬p(a)` of induction depth 2. -/
def sampleInductionPremise : UnitOf Clause :=
  { content := { lits := [{ functor := PredSymbol.user 7, polarity := false, args := [sampleA] }],
                 inputType := InputType.AXIOM, numSelected := 1 }
    inference := Inference.mk InferenceRule.INPUT 2 [] }

/-- The clauses produced for the premise `¬p(a)` from a hypothesis whose clauses are
`p(b) ∨ p(a)` and `¬p(b)`, the conclusion being `p(a)`; the resolvent drops the two resolved
literals. -/
def sampleInductionClauses : List (UnitOf Clause) :=
  InductionClauseIterator.produceClauses (fun _ : Nat => none)
    (fun _ => [[sampleP sampleB, sampleP sampleA],
      [{ functor := PredSymbol.user 7, polarity := false, args := [sampleB] }]])
    (fun c l1 l2 d => c.lits.filter (fun l => decide (l ≠ l1)) ++
      d.lits.filter (fun l => decide (l ≠ l2)))
    sampleInductionPremise
    { functor := PredSymbol.user 7, polarity := false, args := [sampleA] } 0
    (sampleP sampleA) InferenceRule.INDUCTION_AXIOM

/-- The first clause produced in the sample: the resolvent `p(b)` of `p(b) ∨ p(a)` with the
premise `¬p(a)`. -/
def sampleInductionResolvent : UnitOf Clause :=
  { content := { lits := [sampleP sampleB], inputType := InputType.AXIOM, numSelected := 0 }
    inference :=
      GeneratingInference2 InferenceRule.RESOLUTION
        (FormulaTransformation InferenceRule.CLAUSIFY
          ((NonspecificInference0 InferenceRule.INDUCTION_AXIOM).setInductionDepth 3))
        sampleInductionPremise.inference }

/-! ## Induction: the gates of the constructor of `InductionClauseIterator` -/

/-- Modelled from the spec: `Options::InductionChoice` (§6: induction gating all, goal-only,
goal-plus). -/
inductive InductionChoice where
  | ALL | GOAL | GOAL_PLUS
deriving DecidableEq

/-- The options read by the constructor of `InductionClauseIterator`:
`inductionChoice()`, `maxInductionDepth()` and `inductionUnitOnly()`. -/
structure InductionGateOptions where
  inductionChoice : InductionChoice
  maxInductionDepth : Nat
  inductionUnitOnly : Bool
deriving DecidableEq

namespace InductionClauseIterator

/-- Embeds the condition of the `if` of the constructor `InductionClauseIterator(premise)`
(`Induction.cpp`, lines 124-126).  `Unit::derivedFromGoal` is not under `src/` and is a
parameter. -/
def gate (opts : InductionGateOptions) (derivedFromGoal : UnitOf Clause → Bool)
    (premise : UnitOf Clause) : Bool :=
  let kind := opts.inductionChoice
  let all := decide (kind = InductionChoice.ALL)
  let goal := decide (kind = InductionChoice.GOAL)
  let goal_plus := decide (kind = InductionChoice.GOAL_PLUS)
  let maxD := opts.maxInductionDepth
  let unitOnly := opts.inductionUnitOnly
  (!unitOnly || decide (premise.content.length = 1)) &&
    (all || ((goal || goal_plus) && derivedFromGoal premise)) &&
    (decide (maxD = 0) || decide (premise.inference.inductionDepth < maxD))

/-- Embeds the constructor `InductionClauseIterator::InductionClauseIterator(premise)`: the literals on which `process`
is called, in the order of the calls. -/
def ctor (opts : InductionGateOptions)
    (derivedFromGoal : UnitOf Clause → Bool) (premise : UnitOf Clause) : List Literal :=
  if gate opts derivedFromGoal premise then
    (List.range premise.content.length).map (fun i => premise.content.get i)
  else []

end InductionClauseIterator

/-- The options of the sample: induction on every clause, `max-induction-depth` 2. -/
def sampleGateOptions : InductionGateOptions :=
  { inductionChoice := InductionChoice.ALL, maxInductionDepth := 2, inductionUnitOnly := true }

/-! ## Formulas (`Kernel/Formula.hpp`, not under `src/`) -/

namespace Kernel

/-- Modelled from the spec: `Kernel::Connective`, the values that `Api/FormulaBuilder.cpp`
switches on. -/
inductive Connective where
  | LITERAL | AND | OR | IMP | IFF | XOR | NOT | FORALL | EXISTS | ITE
  | TERM_LET | FORMULA_LET | TRUE | FALSE
deriving DecidableEq

/-- The connectives of a `JunctionFormula`. -/
inductive JunctionConnective where
  | AND | OR
deriving DecidableEq

/-- The connectives of a `BinaryFormula`. -/
inductive BinaryConnective where
  | IMP | IFF | XOR
deriving DecidableEq

/-- The connectives of a `QuantifiedFormula`. -/
inductive QuantifierConnective where
  | FORALL | EXISTS
deriving DecidableEq

/-- Modelled from the spec: `Kernel::Formula` with the subclasses that the sources construct
(§6: atoms, boolean constants, negation, binary connectives, quantifiers, conditional); each
subclass admits its own connectives only.  `constant b` is `Formula(b)`, the formula `TRUE` or
`FALSE`; the two let-formulas are never built by the embedded code. -/
inductive Formula where
  | AtomicFormula (literal : Literal)
  | JunctionFormula (c : JunctionConnective) (args : List Formula)
  | BinaryFormula (c : BinaryConnective) (left right : Formula)
  | NegatedFormula (uarg : Formula)
  | QuantifiedFormula (c : QuantifierConnective) (vars : List Nat) (qarg : Formula)
  | IteFormula (condArg thenArg elseArg : Formula)
  | constant (value : Bool)
  | TermLetFormula (lhs rhs : TermList) (body : Formula)
  | FormulaLetFormula (lhs : Literal) (rhs body : Formula)

/-- Modelled from the spec: `Formula::connective()`. -/
def Formula.connective : Formula → Connective
  | .AtomicFormula _ => Connective.LITERAL
  | .JunctionFormula .AND _ => Connective.AND
  | .JunctionFormula .OR _ => Connective.OR
  | .BinaryFormula .IMP _ _ => Connective.IMP
  | .BinaryFormula .IFF _ _ => Connective.IFF
  | .BinaryFormula .XOR _ _ => Connective.XOR
  | .NegatedFormula _ => Connective.NOT
  | .QuantifiedFormula .FORALL _ _ => Connective.FORALL
  | .QuantifiedFormula .EXISTS _ _ => Connective.EXISTS
  | .IteFormula _ _ _ => Connective.ITE
  | .constant true => Connective.TRUE
  | .constant false => Connective.FALSE
  | .TermLetFormula _ _ _ => Connective.TERM_LET
  | .FormulaLetFormula _ _ _ => Connective.FORMULA_LET

end Kernel

mutual
/-- The variables of a term, in the order of their occurrences. -/
def TermList.variables : TermList → List Nat
  | .var v => [v]
  | .term _ args => TermList.variablesArgs args
/-- The variables of an argument list. -/
def TermList.variablesArgs : List TermList → List Nat
  | [] => []
  | t :: ts => TermList.variables t ++ TermList.variablesArgs ts
end

namespace Kernel

mutual
/-- Modelled from the spec: `Formula::freeVariables()` (not under `src/`): the variables with
a free occurrence, in the order of the occurrences. -/
def Formula.freeVariables : Formula → List Nat
  | .AtomicFormula l => TermList.variablesArgs l.args
  | .JunctionFormula _ args => Formula.freeVariablesList args
  | .BinaryFormula _ l r => Formula.freeVariables l ++ Formula.freeVariables r
  | .NegatedFormula f => Formula.freeVariables f
  | .QuantifiedFormula _ vars f => (Formula.freeVariables f).filter (fun v => !vars.contains v)
  | .IteFormula c t e =>
    Formula.freeVariables c ++ Formula.freeVariables t ++ Formula.freeVariables e
  | .constant _ => []
  | .TermLetFormula lhs rhs body =>
    TermList.variables lhs ++ TermList.variables rhs ++ Formula.freeVariables body
  | .FormulaLetFormula lhs rhs body =>
    TermList.variablesArgs lhs.args ++ Formula.freeVariables rhs ++ Formula.freeVariables body
/-- The free variables of a list of formulas. -/
def Formula.freeVariablesList : List Formula → List Nat
  | [] => []
  | f :: fs => Formula.freeVariables f ++ Formula.freeVariablesList fs
end

/-- Modelled from the spec: `Formula::quantify(f)` (not under `src/`; §6 "universally
closes"): the formula itself when it has no free variable, otherwise the universal
quantification of its free variables, each listed once. -/
def Formula.quantify (f : Formula) : Formula :=
  match (Formula.freeVariables f).eraseDups with
  | [] => f
  | v :: vs => Formula.QuantifiedFormula QuantifierConnective.FORALL (v :: vs) f

end Kernel

/-! ## The formula builder of the API (`Api/FormulaBuilder.cpp`) -/

namespace Api

/-- The exception `InvalidTPTPNameException(msg, name)`. -/
structure InvalidTPTPNameException where
  msg : String
  name : String
deriving DecidableEq

/-- The exception `FormulaBuilderException(msg)`. -/
structure FormulaBuilderException where
  msg : String
deriving DecidableEq

/-- The exception `ApiException(msg)`. -/
structure ApiException where
  msg : String
deriving DecidableEq

/-- The function `islower` of the C library in the "C" locale: the letters `a` to `z`. -/
def islower (c : Char) : Bool := decide ('a'.toNat ≤ c.toNat) && decide (c.toNat ≤ 'z'.toNat)

/-- The character `name[0]` of a `std::string`: its first character, and the terminating null
character when the string is empty. -/
def firstChar (name : String) : Char := name.data.headD (Char.ofNat 0)

/-- The state of a `FormulaBuilder`: the identity of its helper object `_aux` and the two
flags that the constructor stores in it. -/
structure FormulaBuilder where
  _aux : Nat
  _checkNames : Bool
  _checkBindingBoundVariables : Bool
deriving DecidableEq

namespace FormulaBuilder

/-- Embeds `FormulaBuilder::function(funName, arity)`.  `Signature::addFunction` is not under
`src/`; it is the parameter `addFunction`, which registers the symbol in the signature `sig`
and returns its number. -/
def function {σ : Type} (b : FormulaBuilder) (addFunction : String → Nat → σ → Nat × σ)
    (funName : String) (arity : Nat) (sig : σ) : Except InvalidTPTPNameException (Nat × σ) :=
  if b._checkNames && !islower (firstChar funName) then
    Except.error { msg := "Function name must start with a lowercase character",
                   name := funName }
  else Except.ok (addFunction funName arity sig)

/-- Embeds `FormulaBuilder::predicate(predName, arity)`; `Signature::addPredicate` is the
parameter `addPredicate`. -/
def predicate {σ : Type} (b : FormulaBuilder) (addPredicate : String → Nat → σ → Nat × σ)
    (predName : String) (arity : Nat) (sig : σ) : Except InvalidTPTPNameException (Nat × σ) :=
  if b._checkNames && !islower (firstChar predName) then
    Except.error { msg := "Predicate name must start with a lowercase character",
                   name := predName }
  else Except.ok (addPredicate predName arity sig)

end FormulaBuilder

end Api
namespace Kernel

/-- Modelled from the spec: a `FormulaUnit` (§3): a formula with its inference record and its
input type. -/
structure FormulaUnit where
  formula : Formula
  inference : Inference
  inputType : InputType

/-- Modelled from the spec: what a `Unit*` points to: a clause or a formula unit
(`Unit::isClause`). -/
inductive UnitRef where
  | clause (cl : UnitOf Clause)
  | formulaUnit (fu : FormulaUnit)

end Kernel

namespace Lib

/-- Modelled from the spec: `List::nth(N)` of a linked list (`Lib/List.hpp` is not under
`src/`, and the spec does not describe it): the walk along `N` tails followed by `head()`.
The result is an element of the list; a walk that leaves the list is an assertion violation
(there is no element to return). -/
def List.nth {α : Type} : List α → Nat → Outcome α
  | [], _ => Outcome.assertionViolation
  | a :: _, 0 => Outcome.ret a
  | _ :: l, n + 1 => List.nth l n

end Lib

namespace Api

/-- The enumeration `FormulaBuilder::Annotation`, whose four values `annotatedFormula`
switches on. -/
inductive Annotation where
  | AXIOM | ASSUMPTION | LEMMA | CONJECTURE
deriving DecidableEq

/-- The enumeration `FormulaBuilder::Connective`, the values that `Formula::connective`
returns. -/
inductive Connective where
  | ATOM | AND | OR | IMP | IFF | XOR | NOT | FORALL | EXISTS | ITE | TRUE | FALSE
deriving DecidableEq

/-- The wrapper `Api::Formula`: the kernel formula `form` and the identity of the helper
object `_aux` of the builder that built it. -/
structure Formula where
  form : Kernel.Formula
  _aux : Nat

/-- The wrapper `Api::AnnotatedFormula`: the unit and the helper object. -/
structure AnnotatedFormula where
  unit : Kernel.UnitRef
  _aux : Nat

namespace FormulaBuilder

/-- Embeds `FormulaBuilder::negation(f)`. -/
def negation (b : FormulaBuilder) (f : Formula) : Except FormulaBuilderException Formula :=
  if f._aux ≠ b._aux then
    Except.error { msg := "negation function called on a Formula object not built by the same FormulaBuilder object" }
  else Except.ok { form := Kernel.Formula.NegatedFormula f.form, _aux := b._aux }

/-- Embeds `FormulaBuilder::formula(Connective c, f1, f2)`: a junction holds the list
`[f1, f2]` (`f2` is pushed first, then `f1`). -/
def formula (b : FormulaBuilder) (c : Connective) (f1 f2 : Formula) :
    Except FormulaBuilderException Formula :=
  if f1._aux ≠ b._aux ∨ f2._aux ≠ b._aux then
    Except.error { msg := "formula function called on a Formula object not built by the same FormulaBuilder object" }
  else
    match c with
    | .AND => Except.ok { form := Kernel.Formula.JunctionFormula Kernel.JunctionConnective.AND
                            [f1.form, f2.form], _aux := b._aux }
    | .OR => Except.ok { form := Kernel.Formula.JunctionFormula Kernel.JunctionConnective.OR
                           [f1.form, f2.form], _aux := b._aux }
    | .IMP => Except.ok { form := Kernel.Formula.BinaryFormula Kernel.BinaryConnective.IMP
                            f1.form f2.form, _aux := b._aux }
    | .IFF => Except.ok { form := Kernel.Formula.BinaryFormula Kernel.BinaryConnective.IFF
                            f1.form f2.form, _aux := b._aux }
    | .XOR => Except.ok { form := Kernel.Formula.BinaryFormula Kernel.BinaryConnective.XOR
                            f1.form f2.form, _aux := b._aux }
    | _ => Except.error { msg := "Invalid binary connective" }

/-- Embeds `FormulaBuilder::annotatedFormula(f, a, name)`.  `Formula::quantify` is not under
`src/` and is the parameter `quantify`; the name table filled by `Parser::assignAxiomName` is
not represented. -/
def annotatedFormula (quantify : Kernel.Formula → Kernel.Formula) (b : FormulaBuilder)
    (f : Formula) (a : Annotation) (_name : String) :
    Except FormulaBuilderException AnnotatedFormula :=
  if f._aux ≠ b._aux then
    Except.error { msg := "annotatedFormula function called on a Formula object not built by the same FormulaBuilder object" }
  else
    let inputType : InputType :=
      match a with
      | .AXIOM => InputType.AXIOM
      | .ASSUMPTION => InputType.ASSUMPTION
      | .LEMMA => InputType.LEMMA
      | .CONJECTURE => InputType.CONJECTURE
    let negate : Bool :=
      match a with
      | .CONJECTURE => true
      | _ => false
    let f1 : Except FormulaBuilderException Formula :=
      if negate then negation b { form := quantify f.form, _aux := b._aux }
      else Except.ok f
    match f1 with
    | Except.error e => Except.error e
    | Except.ok f2 =>
      Except.ok
        { unit := Kernel.UnitRef.formulaUnit
            { formula := f2.form, inference := Inference.mk InferenceRule.INPUT 0 [],
              inputType := inputType }
          _aux := b._aux }

end FormulaBuilder

namespace AnnotatedFormula

/-- Modelled from the spec: `Unit::inputType()` of the unit of an annotated formula. -/
def inputType (af : AnnotatedFormula) : InputType :=
  match af.unit with
  | .clause cl => cl.content.inputType
  | .formulaUnit fu => fu.inputType

/-- Embeds `AnnotatedFormula::annotation()`; the four input types of the embedding leave the
`default` branch of the `switch` without a case. -/
def annotation (af : AnnotatedFormula) : Annotation :=
  match inputType af with
  | .AXIOM => Annotation.AXIOM
  | .ASSUMPTION => Annotation.ASSUMPTION
  | .LEMMA => Annotation.LEMMA
  | .CONJECTURE => Annotation.CONJECTURE

/-- Embeds `AnnotatedFormula::formula()`. -/
def formula (quantify : Kernel.Formula → Kernel.Formula) (af : AnnotatedFormula) :
    Except ApiException Formula :=
  match af.unit with
  | .clause _ => Except.error { msg := "Cannot retrieve formula from clausified object" }
  | .formulaUnit fu =>
    if fu.inputType ≠ InputType.CONJECTURE then Except.ok { form := fu.formula, _aux := af._aux }
    else
      match fu.formula with
      | .NegatedFormula uarg => Except.ok { form := uarg, _aux := af._aux }
      | form =>
        Except.ok { form := Kernel.Formula.NegatedFormula (quantify form), _aux := af._aux }

end AnnotatedFormula

namespace Formula

/-- Embeds `Formula::argCnt()`. -/
def argCnt (f : Formula) : Outcome Nat :=
  match f.form with
  | .AtomicFormula l => Outcome.ret l.arity
  | .JunctionFormula _ args =>
    if args.length = 2 then Outcome.ret 2 else Outcome.assertionViolation
  | .BinaryFormula _ _ _ => Outcome.ret 2
  | .NegatedFormula _ => Outcome.ret 1
  | .QuantifiedFormula _ _ _ => Outcome.ret 1
  | .IteFormula _ _ _ => Outcome.ret 3
  | .constant _ => Outcome.ret 0
  | .TermLetFormula _ _ _ => Outcome.assertionViolation
  | .FormulaLetFormula _ _ _ => Outcome.assertionViolation

/-- The value of `res` at the end of the `switch` of `Formula::formulaArg(i)`, for a formula
that is not an atom: `none` is the null pointer.  `List::nth` is the parameter `nth`. -/
def formulaArgRes (nth : List Kernel.Formula → Nat → Outcome (Option Kernel.Formula)) :
    Kernel.Formula → Nat → Outcome (Option Kernel.Formula)
  | .AtomicFormula _, _ => Outcome.ret none
  | .JunctionFormula _ args, i => nth args i
  | .BinaryFormula _ l r, i =>
    if i = 0 then Outcome.ret (some l) else if i = 1 then Outcome.ret (some r)
    else Outcome.ret none
  | .NegatedFormula u, i => if i = 0 then Outcome.ret (some u) else Outcome.ret none
  | .QuantifiedFormula _ _ q, i => if i = 0 then Outcome.ret (some q) else Outcome.ret none
  | .IteFormula c t e, i =>
    match i with
    | 0 => Outcome.ret (some c)
    | 1 => Outcome.ret (some t)
    | 2 => Outcome.ret (some e)
    | _ => Outcome.ret none
  | .constant _, _ => Outcome.ret none
  | .TermLetFormula _ _ _, _ => Outcome.assertionViolation
  | .FormulaLetFormula _ _ _, _ => Outcome.assertionViolation

/-- Embeds `Formula::formulaArg(i)`: the argument, an `ApiException`, or an assertion
violation. -/
def formulaArg (nth : List Kernel.Formula → Nat → Outcome (Option Kernel.Formula))
    (f : Formula) (i : Nat) : Outcome (Except ApiException Formula) :=
  match f.form with
  | .AtomicFormula _ =>
    Outcome.ret (Except.error { msg := "Formula arguments cannot be obtained from atoms" })
  | form =>
    match formulaArgRes nth form i with
    | Outcome.assertionViolation => Outcome.assertionViolation
    | Outcome.ret none => Outcome.ret (Except.error { msg := "Argument index out of bounds" })
    | Outcome.ret (some res) => Outcome.ret (Except.ok { form := res, _aux := f._aux })

/-- The call `form->args()->nth(i)` with the list walk of `List::nth`. -/
def nthArg (args : List Kernel.Formula) (i : Nat) : Outcome (Option Kernel.Formula) :=
  match Lib.List.nth args i with
  | Outcome.assertionViolation => Outcome.assertionViolation
  | Outcome.ret a => Outcome.ret (some a)

end Formula

end Api

/-- A builder with name checking, whose helper object has the identity 1. -/
def sampleBuilder : Api.FormulaBuilder :=
  { _aux := 1, _checkNames := true, _checkBindingBoundVariables := true }

/-- The atom `p(x)` built by the sample builder. -/
def sampleApiP : Api.Formula :=
  { form := Kernel.Formula.AtomicFormula (sampleP (TermList.var 0)), _aux := 1 }

/-- The atom `r` built by the sample builder. -/
def sampleApiR : Api.Formula :=
  { form := Kernel.Formula.AtomicFormula sampleSubR, _aux := 1 }

/-- The conjunction `p(x) ∧ r`, as `FormulaBuilder::formula(AND, p(x), r)` builds it. -/
def sampleApiAnd : Api.Formula :=
  { form := Kernel.Formula.JunctionFormula Kernel.JunctionConnective.AND
      [Kernel.Formula.AtomicFormula (sampleP (TermList.var 0)),
       Kernel.Formula.AtomicFormula sampleSubR], _aux := 1 }

/-- The implication `p(x) → r`, as `FormulaBuilder::formula(IMP, p(x), r)` builds it. -/
def sampleApiImp : Api.Formula :=
  { form := Kernel.Formula.BinaryFormula Kernel.BinaryConnective.IMP
      (Kernel.Formula.AtomicFormula (sampleP (TermList.var 0)))
      (Kernel.Formula.AtomicFormula sampleSubR), _aux := 1 }

/-! ## Induction: replacement of a term, and the memo of `notDone` -/

namespace TermReplacement

/-- Embeds `TermReplacement::transformSubterm(trm)`: the term `_o` is replaced by `_r`;
`trm.term() == _o` compares shared terms, which is structural equality. -/
def transformSubterm (o : Term) (r : TermList) (trm : TermList) : TermList :=
  if trm.isTerm && decide (trm = o.toTermList) then r else trm

mutual
/-- Modelled from the spec: the traversal of `TermTransformer` (not under `src/`) behind
`TermReplacement::transform`.  §4.8 reads `L[s]` as the substitution of `s` for the term `t`
in `L`: `transformSubterm` is asked at a subterm before its arguments are looked at; a
subterm that it changes is replaced as a whole and the replacement is not entered, a subterm
that it leaves is rebuilt from its transformed arguments.  So the occurrences of `t` in the
literal are replaced, and none that a replacement brings about. -/
def transformTerm (o : Term) (r : TermList) : TermList → TermList
  | .var v => transformSubterm o r (TermList.var v)
  | .term f args =>
    if transformSubterm o r (TermList.term f args) = TermList.term f args then
      TermList.term f (transformArgs o r args)
    else transformSubterm o r (TermList.term f args)
/-- Modelled from the spec: the traversal of an argument list, from left to right. -/
def transformArgs (o : Term) (r : TermList) : List TermList → List TermList
  | [] => []
  | t :: ts => transformTerm o r t :: transformArgs o r ts
end

/-- The call `TermReplacement(o, r).transform(lit)`: the literal with every argument
traversed; predicate and polarity are kept. -/
def transform (o : Term) (r : TermList) (lit : Literal) : Literal :=
  { lit with args := transformArgs o r lit.args }

end TermReplacement

namespace InductionClauseIterator

/-- The static state of `notDone`: the set `done`, the map `blanks` from sorts to blank
constants, and the number that `Signature::addFreshFunction` gives to the next fresh
function. -/
structure NotDoneState where
  done : List Literal
  blanks : List (Nat × TermList)
  nextFunction : Nat
deriving DecidableEq

/-- Embeds `InductionClauseIterator::notDone(lit, term)` on its static state: the answer and
the state after the call.  The result sort of a function symbol (`fnType()->result()`) is
the parameter `resultSort`. -/
def notDone (resultSort : Symbol → Nat) (st : NotDoneState) (lit : Literal) (term : Term) :
    Bool × NotDoneState :=
  let srt := resultSort term.functor
  let st1 : NotDoneState :=
    match st.blanks.lookup srt with
    | some _ => st
    | none =>
      { st with blanks := (srt, TermList.term (Symbol.user st.nextFunction) []) :: st.blanks
                nextFunction := st.nextFunction + 1 }
  let blank := (st1.blanks.lookup srt).getD (TermList.var 0)
  let rep := TermReplacement.transform term blank lit
  if st1.done.contains rep then (false, st1)
  else (true, { st1 with done := rep :: st1.done })

/-- The blanked form of the pair `(lit, term)` in a state: the literal with the term replaced
by the blank constant that the state holds for the sort of the term, when it holds one. -/
def blankedForm (resultSort : Symbol → Nat) (st : NotDoneState) (lit : Literal)
    (term : Term) : Option Literal :=
  (st.blanks.lookup (resultSort term.functor)).map
    (fun blank => TermReplacement.transform term blank lit)

/-- Successive calls of `notDone`: the answers, in order, and the final state. -/
def notDoneCalls (resultSort : Symbol → Nat) :
    NotDoneState → List (Literal × Term) → List Bool × NotDoneState
  | st, [] => ([], st)
  | st, (lit, term) :: calls =>
    let r := notDone resultSort st lit term
    let rest := notDoneCalls resultSort r.2 calls
    (r.1 :: rest.1, rest.2)

end InductionClauseIterator

/-- The constant `a` as a `Term`. -/
def sampleTermA : Term := { functor := Symbol.user 0, args := [] }

/-- The constant `b` as a `Term`. -/
def sampleTermB : Term := { functor := Symbol.user 1, args := [] }

/-- Three calls of `notDone`: `(p(a), a)`, `(p(b), b)` and `(q(a, b), a)`; `a` and `b` have
the same sort, so the first two pairs have the same blanked form. -/
def sampleNotDoneCalls : List (Literal × Term) :=
  [(sampleSubP sampleA, sampleTermA), (sampleSubP sampleB, sampleTermB),
   (sampleSubQ sampleA sampleB, sampleTermA)]

/-! ## Equality axiomatization (`Shell/EqualityAxiomatizer.cpp`) -/

/-- Modelled from the spec: `FunctionType` / `BaseType` (§3 Symbol: argument sorts and result
sort); sorts are numbers. -/
structure FunctionType where
  args : List Nat
  result : Nat
deriving DecidableEq

/-- Modelled from the spec: `BaseType::arity`. -/
def FunctionType.arity (ft : FunctionType) : Nat := ft.args.length

mutual
/-- Modelled from the spec: `NonVariableIterator` (not under `src/`) on a term: the term
itself, when it is not a variable, and the non-variable subterms of its arguments. -/
def TermList.nonVariableSubterms : TermList → List TermList
  | .var _ => []
  | .term f args => TermList.term f args :: TermList.nonVariableSubtermsArgs args
/-- The non-variable subterms of an argument list; `NonVariableIterator(lit)` yields them for
the arguments of the literal. -/
def TermList.nonVariableSubtermsArgs : List TermList → List TermList
  | [] => []
  | t :: ts => TermList.nonVariableSubterms t ++ TermList.nonVariableSubtermsArgs ts
end

namespace Lib

/-- Modelled from the spec: `DHSet::insert`: a set is a list in which the element is put once. -/
def DHSet.insert {α : Type} [DecidableEq α] (s : List α) (x : α) : List α :=
  if x ∈ s then s else x :: s

/-- Modelled from the spec: `DHSet::loadFromIterator`: every element is inserted. -/
def DHSet.loadFromIterator {α : Type} [DecidableEq α] (s : List α) (xs : List α) : List α :=
  xs.foldl DHSet.insert s

/-- Modelled from the spec: `ImplicationSetClosure<unsigned>` (`Lib/ImplicationSetClosure.hpp`
is not under `src/`): the elements added and the implications added. -/
structure ImplicationSetClosure where
  elements : List Nat
  implications : List (Nat × Nat)
deriving DecidableEq

namespace ImplicationSetClosure

/-- The fresh object. -/
def empty : ImplicationSetClosure := { elements := [], implications := [] }

/-- Modelled from the spec: `addFromIterator(it)`. -/
def addFromIterator (isc : ImplicationSetClosure) (xs : List Nat) : ImplicationSetClosure :=
  { isc with elements := isc.elements ++ xs }

/-- Modelled from the spec: `addImplication(a, b)`: whenever `a` is in the closure, so
is `b`. -/
def addImplication (isc : ImplicationSetClosure) (a b : Nat) : ImplicationSetClosure :=
  { isc with implications := isc.implications ++ [(a, b)] }

/-- An implication whose premise is in the set and whose conclusion is not. -/
def fire (impls : List (Nat × Nat)) (s : List Nat) : Option (Nat × Nat) :=
  impls.find? (fun p => decide (p.1 ∈ s) && !decide (p.2 ∈ s))

/-- The closure loop: conclusions of applicable implications are added until none applies;
every round adds the conclusion of a new implication, so the number of implications bounds
the rounds. -/
def closureLoop (impls : List (Nat × Nat)) : Nat → List Nat → List Nat
  | 0, s => s
  | fuel + 1, s =>
    match fire impls s with
    | none => s
    | some p => closureLoop impls fuel (p.2 :: s)

/-- Modelled from the spec: the elements that `ImplicationSetClosure::Iterator` yields: the
closure of the added elements under the added implications. -/
def closure (isc : ImplicationSetClosure) : List Nat :=
  closureLoop isc.implications isc.implications.length isc.elements

end ImplicationSetClosure

end Lib

/-- The state of an `EqualityAxiomatizer`: the sets `_eqSorts`, `_fns` and `_preds`. -/
structure EqualityAxiomatizer where
  _eqSorts : List Nat
  _fns : List Symbol
  _preds : List PredSymbol
deriving DecidableEq

namespace EqualityAxiomatizer

/-- The sets of a freshly constructed object. -/
def fresh : EqualityAxiomatizer := { _eqSorts := [], _fns := [], _preds := [] }

/-- The loop over `NonVariableIterator(lit)` in `scan(Literal*)`. -/
def scanSubterms : List TermList → List Symbol → List Symbol
  | [], fns => fns
  | TermList.var _ :: ts, fns => scanSubterms ts fns
  | TermList.term f args :: ts, fns =>
    if args.length = 0 then scanSubterms ts fns
    else scanSubterms ts (Lib.DHSet.insert fns f)

/-- Embeds `EqualityAxiomatizer::scan(Literal*)`.  `SortHelper::getEqualityArgumentSort` is
not under `src/` and is the parameter `eqArgSort`. -/
def scanLiteral (eqArgSort : Literal → Nat) (ea : EqualityAxiomatizer) (lit : Literal) :
    EqualityAxiomatizer :=
  if lit.arity = 0 then ea
  else
    let ea1 : EqualityAxiomatizer :=
      if lit.isEquality then { ea with _eqSorts := Lib.DHSet.insert ea._eqSorts (eqArgSort lit) }
      else { ea with _preds := Lib.DHSet.insert ea._preds lit.functor }
    { ea1 with _fns := scanSubterms (TermList.nonVariableSubtermsArgs lit.args) ea1._fns }

/-- The implications that the loop of `saturateEqSorts` adds for one function: one from each
argument sort other than the result sort to the result sort. -/
def addFnImplications (ft : FunctionType) :
    List Nat → Lib.ImplicationSetClosure → Lib.ImplicationSetClosure
  | [], isc => isc
  | argSort :: rest, isc =>
    if argSort = ft.result then addFnImplications ft rest isc
    else addFnImplications ft rest (isc.addImplication argSort ft.result)

/-- The loop of `saturateEqSorts` over the collected functions. -/
def addImplications (fnType : Symbol → FunctionType) :
    List Symbol → Lib.ImplicationSetClosure → Lib.ImplicationSetClosure
  | [], isc => isc
  | fn :: fns, isc =>
    addImplications fnType fns (addFnImplications (fnType fn) (fnType fn).args isc)

/-- Embeds `EqualityAxiomatizer::saturateEqSorts()`.  The type of a function symbol
(`env.signature->getFunction(fn)->fnType()`) is the parameter `fnType`. -/
def saturateEqSorts (fnType : Symbol → FunctionType) (ea : EqualityAxiomatizer) :
    EqualityAxiomatizer :=
  if ea._eqSorts.isEmpty then ea
  else
    let isc := Lib.ImplicationSetClosure.empty.addFromIterator ea._eqSorts
    let isc := addImplications fnType ea._fns isc
    { ea with _eqSorts := Lib.DHSet.loadFromIterator ea._eqSorts isc.closure }

/-- The two nested loops of `scan(UnitList*)`; every unit is a clause. -/
def scanLoop (eqArgSort : Literal → Nat) :
    List Clause → EqualityAxiomatizer → EqualityAxiomatizer
  | [], ea => ea
  | cl :: units, ea => scanLoop eqArgSort units (cl.lits.foldl (scanLiteral eqArgSort) ea)

/-- Embeds `EqualityAxiomatizer::scan(UnitList*)`. -/
def scan (fnType : Symbol → FunctionType) (eqArgSort : Literal → Nat)
    (ea : EqualityAxiomatizer) (units : List Clause) : EqualityAxiomatizer :=
  saturateEqSorts fnType (scanLoop eqArgSort units ea)

/-- The loop of `getArgumentEqualityLiterals` from argument `i` on: the literals pushed and
the two variable stacks, bottom first. -/
def argumentLoop (eqSorts : List Nat) :
    List Nat → Nat → List Literal × List TermList × List TermList
  | [], _ => ([], [], [])
  | sort :: rest, i =>
    let v1 := TermList.var (2 * i)
    let v2 := TermList.var (2 * i + 1)
    let r := argumentLoop eqSorts rest (i + 1)
    if sort ∈ eqSorts then
      (Literal.createEquality false v1 v2 :: r.1, v1 :: r.2.1, v2 :: r.2.2)
    else (r.1, v1 :: r.2.1, v1 :: r.2.2)

/-- Embeds `EqualityAxiomatizer::getArgumentEqualityLiterals(symbolType, lits, vars1, vars2)`:
the answer and the three stacks. -/
def getArgumentEqualityLiterals (ea : EqualityAxiomatizer) (symbolType : FunctionType) :
    Bool × List Literal × List TermList × List TermList :=
  let r := argumentLoop ea._eqSorts symbolType.args 0
  (!r.1.isEmpty, r)

/-- Embeds `EqualityAxiomatizer::getFnCongruenceAxiom(fn)`: the null pointer, the axiom, or
the violation of `ASS_G(fnSym->arity(),0)` or of `ALWAYS(getArgumentEqualityLiterals(…))`. -/
def getFnCongruenceAxiom (fnType : Symbol → FunctionType) (ea : EqualityAxiomatizer)
    (fn : Symbol) : Outcome (Option Clause) :=
  let ft := fnType fn
  if ft.result ∉ ea._eqSorts then Outcome.ret none
  else if ¬ ft.arity > 0 then Outcome.assertionViolation
  else
    let r := getArgumentEqualityLiterals ea ft
    if ¬ r.1 = true then Outcome.assertionViolation
    else
      let t1 := TermList.term fn r.2.2.1
      let t2 := TermList.term fn r.2.2.2
      Outcome.ret (some (Clause.fromStack (r.2.1 ++ [Literal.createEquality true t1 t2])
        InputType.AXIOM))

/-- Embeds `EqualityAxiomatizer::getPredCongruenceAxiom(pred)`; equality is the predicate
number 0 of `ASS_NEQ(pred,0)`, and the type of a predicate symbol is the parameter
`predType`. -/
def getPredCongruenceAxiom (predType : PredSymbol → FunctionType) (ea : EqualityAxiomatizer)
    (pred : PredSymbol) : Outcome (Option Clause) :=
  if pred = PredSymbol.interpreted Interpretation.EQUAL then Outcome.assertionViolation
  else if ¬ (predType pred).arity > 0 then Outcome.assertionViolation
  else
    let r := getArgumentEqualityLiterals ea (predType pred)
    if ¬ r.1 = true then Outcome.ret none
    else
      Outcome.ret (some (Clause.fromStack
        (r.2.1 ++ [{ functor := pred, polarity := false, args := r.2.2.1 },
          { functor := pred, polarity := true, args := r.2.2.2 }])
        InputType.AXIOM))

end EqualityAxiomatizer

/-- The types of the symbols of the sample: the constant `a` has sort 1, the constant `b`
sort 2, and `f` maps sort 1 to sort 2. -/
def sampleFnType : Symbol → FunctionType
  | Symbol.user 0 => { args := [], result := 1 }
  | Symbol.user 5 => { args := [1], result := 2 }
  | _ => { args := [], result := 2 }

/-- The sort of the arguments of an equality of the sample: the result sort of its left side
when that is not a variable. -/
def sampleEqArgSort (lit : Literal) : Nat :=
  match lit.args with
  | TermList.term f _ :: _ => (sampleFnType f).result
  | _ => 0

/-- The unit clause `f(a) = b`, an equality of sort 2. -/
def sampleSortedClause : Clause :=
  { lits := [Literal.createEquality true (sampleF sampleA) sampleB],
    inputType := InputType.AXIOM, numSelected := 1 }

/-! ## Induction: generalisation over subsets of occurrences -/

/-- The function `__builtin_popcount` on a 32-bit `unsigned`: the number of set bits. -/
def popcount (n : Nat) : Nat := ((List.range 32).filter (fun i => n.testBit i)).length

/-- The fields of a `LiteralSubsetReplacement`.  The class is declared in the header that
belongs to this version of `Induction.cpp`, which is not under `src/`: the values that the
constructor gives to `_occurrences`, `_maxOccurrences` and `_maxIterations` are hypotheses of
the theorems. -/
structure LiteralSubsetReplacement where
  _iteration : Nat
  _maxIterations : Nat
  _matchCount : Nat
  _occurrences : Nat
  _maxOccurrences : Nat
  _lit : Literal
  _o : Term
  _r : TermList
deriving DecidableEq

namespace LiteralSubsetReplacement

/-- Embeds `LiteralSubsetReplacement::transformSubterm(trm)`, with `_matchCount` passed in
and out: the counter is read and incremented only when the first disjunct is false. -/
def transformSubterm (s : LiteralSubsetReplacement) (matchCount : Nat) (trm : TermList) :
    TermList × Nat :=
  if trm.isTerm && decide (trm = s._o.toTermList) then
    if s._occurrences > s._maxOccurrences then (s._r, matchCount)
    else if s._iteration.testBit matchCount then (s._r, matchCount + 1)
    else (trm, matchCount + 1)
  else (trm, matchCount)

mutual
/-- Modelled from the spec: the traversal of `TermTransformer` (not under `src/`), as in
`TermReplacement.transformTerm`, with the counter of the subclass threaded through the calls
of `transformSubterm`: a subterm is asked before its arguments, in the order of the
traversal from left to right; a subterm that is changed is not entered. -/
def transformTerm (s : LiteralSubsetReplacement) : TermList → Nat → TermList × Nat
  | .var v, mc => transformSubterm s mc (TermList.var v)
  | .term f args, mc =>
    let d := transformSubterm s mc (TermList.term f args)
    if d.1 = TermList.term f args then
      let r := transformArgs s args d.2
      (TermList.term f r.1, r.2)
    else d
/-- Modelled from the spec: the traversal of an argument list, from left to right. -/
def transformArgs (s : LiteralSubsetReplacement) : List TermList → Nat → List TermList × Nat
  | [], mc => ([], mc)
  | t :: ts, mc =>
    let r1 := transformTerm s t mc
    let r2 := transformArgs s ts r1.2
    (r1.1 :: r2.1, r2.2)
end

/-- The call `transform(_lit)`: the transformed literal and the value of `_matchCount` after
the traversal. -/
def transform (s : LiteralSubsetReplacement) : Literal × Nat :=
  let r := transformArgs s s._lit.args s._matchCount
  ({ s._lit with args := r.1 }, r.2)

/-- The condition under which the `while` loop of `transformSubset` skips an iteration. -/
def skips (maxSubsetSize : Nat) (s : LiteralSubsetReplacement) (iteration : Nat) : Bool :=
  decide (iteration ≤ s._maxIterations) &&
    (decide (maxSubsetSize > 0) && decide (popcount iteration < s._occurrences) &&
      decide (popcount iteration > maxSubsetSize))

/-- The `while` loop of `transformSubset`, from the value `iteration` of `_iteration`; the
counter is a 32-bit `unsigned`. -/
def skipLoop (maxSubsetSize : Nat) (s : LiteralSubsetReplacement) : Nat → Nat → Run Nat
  | 0, iteration => if skips maxSubsetSize s iteration then Run.outOfFuel else Run.value iteration
  | fuel + 1, iteration =>
    if skips maxSubsetSize s iteration then
      skipLoop maxSubsetSize s fuel ((iteration + 1) % 2 ^ 32)
    else Run.value iteration

/-- Embeds `LiteralSubsetReplacement::transformSubset(rule)`: the literal returned (`none` is
`nullptr`), the value of `rule` after the call and the object after the call.  The option
`maxInductionGenSubsetSize()` is the parameter `maxSubsetSize`; the loop leaves at the latest
when `_iteration` has passed `_maxIterations`, which bounds its rounds. -/
def transformSubset (maxSubsetSize : Nat) (s : LiteralSubsetReplacement)
    (rule : InferenceRule) :
    Run (Option Literal × InferenceRule × LiteralSubsetReplacement) :=
  match skipLoop maxSubsetSize s (s._maxIterations + 1) ((s._iteration + 1) % 2 ^ 32) with
  | Run.outOfFuel => Run.outOfFuel
  | Run.assertionViolation => Run.assertionViolation
  | Run.value iteration =>
    let s1 := { s with _iteration := iteration }
    if iteration ≥ s._maxIterations ∨ (s._occurrences > s._maxOccurrences ∧ iteration > 1) then
      Run.value (none, rule, s1)
    else
      let rule1 :=
        if popcount iteration = s._occurrences then InferenceRule.INDUCTION_AXIOM
        else InferenceRule.GEN_INDUCTION_AXIOM
      let r := transform { s1 with _matchCount := 0 }
      Run.value (some r.1, rule1, { s1 with _matchCount := r.2 })

end LiteralSubsetReplacement

/-- The placeholder constant of the samples. -/
def samplePlaceholder : TermList := TermList.term (Symbol.user 99) []

namespace LiteralSubsetReplacement

/-- The value `iteration` of the counter is not skipped by the loop of `transformSubset`:
there is no bound (`maxSubsetSize` is 0), or the number of set bits is within the bound, or
it is not below the number of occurrences. -/
def kept (maxSubsetSize occurrences iteration : Nat) : Bool :=
  !(decide (maxSubsetSize > 0) && decide (popcount iteration < occurrences) &&
    decide (popcount iteration > maxSubsetSize))

end LiteralSubsetReplacement

/-- The object `LiteralSubsetReplacement(¬q(a, …, a), a, placeholder)` for a literal with 21
occurrences of `a`, one more than 20, the value of `_maxOccurrences`. -/
def sampleManyReplacement : LiteralSubsetReplacement :=
  { _iteration := 0, _maxIterations := 2 ^ 21, _matchCount := 0, _occurrences := 21,
    _maxOccurrences := 20
    _lit := { functor := PredSymbol.user 14, polarity := false,
              args := List.replicate 21 sampleA }
    _o := sampleTermA, _r := samplePlaceholder }

namespace LiteralSubsetReplacement

end LiteralSubsetReplacement

/-! ## Structural induction, scheme I (`InductionClauseIterator::performStructInductionOne`) -/

/-- Modelled from the spec: `Literal::complementaryLiteral(lit)`: the literal with the
opposite polarity. -/
def Literal.complementaryLiteral (l : Literal) : Literal := { l with polarity := !l.polarity }

/-- Modelled from the spec: a constructor of a term algebra (§4.8: a constructor with its
argument sorts): its function symbol, the sorts of its arguments and its result sort. -/
structure TermAlgebraConstructor where
  functor : Symbol
  argSorts : List Nat
  rangeSort : Nat
deriving DecidableEq

namespace TermAlgebraConstructor

/-- Modelled from the spec: `TermAlgebraConstructor::arity`. -/
def arity (con : TermAlgebraConstructor) : Nat := con.argSorts.length

/-- Modelled from the spec: `TermAlgebraConstructor::recursive` (not under `src/`): an argument
of the constructor has the sort that the constructor builds (§4.8, the arguments with
`A_{i,j} = S`). -/
def recursive (con : TermAlgebraConstructor) : Bool :=
  con.argSorts.any (fun srt => decide (srt = con.rangeSort))

end TermAlgebraConstructor

/-- Modelled from the spec: a term algebra (§4.8): its sort and its constructors, in the order
of `TermAlgebra::constructor(i)`. -/
structure TermAlgebra where
  sort : Nat
  constructors : List TermAlgebraConstructor
deriving DecidableEq

namespace InductionClauseIterator

/-- The loop that pushes a fresh variable for every argument of a constructor that is not
recursive: the stack `argTerms`, bottom first, and the counter `var` (a 32-bit `unsigned`)
after the loop. -/
def argTermsLoop : List Nat → Nat → List TermList × Nat
  | [], var => ([], var)
  | _ :: rest, var =>
    let r := argTermsLoop rest ((var + 1) % 2 ^ 32)
    (TermList.var var :: r.1, r.2)

/-- The loop over the arguments of a recursive constructor: the stacks `argTerms` and
`ta_vars`, bottom first, and the counter `var` after the loop. -/
def taVarsLoop (ta_sort : Nat) : List Nat → Nat → List TermList × List TermList × Nat
  | [], var => ([], [], var)
  | argSort :: rest, var =>
    let x := TermList.var var
    let r := taVarsLoop ta_sort rest ((var + 1) % 2 ^ 32)
    if argSort = ta_sort then (x :: r.1, x :: r.2.1, r.2.2) else (x :: r.1, r.2.1, r.2.2)

/-- The body of the loop over the constructors in `performStructInductionOne`: the formula
`f` of the constructor and the counter `var` after it.  The stack iterator visits `ta_vars`
from its top and every formula is put in front of `args`, so that `args` holds the formulas
in the order of the arguments. -/
def constructorFormula (ta_sort : Nat) (clit : Literal) (term : Term)
    (con : TermAlgebraConstructor) (var : Nat) : Outcome (Kernel.Formula × Nat) :=
  if !con.recursive then
    if con.arity = 0 then
      Outcome.ret (Kernel.Formula.AtomicFormula
        (TermReplacement.transform term (TermList.term con.functor []) clit), var)
    else
      let r := argTermsLoop con.argSorts var
      Outcome.ret (Kernel.Formula.AtomicFormula
        (TermReplacement.transform term (TermList.term con.functor r.1) clit), r.2)
  else
    if ¬ con.arity > 0 then Outcome.assertionViolation
    else
      let r := taVarsLoop ta_sort con.argSorts var
      let right := Kernel.Formula.AtomicFormula
        (TermReplacement.transform term (TermList.term con.functor r.1) clit)
      if ¬ r.2.1.length ≥ 1 then Outcome.assertionViolation
      else
        let left :=
          match r.2.1 with
          | [x] => Kernel.Formula.AtomicFormula (TermReplacement.transform term x clit)
          | ta_vars =>
            Kernel.Formula.JunctionFormula Kernel.JunctionConnective.AND
              (ta_vars.map (fun x =>
                Kernel.Formula.AtomicFormula (TermReplacement.transform term x clit)))
        Outcome.ret (Kernel.Formula.BinaryFormula Kernel.BinaryConnective.IMP left right, r.2.2)

/-- The loop over the constructors: every formula is put in front of the list `formulas`. -/
def constructorLoop (ta_sort : Nat) (clit : Literal) (term : Term) :
    List TermAlgebraConstructor → List Kernel.Formula → Nat →
      Outcome (List Kernel.Formula × Nat)
  | [], formulas, var => Outcome.ret (formulas, var)
  | con :: cons, formulas, var =>
    match constructorFormula ta_sort clit term con var with
    | Outcome.assertionViolation => Outcome.assertionViolation
    | Outcome.ret (f, var1) => constructorLoop ta_sort clit term cons (f :: formulas) var1

/-- Embeds `InductionClauseIterator::performStructInductionOne(premise, origLit, lit, term,
rule)` up to its call of `produceClauses`: the hypothesis and the conclusion that it hands
over.  The term algebra of the sort of `term` (`getTermAlgebraOfSort`) is the parameter `ta`,
`Formula::quantify` the parameter `quantify`. -/
def performStructInductionOne (quantify : Kernel.Formula → Kernel.Formula) (ta : TermAlgebra)
    (lit : Literal) (term : Term) : Outcome (Kernel.Formula × Literal) :=
  let ta_sort := ta.sort
  let clit := Literal.complementaryLiteral lit
  match constructorLoop ta_sort clit term ta.constructors [] 0 with
  | Outcome.assertionViolation => Outcome.assertionViolation
  | Outcome.ret (formulas, var) =>
    if ¬ formulas.length > 0 then Outcome.assertionViolation
    else
      let indPremise :=
        match formulas with
        | [f] => f
        | fs => Kernel.Formula.JunctionFormula Kernel.JunctionConnective.AND fs
      let conclusion := TermReplacement.transform term (TermList.var var) clit
      let hypothesis := Kernel.Formula.BinaryFormula Kernel.BinaryConnective.IMP
        (quantify indPremise) (quantify (Kernel.Formula.AtomicFormula conclusion))
      Outcome.ret (hypothesis, conclusion)

/-! ### The hypothesis of scheme I as the specification writes it -/

/-- The conjunction of a list of formulas; the conjunction of one formula is the formula. -/
def conj : List Kernel.Formula → Kernel.Formula
  | [f] => f
  | fs => Kernel.Formula.JunctionFormula Kernel.JunctionConnective.AND fs

/-- The variables for the arguments of each constructor: the constructor number `i` gets
`arity` consecutive variables, from the first variable not used by the constructors before
it. -/
def caseVars : List TermAlgebraConstructor → Nat → List (List TermList)
  | [], _ => []
  | con :: cons, start =>
    (List.range con.arity).map (fun j => TermList.var (start + j)) ::
      caseVars cons (start + con.arity)

/-- The number of arguments of all constructors. -/
def totalArity (cons : List TermAlgebraConstructor) : Nat := (cons.map (fun c => c.arity)).sum

/-- The formula `F_i` of a constructor with the variables `xs` for its arguments, for the
literal context `L`: `L[c(xs)]` for a constructor that is not recursive, and
`(⋀ L[x_j]) → L[c(xs)]`, over the arguments `x_j` of the sort `S`, for a recursive one. -/
def schemeOneCase (L : TermList → Literal) (S : Nat) (con : TermAlgebraConstructor)
    (xs : List TermList) : Kernel.Formula :=
  if con.recursive then
    Kernel.Formula.BinaryFormula Kernel.BinaryConnective.IMP
      (conj (((xs.zip con.argSorts).filter (fun p => decide (p.2 = S))).map
        (fun p => Kernel.Formula.AtomicFormula (L p.1))))
      (Kernel.Formula.AtomicFormula (L (TermList.term con.functor xs)))
  else Kernel.Formula.AtomicFormula (L (TermList.term con.functor xs))

/-- The formulas `F_i` of the constructors, in the order of the constructors. -/
def schemeOneCases (L : TermList → Literal) (S : Nat) (cons : List TermAlgebraConstructor)
    (start : Nat) : List Kernel.Formula :=
  List.zipWith (schemeOneCase L S) cons (caseVars cons start)

/-- The hypothesis of scheme I: `(∀. ⋀_i F_i) → ∀y. L[y]`, with the conjuncts in the order in
which the code lists them (last constructor first) and `y` the first variable not used for
an argument. -/
def schemeOne (quantify : Kernel.Formula → Kernel.Formula) (L : TermList → Literal)
    (ta : TermAlgebra) : Kernel.Formula :=
  Kernel.Formula.BinaryFormula Kernel.BinaryConnective.IMP
    (quantify (conj (schemeOneCases L ta.sort ta.constructors 0).reverse))
    (quantify (Kernel.Formula.AtomicFormula (L (TermList.var (totalArity ta.constructors)))))

/-- The hypothesis of scheme I with the conjuncts in the order of the constructors, as §4.8
writes it for lists (`¬L[nil]` before the formula of `cons`); the spec side of the
comparison. -/
def schemeOneInOrder (quantify : Kernel.Formula → Kernel.Formula) (L : TermList → Literal)
    (ta : TermAlgebra) : Kernel.Formula :=
  Kernel.Formula.BinaryFormula Kernel.BinaryConnective.IMP
    (quantify (conj (schemeOneCases L ta.sort ta.constructors 0)))
    (quantify (Kernel.Formula.AtomicFormula (L (TermList.var (totalArity ta.constructors)))))

end InductionClauseIterator

/-- The list algebra of the sample: the sort 7 with the constructors `nil` (function 20)
and `cons` (function 21), whose first argument has the sort 1 and whose second argument is a
list. -/
def sampleListAlgebra : TermAlgebra :=
  { sort := 7
    constructors := [{ functor := Symbol.user 20, argSorts := [], rangeSort := 7 },
                     { functor := Symbol.user 21, argSorts := [1, 7], rangeSort := 7 }] }

/-- The list constant `l` (function 22) as a `Term`. -/
def sampleListTerm : Term := { functor := Symbol.user 22, args := [] }

/-- The literal `¬p(l)` of the sample. -/
def sampleListLiteral : Literal :=
  { functor := PredSymbol.user 7, polarity := false, args := [sampleListTerm.toTermList] }

/-- The list `f(nil)` as a `Term`, for a function `f` (function 23) from lists to lists. -/
def sampleNestedListTerm : Term :=
  { functor := Symbol.user 23, args := [TermList.term (Symbol.user 20) []] }

/-- The function `f` of the sample applied to a list. -/
def sampleListF (t : TermList) : TermList := TermList.term (Symbol.user 23) [t]

/-- The literal `¬p(f(f(nil)))` of the sample: the term `f(nil)` occurs once in it, below
`f`. -/
def sampleNestedListLiteral : Literal :=
  { functor := PredSymbol.user 7, polarity := false,
    args := [sampleListF sampleNestedListTerm.toTermList] }

/-! # Theorems -/

/-! ## Distinct-equality simplification -/

namespace DistinctEqualitySimplifier

theorem mustBeDistinct_isSome_iff (sig : Signature) (t1 t2 : TermList) :
    (mustBeDistinct sig t1 t2).isSome = true ↔ SharesDistinctGroup sig t1 t2 := by
  unfold SharesDistinctGroup
  constructor
  · intro h
    unfold mustBeDistinct at h
    split at h
    · rename_i fn1 fn2
      simp only at h
      split at h
      · simp at h
      · split at h
        · simp at h
        · rw [List.find?_isSome] at h
          obtain ⟨grp, hg1, hg2⟩ := h
          exact ⟨fn1, fn2, grp, rfl, rfl, hg1, by simpa using hg2⟩
    · simp at h
  · rintro ⟨f, g, grp, rfl, rfl, h1, h2⟩
    unfold mustBeDistinct
    simp only
    have e1 : (sig.distinctGroups f).isEmpty = false := by
      cases hd : sig.distinctGroups f with
      | nil => rw [hd] at h1; cases h1
      | cons _ _ => rfl
    have e2 : (sig.distinctGroups g).isEmpty = false := by
      cases hd : sig.distinctGroups g with
      | nil => rw [hd] at h2; cases h2
      | cons _ _ => rfl
    rw [e1, e2]
    simp only [Bool.false_eq_true, if_false]
    rw [List.find?_isSome]
    exact ⟨grp, h1, by simpa using h2⟩

theorem isDistinctEquality_iff (sig : Signature) (lit : Literal) :
    isDistinctEquality sig lit = true ↔
      (lit.isEquality = true ∧ SharesDistinctGroup sig (lit.nthArgument 0) (lit.nthArgument 1)) := by
  unfold isDistinctEquality
  rw [Bool.and_eq_true, mustBeDistinct_isSome_iff]

theorem canSimplify_eq (sig : Signature) (cl : Clause) :
    canSimplify sig cl = cl.lits.any (isDistinctEquality sig) := rfl

theorem distinctSimplifyLoop_eq (sig : Signature) (ls lits : List Literal) :
    simplifyLoop sig ls lits =
      if ls.any (fun l => isDistinctEquality sig l && l.isNegative) then none
      else some (lits ++ ls.filter (fun l => !isDistinctEquality sig l)) := by
  induction ls generalizing lits with
  | nil => simp [simplifyLoop]
  | cons l rest ih =>
    unfold simplifyLoop
    have hd : isDistinctEquality sig l =
        (l.isEquality && (mustBeDistinct sig (l.nthArgument 0) (l.nthArgument 1)).isSome) := rfl
    by_cases h : isDistinctEquality sig l = true
    · have h2 : (!l.isEquality ||
          !(mustBeDistinct sig (l.nthArgument 0) (l.nthArgument 1)).isSome) = false := by
        rw [hd, Bool.and_eq_true] at h
        simp [h.1, h.2]
      rw [h2]
      by_cases hn : l.isNegative = true
      · simp [h, hn]
      · simp [h, hn, ih]
    · have h2 : (!l.isEquality ||
          !(mustBeDistinct sig (l.nthArgument 0) (l.nthArgument 1)).isSome) = true := by
        rw [hd] at h
        cases h3 : l.isEquality <;> cases h4 : (mustBeDistinct sig (l.nthArgument 0) (l.nthArgument 1)).isSome <;> simp_all
      rw [h2]
      simp [h, ih]

theorem canSimplify_iff (sig : Signature) (cl : Clause) :
    canSimplify sig cl = true ↔ ∃ lit ∈ cl.lits, isDistinctEquality sig lit = true := by
  rw [canSimplify_eq, List.any_eq_true]

theorem simplify_of_canSimplify (sig : Signature) (cl : Clause)
    (h : canSimplify sig cl = true) :
    simplify sig cl =
      if cl.lits.any (fun l => isDistinctEquality sig l && l.isNegative) then Outcome.ret none
      else Outcome.ret (some (Clause.fromStack
        (cl.lits.filter (fun l => !isDistinctEquality sig l)) cl.inputType)) := by
  have hlt : (cl.lits.filter (fun l => !isDistinctEquality sig l)).length < cl.length := by
    obtain ⟨lit, hmem, hd⟩ := (canSimplify_iff sig cl).1 h
    unfold Clause.length
    rw [List.length_filter_lt_length_iff_exists]
    exact ⟨lit, hmem, by simp [hd]⟩
  unfold simplify
  rw [h, distinctSimplifyLoop_eq]
  by_cases hn : cl.lits.any (fun l => isDistinctEquality sig l && l.isNegative) = true
  · simp [hn]
  · simp only [hn, Bool.not_true, Bool.false_eq_true, if_false, List.nil_append]
    rw [if_pos hlt]

/-- C4: whenever a clause contains a negative equality whose two sides are constants
sharing a distinct group, `simplify` returns nothing (the clause is discarded). -/
theorem simplify_discards_clause_with_negative_distinct (sig : Signature) (cl : Clause)
    (lit : Literal) (hmem : lit ∈ cl.lits) (heq : lit.isEquality = true)
    (hneg : lit.isNegative = true)
    (hshare : SharesDistinctGroup sig (lit.nthArgument 0) (lit.nthArgument 1)) :
    simplify sig cl = Outcome.ret none := by
  have hd : isDistinctEquality sig lit = true := (isDistinctEquality_iff sig lit).2 ⟨heq, hshare⟩
  have hc : canSimplify sig cl = true := (canSimplify_iff sig cl).2 ⟨lit, hmem, hd⟩
  rw [simplify_of_canSimplify sig cl hc]
  have hany : cl.lits.any (fun l => isDistinctEquality sig l && l.isNegative) = true := by
    rw [List.any_eq_true]
    exact ⟨lit, hmem, by simp [hd, hneg]⟩
  rw [if_pos hany]

/-- Witness for C4: the clause `a ≠ b ∨ r(x)` with `a`, `b` in one distinct group is
discarded. -/
theorem simplify_discards_clause_with_negative_distinct_witness :
    simplify sampleSig
      { lits := [Literal.createEquality false sampleA sampleB, sampleR],
        inputType := InputType.AXIOM, numSelected := 1 } = Outcome.ret none :=
  simplify_discards_clause_with_negative_distinct sampleSig _
    (Literal.createEquality false sampleA sampleB) (by decide) (by decide) (by decide)
    ⟨Symbol.user 0, Symbol.user 1, 0, rfl, rfl, by decide, by decide⟩

/-- C5: for a clause with no negative must-be-distinct equality and at least one positive
must-be-distinct equality, `simplify` returns a clause whose literals are exactly the input
literals that are not positive must-be-distinct equalities, in the original order. -/
theorem simplify_drops_positive_distinct (sig : Signature) (cl : Clause)
    (hnoneg : ∀ l ∈ cl.lits, ¬ (isDistinctEquality sig l = true ∧ l.isNegative = true))
    (hpos : ∃ l ∈ cl.lits, isDistinctEquality sig l = true ∧ l.isPositive = true) :
    ∃ res : Clause, simplify sig cl = Outcome.ret (some res) ∧
      res.lits = cl.lits.filter (fun l => !(isDistinctEquality sig l && l.isPositive)) := by
  obtain ⟨l0, hmem0, hd0, _⟩ := hpos
  have hc : canSimplify sig cl = true := (canSimplify_iff sig cl).2 ⟨l0, hmem0, hd0⟩
  have hany : cl.lits.any (fun l => isDistinctEquality sig l && l.isNegative) = false := by
    rw [Bool.eq_false_iff]
    intro h
    rw [List.any_eq_true] at h
    obtain ⟨l, hl, hp⟩ := h
    rw [Bool.and_eq_true] at hp
    exact hnoneg l hl hp
  refine ⟨Clause.fromStack (cl.lits.filter (fun l => !isDistinctEquality sig l)) cl.inputType,
    ?_, ?_⟩
  · rw [simplify_of_canSimplify sig cl hc, hany]
    simp only [Bool.false_eq_true, if_false]
  · show cl.lits.filter (fun l => !isDistinctEquality sig l) = _
    apply List.filter_congr
    intro l hl
    have hn := hnoneg l hl
    unfold Literal.isPositive
    unfold Literal.isNegative at hn
    cases hd : isDistinctEquality sig l <;> cases hp : l.polarity <;> simp_all

/-- Witness for C5: with `a`, `b` in one distinct group, `a = b ∨ r(x)` is simplified to
`r(x)`. -/
theorem simplify_drops_positive_distinct_witness :
    ∃ res : Clause, simplify sampleSig sampleDistinctClause = Outcome.ret (some res) ∧
      res.lits = [sampleR] :=
  simplify_drops_positive_distinct sampleSig sampleDistinctClause (by decide) (by decide)

/-- C6: `simplify` returns the identical input clause exactly when no literal of the clause
is an equality between two constants that share a distinct group. -/
theorem simplify_returns_input_iff (sig : Signature) (cl : Clause) :
    simplify sig cl = Outcome.ret (some cl) ↔
      ¬ ∃ lit ∈ cl.lits, lit.isEquality = true ∧
          SharesDistinctGroup sig (lit.nthArgument 0) (lit.nthArgument 1) := by
  have hiff : canSimplify sig cl = true ↔ ∃ lit ∈ cl.lits, lit.isEquality = true ∧
      SharesDistinctGroup sig (lit.nthArgument 0) (lit.nthArgument 1) := by
    rw [canSimplify_iff]
    constructor
    · rintro ⟨lit, hm, hd⟩
      exact ⟨lit, hm, (isDistinctEquality_iff sig lit).1 hd⟩
    · rintro ⟨lit, hm, hd⟩
      exact ⟨lit, hm, (isDistinctEquality_iff sig lit).2 hd⟩
  rw [← hiff]
  constructor
  · intro h hc
    rw [simplify_of_canSimplify sig cl hc] at h
    split at h
    · cases h
    · have hlt : (cl.lits.filter (fun l => !isDistinctEquality sig l)).length < cl.lits.length := by
        obtain ⟨lit, hmem, hd⟩ := (canSimplify_iff sig cl).1 hc
        rw [List.length_filter_lt_length_iff_exists]
        exact ⟨lit, hmem, by simp [hd]⟩
      have h2 : (Clause.fromStack (cl.lits.filter (fun l => !isDistinctEquality sig l))
          cl.inputType).lits = cl.lits := by
        injection h with h
        injection h with h
        rw [h]
      rw [show (Clause.fromStack (cl.lits.filter (fun l => !isDistinctEquality sig l))
          cl.inputType).lits = cl.lits.filter (fun l => !isDistinctEquality sig l) from rfl] at h2
      rw [h2] at hlt
      exact absurd hlt (lt_irrefl _)
  · intro hc
    unfold simplify
    have : canSimplify sig cl = false := by
      cases h : canSimplify sig cl
      · rfl
      · exact absurd h hc
    rw [this]
    rfl

/-- C7: `simplify` never violates its assertion `lits.size() < clen`, and a clause it
returns is no longer than the input and strictly shorter when it is not the input itself. -/
theorem simplify_never_lengthens (sig : Signature) (cl : Clause) :
    simplify sig cl ≠ Outcome.assertionViolation ∧
      ∀ res : Clause, simplify sig cl = Outcome.ret (some res) →
        res.length ≤ cl.length ∧ (res ≠ cl → res.length < cl.length) := by
  by_cases hc : canSimplify sig cl = true
  · have hlt : (cl.lits.filter (fun l => !isDistinctEquality sig l)).length < cl.lits.length := by
      obtain ⟨lit, hmem, hd⟩ := (canSimplify_iff sig cl).1 hc
      rw [List.length_filter_lt_length_iff_exists]
      exact ⟨lit, hmem, by simp [hd]⟩
    rw [simplify_of_canSimplify sig cl hc]
    split
    · refine ⟨(by intro h; cases h), ?_⟩
      intro res h
      cases h
    · refine ⟨(by intro h; cases h), ?_⟩
      intro res h
      injection h with h
      injection h with h
      subst h
      exact ⟨Nat.le_of_lt hlt, fun _ => hlt⟩
  · have hf : canSimplify sig cl = false := by
      cases h : canSimplify sig cl
      · rfl
      · exact absurd h hc
    unfold simplify
    rw [hf]
    refine ⟨(by intro h; cases h), ?_⟩
    intro res h
    have : res = cl := by
      simp only [Bool.not_false, if_true] at h
      injection h with h
      injection h with h
      exact h.symm
    subst this
    exact ⟨le_refl _, fun hne => absurd rfl hne⟩

/-- C3 (evidence of the defect): on the valid unit clause `a = a`, with `a` in a distinct
group, `simplify` returns the empty clause; in every structure the input holds and the
result does not, so the result is not a consequence of the input and the distinctness
premises. -/
theorem simplify_reflexive_equality_not_consequence :
    simplify sampleSig sampleReflexiveClause =
        Outcome.ret (some (Clause.fromStack [] InputType.AXIOM)) ∧
      ∀ (D : Type) (M : Model D), M.respectsDistinctGroups sampleSig →
        sampleReflexiveClause.holds M ∧ ¬ (Clause.fromStack [] InputType.AXIOM).holds M := by
  refine ⟨by decide, ?_⟩
  intro D M _
  constructor
  · intro v
    refine ⟨Literal.createEquality true sampleA sampleA, by simp [sampleReflexiveClause], ?_⟩
    simp [Literal.holds, Literal.isEquality, Literal.createEquality, Literal.nthArgument]
  · intro h
    obtain ⟨l, hl, _⟩ := h (fun _ => M.func (Symbol.user 0) [])
    simp [Clause.fromStack] at hl

end DistinctEqualitySimplifier

/-! ## Interpreted evaluation -/

namespace TermTransformer

theorem transformArgs_length (T : TermList → TermList) (ts : List TermList) :
    (transformArgs T ts).length = ts.length := by
  induction ts with
  | nil => rfl
  | cons t ts ih => simp [transformArgs, ih]

mutual
/-- The bottom-up traversal is idempotent as soon as the node transformation fixes variables
and maps a compound term either to itself or to a term that it fixes and that has no
arguments. -/
theorem transformTerm_idem (T : TermList → TermList)
    (hvar : ∀ v, T (TermList.var v) = TermList.var v)
    (hterm : ∀ f args, T (TermList.term f args) = TermList.term f args ∨
      ∃ g, T (TermList.term f args) = TermList.term g [] ∧
        T (TermList.term g []) = TermList.term g []) :
    ∀ t, transformTerm T (transformTerm T t) = transformTerm T t
  | .var v => by simp [transformTerm, hvar]
  | .term f args => by
    have ih := transformArgs_idem T hvar hterm args
    rw [transformTerm]
    rcases hterm f (transformArgs T args) with h | ⟨g, h1, h2⟩
    · rw [h, transformTerm, ih, h]
    · rw [h1, transformTerm, transformArgs, h2]
/-- Idempotence of the traversal on argument lists. -/
theorem transformArgs_idem (T : TermList → TermList)
    (hvar : ∀ v, T (TermList.var v) = TermList.var v)
    (hterm : ∀ f args, T (TermList.term f args) = TermList.term f args ∨
      ∃ g, T (TermList.term f args) = TermList.term g [] ∧
        T (TermList.term g []) = TermList.term g []) :
    ∀ ts, transformArgs T (transformArgs T ts) = transformArgs T ts
  | [] => rfl
  | t :: ts => by
    rw [transformArgs, transformArgs, transformTerm_idem T hvar hterm t,
      transformArgs_idem T hvar hterm ts]
end

end TermTransformer

namespace InterpretedEvaluation

theorem tryEvaluateFunc_represents {T : Type} (ev : TypedEvaluator T) (f : Symbol)
    (args : List TermList) (res : TermList) (h : ev.tryEvaluateFunc f args = some res) :
    ∃ v, res = ev.representConstant v := by
  unfold TypedEvaluator.tryEvaluateFunc at h
  split at h
  · cases h
  · simp only at h
    split at h
    · cases h
    · split at h
      · cases h
      · split at h
        · rw [Option.map_eq_some'] at h
          obtain ⟨v, _, hv⟩ := h
          exact ⟨v, hv.symm⟩
        · split at h
          · cases h
          · rw [Option.map_eq_some'] at h
            obtain ⟨v, _, hv⟩ := h
            exact ⟨v, hv.symm⟩

theorem evals_tryEvaluateFunc_numeral (ev : Evaluator) (hev : ev ∈ LiteralSimplifier.evals)
    (f : Symbol) (args : List TermList) (res : TermList)
    (h : ev.tryEvaluateFunc f args = some res) :
    ∃ g, Theory.isInterpretedConstant g = true ∧ res = TermList.term g [] := by
  simp only [LiteralSimplifier.evals, List.mem_cons, List.mem_singleton, List.mem_nil_iff,
    or_false] at hev
  rcases hev with rfl | rfl | rfl
  · obtain ⟨v, hv⟩ := tryEvaluateFunc_represents RealEvaluator f args res h
    exact ⟨Symbol.realConstant v, rfl, hv⟩
  · obtain ⟨v, hv⟩ := tryEvaluateFunc_represents RatEvaluator f args res h
    exact ⟨Symbol.rationalConstant v, rfl, hv⟩
  · obtain ⟨v, hv⟩ := tryEvaluateFunc_represents IntEvaluator f args res h
    exact ⟨Symbol.integerConstant v, rfl, hv⟩

theorem transform_numeral (g : Symbol) (hg : Theory.isInterpretedConstant g = true)
    (args : List TermList) :
    LiteralSimplifier.transform (TermList.term g args) = TermList.term g args := by
  have hi : Theory.interpretFunction g = none := by
    cases g <;> simp_all [Theory.isInterpretedConstant, Theory.interpretFunction]
  unfold LiteralSimplifier.transform
  have : (LiteralSimplifier.evals.findSome? (fun ev =>
      if !ev.canEvaluateFunc g then none else ev.tryEvaluateFunc g args)) = none := by
    rw [List.findSome?_eq_none_iff]
    intro ev _
    simp [Evaluator.canEvaluateFunc, hi]
  simp only [this]

theorem transform_var (v : Nat) :
    LiteralSimplifier.transform (TermList.var v) = TermList.var v := rfl

theorem transform_term_cases (f : Symbol) (args : List TermList) :
    LiteralSimplifier.transform (TermList.term f args) = TermList.term f args ∨
      ∃ g, LiteralSimplifier.transform (TermList.term f args) = TermList.term g [] ∧
        LiteralSimplifier.transform (TermList.term g []) = TermList.term g [] := by
  cases hfs : LiteralSimplifier.evals.findSome? (fun ev =>
      if !ev.canEvaluateFunc f then none else ev.tryEvaluateFunc f args) with
  | none =>
    left
    simp only [LiteralSimplifier.transform, hfs]
  | some res =>
    right
    have hfs2 := hfs
    rw [List.findSome?_eq_some_iff] at hfs2
    obtain ⟨l1, ev, l2, hl, hres, _⟩ := hfs2
    have hev : ev ∈ LiteralSimplifier.evals := by rw [hl]; simp
    have hres2 : ev.tryEvaluateFunc f args = some res := by
      by_cases hc : ev.canEvaluateFunc f = true
      · simpa [hc] using hres
      · simp [hc] at hres
    obtain ⟨g, hg, hr⟩ := evals_tryEvaluateFunc_numeral ev hev f args res hres2
    refine ⟨g, ?_, transform_numeral g hg []⟩
    simp only [LiteralSimplifier.transform, hfs, hr]

/-- The traversal of a literal with `LiteralSimplifier::transform` is idempotent. -/
theorem transformLiteral_idem (lit : Literal) :
    TermTransformer.transformLiteral LiteralSimplifier.transform
        (TermTransformer.transformLiteral LiteralSimplifier.transform lit) =
      TermTransformer.transformLiteral LiteralSimplifier.transform lit := by
  unfold TermTransformer.transformLiteral
  simp only
  rw [TermTransformer.transformArgs_idem LiteralSimplifier.transform transform_var
    transform_term_cases]

theorem evaluate_simplified (lit res : Literal)
    (h : LiteralSimplifier.evaluate lit = LiteralResult.simplified res) :
    res = TermTransformer.transformLiteral LiteralSimplifier.transform lit ∧
      LiteralSimplifier.evaluate res = LiteralResult.notModified := by
  unfold LiteralSimplifier.evaluate at h
  simp only at h
  split at h
  · cases h
  · rename_i hnone
    split at h
    · injection h with h
      subst h
      refine ⟨rfl, ?_⟩
      unfold LiteralSimplifier.evaluate
      simp only
      rw [transformLiteral_idem, hnone]
      simp
    · cases h

/-- A literal built by `simplifyLiteral` is not modified by a second call. -/
theorem simplifyLiteral_simplified (lit res : Literal)
    (h : simplifyLiteral lit = LiteralResult.simplified res) :
    simplifyLiteral res = LiteralResult.notModified := by
  unfold simplifyLiteral at h
  split at h
  · cases h
  · obtain ⟨_, h2⟩ := evaluate_simplified lit res h
    unfold simplifyLiteral
    split
    · rfl
    · exact h2

/-- What the loop keeps of a literal. -/
theorem evalSimplifyLoop_eq (ls newLits : List Literal) (modified : Bool) :
    simplifyLoop ls newLits modified =
      if ls.any (fun l => decide (simplifyLiteral l = LiteralResult.constant true)) then none
      else some
        (newLits ++ (ls.filter (fun l =>
            decide (simplifyLiteral l ≠ LiteralResult.constant false))).map simplifiedForm,
          modified || ls.any (fun l => decide (simplifyLiteral l ≠ LiteralResult.notModified))) := by
  induction ls generalizing newLits modified with
  | nil => simp [simplifyLoop]
  | cons l rest ih =>
    unfold simplifyLoop
    cases hl : simplifyLiteral l with
    | notModified =>
      simp only [ih]
      simp [hl, simplifiedForm]
    | constant b =>
      cases b with
      | true => simp [hl]
      | false =>
        simp only [ih]
        simp [hl]
    | simplified r =>
      simp only [ih]
      simp [hl, simplifiedForm]

theorem simplifyLoop_of_notModified (ls newLits : List Literal) (modified : Bool)
    (h : ∀ l ∈ ls, simplifyLiteral l = LiteralResult.notModified) :
    simplifyLoop ls newLits modified = some (newLits ++ ls, modified) := by
  induction ls generalizing newLits with
  | nil => simp [simplifyLoop]
  | cons l rest ih =>
    unfold simplifyLoop
    rw [h l (List.mem_cons_self _ _)]
    simp only
    rw [ih _ (fun x hx => h x (List.mem_cons_of_mem _ hx))]
    simp

theorem simplifiedForm_notModified (l : Literal)
    (h : simplifyLiteral l ≠ LiteralResult.constant false)
    (h2 : simplifyLiteral l ≠ LiteralResult.constant true) :
    simplifyLiteral (simplifiedForm l) = LiteralResult.notModified := by
  unfold simplifiedForm
  cases hl : simplifyLiteral l with
  | notModified => simpa using hl
  | constant b => cases b <;> simp_all
  | simplified r => exact simplifyLiteral_simplified l r hl

/-- C8: interpreted evaluation is idempotent at clause level: when `simplify` returns a
clause, simplifying that clause again returns it unchanged. -/
theorem simplify_idempotent (cl res : Clause) (h : simplify cl = some res) :
    simplify res = some res := by
  unfold simplify at h
  rw [evalSimplifyLoop_eq] at h
  split at h
  · cases h
  · rename_i newLits modified heq
    split at heq
    · cases heq
    · rename_i hany
      injection heq with heq
      injection heq with hl hm
      simp only [List.nil_append] at hl
      have hstable : ∀ l ∈ newLits, simplifyLiteral l = LiteralResult.notModified := by
        intro l hmem
        rw [← hl, List.mem_map] at hmem
        obtain ⟨l0, hl0, rfl⟩ := hmem
        rw [List.mem_filter] at hl0
        apply simplifiedForm_notModified l0 (by simpa using hl0.2)
        intro hc
        apply hany
        rw [List.any_eq_true]
        exact ⟨l0, hl0.1, by simpa using hc⟩
      by_cases hmod : modified = true
      · rw [hmod] at h
        simp only [Bool.not_true, Bool.false_eq_true, if_false] at h
        injection h with h
        subst h
        unfold simplify
        rw [simplifyLoop_of_notModified _ _ _ hstable]
        simp
      · have hmod2 : modified = false := by
          cases modified
          · rfl
          · exact absurd rfl hmod
        rw [hmod2] at h
        simp only [Bool.not_false, if_true] at h
        injection h with h
        subst h
        unfold simplify
        rw [evalSimplifyLoop_eq]
        rw [if_neg hany]
        simp only [List.nil_append, Bool.false_or]
        have hm2 : cl.lits.any (fun l =>
            decide (simplifyLiteral l ≠ LiteralResult.notModified)) = false := by
          simpa [hmod2] using hm
        rw [hm2]
        simp

/-- Witness for C8: `(2 + 3) + x < 4 ∨ s(x)` is simplified to `5 + x < 4 ∨ s(x)`, which a
second run returns unchanged. -/
theorem simplify_idempotent_witness :
    simplify sampleOpenClause = some sampleOpenClauseEvaluated ∧
      simplify sampleOpenClauseEvaluated = some sampleOpenClauseEvaluated :=
  ⟨by decide, simplify_idempotent sampleOpenClause sampleOpenClauseEvaluated (by decide)⟩

/-- C9: `simplify` returns nothing for every clause in which some literal evaluates to the
constant true (the loop returns at the first such literal and builds no clause). -/
theorem simplify_deletes_clause_with_true_literal (cl : Clause) (lit : Literal)
    (hmem : lit ∈ cl.lits) (htrue : simplifyLiteral lit = LiteralResult.constant true) :
    simplify cl = none := by
  unfold simplify
  rw [evalSimplifyLoop_eq]
  have hany : cl.lits.any (fun l => decide (simplifyLiteral l = LiteralResult.constant true))
      = true := by
    rw [List.any_eq_true]
    exact ⟨lit, hmem, by simpa using htrue⟩
  rw [if_pos hany]

/-- Witness for C9: `3 < 2 + 3 ∨ s(x)` is deleted. -/
theorem simplify_deletes_clause_with_true_literal_witness :
    simplify sampleTrueClause = none :=
  simplify_deletes_clause_with_true_literal sampleTrueClause
    (sampleLess (sampleNum 3) (samplePlus (sampleNum 2) (sampleNum 3))) (by decide) (by decide)

/-- C10: for a clause with no literal evaluating to true, `simplify` returns the clause made
of the literals that do not evaluate to false, each replaced by its simplified form, in the
original order. -/
theorem simplify_keeps_simplified_literals (cl : Clause)
    (hnotrue : ∀ l ∈ cl.lits, simplifyLiteral l ≠ LiteralResult.constant true) :
    ∃ res : Clause, simplify cl = some res ∧
      res.lits = (cl.lits.filter (fun l =>
        decide (simplifyLiteral l ≠ LiteralResult.constant false))).map simplifiedForm := by
  have hany : cl.lits.any (fun l => decide (simplifyLiteral l = LiteralResult.constant true))
      = false := by
    rw [Bool.eq_false_iff]
    intro h
    rw [List.any_eq_true] at h
    obtain ⟨l, hl, hp⟩ := h
    exact hnotrue l hl (by simpa using hp)
  unfold simplify
  rw [evalSimplifyLoop_eq, hany]
  simp only [Bool.false_eq_true, if_false, List.nil_append, Bool.false_or]
  by_cases hmod : cl.lits.any (fun l => decide (simplifyLiteral l ≠ LiteralResult.notModified))
      = true
  · rw [hmod]
    exact ⟨_, rfl, rfl⟩
  · have hmod2 : cl.lits.any (fun l => decide (simplifyLiteral l ≠ LiteralResult.notModified))
        = false := by
      rw [Bool.eq_false_iff]
      exact hmod
    rw [hmod2]
    refine ⟨cl, rfl, ?_⟩
    have hall : ∀ l ∈ cl.lits, simplifyLiteral l = LiteralResult.notModified := by
      intro l hl
      by_contra hne
      apply hmod
      rw [List.any_eq_true]
      exact ⟨l, hl, by simpa using hne⟩
    have hfilter : cl.lits.filter (fun l =>
        decide (simplifyLiteral l ≠ LiteralResult.constant false)) = cl.lits := by
      rw [List.filter_eq_self]
      intro l hl
      simp [hall l hl]
    rw [hfilter]
    symm
    calc cl.lits.map simplifiedForm = cl.lits.map id := by
          apply List.map_congr_left
          intro l hl
          simp [simplifiedForm, hall l hl]
      _ = cl.lits := List.map_id _

/-- Witness for C10: `2 + 3 < 4 ∨ s(x)` is simplified to `s(x)`. -/
theorem simplify_keeps_simplified_literals_witness :
    ∃ res : Clause, simplify sampleEvalClause = some res ∧ res.lits = [sampleS] :=
  simplify_keeps_simplified_literals sampleEvalClause (by decide)

end InterpretedEvaluation

/-! ## Substitution and unification -/

namespace TermList

mutual
theorem subst_comp (f g : Nat → TermList) :
    ∀ t : TermList, (t.subst f).subst g = t.subst (fun v => (f v).subst g)
  | .var v => by simp [TermList.subst]
  | .term h args => by
    rw [TermList.subst, TermList.subst, TermList.subst, substArgs_comp f g args]
theorem substArgs_comp (f g : Nat → TermList) :
    ∀ ts : List TermList,
      TermList.substArgs g (TermList.substArgs f ts) =
        TermList.substArgs (fun v => (f v).subst g) ts
  | [] => rfl
  | t :: ts => by
    rw [TermList.substArgs, TermList.substArgs, TermList.substArgs, subst_comp f g t,
      substArgs_comp f g ts]
end

mutual
theorem subst_var : ∀ t : TermList, t.subst TermList.var = t
  | .var v => rfl
  | .term h args => by rw [TermList.subst, substArgs_var args]
theorem substArgs_var : ∀ ts : List TermList, TermList.substArgs TermList.var ts = ts
  | [] => rfl
  | t :: ts => by rw [TermList.substArgs, subst_var t, substArgs_var ts]
end

mutual
theorem subst_single_of_not_containsVar (x : Nat) (u : TermList) :
    ∀ t : TermList, t.containsVar x = false → t.subst (TermList.single x u) = t
  | .var v => by
    intro h
    have hv : v ≠ x := by simpa [TermList.containsVar] using h
    simp [TermList.subst, TermList.single, hv]
  | .term h args => by
    intro hc
    rw [TermList.containsVar] at hc
    rw [TermList.subst, substArgs_single_of_not_containsVar x u args hc]
theorem substArgs_single_of_not_containsVar (x : Nat) (u : TermList) :
    ∀ ts : List TermList, TermList.containsVarArgs x ts = false →
      TermList.substArgs (TermList.single x u) ts = ts
  | [] => fun _ => rfl
  | t :: ts => by
    intro hc
    rw [TermList.containsVarArgs, Bool.or_eq_false_iff] at hc
    rw [TermList.substArgs, subst_single_of_not_containsVar x u t hc.1,
      substArgs_single_of_not_containsVar x u ts hc.2]
end

theorem substArgs_eq_of_zip (δ : Nat → TermList) :
    ∀ (as bs : List TermList), as.length = bs.length →
      (∀ p ∈ as.zip bs, p.1.subst δ = p.2.subst δ) →
      TermList.substArgs δ as = TermList.substArgs δ bs
  | [], [], _, _ => rfl
  | [], _ :: _, hlen, _ => by simp at hlen
  | _ :: _, [], hlen, _ => by simp at hlen
  | a :: as, b :: bs, hlen, h => by
    have h1 : a.subst δ = b.subst δ := h (a, b) (by simp)
    have h2 : TermList.substArgs δ as = TermList.substArgs δ bs :=
      substArgs_eq_of_zip δ as bs (by simpa using hlen)
        (fun p hp => h p (by simp only [List.zip_cons_cons]; exact List.mem_cons_of_mem _ hp))
    rw [TermList.substArgs, TermList.substArgs, h1, h2]

theorem substArgs_eq_map (f : Nat → TermList) :
    ∀ ts : List TermList, TermList.substArgs f ts = ts.map (TermList.subst f)
  | [] => rfl
  | t :: ts => by rw [TermList.substArgs, substArgs_eq_map f ts, List.map_cons]

end TermList

namespace RobSubstitution

theorem lookup_empty (v : Nat) : empty.lookup v = TermList.var v := rfl

theorem lookup_bind (σ : RobSubstitution) (x : Nat) (t : TermList) (v : Nat) :
    (σ.bind x t).lookup v = (σ.lookup v).subst (TermList.single x t) := by
  obtain ⟨bs⟩ := σ
  unfold lookup bind
  simp only
  induction bs with
  | nil =>
    by_cases hv : v = x
    · subst hv
      simp [List.lookup, TermList.subst, TermList.single]
    · have : (v == x) = false := by simpa using hv
      simp [List.lookup, TermList.subst, TermList.single, hv, this]
  | cons b bs ih =>
    obtain ⟨a, u⟩ := b
    by_cases hv : v = a
    · subst hv
      simp [List.lookup]
    · have : (v == a) = false := by simpa using hv
      simp only [List.map_cons, List.cons_append, List.lookup, this]
      exact ih

/-- Soundness of the unification loop: when it succeeds without emitting a constraint, the
final substitution is the one it started from followed by a unifier of all pending pairs. -/
theorem unifyLoop_sound (hndlr : Option (TermList → TermList → Bool)) :
    ∀ (fuel : Nat) (eqs : List (TermList × TermList)) (σ τ : RobSubstitution),
      unifyLoop hndlr fuel eqs σ = some (τ, []) →
      ∃ δ : Nat → TermList, (∀ v, τ.lookup v = (σ.lookup v).subst δ) ∧
        ∀ p ∈ eqs, p.1.subst δ = p.2.subst δ := by
  intro fuel
  induction fuel with
  | zero =>
    intro eqs σ τ h
    simp [unifyLoop] at h
  | succ fuel ih =>
    intro eqs σ τ h
    cases eqs with
    | nil =>
      simp only [unifyLoop, Option.some.injEq, Prod.mk.injEq, and_true] at h
      subst h
      exact ⟨TermList.var, fun v => (TermList.subst_var _).symm, by simp⟩
    | cons p rest =>
      obtain ⟨s, t⟩ := p
      have bindCase : ∀ (x : Nat) (u : TermList), u.containsVar x = false →
          unifyLoop hndlr fuel
            (rest.map (fun p => (p.1.subst (TermList.single x u), p.2.subst (TermList.single x u))))
            (σ.bind x u) = some (τ, []) →
          ∃ δ : Nat → TermList, (∀ v, τ.lookup v = (σ.lookup v).subst δ) ∧
            (TermList.var x).subst δ = u.subst δ ∧ ∀ p ∈ rest, p.1.subst δ = p.2.subst δ := by
        intro x u hocc hrec
        obtain ⟨δ, hδ1, hδ2⟩ := ih _ _ _ hrec
        refine ⟨fun v => (TermList.single x u v).subst δ, ?_, ?_, ?_⟩
        · intro v
          rw [hδ1 v, lookup_bind, TermList.subst_comp]
        · have e1 : (TermList.var x).subst (fun v => (TermList.single x u v).subst δ) =
              u.subst δ := by
            simp [TermList.subst, TermList.single]
          have e2 : u.subst (fun v => (TermList.single x u v).subst δ) = u.subst δ := by
            rw [← TermList.subst_comp, TermList.subst_single_of_not_containsVar x u u hocc]
          rw [e1, e2]
        · intro p hp
          rw [← TermList.subst_comp, ← TermList.subst_comp]
          exact hδ2 (p.1.subst (TermList.single x u), p.2.subst (TermList.single x u))
            (List.mem_map.2 ⟨p, hp, rfl⟩)
      unfold unifyLoop at h
      by_cases hst : s = t
      · rw [if_pos hst] at h
        obtain ⟨δ, hδ1, hδ2⟩ := ih _ _ _ h
        refine ⟨δ, hδ1, ?_⟩
        intro p hp
        rcases List.mem_cons.1 hp with rfl | hp
        · simp [hst]
        · exact hδ2 p hp
      · rw [if_neg hst] at h
        cases s with
        | var x =>
          simp only at h
          by_cases hocc : t.containsVar x = true
          · simp [hocc] at h
          · have hocc2 : t.containsVar x = false := by simpa using hocc
            rw [if_neg hocc] at h
            obtain ⟨δ, h1, h2, h3⟩ := bindCase x t hocc2 h
            refine ⟨δ, h1, ?_⟩
            intro p hp
            rcases List.mem_cons.1 hp with rfl | hp
            · exact h2
            · exact h3 p hp
        | term f as =>
          cases t with
          | var y =>
            simp only at h
            by_cases hocc : (TermList.term f as).containsVar y = true
            · simp [hocc] at h
            · have hocc2 : (TermList.term f as).containsVar y = false := by simpa using hocc
              rw [if_neg hocc] at h
              obtain ⟨δ, h1, h2, h3⟩ := bindCase y (TermList.term f as) hocc2 h
              refine ⟨δ, h1, ?_⟩
              intro p hp
              rcases List.mem_cons.1 hp with rfl | hp
              · exact h2.symm
              · exact h3 p hp
          | term g bs =>
            simp only at h
            by_cases hfg : f = g ∧ as.length = bs.length
            · rw [if_pos hfg] at h
              obtain ⟨δ, hδ1, hδ2⟩ := ih _ _ _ h
              refine ⟨δ, hδ1, ?_⟩
              intro p hp
              rcases List.mem_cons.1 hp with rfl | hp
              · show (TermList.term f as).subst δ = (TermList.term g bs).subst δ
                rw [TermList.subst, TermList.subst, hfg.1,
                  TermList.substArgs_eq_of_zip δ as bs hfg.2
                    (fun q hq => hδ2 q (List.mem_append_left _ hq))]
              · exact hδ2 p (List.mem_append_right _ hp)
            · rw [if_neg hfg] at h
              cases hndlr with
              | none => simp at h
              | some handle =>
                simp only at h
                split at h
                · rw [Option.map_eq_some'] at h
                  obtain ⟨r, _, hr⟩ := h
                  simp at hr
                · cases h

/-- A unification that succeeds without constraint returns a unifier of the two terms. -/
theorem unify_sound (hndlr : Option (TermList → TermList → Bool)) (s t : TermList)
    (τ : RobSubstitution) (h : unify hndlr s t = some (τ, [])) : τ.apply s = τ.apply t := by
  obtain ⟨δ, h1, h2⟩ := unifyLoop_sound hndlr _ _ _ _ h
  have hτ : τ.lookup = δ := by
    funext v
    rw [h1 v, lookup_empty]
    rfl
  unfold apply
  rw [hτ]
  exact h2 (s, t) (by simp)

/-- Without a mismatch handler no constraint is ever emitted. -/
theorem unifyLoop_none_constraints :
    ∀ (fuel : Nat) (eqs : List (TermList × TermList)) (σ τ : RobSubstitution)
      (cs : List (TermList × TermList)),
      unifyLoop none fuel eqs σ = some (τ, cs) → cs = [] := by
  intro fuel
  induction fuel with
  | zero =>
    intro eqs σ τ cs h
    simp [unifyLoop] at h
  | succ fuel ih =>
    intro eqs σ τ cs h
    cases eqs with
    | nil =>
      simp only [unifyLoop, Option.some.injEq, Prod.mk.injEq] at h
      exact h.2.symm
    | cons p rest =>
      obtain ⟨s, t⟩ := p
      unfold unifyLoop at h
      split at h
      · exact ih _ _ _ _ h
      · split at h
        · split at h
          · cases h
          · exact ih _ _ _ _ h
        · split at h
          · cases h
          · exact ih _ _ _ _ h
        · split at h
          · exact ih _ _ _ _ h
          · simp at h

end RobSubstitution

/-! ## Equality resolution -/

namespace EqualityResolution

theorem copyLoop_some (subst : RobSubstitution) (litAfter : Option Literal)
    (greater : Literal → Literal → Bool) (numSelected : Nat) (lit : Literal) :
    ∀ (ls : List Literal) (i : Nat) (out : List Literal),
      copyLoop subst litAfter greater numSelected lit ls i = some out →
      out = (ls.filter (fun l => decide (l ≠ lit))).map subst.applyLit := by
  intro ls
  induction ls with
  | nil =>
    intro i out h
    simp only [copyLoop, Option.some.injEq] at h
    simp [← h]
  | cons curr rest ih =>
    intro i out h
    unfold copyLoop at h
    by_cases hc : curr ≠ lit
    · rw [if_pos hc] at h
      simp only at h
      split at h
      · cases h
      · rw [Option.map_eq_some'] at h
        obtain ⟨ls, hls, rfl⟩ := h
        rw [ih _ _ hls]
        simp [hc]
    · rw [if_neg hc] at h
      rw [ih _ _ h]
      have : curr = lit := by simpa using hc
      simp [this]

theorem unifySides_off (lit : Literal) (σ : RobSubstitution) (cs : List (TermList × TermList))
    (h : unifySides UnificationWithAbstraction.OFF lit = some (σ, cs)) : cs = [] := by
  unfold unifySides at h
  simp only [ne_eq, not_true_eq_false, decide_False, Bool.false_and, Bool.false_eq_true,
    if_false] at h
  exact RobSubstitution.unifyLoop_none_constraints _ _ _ _ _ h

theorem unifySides_sound (uwa : UnificationWithAbstraction) (lit : Literal)
    (σ : RobSubstitution) (h : unifySides uwa lit = some (σ, [])) :
    σ.apply (lit.nthArgument 0) = σ.apply (lit.nthArgument 1) := by
  unfold unifySides at h
  simp only at h
  repeat' split at h
  all_goals exact RobSubstitution.unify_sound _ _ _ _ h

/-- C1 (amended): when `ResultFn` returns a child for `s ≠ t` and the unification emitted no
abstraction constraint (always so when unification with abstraction is off), the unifier
`σ` makes `sσ` and `tσ` the same term and the child's literals are exactly the literals of
the clause other than `s ≠ t`, each with `σ` applied, in their original order. -/
theorem resultFn_child_without_constraints (uwa : UnificationWithAbstraction) (cl : Clause)
    (afterCheck : Bool) (greater : Literal → Literal → Bool) (lit : Literal) (child : Clause)
    (hchild : ResultFn uwa cl afterCheck greater lit = Outcome.ret (some child))
    (hnc : uwa = UnificationWithAbstraction.OFF ∨ ∃ σ, unifySides uwa lit = some (σ, [])) :
    ∃ σ : RobSubstitution, unifySides uwa lit = some (σ, []) ∧
      σ.apply (lit.nthArgument 0) = σ.apply (lit.nthArgument 1) ∧
      child.lits = (cl.lits.filter (fun l => decide (l ≠ lit))).map σ.applyLit := by
  unfold ResultFn at hchild
  split at hchild
  · cases hchild
  · split at hchild
    · cases hchild
    · split at hchild
      · cases hchild
      · rename_i subst constraints hu
        have hcs : constraints = [] := by
          rcases hnc with hoff | ⟨σ, hσ⟩
          · subst hoff
            exact unifySides_off lit subst constraints hu
          · rw [hu] at hσ
            injection hσ with hσ
            injection hσ with _ h2
        subst hcs
        refine ⟨subst, hu, unifySides_sound uwa lit subst hu, ?_⟩
        simp only [buildResult] at hchild
        split at hchild
        · cases hchild
        · rename_i copied hcopy
          have hcopied := copyLoop_some _ _ _ _ _ _ _ _ hcopy
          simp only [constraintLoop] at hchild
          split at hchild
          · injection hchild with hchild
            injection hchild with hchild
            rw [← hchild]
            simp [hcopied]
          · cases hchild

/-- Witness for C1 (amended): from `f(x) ≠ f(a) ∨ p(x)` equality resolution produces
`p(a)`. -/
theorem resultFn_child_without_constraints_witness :
    ∃ σ : RobSubstitution,
      unifySides UnificationWithAbstraction.OFF sampleResolvedLiteral = some (σ, []) ∧
      σ.apply (sampleF (TermList.var 0)) = σ.apply (sampleF sampleA) ∧
      [sampleP sampleA] =
        (sampleResolutionClause.lits.filter (fun l => decide (l ≠ sampleResolvedLiteral))).map
          σ.applyLit :=
  resultFn_child_without_constraints UnificationWithAbstraction.OFF sampleResolutionClause
    false (fun _ _ => false) sampleResolvedLiteral sampleResolutionChild (by decide)
    (Or.inl rfl)

/-- C1 fails as stated: under full abstraction, `ResultFn` applied to the selected literal
`a + 1 ≠ b * 2` of `a + 1 ≠ b * 2 ∨ p(a)` returns the child `p(a) ∨ a + 1 ≠ b * 2`; the
substitution does not unify the two sides and the child carries the constraint literal. -/
theorem resultFn_child_claim_fails_under_abstraction :
    ¬ ∀ (uwa : UnificationWithAbstraction) (cl : Clause) (afterCheck : Bool)
        (greater : Literal → Literal → Bool) (lit : Literal) (child : Clause)
        (σ : RobSubstitution) (cs : List (TermList × TermList)),
        lit ∈ cl.lits.take cl.numSelected → IsNegativeEqualityFn lit = true →
        ResultFn uwa cl afterCheck greater lit = Outcome.ret (some child) →
        unifySides uwa lit = some (σ, cs) →
        σ.apply (lit.nthArgument 0) = σ.apply (lit.nthArgument 1) ∧
          child.lits = (cl.lits.filter (fun l => decide (l ≠ lit))).map σ.applyLit := by
  intro h
  have h1 := h UnificationWithAbstraction.FULL sampleAbstractionClause false
    (fun _ _ => false) sampleAbstractedLiteral sampleAbstractionChild RobSubstitution.empty
    [(sampleAPlusOne, sampleBTimesTwo)] (by decide) (by decide) (by decide) (by decide)
  exact absurd h1.1 (by decide)

end EqualityResolution

/-! ## Subsumption -/

namespace MapBinder

theorem mem_of_lookup (v : Nat) (t : TermList) :
    ∀ l : List (Nat × TermList), l.lookup v = some t → (v, t) ∈ l
  | [], h => by simp [List.lookup] at h
  | (a, u) :: l, h => by
    by_cases hv : v = a
    · subst hv
      simp [List.lookup] at h
      simp [h]
    · have hb : (v == a) = false := by simpa using hv
      simp only [List.lookup, hb] at h
      exact List.mem_cons_of_mem _ (mem_of_lookup v t l h)

theorem bind_subset (b b1 : MapBinder) (v : Nat) (t : TermList) (h : b.bind v t = some b1) :
    ∀ p ∈ b.bindings, p ∈ b1.bindings := by
  unfold bind at h
  split at h
  · split at h
    · injection h with h
      subst h
      exact fun p hp => hp
    · cases h
  · injection h with h
    subst h
    exact fun p hp => List.mem_append_left _ hp

theorem bind_mem (b b1 : MapBinder) (v : Nat) (t : TermList) (h : b.bind v t = some b1) :
    (v, t) ∈ b1.bindings := by
  unfold bind at h
  split at h
  · rename_i aux hl
    split at h
    · rename_i haux
      injection h with h
      subst h
      subst haux
      exact mem_of_lookup v aux _ hl
    · cases h
  · injection h with h
    subst h
    simp

end MapBinder

namespace MatchingUtils

mutual
theorem matchTerms_subset :
    ∀ (base inst : TermList) (b b1 : MapBinder), matchTerms base inst b = some b1 →
      ∀ p ∈ b.bindings, p ∈ b1.bindings
  | .var v, inst, b, b1, h => by
    rw [matchTerms] at h
    exact MapBinder.bind_subset b b1 v inst h
  | .term _ _, .var _, _, _, h => by simp [matchTerms] at h
  | .term f as, .term g bs, b, b1, h => by
    rw [matchTerms] at h
    split at h
    · exact matchTermLists_subset as bs b b1 h
    · cases h
theorem matchTermLists_subset :
    ∀ (bases insts : List TermList) (b b1 : MapBinder),
      matchTermLists bases insts b = some b1 → ∀ p ∈ b.bindings, p ∈ b1.bindings
  | [], [], b, b1, h => by
    rw [matchTermLists] at h
    injection h with h
    subst h
    exact fun p hp => hp
  | [], _ :: _, _, _, h => by simp [matchTermLists] at h
  | _ :: _, [], _, _, h => by simp [matchTermLists] at h
  | a :: as, c :: cs, b, b1, h => by
    rw [matchTermLists] at h
    split at h
    · rename_i b2 h2
      intro p hp
      exact matchTermLists_subset as cs b2 b1 h p (matchTerms_subset a c b b2 h2 p hp)
    · cases h
end

mutual
/-- Soundness of matching: a substitution that agrees with the bindings of a successful
match maps the base term to the instance. -/
theorem matchTerms_sound :
    ∀ (base inst : TermList) (b b1 : MapBinder), matchTerms base inst b = some b1 →
      ∀ σ : Nat → TermList, (∀ p ∈ b1.bindings, σ p.1 = p.2) → base.subst σ = inst
  | .var v, inst, b, b1, h => by
    intro σ hσ
    rw [matchTerms] at h
    rw [TermList.subst]
    exact hσ (v, inst) (MapBinder.bind_mem b b1 v inst h)
  | .term _ _, .var _, _, _, h => by simp [matchTerms] at h
  | .term f as, .term g bs, b, b1, h => by
    intro σ hσ
    rw [matchTerms] at h
    split at h
    · rename_i hfg
      rw [TermList.subst, matchTermLists_sound as bs b b1 h σ hσ, hfg]
    · cases h
theorem matchTermLists_sound :
    ∀ (bases insts : List TermList) (b b1 : MapBinder),
      matchTermLists bases insts b = some b1 →
      ∀ σ : Nat → TermList, (∀ p ∈ b1.bindings, σ p.1 = p.2) →
        TermList.substArgs σ bases = insts
  | [], [], _, _, _ => fun _ _ => rfl
  | [], _ :: _, _, _, h => by simp [matchTermLists] at h
  | _ :: _, [], _, _, h => by simp [matchTermLists] at h
  | a :: as, c :: cs, b, b1, h => by
    intro σ hσ
    rw [matchTermLists] at h
    split at h
    · rename_i b2 h2
      have hsub := matchTermLists_subset as cs b2 b1 h
      rw [TermList.substArgs, matchTerms_sound a c b b2 h2 σ (fun p hp => hσ p (hsub p hp)),
        matchTermLists_sound as cs b2 b1 h σ hσ]
    · cases h
end

theorem matchReversedArgs_sound (base inst : Literal) (b b1 : MapBinder)
    (h : matchReversedArgs base inst b = some b1) (σ : Nat → TermList)
    (hσ : ∀ p ∈ b1.bindings, σ p.1 = p.2) :
    (base.nthArgument 0).subst σ = inst.nthArgument 1 ∧
      (base.nthArgument 1).subst σ = inst.nthArgument 0 := by
  unfold matchReversedArgs at h
  split at h
  · rename_i b2 h2
    have hsub := matchTerms_subset _ _ b2 b1 h
    exact ⟨matchTerms_sound _ _ b b2 h2 σ (fun p hp => hσ p (hsub p hp)),
      matchTerms_sound _ _ b2 b1 h σ hσ⟩
  · cases h

end MatchingUtils

namespace SMTSubsumption

open Minisat

theorem Extends.refl (st : PreMatching) : Extends st st :=
  ⟨le_refl _, fun _ h => h, rfl, fun _ w h => ⟨w, h, fun _ hb => hb⟩⟩

theorem Extends.trans {st st1 st2 : PreMatching} (h1 : Extends st st1) (h2 : Extends st1 st2) :
    Extends st st2 := by
  refine ⟨le_trans h1.1 h2.1, fun e he => h2.2.1 e (h1.2.1 e he), ?_, ?_⟩
  · rw [h2.2.2.1, h1.2.2.1]
  · intro j w hw
    obtain ⟨w1, hw1, hs1⟩ := h1.2.2.2 j w hw
    obtain ⟨w2, hw2, hs2⟩ := h2.2.2.2 j w1 hw1
    exact ⟨w2, hw2, fun b hb => hs2 b (hs1 b hb)⟩

theorem AltOK.mono {main_lits : List Literal} {st st1 : PreMatching} {base : Literal}
    {alt : Alt} (hext : Extends st st1) (h : AltOK main_lits st base alt) :
    AltOK main_lits st1 base alt := by
  obtain ⟨h1, h2, ⟨w, hw, hbw⟩, atom, hatom, hs⟩ := h
  obtain ⟨w1, hw1, hsub⟩ := hext.2.2.2 _ w hw
  exact ⟨lt_of_lt_of_le h1 hext.1, h2, ⟨w1, hw1, hsub _ hbw⟩, atom, hext.2.1 _ hatom, hs⟩

theorem pushBaseVar_length (j b : Nat) :
    ∀ ws : List (List Nat), (pushBaseVar j b ws).length = ws.length := by
  intro ws
  induction ws generalizing j with
  | nil => cases j <;> rfl
  | cons w ws ih =>
    cases j with
    | zero => rfl
    | succ j => simp [pushBaseVar, ih]

theorem pushBaseVar_get (b : Nat) :
    ∀ (ws : List (List Nat)) (j k : Nat) (w : List Nat), ws[k]? = some w →
      ∃ w1, (pushBaseVar j b ws)[k]? = some w1 ∧ (∀ x ∈ w, x ∈ w1) ∧ (k = j → b ∈ w1) := by
  intro ws
  induction ws with
  | nil =>
    intro j k w h
    simp at h
  | cons w0 ws ih =>
    intro j k w h
    cases j with
    | zero =>
      cases k with
      | zero =>
        simp only [List.getElem?_cons_zero, Option.some.injEq] at h
        subst h
        exact ⟨w0 ++ [b], by simp [pushBaseVar], fun x hx => List.mem_append_left _ hx,
          fun _ => by simp⟩
      | succ k =>
        rw [List.getElem?_cons_succ] at h
        exact ⟨w, by simp [pushBaseVar, h], fun x hx => hx, fun hk => by cases hk⟩
    | succ j =>
      cases k with
      | zero =>
        simp only [List.getElem?_cons_zero, Option.some.injEq] at h
        subst h
        exact ⟨w0, by simp [pushBaseVar], fun x hx => hx, fun hk => by cases hk⟩
      | succ k =>
        rw [List.getElem?_cons_succ] at h
        obtain ⟨w1, h1, h2, h3⟩ := ih j k w h
        refine ⟨w1, by simpa [pushBaseVar] using h1, h2, fun hk => h3 (by omega)⟩

theorem addAlt_spec (main_lits : List Literal) (base : Literal) (j : Nat) (inst_lit : Literal)
    (reversed : Bool) (binder : MapBinder) (st : PreMatching) (row : List Alt) (n0 : Nat)
    (hrow : ∀ alt ∈ row, AltOK main_lits st base alt ∧ n0 ≤ alt.b)
    (hn0 : n0 ≤ st.solver.nVars)
    (hmain : main_lits[j]? = some inst_lit)
    (hposs : ∃ w, st.possible_base_vars[j]? = some w)
    (hsound : ∀ σ : Nat → TermList, (∀ p ∈ binder.bindings, σ p.1 = p.2) →
      Literal.InstanceUpToOrientation σ base inst_lit) :
    Extends st (addAlt j inst_lit reversed binder st row).1 ∧
      ∀ alt ∈ (addAlt j inst_lit reversed binder st row).2,
        AltOK main_lits (addAlt j inst_lit reversed binder st row).1 base alt ∧ n0 ≤ alt.b := by
  have hext : Extends st (addAlt j inst_lit reversed binder st row).1 := by
    refine ⟨Nat.le_succ _, fun e he => List.mem_append_left _ he, ?_, ?_⟩
    · exact pushBaseVar_length _ _ _
    · intro k w hw
      obtain ⟨w1, h1, h2, _⟩ := pushBaseVar_get st.solver.nVars st.possible_base_vars j k w hw
      exact ⟨w1, h1, h2⟩
  refine ⟨hext, ?_⟩
  intro alt halt
  simp only [addAlt, Solver.newVar, List.mem_append, List.mem_singleton] at halt
  rcases halt with halt | halt
  · exact ⟨AltOK.mono hext (hrow alt halt).1, (hrow alt halt).2⟩
  · subst halt
    refine ⟨⟨?_, hmain, ?_, binder.bindings, ?_, hsound⟩, hn0⟩
    · simp [addAlt, Solver.newVar]
    · obtain ⟨w, hw⟩ := hposs
      obtain ⟨w1, h1, _, h3⟩ := pushBaseVar_get st.solver.nVars st.possible_base_vars j j w hw
      exact ⟨w1, h1, h3 rfl⟩
    · simp [addAlt, Solver.newVar]

theorem headersMatch_iff (l1 l2 : Literal) :
    Literal.headersMatch l1 l2 false = true ↔ l1.functor = l2.functor ∧ l1.polarity = l2.polarity := by
  simp [Literal.headersMatch]

theorem forward_sound (base inst_lit : Literal) (binder : MapBinder)
    (hh : Literal.headersMatch base inst_lit false = true)
    (harity : base.functor = inst_lit.functor → base.args.length = inst_lit.args.length)
    (hm : (if base.arity = 0 then some MapBinder.empty
          else MatchingUtils.matchArgs base inst_lit MapBinder.empty) = some binder)
    (σ : Nat → TermList) (hσ : ∀ p ∈ binder.bindings, σ p.1 = p.2) :
    Literal.InstanceUpToOrientation σ base inst_lit := by
  left
  obtain ⟨hf, hp⟩ := (headersMatch_iff base inst_lit).1 hh
  have hargs : TermList.substArgs σ base.args = inst_lit.args := by
    by_cases h0 : base.arity = 0
    · have hb : base.args = [] := List.length_eq_zero.1 h0
      have hi : inst_lit.args = [] := by
        apply List.length_eq_zero.1
        rw [← harity hf]
        exact h0
      rw [hb, hi]
      rfl
    · rw [if_neg h0] at hm
      exact MatchingUtils.matchTermLists_sound _ _ _ _ hm σ hσ
  obtain ⟨bf, bp, ba⟩ := base
  obtain ⟨cf, cp, ca⟩ := inst_lit
  simp only [Literal.subst]
  rw [hargs]
  simp only at hf hp
  rw [hf, hp]

theorem reversed_sound (base inst_lit : Literal) (binder : MapBinder)
    (hh : Literal.headersMatch base inst_lit false = true)
    (harity : base.functor = inst_lit.functor → base.args.length = inst_lit.args.length)
    (hcomm : base.commutative = true) (heq : base.isEquality = true → base.args.length = 2)
    (hm : MatchingUtils.matchReversedArgs base inst_lit MapBinder.empty = some binder)
    (σ : Nat → TermList) (hσ : ∀ p ∈ binder.bindings, σ p.1 = p.2) :
    Literal.InstanceUpToOrientation σ base inst_lit := by
  right
  refine ⟨hcomm, ?_⟩
  obtain ⟨hf, hp⟩ := (headersMatch_iff base inst_lit).1 hh
  obtain ⟨h1, h2⟩ := MatchingUtils.matchReversedArgs_sound base inst_lit _ _ hm σ hσ
  have hb2 : base.args.length = 2 := heq hcomm
  have hi2 : inst_lit.args.length = 2 := by rw [← harity hf]; exact hb2
  obtain ⟨s, t, hst⟩ := List.length_eq_two.1 hb2
  obtain ⟨u, v, huv⟩ := List.length_eq_two.1 hi2
  obtain ⟨bf, bp, ba⟩ := base
  obtain ⟨cf, cp, ca⟩ := inst_lit
  simp only at hf hp hst huv
  subst hst huv hf hp
  simp only [Literal.nthArgument, List.getD_cons_zero, List.getD_cons_succ] at h1 h2
  simp [swapArgs, Literal.subst, Literal.nthArgument, TermList.substArgs, h1, h2]

theorem matchInstance_spec (main_lits : List Literal) (base : Literal) (j : Nat)
    (inst_lit : Literal) (st : PreMatching) (row : List Alt) (n0 : Nat)
    (hrow : ∀ alt ∈ row, AltOK main_lits st base alt ∧ n0 ≤ alt.b)
    (hn0 : n0 ≤ st.solver.nVars)
    (hmain : main_lits[j]? = some inst_lit)
    (hposs : ∃ w, st.possible_base_vars[j]? = some w)
    (harity : base.functor = inst_lit.functor → base.args.length = inst_lit.args.length)
    (heq : base.isEquality = true → base.args.length = 2) :
    Extends st (matchInstance base j inst_lit st row).1 ∧
      ∀ alt ∈ (matchInstance base j inst_lit st row).2,
        AltOK main_lits (matchInstance base j inst_lit st row).1 base alt ∧ n0 ≤ alt.b := by
  unfold matchInstance
  by_cases hh : Literal.headersMatch base inst_lit false = true
  · simp only [hh, Bool.not_true, Bool.false_eq_true, if_false]
    -- the forward alternative
    have hfwd : ∀ r : PreMatching × List Alt,
        r = (match (if base.arity = 0 then some MapBinder.empty
            else MatchingUtils.matchArgs base inst_lit MapBinder.empty) with
          | some binder => addAlt j inst_lit false binder st row
          | none => (st, row)) →
        Extends st r.1 ∧ ∀ alt ∈ r.2, AltOK main_lits r.1 base alt ∧ n0 ≤ alt.b := by
      intro r hr
      cases hm : (if base.arity = 0 then some MapBinder.empty
            else MatchingUtils.matchArgs base inst_lit MapBinder.empty) with
      | none =>
        rw [hm] at hr
        subst hr
        exact ⟨Extends.refl st, hrow⟩
      | some binder =>
        rw [hm] at hr
        subst hr
        exact addAlt_spec main_lits base j inst_lit false binder st row n0 hrow hn0 hmain hposs
          (forward_sound base inst_lit binder hh harity hm)
    obtain ⟨hext1, hrow1⟩ := hfwd _ rfl
    by_cases hcomm : base.commutative = true
    · rw [if_pos hcomm]
      cases hrev : MatchingUtils.matchReversedArgs base inst_lit MapBinder.empty with
      | none => exact ⟨hext1, hrow1⟩
      | some binder =>
        simp only
        have hposs1 : ∃ w, (match (if base.arity = 0 then some MapBinder.empty
            else MatchingUtils.matchArgs base inst_lit MapBinder.empty) with
          | some binder => addAlt j inst_lit false binder st row
          | none => (st, row)).1.possible_base_vars[j]? = some w := by
          obtain ⟨w, hw⟩ := hposs
          obtain ⟨w1, hw1, _⟩ := hext1.2.2.2 j w hw
          exact ⟨w1, hw1⟩
        obtain ⟨hext2, hrow2⟩ := addAlt_spec main_lits base j inst_lit true binder _ _ n0 hrow1
          (le_trans hn0 hext1.1) hmain hposs1
          (reversed_sound base inst_lit binder hh harity hcomm heq hrev)
        exact ⟨Extends.trans hext1 hext2, hrow2⟩
    · rw [if_neg hcomm]
      exact ⟨hext1, hrow1⟩
  · simp only [hh, Bool.not_false, if_true]
    exact ⟨Extends.refl st, hrow⟩

theorem instanceLoop_spec (main_lits : List Literal) (base : Literal) (n0 : Nat)
    (harity : ∀ d ∈ main_lits, base.functor = d.functor → base.args.length = d.args.length)
    (heq : base.isEquality = true → base.args.length = 2) :
    ∀ (rest : List Literal) (j : Nat) (st : PreMatching) (row : List Alt),
      (∀ (k : Nat) (l : Literal), rest[k]? = some l → main_lits[j + k]? = some l) →
      st.possible_base_vars.length = main_lits.length →
      (∀ alt ∈ row, AltOK main_lits st base alt ∧ n0 ≤ alt.b) →
      n0 ≤ st.solver.nVars →
      Extends st (instanceLoop base rest j st row).1 ∧
        ∀ alt ∈ (instanceLoop base rest j st row).2,
          AltOK main_lits (instanceLoop base rest j st row).1 base alt ∧ n0 ≤ alt.b := by
  intro rest
  induction rest with
  | nil =>
    intro j st row _ _ hrow _
    exact ⟨Extends.refl st, hrow⟩
  | cons inst_lit rest ih =>
    intro j st row hidx hlen hrow hn0
    have hmain : main_lits[j]? = some inst_lit := by
      have := hidx 0 inst_lit (by simp)
      simpa using this
    have hjlt : j < main_lits.length := by
      obtain ⟨h, _⟩ := List.getElem?_eq_some.1 hmain
      exact h
    have hposs : ∃ w, st.possible_base_vars[j]? = some w :=
      ⟨_, List.getElem?_eq_getElem (by rw [hlen]; exact hjlt)⟩
    have hmem : inst_lit ∈ main_lits := by
      obtain ⟨h, he⟩ := List.getElem?_eq_some.1 hmain
      rw [← he]
      exact List.getElem_mem _
    obtain ⟨hext1, hrow1⟩ := matchInstance_spec main_lits base j inst_lit st row n0 hrow hn0
      hmain hposs (harity inst_lit hmem) heq
    have hidx1 : ∀ (k : Nat) (l : Literal), rest[k]? = some l →
        main_lits[j + 1 + k]? = some l := by
      intro k l hk
      have := hidx (k + 1) l (by simpa using hk)
      rw [show j + 1 + k = j + (k + 1) by omega]
      exact this
    obtain ⟨hext2, hrow2⟩ := ih (j + 1) _ _ hidx1 (by rw [hext1.2.2.1, hlen]) hrow1
      (le_trans hn0 hext1.1)
    exact ⟨Extends.trans hext1 hext2, hrow2⟩

theorem forall₂_exists_of_mem_right {α β : Type} {R : α → β → Prop} :
    ∀ {l1 : List α} {l2 : List β}, List.Forall₂ R l1 l2 → ∀ b ∈ l2, ∃ a ∈ l1, R a b := by
  intro l1 l2 h
  induction h with
  | nil => intro b hb; cases hb
  | cons hab _ ih =>
    intro b hb
    rcases List.mem_cons.1 hb with rfl | hb
    · exact ⟨_, List.mem_cons_self _ _, hab⟩
    · obtain ⟨a, ha, hr⟩ := ih b hb
      exact ⟨a, List.mem_cons_of_mem _ ha, hr⟩

theorem baseLoop_spec (main_lits : List Literal) :
    ∀ (rest : List Literal) (st : PreMatching) (alts : List (List Alt)) (done : List Literal),
      (∀ c ∈ rest,
        (∀ d ∈ main_lits, c.functor = d.functor → c.args.length = d.args.length) ∧
          (c.isEquality = true → c.args.length = 2)) →
      List.Forall₂ (fun base row => ∀ alt ∈ row, AltOK main_lits st base alt) done alts →
      List.Pairwise (fun (r r1 : List Alt) => ∀ a ∈ r, ∀ a1 ∈ r1, a.b ≠ a1.b) alts →
      st.possible_base_vars.length = main_lits.length →
      List.Forall₂
          (fun base row => ∀ alt ∈ row, AltOK main_lits (baseLoop main_lits rest st alts).1 base alt)
          (done ++ rest) (baseLoop main_lits rest st alts).2 ∧
        List.Pairwise (fun (r r1 : List Alt) => ∀ a ∈ r, ∀ a1 ∈ r1, a.b ≠ a1.b)
          (baseLoop main_lits rest st alts).2 := by
  intro rest
  induction rest with
  | nil =>
    intro st alts done _ hF hP _
    simpa [baseLoop] using ⟨hF, hP⟩
  | cons base rest ih =>
    intro st alts done hwf hF hP hlen
    obtain ⟨harity, heq⟩ := hwf base (List.mem_cons_self _ _)
    obtain ⟨hext, hrow⟩ := instanceLoop_spec main_lits base st.solver.nVars harity heq
      main_lits 0 st [] (by intro k l h; simpa using h) hlen
      (by intro alt h; cases h) (le_refl _)
    have hF1 : List.Forall₂
        (fun c row => ∀ alt ∈ row,
          AltOK main_lits (instanceLoop base main_lits 0 st []).1 c alt)
        (done ++ [base]) (alts ++ [(instanceLoop base main_lits 0 st []).2]) := by
      apply List.rel_append
      · exact hF.imp (fun c row h alt halt => AltOK.mono hext (h alt halt))
      · exact List.Forall₂.cons (fun alt halt => (hrow alt halt).1) List.Forall₂.nil
    have hP1 : List.Pairwise (fun (r r1 : List Alt) => ∀ a ∈ r, ∀ a1 ∈ r1, a.b ≠ a1.b)
        (alts ++ [(instanceLoop base main_lits 0 st []).2]) := by
      rw [List.pairwise_append]
      refine ⟨hP, List.pairwise_singleton _ _, ?_⟩
      intro r hr r1 hr1 a ha a1 ha1
      rw [List.mem_singleton] at hr1
      subst hr1
      obtain ⟨c, _, hc⟩ := forall₂_exists_of_mem_right hF r hr
      have h1 : a.b < st.solver.nVars := (hc a ha).1
      have h2 : st.solver.nVars ≤ a1.b := (hrow a1 ha1).2
      omega
    have := ih (instanceLoop base main_lits 0 st []).1
      (alts ++ [(instanceLoop base main_lits 0 st []).2]) (done ++ [base])
      (fun c hc => hwf c (List.mem_cons_of_mem _ hc)) hF1 hP1 (by rw [hext.2.2.1, hlen])
    rw [List.append_assoc] at this
    exact this

theorem addAltConstraints_spec :
    ∀ (alts : List (List Alt)) (s : Solver),
      (addAltConstraints alts s).theory = s.theory ∧
        (addAltConstraints alts s).nVars = s.nVars ∧
        (∀ c ∈ s.atMostOnes, c ∈ (addAltConstraints alts s).atMostOnes) ∧
        (∀ c ∈ s.clauses, c ∈ (addAltConstraints alts s).clauses) ∧
        ∀ v ∈ alts, v.map (fun alt => Lit.mk alt.b false) ∈ (addAltConstraints alts s).clauses := by
  intro alts
  induction alts with
  | nil =>
    intro s
    exact ⟨rfl, rfl, fun _ h => h, fun _ h => h, fun _ h => by cases h⟩
  | cons v rest ih =>
    intro s
    unfold addAltConstraints
    simp only
    split
    · obtain ⟨h1, h2, h3, h4, h5⟩ := ih
        ((s.addClause (v.map (fun alt => Lit.mk alt.b false))).addConstraint_AtMostOne
          (v.map (fun alt => Lit.mk alt.b false)))
      refine ⟨h1, h2, ?_, ?_, ?_⟩
      · intro c hc
        exact h3 c (by simp [Solver.addConstraint_AtMostOne, Solver.addClause, hc])
      · intro c hc
        exact h4 c (by simp [Solver.addConstraint_AtMostOne, Solver.addClause, hc])
      · intro w hw
        rcases List.mem_cons.1 hw with rfl | hw
        · exact h4 _ (by simp [Solver.addConstraint_AtMostOne, Solver.addClause])
        · exact h5 w hw
    · obtain ⟨h1, h2, h3, h4, h5⟩ := ih (s.addClause (v.map (fun alt => Lit.mk alt.b false)))
      refine ⟨h1, h2, ?_, ?_, ?_⟩
      · intro c hc
        exact h3 c (by simp [Solver.addClause, hc])
      · intro c hc
        exact h4 c (by simp [Solver.addClause, hc])
      · intro w hw
        rcases List.mem_cons.1 hw with rfl | hw
        · exact h4 _ (by simp [Solver.addClause])
        · exact h5 w hw

theorem addBaseVarConstraints_spec :
    ∀ (ws : List (List Nat)) (s : Solver),
      (addBaseVarConstraints ws s).theory = s.theory ∧
        (addBaseVarConstraints ws s).nVars = s.nVars ∧
        (addBaseVarConstraints ws s).clauses = s.clauses ∧
        (∀ c ∈ s.atMostOnes, c ∈ (addBaseVarConstraints ws s).atMostOnes) ∧
        ∀ w ∈ ws, 2 ≤ w.length →
          w.map (fun b => Lit.mk b false) ∈ (addBaseVarConstraints ws s).atMostOnes := by
  intro ws
  induction ws with
  | nil =>
    intro s
    exact ⟨rfl, rfl, rfl, fun _ h => h, fun _ h => by cases h⟩
  | cons w rest ih =>
    intro s
    unfold addBaseVarConstraints
    simp only
    split
    · rename_i hlen
      obtain ⟨h1, h2, h3, h4, h5⟩ := ih
        (s.addConstraint_AtMostOne (w.map (fun b => Lit.mk b false)))
      refine ⟨h1, h2, h3, ?_, ?_⟩
      · intro c hc
        exact h4 c (by simp [Solver.addConstraint_AtMostOne, hc])
      · intro w1 hw1 hl
        rcases List.mem_cons.1 hw1 with rfl | hw1
        · exact h4 _ (by simp [Solver.addConstraint_AtMostOne])
        · exact h5 w1 hw1 hl
    · rename_i hlen
      obtain ⟨h1, h2, h3, h4, h5⟩ := ih s
      refine ⟨h1, h2, h3, h4, ?_⟩
      intro w1 hw1 hl
      rcases List.mem_cons.1 hw1 with rfl | hw1
      · exact absurd hl hlen
      · exact h5 w1 hw1 hl

theorem forall₂_exists_of_mem_left {α β : Type} {R : α → β → Prop} :
    ∀ {l1 : List α} {l2 : List β}, List.Forall₂ R l1 l2 → ∀ a ∈ l1, ∃ b ∈ l2, R a b := by
  intro l1 l2 h
  induction h with
  | nil => intro a ha; cases ha
  | cons hab _ ih =>
    intro a ha
    rcases List.mem_cons.1 ha with rfl | ha
    · exact ⟨_, List.mem_cons_self _ _, hab⟩
    · obtain ⟨b, hb, hr⟩ := ih a ha
      exact ⟨b, List.mem_cons_of_mem _ hb, hr⟩

theorem two_le_length_of_mem_of_ne {α : Type} {l : List α} {x y : α} (hx : x ∈ l) (hy : y ∈ l)
    (hne : x ≠ y) : 2 ≤ l.length := by
  cases l with
  | nil => cases hx
  | cons a l =>
    cases l with
    | nil =>
      rw [List.mem_singleton] at hx hy
      exact absurd (hx.trans hy.symm) hne
    | cons b l => simp

theorem lookup_isSome_of_mem (v : Nat) (t : TermList) :
    ∀ l : List (Nat × TermList), (v, t) ∈ l → ∃ t1, l.lookup v = some t1
  | [], h => by cases h
  | (a, u) :: l, h => by
    by_cases hv : v = a
    · subst hv
      exact ⟨u, by simp [List.lookup]⟩
    · have hb : (v == a) = false := by simpa using hv
      rcases List.mem_cons.1 h with h | h
      · injection h with h1 _
        exact absurd h1 hv
      · obtain ⟨t1, ht1⟩ := lookup_isSome_of_mem v t l h
        exact ⟨t1, by simp only [List.lookup, hb]; exact ht1⟩

/-- Compatible atoms are all respected by the substitution that looks a variable up in their
union. -/
theorem compatible_agrees (atoms : List SubstitutionAtom)
    (h : Solver.compatible atoms = true) :
    ∀ p ∈ atoms.flatten, (RobSubstitution.mk atoms.flatten).lookup p.1 = p.2 := by
  intro p hp
  obtain ⟨v, t⟩ := p
  obtain ⟨t1, ht1⟩ := lookup_isSome_of_mem v t _ hp
  have hmem1 : (v, t1) ∈ atoms.flatten := MapBinder.mem_of_lookup v t1 _ ht1
  unfold Solver.compatible at h
  rw [List.all_eq_true] at h
  have h2 := h (v, t) hp
  rw [List.all_eq_true] at h2
  have h3 := h2 (v, t1) hmem1
  have h4 : t = t1 := by simpa using h3
  simp only [RobSubstitution.lookup, ht1, h4]

theorem choose_alts {P : Literal → Alt → Prop} {Q : Alt → Prop} :
    ∀ {cs : List Literal} {rows : List (List Alt)},
      List.Forall₂ (fun c row => ∀ alt ∈ row, P c alt) cs rows →
      List.Pairwise (fun (r r1 : List Alt) => ∀ a ∈ r, ∀ a1 ∈ r1, a.b ≠ a1.b) rows →
      (∀ row ∈ rows, ∃ alt ∈ row, Q alt) →
      ∃ chosen : List Alt,
        List.Forall₂ (fun c alt => P c alt ∧ Q alt) cs chosen ∧
          List.Forall₂ (fun alt row => alt ∈ row) chosen rows ∧
          List.Pairwise (fun (a a1 : Alt) => a.b ≠ a1.b) chosen := by
  intro cs rows hF
  induction hF with
  | nil =>
    intro _ _
    exact ⟨[], List.Forall₂.nil, List.Forall₂.nil, List.Pairwise.nil⟩
  | @cons c row cs rows hrow _ ih =>
    intro hP hQ
    rw [List.pairwise_cons] at hP
    obtain ⟨alt, halt, hq⟩ := hQ row (List.mem_cons_self _ _)
    obtain ⟨chosen, h1, h2, h3⟩ := ih hP.2 (fun r hr => hQ r (List.mem_cons_of_mem _ hr))
    refine ⟨alt :: chosen, List.Forall₂.cons ⟨hrow alt halt, hq⟩ h1,
      List.Forall₂.cons halt h2, ?_⟩
    rw [List.pairwise_cons]
    refine ⟨?_, h3⟩
    intro a1 ha1
    obtain ⟨row1, hrow1, hmem⟩ := forall₂_exists_of_mem_left h2 a1 ha1
    exact hP.1 row1 hrow1 alt halt a1 hmem

theorem arityConsistent_iff (side main : Clause) :
    arityConsistent side main = true ↔
      ∀ c ∈ side.lits,
        (∀ d ∈ main.lits, c.functor = d.functor → c.args.length = d.args.length) ∧
          (c.isEquality = true → c.args.length = 2) := by
  unfold arityConsistent
  simp only [List.all_eq_true, Bool.and_eq_true, decide_eq_true_eq]

/-- C2 (amended): when `checkSubsumption(C, D)` returns true there are a substitution `σ`
and an injective map from the literal positions of `C` to those of `D` (the duplicate-free
list `js` of the images, position by position) such that each literal of `C` under `σ`
equals its image in `D`, or, when it is an equality, equals it after exchanging its two
sides. -/
theorem checkSubsumption_sound (side main : Clause)
    (hwf : arityConsistent side main = true) (h : checkSubsumption side main = true) :
    ∃ (σ : Nat → TermList) (js : List Nat), js.Nodup ∧
      List.Forall₂
        (fun c j => ∃ d, main.lits[j]? = some d ∧ Literal.InstanceUpToOrientation σ c d)
        side.lits js := by
  have hinv := baseLoop_spec main.lits side.lits
    { solver := Solver.empty, stc := [],
      possible_base_vars := List.replicate main.length [] } [] []
    ((arityConsistent_iff side main).1 hwf) List.Forall₂.nil List.Pairwise.nil
    (by simp [Clause.length])
  unfold checkSubsumption at h
  simp only at h
  generalize baseLoop main.lits side.lits
    { solver := Solver.empty, stc := [],
      possible_base_vars := List.replicate main.length [] } [] = r at h hinv
  obtain ⟨hF, hP⟩ := hinv
  rw [List.nil_append] at hF
  split at h
  · cases h
  · obtain ⟨a1, a2, a3, a4, a5⟩ := addAltConstraints_spec r.2
      (r.1.solver.setSubstitutionTheory r.1.stc)
    obtain ⟨b1, b2, b3, b4, b5⟩ := addBaseVarConstraints_spec r.1.possible_base_vars
      (addAltConstraints r.2 (r.1.solver.setSubstitutionTheory r.1.stc))
    generalize addBaseVarConstraints r.1.possible_base_vars
      (addAltConstraints r.2 (r.1.solver.setSubstitutionTheory r.1.stc)) = S at h b1 b2 b3 b4 b5
    have htheory : S.theory = r.1.stc := by rw [b1, a1]; rfl
    unfold Solver.solve at h
    rw [List.any_eq_true] at h
    obtain ⟨m, _, hsat⟩ := h
    unfold Solver.satisfiedBy at hsat
    rw [Bool.and_eq_true, Bool.and_eq_true, List.all_eq_true, List.all_eq_true] at hsat
    obtain ⟨⟨hclauses, hamo⟩, hcompat⟩ := hsat
    have hagree := compatible_agrees _ hcompat
    -- every row has an alternative whose variable is true
    have hQ : ∀ row ∈ r.2, ∃ alt ∈ row, m.getD alt.b false = true := by
      intro row hrow
      have hc := hclauses (row.map (fun alt => Lit.mk alt.b false)) (by rw [b3]; exact a5 row hrow)
      rw [List.any_eq_true] at hc
      obtain ⟨l, hl, hv⟩ := hc
      rw [List.mem_map] at hl
      obtain ⟨alt, halt, rfl⟩ := hl
      exact ⟨alt, halt, by simpa [Lit.value] using hv⟩
    obtain ⟨chosen, hch1, _, hch3⟩ := choose_alts hF hP hQ
    refine ⟨(RobSubstitution.mk (S.trueAtoms m).flatten).lookup, chosen.map (fun alt => alt.j),
      ?_, ?_⟩
    · -- injectivity
      unfold List.Nodup
      rw [List.pairwise_map]
      refine List.Pairwise.imp_of_mem ?_ hch3
      intro x y hx hy hxy hj
      obtain ⟨cx, _, hxok, hxq⟩ := forall₂_exists_of_mem_right hch1 x hx
      obtain ⟨cy, _, hyok, hyq⟩ := forall₂_exists_of_mem_right hch1 y hy
      obtain ⟨_, _, ⟨w, hw, hxw⟩, _⟩ := hxok
      obtain ⟨_, _, ⟨w1, hw1, hyw⟩, _⟩ := hyok
      rw [← hj, hw] at hw1
      injection hw1 with hw1
      subst hw1
      have hwmem : w ∈ r.1.possible_base_vars := by
        obtain ⟨hlt, he⟩ := List.getElem?_eq_some.1 hw
        rw [← he]
        exact List.getElem_mem _
      have hlen : 2 ≤ w.length := two_le_length_of_mem_of_ne hxw hyw hxy
      have hle := hamo _ (b5 w hwmem hlen)
      have hle2 : (List.filter (Lit.value m) (w.map (fun b => Lit.mk b false))).length ≤ 1 := by
        simpa using hle
      have hx2 : Lit.mk x.b false ∈ List.filter (Lit.value m) (w.map (fun b => Lit.mk b false)) := by
        rw [List.mem_filter]
        exact ⟨List.mem_map.2 ⟨x.b, hxw, rfl⟩, by simpa [Lit.value] using hxq⟩
      have hy2 : Lit.mk y.b false ∈ List.filter (Lit.value m) (w.map (fun b => Lit.mk b false)) := by
        rw [List.mem_filter]
        exact ⟨List.mem_map.2 ⟨y.b, hyw, rfl⟩, by simpa [Lit.value] using hyq⟩
      have hne : Lit.mk x.b false ≠ Lit.mk y.b false := by
        intro he
        injection he with he _
        exact hxy he
      have := two_le_length_of_mem_of_ne hx2 hy2 hne
      omega
    · rw [List.forall₂_map_right_iff]
      refine hch1.imp ?_
      intro c alt hca
      obtain ⟨⟨_, hmain, _, atom, hatom, hs⟩, hq⟩ := hca
      refine ⟨alt.lit, hmain, hs _ ?_⟩
      intro p hp
      apply hagree
      rw [List.mem_flatten]
      refine ⟨atom, ?_, hp⟩
      unfold Solver.trueAtoms
      rw [List.mem_map]
      refine ⟨(alt.b, atom), ?_, rfl⟩
      rw [List.mem_filter, htheory]
      exact ⟨hatom, hq⟩

/-- Witness for C2 (amended): `p(x) ∨ q(x, y)` subsumes `p(a) ∨ q(a, b) ∨ r`. -/
theorem checkSubsumption_sound_witness :
    ∃ (σ : Nat → TermList) (js : List Nat), js.Nodup ∧
      List.Forall₂
        (fun c j => ∃ d, sampleMain.lits[j]? = some d ∧ Literal.InstanceUpToOrientation σ c d)
        sampleSide.lits js :=
  checkSubsumption_sound sampleSide sampleMain (by decide) (by decide)

/-- C2 fails as stated: `checkSubsumption` answers true for the side premise `x = a` and the
main premise `a = b` (by the reversed match `x ↦ b`), but no substitution makes `x = a`
equal to `a = b`, the only literal of the main premise. -/
theorem checkSubsumption_claim_fails_on_reversed_equality :
    ¬ ∀ (side main : Clause), arityConsistent side main = true →
        checkSubsumption side main = true →
        ∃ (σ : Nat → TermList) (js : List Nat), js.Nodup ∧
          List.Forall₂ (fun c j => main.lits[j]? = some (c.subst σ)) side.lits js := by
  intro hall
  obtain ⟨σ, js, _, hF⟩ := hall sampleSideEq sampleMainEq (by decide) (by decide)
  simp only [sampleSideEq] at hF
  rw [List.forall₂_cons_left_iff] at hF
  obtain ⟨j, js1, h, _, _⟩ := hF
  cases j with
  | zero =>
    simp [sampleMainEq, Literal.subst, Literal.createEquality, TermList.substArgs,
      TermList.subst, sampleA, sampleB] at h
  | succ j =>
    simp [sampleMainEq] at h

end SMTSubsumption

/-! ## Interpreted evaluation: unchanged input, arithmetic errors, truth values -/

namespace InterpretedEvaluation

theorem simplifyLiteral_simplified_ne (lit res : Literal)
    (h : simplifyLiteral lit = LiteralResult.simplified res) : res ≠ lit := by
  unfold simplifyLiteral at h
  split at h
  · cases h
  · unfold LiteralSimplifier.evaluate at h
    simp only at h
    split at h
    · cases h
    · split at h
      · rename_i hne
        injection h with h
        rw [← h]
        exact hne
      · cases h

theorem eq_of_map_eq_self {α : Type} (f : α → α) :
    ∀ l : List α, l.map f = l → ∀ x ∈ l, f x = x
  | [], _ => fun _ hx => by cases hx
  | a :: l, h => by
    rw [List.map_cons] at h
    injection h with h1 h2
    intro x hx
    rcases List.mem_cons.1 hx with rfl | hx
    · exact h1
    · exact eq_of_map_eq_self f l h2 x hx

theorem filter_eq_self_of_length_eq {α : Type} (p : α → Bool) (l : List α)
    (h : (l.filter p).length = l.length) : l.filter p = l := by
  rw [List.filter_eq_self]
  intro a ha
  by_contra hp
  have hlt : (l.filter p).length < l.length :=
    List.length_filter_lt_length_iff_exists.2 ⟨a, ha, hp⟩
  omega

/-- C11: `simplify` returns the identical input clause exactly when `simplifyLiteral` reports
no modification for every literal of the clause. -/
theorem evalSimplify_returns_input_iff (cl : Clause) :
    simplify cl = some cl ↔
      ∀ l ∈ cl.lits, simplifyLiteral l = LiteralResult.notModified := by
  constructor
  · intro h
    unfold simplify at h
    rw [evalSimplifyLoop_eq] at h
    by_cases hany : cl.lits.any
        (fun l => decide (simplifyLiteral l = LiteralResult.constant true)) = true
    · rw [if_pos hany] at h
      cases h
    · rw [if_neg hany] at h
      simp only [List.nil_append, Bool.false_or] at h
      by_cases hmod : cl.lits.any
          (fun l => decide (simplifyLiteral l ≠ LiteralResult.notModified)) = true
      · exfalso
        rw [hmod] at h
        simp only [Bool.not_true, Bool.false_eq_true, if_false] at h
        injection h with h
        have hl : (cl.lits.filter (fun l =>
            decide (simplifyLiteral l ≠ LiteralResult.constant false))).map simplifiedForm
            = cl.lits := congrArg Clause.lits h
        have hlen : (cl.lits.filter (fun l =>
            decide (simplifyLiteral l ≠ LiteralResult.constant false))).length
            = cl.lits.length := by
          have := congrArg List.length hl
          simpa using this
        have hfilter := filter_eq_self_of_length_eq _ _ hlen
        rw [hfilter] at hl
        have hfix := eq_of_map_eq_self simplifiedForm cl.lits hl
        rw [List.filter_eq_self] at hfilter
        rw [List.any_eq_true] at hmod
        obtain ⟨l, hl1, hl2⟩ := hmod
        have hnf : simplifyLiteral l ≠ LiteralResult.constant false := by
          simpa using hfilter l hl1
        have hnt : simplifyLiteral l ≠ LiteralResult.constant true := by
          intro hc
          apply hany
          rw [List.any_eq_true]
          exact ⟨l, hl1, by simpa using hc⟩
        have hnm : simplifyLiteral l ≠ LiteralResult.notModified := by simpa using hl2
        cases hres : simplifyLiteral l with
        | notModified => exact hnm hres
        | constant b =>
          cases b
          · exact hnf hres
          · exact hnt hres
        | simplified r =>
          have h1 := hfix l hl1
          unfold simplifiedForm at h1
          rw [hres] at h1
          exact simplifyLiteral_simplified_ne l r hres h1
      · intro l hl
        by_contra hne
        apply hmod
        rw [List.any_eq_true]
        exact ⟨l, hl, by simpa using hne⟩
  · intro h
    unfold simplify
    rw [simplifyLoop_of_notModified _ _ _ h]
    simp

theorem tryEvaluateFunc_of_raises {T : Type} (ev : TypedEvaluator T) (f : Symbol)
    (args : List TermList) (h : ev.funcRaises f args) : ev.tryEvaluateFunc f args = none := by
  obtain ⟨itp, arg1, hitp, h1, hcase⟩ := h
  unfold TypedEvaluator.tryEvaluateFunc
  rw [hitp]
  simp only
  rcases hcase with ⟨har, e, he⟩ | ⟨har, arg2, h2, e, he⟩
  · simp only [har, h1, he, catchArithmetic]
    simp
  · simp only [har, h1, h2, he, catchArithmetic]
    simp

theorem tryEvaluatePred_of_raises {T : Type} (ev : TypedEvaluator T) (lit : Literal)
    (h : ev.predRaises lit) : ev.tryEvaluatePred lit = none := by
  obtain ⟨itp, arg1, hitp, h1, hcase⟩ := h
  unfold TypedEvaluator.tryEvaluatePred
  rw [hitp]
  simp only
  rcases hcase with ⟨har, e, he⟩ | ⟨har, arg2, h2, e, he⟩
  · simp only [har, h1, he, catchArithmetic]
    simp
  · simp only [har, h1, h2, he, catchArithmetic]
    simp

theorem tryEvaluateFunc_of_not_constant {T : Type} (ev : TypedEvaluator T) (f : Symbol)
    (args : List TermList)
    (h : ev.tryInterpretConstant (args.getD 0 (TermList.var 0)) = none) :
    ev.tryEvaluateFunc f args = none := by
  unfold TypedEvaluator.tryEvaluateFunc
  split
  · rfl
  · simp only [h]
    split <;> rfl

theorem tryEvaluatePred_of_not_constant {T : Type} (ev : TypedEvaluator T) (lit : Literal)
    (h : ev.tryInterpretConstant (lit.nthArgument 0) = none) :
    ev.tryEvaluatePred lit = none := by
  unfold TypedEvaluator.tryEvaluatePred
  split
  · rfl
  · simp only [h]
    split <;> rfl

theorem tryInterpretConstantInt_some (t : TermList) (v : Int)
    (h : Theory.tryInterpretConstantInt t = some v) :
    t = TermList.term (Symbol.integerConstant v) [] := by
  unfold Theory.tryInterpretConstantInt at h
  split at h
  · injection h with h
    rw [h]
  · cases h

theorem tryInterpretConstantRat_some (t : TermList) (q : Rat)
    (h : Theory.tryInterpretConstantRat t = some q) :
    t = TermList.term (Symbol.rationalConstant q) [] := by
  unfold Theory.tryInterpretConstantRat at h
  split at h
  · injection h with h
    rw [h]
  · cases h

theorem tryInterpretConstantReal_some (t : TermList) (q : Rat)
    (h : Theory.tryInterpretConstantReal t = some q) :
    t = TermList.term (Symbol.realConstant q) [] := by
  unfold Theory.tryInterpretConstantReal at h
  split at h
  · injection h with h
    rw [h]
  · cases h

/-- When the first argument is a constant of one number type, the evaluators of the two other
types do not read it as a constant. -/
theorem tryInterpretConstant_exclusive (t : TermList) :
    ((IntEvaluator.tryInterpretConstant t).isSome = true →
        RatEvaluator.tryInterpretConstant t = none ∧
          RealEvaluator.tryInterpretConstant t = none) ∧
      ((RatEvaluator.tryInterpretConstant t).isSome = true →
        IntEvaluator.tryInterpretConstant t = none ∧
          RealEvaluator.tryInterpretConstant t = none) ∧
      ((RealEvaluator.tryInterpretConstant t).isSome = true →
        IntEvaluator.tryInterpretConstant t = none ∧
          RatEvaluator.tryInterpretConstant t = none) := by
  refine ⟨?_, ?_, ?_⟩
  · intro h
    obtain ⟨v, hv⟩ := Option.isSome_iff_exists.1 h
    rw [tryInterpretConstantInt_some t v hv]
    exact ⟨rfl, rfl⟩
  · intro h
    obtain ⟨v, hv⟩ := Option.isSome_iff_exists.1 h
    rw [tryInterpretConstantRat_some t v hv]
    exact ⟨rfl, rfl⟩
  · intro h
    obtain ⟨v, hv⟩ := Option.isSome_iff_exists.1 h
    rw [tryInterpretConstantReal_some t v hv]
    exact ⟨rfl, rfl⟩

theorem transform_of_all_fail (f : Symbol) (args : List TermList)
    (h1 : RealEvaluator.tryEvaluateFunc f args = none)
    (h2 : RatEvaluator.tryEvaluateFunc f args = none)
    (h3 : IntEvaluator.tryEvaluateFunc f args = none) :
    LiteralSimplifier.transform (TermList.term f args) = TermList.term f args := by
  have : (LiteralSimplifier.evals.findSome? (fun ev =>
      if !ev.canEvaluateFunc f then none else ev.tryEvaluateFunc f args)) = none := by
    rw [List.findSome?_eq_none_iff]
    intro ev hev
    simp only [LiteralSimplifier.evals, List.mem_cons, List.mem_singleton, List.mem_nil_iff,
      or_false] at hev
    rcases hev with rfl | rfl | rfl
    · simp only [TypedEvaluator.toEvaluator, h1]
      split <;> rfl
    · simp only [TypedEvaluator.toEvaluator, h2]
      split <;> rfl
    · simp only [TypedEvaluator.toEvaluator, h3]
      split <;> rfl
  simp only [LiteralSimplifier.transform, this]

theorem evaluate_of_all_fail (lit : Literal)
    (hargs : ∀ t ∈ lit.args, ∃ g, Theory.isInterpretedConstant g = true ∧ t = TermList.term g [])
    (h1 : RealEvaluator.tryEvaluatePred lit = none)
    (h2 : RatEvaluator.tryEvaluatePred lit = none)
    (h3 : IntEvaluator.tryEvaluatePred lit = none) :
    simplifyLiteral lit = LiteralResult.notModified := by
  have hfix : ∀ ts : List TermList,
      (∀ t ∈ ts, ∃ g, Theory.isInterpretedConstant g = true ∧ t = TermList.term g []) →
      TermTransformer.transformArgs LiteralSimplifier.transform ts = ts := by
    intro ts
    induction ts with
    | nil => intro _; rfl
    | cons t ts ih =>
      intro h
      obtain ⟨g, hg, rfl⟩ := h t (List.mem_cons_self _ _)
      rw [TermTransformer.transformArgs, ih (fun x hx => h x (List.mem_cons_of_mem _ hx)),
        TermTransformer.transformTerm, TermTransformer.transformArgs, transform_numeral g hg]
  have htl : TermTransformer.transformLiteral LiteralSimplifier.transform lit = lit := by
    unfold TermTransformer.transformLiteral
    rw [hfix lit.args hargs]
  unfold simplifyLiteral
  split
  · rfl
  · unfold LiteralSimplifier.evaluate
    simp only [htl]
    have : (LiteralSimplifier.evals.findSome? (fun ev =>
        if !ev.canEvaluatePred lit.functor then none else ev.tryEvaluatePred lit)) = none := by
      rw [List.findSome?_eq_none_iff]
      intro ev hev
      simp only [LiteralSimplifier.evals, List.mem_cons, List.mem_singleton, List.mem_nil_iff,
        or_false] at hev
      rcases hev with rfl | rfl | rfl
      · simp only [TypedEvaluator.toEvaluator, h1]
        split <;> rfl
      · simp only [TypedEvaluator.toEvaluator, h2]
        split <;> rfl
      · simp only [TypedEvaluator.toEvaluator, h3]
        split <;> rfl
    rw [this]
    simp

/-- C12: when the evaluation of an interpreted function or predicate on constants raises an
arithmetic error, `tryEvaluateFunc` / `tryEvaluatePred` return `false` (for every typed
evaluator), the term is returned unchanged by `transform`, and a literal on interpreted
constants is reported as not modified. -/
theorem arithmetic_error_leaves_unchanged :
    (∀ (T : Type) (ev : TypedEvaluator T) (f : Symbol) (args : List TermList),
        ev.funcRaises f args → ev.tryEvaluateFunc f args = none) ∧
      (∀ (T : Type) (ev : TypedEvaluator T) (lit : Literal),
        ev.predRaises lit → ev.tryEvaluatePred lit = none) ∧
      (∀ (f : Symbol) (args : List TermList),
        (IntEvaluator.funcRaises f args ∨ RatEvaluator.funcRaises f args ∨
          RealEvaluator.funcRaises f args) →
        LiteralSimplifier.transform (TermList.term f args) = TermList.term f args) ∧
      (∀ lit : Literal,
        (IntEvaluator.predRaises lit ∨ RatEvaluator.predRaises lit ∨
          RealEvaluator.predRaises lit) →
        (∀ t ∈ lit.args, ∃ g, Theory.isInterpretedConstant g = true ∧ t = TermList.term g []) →
        simplifyLiteral lit = LiteralResult.notModified) := by
  refine ⟨fun T ev f args h => tryEvaluateFunc_of_raises ev f args h,
    fun T ev lit h => tryEvaluatePred_of_raises ev lit h, ?_, ?_⟩
  · intro f args h
    obtain ⟨hI, hQ, hR⟩ := tryInterpretConstant_exclusive (args.getD 0 (TermList.var 0))
    rcases h with h | h | h
    · have hc : (IntEvaluator.tryInterpretConstant (args.getD 0 (TermList.var 0))).isSome
          = true := by
        obtain ⟨_, a, _, ha, _⟩ := h
        rw [ha]; rfl
      exact transform_of_all_fail f args
        (tryEvaluateFunc_of_not_constant _ f args (hI hc).2)
        (tryEvaluateFunc_of_not_constant _ f args (hI hc).1)
        (tryEvaluateFunc_of_raises _ f args h)
    · have hc : (RatEvaluator.tryInterpretConstant (args.getD 0 (TermList.var 0))).isSome
          = true := by
        obtain ⟨_, a, _, ha, _⟩ := h
        rw [ha]; rfl
      exact transform_of_all_fail f args
        (tryEvaluateFunc_of_not_constant _ f args (hQ hc).2)
        (tryEvaluateFunc_of_raises _ f args h)
        (tryEvaluateFunc_of_not_constant _ f args (hQ hc).1)
    · have hc : (RealEvaluator.tryInterpretConstant (args.getD 0 (TermList.var 0))).isSome
          = true := by
        obtain ⟨_, a, _, ha, _⟩ := h
        rw [ha]; rfl
      exact transform_of_all_fail f args
        (tryEvaluateFunc_of_raises _ f args h)
        (tryEvaluateFunc_of_not_constant _ f args (hR hc).2)
        (tryEvaluateFunc_of_not_constant _ f args (hR hc).1)
  · intro lit h hargs
    obtain ⟨hI, hQ, hR⟩ := tryInterpretConstant_exclusive (lit.nthArgument 0)
    rcases h with h | h | h
    · have hc : (IntEvaluator.tryInterpretConstant (lit.nthArgument 0)).isSome = true := by
        obtain ⟨_, a, _, ha, _⟩ := h
        rw [ha]; rfl
      exact evaluate_of_all_fail lit hargs
        (tryEvaluatePred_of_not_constant _ lit (hI hc).2)
        (tryEvaluatePred_of_not_constant _ lit (hI hc).1)
        (tryEvaluatePred_of_raises _ lit h)
    · have hc : (RatEvaluator.tryInterpretConstant (lit.nthArgument 0)).isSome = true := by
        obtain ⟨_, a, _, ha, _⟩ := h
        rw [ha]; rfl
      exact evaluate_of_all_fail lit hargs
        (tryEvaluatePred_of_not_constant _ lit (hQ hc).2)
        (tryEvaluatePred_of_raises _ lit h)
        (tryEvaluatePred_of_not_constant _ lit (hQ hc).1)
    · have hc : (RealEvaluator.tryInterpretConstant (lit.nthArgument 0)).isSome = true := by
        obtain ⟨_, a, _, ha, _⟩ := h
        rw [ha]; rfl
      exact evaluate_of_all_fail lit hargs
        (tryEvaluatePred_of_raises _ lit h)
        (tryEvaluatePred_of_not_constant _ lit (hR hc).2)
        (tryEvaluatePred_of_not_constant _ lit (hR hc).1)

/-- Witness for C12: the division `7 / 0`, the overflowing sum `2147483647 + 1` and the literal
`divides(7, 0)` raise; the terms are returned unchanged and the literal is not modified. -/
theorem arithmetic_error_leaves_unchanged_witness :
    LiteralSimplifier.transform (sampleIntDivide (sampleNum 7) (sampleNum 0)) =
        sampleIntDivide (sampleNum 7) (sampleNum 0) ∧
      LiteralSimplifier.transform (samplePlus (sampleNum 2147483647) (sampleNum 1)) =
        samplePlus (sampleNum 2147483647) (sampleNum 1) ∧
      simplifyLiteral (sampleDivides true (sampleNum 7) (sampleNum 0)) =
        LiteralResult.notModified :=
  ⟨arithmetic_error_leaves_unchanged.2.2.1 _ _
      (Or.inl ⟨Interpretation.INT_DIVIDE, 7, rfl, rfl,
        Or.inr ⟨rfl, 0, rfl, ArithmeticException.mk, rfl⟩⟩),
    arithmetic_error_leaves_unchanged.2.2.1 _ _
      (Or.inl ⟨Interpretation.INT_PLUS, 2147483647, rfl, rfl,
        Or.inr ⟨rfl, 1, rfl, ArithmeticException.mk, rfl⟩⟩),
    arithmetic_error_leaves_unchanged.2.2.2 _
      (Or.inl ⟨Interpretation.INT_DIVIDES, 7, rfl, rfl,
        Or.inr ⟨rfl, 0, rfl, ArithmeticException.mk, rfl⟩⟩)
      (by
        intro t ht
        simp only [sampleDivides, List.mem_cons, List.mem_singleton, List.mem_nil_iff,
          or_false] at ht
        rcases ht with rfl | rfl
        · exact ⟨Symbol.integerConstant 7, rfl, rfl⟩
        · exact ⟨Symbol.integerConstant 0, rfl, rfl⟩)⟩

/-- C13: the claim fails on the integer divides predicate, the defect of C14: for the
constants 2 and 4 the atom `divides(2, 4)` is true (2 divides 4), yet `tryEvaluatePred`
yields `false` for the positive literal and `true` for the negative one, and
`simplifyLiteral` reports the positive literal as the constant `false`. -/
theorem tryEvaluatePred_divides_not_truth_value :
    (2 : Int) ∣ 4 ∧
      IntEvaluator.tryEvaluatePred (sampleDivides true (sampleNum 2) (sampleNum 4)) =
        some false ∧
      IntEvaluator.tryEvaluatePred (sampleDivides false (sampleNum 2) (sampleNum 4)) =
        some true ∧
      simplifyLiteral (sampleDivides true (sampleNum 2) (sampleNum 4)) =
        LiteralResult.constant false := by
  refine ⟨by decide, by decide, by decide, by decide⟩

/-- C14: whenever the evaluation of the integer divides predicate on `(a, b)` succeeds, its
result is true exactly when `b` divides `a`, the reverse of the claimed `a` divides `b`. -/
theorem intDivides_evaluates_reversed (a b : Int) (r : Bool)
    (h : IntEvaluator.tryEvaluateBinaryPred Interpretation.INT_DIVIDES a b =
      Except.ok (some r)) :
    r = true ↔ b ∣ a := by
  have h1 : (IntegerConstantType.mod a b).map (fun r => some (decide (r = 0))) =
      Except.ok (some r) := h
  unfold IntegerConstantType.mod IntegerConstantType.checked at h1
  split at h1
  · cases h1
  · split at h1
    · have h2 : some (decide (Int.tmod a b = 0)) = some r := by
        injection h1
      injection h2 with h2
      rw [← h2, decide_eq_true_iff]
      exact ⟨Int.dvd_of_tmod_eq_zero, Int.tmod_eq_zero_of_dvd⟩
    · cases h1

/-- Witness for C14: `divides(4, 2)` evaluates to true although 4 does not divide 2, and 2
divides 4. -/
theorem intDivides_evaluates_reversed_witness :
    IntEvaluator.tryEvaluateBinaryPred Interpretation.INT_DIVIDES 4 2 = Except.ok (some true) ∧
      ¬ ((4 : Int) ∣ 2) ∧ (true = true ↔ (2 : Int) ∣ 4) :=
  ⟨rfl, by decide, intDivides_evaluates_reversed 4 2 true rfl⟩

end InterpretedEvaluation

/-! ## Inverters of arithmetic operations -/

namespace Rebalancing

namespace Inverters

namespace NumberTheoryInverter

theorem canInvertTop_int_mul (ctxt : InversionContext)
    (h : ctxt.topTerm.functor = Symbol.interpreted Interpretation.INT_MULTIPLY) :
    canInvertTop ctxt = canInvertMulInt ctxt := by
  simp only [canInvertTop, h]
  rfl

theorem tryInvertMulInt_isSome_iff (ctxt : InversionContext) :
    (tryInvertMulInt ctxt).isSome = true ↔
      otherArg ctxt = Theory.representConstantInt 1 ∨
        otherArg ctxt = Theory.representConstantInt (-1) := by
  cases hc : Theory.tryInterpretConstantInt (otherArg ctxt) with
  | none =>
    simp only [tryInvertMulInt, hc, Option.isSome_none, Bool.false_eq_true, false_iff]
    rintro (h | h) <;> rw [h] at hc <;> cases hc
  | some c =>
    have hot := InterpretedEvaluation.tryInterpretConstantInt_some _ _ hc
    simp only [tryInvertMulInt, hc]
    constructor
    · intro h
      by_cases h1 : c = 1
      · left; rw [hot, h1]; rfl
      · by_cases h2 : c = -1
        · right; rw [hot, h2]; rfl
        · simp [h1, h2] at h
    · rintro (h | h)
      · have : c = 1 := by
          rw [hot] at h
          simpa [Theory.representConstantInt] using h
        simp [this]
      · have : c = -1 := by
          rw [hot] at h
          simpa [Theory.representConstantInt] using h
        simp [this]

/-- C18, the claim as stated fails: inverting `x + 5` over the integers at position 0 around
`y` gives the term `y + (-5)`, the sum of `y` and the unary minus of 5; this is not the term
`y - 5` built with the binary subtraction `INT_MINUS`. -/
theorem invertTop_add_is_not_subtraction :
    invertTop
        { topTerm := { functor := Symbol.interpreted Interpretation.INT_PLUS,
                       args := [TermList.var 0, sampleNum 5] }
          topIdx := 0
          toWrap := TermList.var 1 } =
        Outcome.ret (TermList.term (Symbol.interpreted Interpretation.INT_PLUS)
          [TermList.var 1,
            TermList.term (Symbol.interpreted Interpretation.INT_UNARY_MINUS) [sampleNum 5]]) ∧
      invertTop
        { topTerm := { functor := Symbol.interpreted Interpretation.INT_PLUS,
                       args := [TermList.var 0, sampleNum 5] }
          topIdx := 0
          toWrap := TermList.var 1 } ≠
        Outcome.ret (TermList.term (Symbol.interpreted Interpretation.INT_MINUS)
          [TermList.var 1, sampleNum 5]) := by
  decide

/-- C18, amended: inverting `a + b` at either argument position with the wrapped term `target`
is accepted and yields the term `target + (-b)`, where `b` is the other argument, for integer,
rational and real addition; in every structure that interprets addition and unary minus as
the ring operations its value is the value of `target` minus the value of `b`. -/
theorem invertTop_add (s : Sorts) (a b target : TermList) (idx : Fin 2) :
    canInvertTop
        { topTerm := { functor := Symbol.interpreted (NumTraits.addI s), args := [a, b] }
          topIdx := idx.val
          toWrap := target } = true ∧
      invertTop
        { topTerm := { functor := Symbol.interpreted (NumTraits.addI s), args := [a, b] }
          topIdx := idx.val
          toWrap := target } =
        Outcome.ret (NumTraits.add s target
          (NumTraits.minus s ([a, b].getD (1 - idx.val) (TermList.var 0)))) ∧
      ∀ (D : Type) [Ring D] (M : Model D) (v : Nat → D), M.interpretsArithmetic s →
        (NumTraits.add s target
          (NumTraits.minus s ([a, b].getD (1 - idx.val) (TermList.var 0)))).eval M v =
          target.eval M v - ([a, b].getD (1 - idx.val) (TermList.var 0)).eval M v := by
  refine ⟨?_, ?_, ?_⟩
  · cases s <;> fin_cases idx <;> rfl
  · cases s <;> fin_cases idx <;>
      simp [invertTop, canInvertTop, Theory.interpretFunction, Theory.isFunction, NumTraits.addI,
        NumTraits.minusI, NumTraits.mulI, Term.nthArg]
  · intro D _ M v h
    obtain ⟨hadd, hminus, _, _⟩ := h
    simp only [NumTraits.add, NumTraits.minus, TermList.eval, TermList.evalArgs, hadd, hminus,
      sub_eq_add_neg]

/-- Witness for C18: `x + 5` over the integers inverted at position 0 around `y` gives
`y + (-5)`, whose value in the integers is the value of `y` minus 5. -/
theorem invertTop_add_witness :
    invertTop
        { topTerm := { functor := Symbol.interpreted Interpretation.INT_PLUS,
                       args := [TermList.var 0, sampleNum 5] }
          topIdx := 0
          toWrap := TermList.var 1 } =
        Outcome.ret (NumTraits.add Sorts.SRT_INTEGER (TermList.var 1)
          (NumTraits.minus Sorts.SRT_INTEGER (sampleNum 5))) ∧
      (NumTraits.add Sorts.SRT_INTEGER (TermList.var 1)
          (NumTraits.minus Sorts.SRT_INTEGER (sampleNum 5))).eval sampleIntModel (fun _ => 7) =
        7 - 5 :=
  ⟨(invertTop_add Sorts.SRT_INTEGER (TermList.var 0) (sampleNum 5) (TermList.var 1) 0).2.1,
    (invertTop_add Sorts.SRT_INTEGER (TermList.var 0) (sampleNum 5) (TermList.var 1) 0).2.2
      Int sampleIntModel (fun _ => 7)
      ⟨fun _ _ => rfl, fun _ => rfl, fun _ _ => rfl, fun _ => rfl⟩⟩

/-- C19, the claim as stated fails: the binary subtraction `x0 - x1` of each of the three sorts
is not accepted by `canInvertTop`, at either argument position, and `invertTop` on the integer
subtraction is an assertion violation. -/
theorem canInvertTop_rejects_binary_subtraction :
    canInvertTop (sampleBinaryContext Interpretation.INT_MINUS 0) = false ∧
      canInvertTop (sampleBinaryContext Interpretation.INT_MINUS 1) = false ∧
      canInvertTop (sampleBinaryContext Interpretation.RAT_MINUS 0) = false ∧
      canInvertTop (sampleBinaryContext Interpretation.RAT_MINUS 1) = false ∧
      canInvertTop (sampleBinaryContext Interpretation.REAL_MINUS 0) = false ∧
      canInvertTop (sampleBinaryContext Interpretation.REAL_MINUS 1) = false ∧
      invertTop (sampleBinaryContext Interpretation.INT_MINUS 0) = Outcome.assertionViolation ∧
      invertTop (sampleBinaryContext Interpretation.INT_MINUS 1) =
        Outcome.assertionViolation := by
  decide

/-- C19, amended: the inverter accepts the unary minus `-a` of each sort and inverts it to the
term `-target`, whose value is the negation of the value of `target` in every structure that
interprets unary minus as the negation of a ring; it does not accept the binary subtraction
`a - b` of any sort, whatever the arguments, the position and the wrapped term. -/
theorem invertTop_unary_minus (s : Sorts) (a b target : TermList) (idx : Nat) :
    (canInvertTop
        { topTerm := { functor := Symbol.interpreted (NumTraits.minusI s), args := [a] }
          topIdx := idx
          toWrap := target } = true ∧
      invertTop
        { topTerm := { functor := Symbol.interpreted (NumTraits.minusI s), args := [a] }
          topIdx := idx
          toWrap := target } = Outcome.ret (NumTraits.minus s target) ∧
      ∀ (D : Type) [Ring D] (M : Model D) (v : Nat → D), M.interpretsArithmetic s →
        (NumTraits.minus s target).eval M v = -target.eval M v) ∧
      ∀ itp ∈ [Interpretation.INT_MINUS, Interpretation.RAT_MINUS, Interpretation.REAL_MINUS],
        canInvertTop
          { topTerm := { functor := Symbol.interpreted itp, args := [a, b] }
            topIdx := idx
            toWrap := target } = false := by
  refine ⟨⟨?_, ?_, ?_⟩, ?_⟩
  · cases s <;> rfl
  · cases s <;>
      simp [invertTop, canInvertTop, Theory.interpretFunction, Theory.isFunction, NumTraits.addI,
        NumTraits.minusI, NumTraits.mulI]
  · intro D _ M v h
    obtain ⟨_, hminus, _, _⟩ := h
    simp only [NumTraits.minus, TermList.eval, TermList.evalArgs, hminus]
  · intro itp hitp
    simp only [List.mem_cons, List.mem_singleton, List.mem_nil_iff, or_false] at hitp
    rcases hitp with rfl | rfl | rfl <;> rfl

/-- Witness for C19: `-x` over the integers inverted around `y` gives `-y`, whose value in the
integers is the negation of the value of `y`. -/
theorem invertTop_unary_minus_witness :
    invertTop
        { topTerm := { functor := Symbol.interpreted Interpretation.INT_UNARY_MINUS,
                       args := [TermList.var 0] }
          topIdx := 0
          toWrap := TermList.var 1 } =
        Outcome.ret (NumTraits.minus Sorts.SRT_INTEGER (TermList.var 1)) ∧
      (NumTraits.minus Sorts.SRT_INTEGER (TermList.var 1)).eval sampleIntModel (fun _ => 7) =
        -7 :=
  ⟨(invertTop_unary_minus Sorts.SRT_INTEGER (TermList.var 0) (TermList.var 0)
      (TermList.var 1) 0).1.2.1,
    (invertTop_unary_minus Sorts.SRT_INTEGER (TermList.var 0) (TermList.var 0)
      (TermList.var 1) 0).1.2.2 Int sampleIntModel (fun _ => 7)
      ⟨fun _ _ => rfl, fun _ => rfl, fun _ _ => rfl, fun _ => rfl⟩⟩

/-- C20, the claim as stated fails: inverting `x * (-1)` over the integers at position 0 around
`y` gives the product `(-1) * y`; this is not the term `-y` built with the unary minus
`INT_UNARY_MINUS`. -/
theorem invertTop_int_mul_is_not_unary_minus :
    invertTop
        { topTerm := { functor := Symbol.interpreted Interpretation.INT_MULTIPLY,
                       args := [TermList.var 0, sampleNum (-1)] }
          topIdx := 0
          toWrap := TermList.var 1 } =
        Outcome.ret (TermList.term (Symbol.interpreted Interpretation.INT_MULTIPLY)
          [sampleNum (-1), TermList.var 1]) ∧
      invertTop
        { topTerm := { functor := Symbol.interpreted Interpretation.INT_MULTIPLY,
                       args := [TermList.var 0, sampleNum (-1)] }
          topIdx := 0
          toWrap := TermList.var 1 } ≠
        Outcome.ret (TermList.term (Symbol.interpreted Interpretation.INT_UNARY_MINUS)
          [TermList.var 1]) := by
  decide

/-- C20, amended: integer multiplication `a * b` is invertible at an argument position exactly
when the other argument is the numeral 1 or the numeral -1; the inverse is `target` for 1 and
the term `(-1) * target` for -1, whose value is the negation of the value of `target` in every
structure that interprets multiplication and the numerals as those of a ring. -/
theorem invertTop_int_mul (a b target : TermList) (idx : Fin 2) :
    (canInvertTop
        { topTerm := { functor := Symbol.interpreted Interpretation.INT_MULTIPLY, args := [a, b] }
          topIdx := idx.val
          toWrap := target } = true ↔
      [a, b].getD (1 - idx.val) (TermList.var 0) = Theory.representConstantInt 1 ∨
        [a, b].getD (1 - idx.val) (TermList.var 0) = Theory.representConstantInt (-1)) ∧
      ([a, b].getD (1 - idx.val) (TermList.var 0) = Theory.representConstantInt 1 →
        invertTop
          { topTerm := { functor := Symbol.interpreted Interpretation.INT_MULTIPLY,
                         args := [a, b] }
            topIdx := idx.val
            toWrap := target } = Outcome.ret target) ∧
      ([a, b].getD (1 - idx.val) (TermList.var 0) = Theory.representConstantInt (-1) →
        invertTop
          { topTerm := { functor := Symbol.interpreted Interpretation.INT_MULTIPLY,
                         args := [a, b] }
            topIdx := idx.val
            toWrap := target } =
          Outcome.ret (NumTraits.mul Sorts.SRT_INTEGER (Theory.representConstantInt (-1))
            target)) ∧
      ∀ (D : Type) [Ring D] (M : Model D) (v : Nat → D),
        M.interpretsArithmetic Sorts.SRT_INTEGER →
        (NumTraits.mul Sorts.SRT_INTEGER (Theory.representConstantInt (-1)) target).eval M v =
          -target.eval M v := by
  have hother : otherArg
      { topTerm := { functor := Symbol.interpreted Interpretation.INT_MULTIPLY, args := [a, b] }
        topIdx := idx.val
        toWrap := target } = [a, b].getD (1 - idx.val) (TermList.var 0) := by
    fin_cases idx <;> simp [otherArg, Term.nthArg]
  have hcan := canInvertTop_int_mul
    { topTerm := { functor := Symbol.interpreted Interpretation.INT_MULTIPLY, args := [a, b] }
      topIdx := idx.val
      toWrap := target } rfl
  have hiff := tryInvertMulInt_isSome_iff
    { topTerm := { functor := Symbol.interpreted Interpretation.INT_MULTIPLY, args := [a, b] }
      topIdx := idx.val
      toWrap := target }
  rw [hother] at hiff
  have hinv : ∀ out, tryInvertMulInt
      { topTerm := { functor := Symbol.interpreted Interpretation.INT_MULTIPLY, args := [a, b] }
        topIdx := idx.val
        toWrap := target } = some out →
      invertTop
        { topTerm := { functor := Symbol.interpreted Interpretation.INT_MULTIPLY, args := [a, b] }
          topIdx := idx.val
          toWrap := target } = Outcome.ret out := by
    intro out hout
    have hc : canInvertTop
        { topTerm := { functor := Symbol.interpreted Interpretation.INT_MULTIPLY,
                       args := [a, b] }
          topIdx := idx.val
          toWrap := target } = true := by
      rw [hcan, canInvertMulInt, hout]
      rfl
    simp [invertTop, hc, Theory.interpretFunction, Theory.isFunction, NumTraits.addI,
      NumTraits.minusI, NumTraits.mulI, doInvertMulInt, hout]
  refine ⟨?_, ?_, ?_, ?_⟩
  · rw [hcan, canInvertMulInt]
    exact hiff
  · intro h
    apply hinv
    simp only [tryInvertMulInt, hother, h]
    rfl
  · intro h
    apply hinv
    simp only [tryInvertMulInt, hother, h]
    rfl
  · intro D _ M v h
    obtain ⟨_, _, hmul, hnum⟩ := h
    simp [NumTraits.mul, Theory.representConstantInt, TermList.eval, TermList.evalArgs, hmul,
      hnum]

/-- Witness for C20: `x * (-1)` is invertible at position 0 and its inverse around `y` is
`(-1) * y`, whose value in the integers is the negation of the value of `y`; `x * 2` is not
invertible at position 0. -/
theorem invertTop_int_mul_witness :
    invertTop
        { topTerm := { functor := Symbol.interpreted Interpretation.INT_MULTIPLY,
                       args := [TermList.var 0, sampleNum (-1)] }
          topIdx := 0
          toWrap := TermList.var 1 } =
        Outcome.ret (NumTraits.mul Sorts.SRT_INTEGER (sampleNum (-1)) (TermList.var 1)) ∧
      (NumTraits.mul Sorts.SRT_INTEGER (sampleNum (-1)) (TermList.var 1)).eval sampleIntModel
        (fun _ => 7) = -7 ∧
      ¬ canInvertTop
        { topTerm := { functor := Symbol.interpreted Interpretation.INT_MULTIPLY,
                       args := [TermList.var 0, sampleNum 2] }
          topIdx := 0
          toWrap := TermList.var 1 } = true :=
  ⟨(invertTop_int_mul (TermList.var 0) (sampleNum (-1)) (TermList.var 1) 0).2.2.1 rfl,
    (invertTop_int_mul (TermList.var 0) (sampleNum (-1)) (TermList.var 1) 0).2.2.2
      Int sampleIntModel (fun _ => 7)
      ⟨fun _ _ => rfl, fun _ => rfl, fun _ _ => rfl, fun _ => rfl⟩,
    fun h => by
      have h1 := (invertTop_int_mul (TermList.var 0) (sampleNum 2) (TermList.var 1) 0).1.1 h
      revert h1
      decide⟩

end NumberTheoryInverter

end Inverters

end Rebalancing

/-! ## Gaussian variable elimination -/

namespace EqHelper

mutual
theorem replaceTerm_var_eq_subst (x : Nat) (u : TermList) :
    ∀ t : TermList, replaceTerm (TermList.var x) u t = t.subst (TermList.single x u)
  | .var v => by
    by_cases h : v = x
    · simp [replaceTerm, TermList.subst, TermList.single, h]
    · simp [replaceTerm, TermList.subst, TermList.single, h]
  | .term f args => by
    rw [replaceTerm, if_neg (by intro h; cases h), replaceArgs_var_eq_subst x u args,
      TermList.subst]
theorem replaceArgs_var_eq_subst (x : Nat) (u : TermList) :
    ∀ ts : List TermList,
      replaceArgs (TermList.var x) u ts = TermList.substArgs (TermList.single x u) ts
  | [] => rfl
  | t :: ts => by
    rw [replaceArgs, replaceTerm_var_eq_subst x u t, replaceArgs_var_eq_subst x u ts,
      TermList.substArgs]
end

theorem replace_var_eq_subst (lit : Literal) (x : Nat) (u : TermList) :
    replace lit (TermList.var x) u = lit.subst (TermList.single x u) := by
  rw [replace, Literal.subst, replaceArgs_var_eq_subst]

end EqHelper

namespace GaussianVariableElimination

theorem range_map_append_eq_eraseIdx {α β : Type} (l : List α) (d : α) (R : α → β) (k : Nat)
    (hk : k < l.length) :
    (List.range k).map (fun i => R (l.getD i d)) ++
        (List.range' k (l.length - 1 - k)).map (fun i => R (l.getD (i + 1) d)) =
      (l.eraseIdx k).map R := by
  apply List.ext_getElem?
  intro j
  rw [List.getElem?_map, List.getElem?_eraseIdx]
  by_cases hj : j < k
  · rw [List.getElem?_append_left (by simpa using hj)]
    have hjl : j < l.length := by omega
    simp [hj, List.getElem?_range hj, List.getD_eq_getElem?_getD, List.getElem?_eq_getElem hjl]
  · rw [List.getElem?_append_right (by simpa using Nat.le_of_not_lt hj)]
    simp only [List.length_map, List.length_range, if_neg hj]
    by_cases hj2 : j + 1 < l.length
    · have h3 : j - k < l.length - 1 - k := by omega
      rw [List.getElem?_map, List.getElem?_range' _ _ h3]
      have : k + (j - k) + 1 = j + 1 := by omega
      simp [this, List.getD_eq_getElem?_getD, List.getElem?_eq_getElem hj2]
    · have h3 : l.length - 1 - k ≤ j - k := by omega
      rw [List.getElem?_eq_none (by simpa using h3), List.getElem?_eq_none (by omega)]
      rfl

theorem rewrite_sz (n : Nat) (h0 : 0 < n) (hlen : n < 2 ^ 32) :
    (n + 2 ^ 32 - 1) % 2 ^ 32 = n - 1 := by
  have h232 : (2 : Nat) ^ 32 = 4294967296 := by norm_num
  rw [h232] at hlen ⊢
  omega

theorem rewrite_eq (cl : Clause) (find replace : TermList) (k : Nat) (hk : k < cl.length)
    (hlen : cl.length < 2 ^ 32) :
    rewrite cl find replace k =
      Outcome.ret
        { lits := (cl.lits.eraseIdx k).map (fun l => EqHelper.replace l find replace)
          inputType := cl.inputType
          numSelected := 0 } := by
  have hsz := rewrite_sz cl.length (by omega) hlen
  unfold rewrite
  simp only [hsz]
  rw [if_neg (by omega)]
  have := range_map_append_eq_eraseIdx cl.lits
    (Literal.createEquality true (TermList.var 0) (TermList.var 0))
    (fun l => EqHelper.replace l find replace) k hk
  simp only [Clause.get, Clause.length] at this ⊢
  rw [this]

theorem rewrite_length (cl out : Clause) (find replace : TermList) (k : Nat)
    (hlen : cl.length < 2 ^ 32) (h : rewrite cl find replace k = Outcome.ret out) :
    out.length = cl.length - 1 := by
  by_cases hk : k < cl.length
  · rw [rewrite_eq cl find replace k hk hlen] at h
    injection h with h
    rw [← h]
    simp only [Clause.length, List.length_map]
    rw [List.length_eraseIdx_of_lt hk]
  · exfalso
    have hv : rewrite cl find replace k = Outcome.assertionViolation := by
      unfold rewrite
      by_cases h0 : cl.length = 0
      · simp [h0]
      · have hsz := rewrite_sz cl.length (by omega) hlen
        simp only [hsz]
        rw [if_pos (Or.inr (by omega))]
    rw [hv] at h
    cases h

theorem balanceLoop_some (buildRhs : Literal → Rebalancing.BalanceIter → Outcome TermList)
    (cl out : Clause) (i : Nat) (lit : Literal) :
    ∀ (fuel : Nat) (it : Rebalancing.BalanceIter),
      balanceLoop buildRhs cl i lit fuel it = Run.value (some out) →
      ∃ lhs rhs, rewrite cl lhs rhs i = Outcome.ret out := by
  intro fuel
  induction fuel with
  | zero =>
    intro it h
    cases h
  | succ fuel ih =>
    intro it h
    unfold balanceLoop at h
    repeat' split at h
    all_goals first
      | exact ih _ h
      | (cases h; done)
      | (cases h; exact ⟨_, _, by assumption⟩)

theorem performStep_value (buildRhs : Literal → Rebalancing.BalanceIter → Outcome TermList)
    (cl out : Clause) :
    ∀ (lits : List Literal) (i : Nat), performStep buildRhs cl lits i = Run.value out →
      out = cl ∨ ∃ lhs rhs j, rewrite cl lhs rhs j = Outcome.ret out := by
  intro lits
  induction lits with
  | nil =>
    intro i h
    left
    injection h with h
    exact h.symm
  | cons lit rest ih =>
    intro i h
    unfold performStep at h
    repeat' split at h
    all_goals first
      | exact ih _ h
      | (cases h; done)
      | (rename_i hb
         cases h
         obtain ⟨l, r, hr⟩ := balanceLoop_some buildRhs cl _ i lit _ _ hb
         exact Or.inr ⟨l, r, i, hr⟩)

/-- The loop of `simplify`, whatever the function it calls for `buildRhs`: a returned clause
different from the input `C` (of a length representable in `unsigned`) comes from `rewrite`
and has `length(C) - 1` literals. -/
theorem simplifyWith_length
    (buildRhs : Literal → Rebalancing.BalanceIter → Outcome TermList) (cl out : Clause)
    (hlen : cl.length < 2 ^ 32) (h : simplifyWith buildRhs cl = Run.value out)
    (hne : out ≠ cl) : out.length = cl.length - 1 := by
  rcases performStep_value buildRhs cl out cl.lits 0 h with h1 | ⟨l, r, j, hr⟩
  · exact absurd h1 hne
  · exact rewrite_length cl out l r j hlen hr

/-- C16: for a position `k` of the clause, `rewrite(cl, x, u, k)` returns the clause of
`length(cl) - 1` literals whose `i`-th literal is literal `i` of `cl` (for `i < k`) or literal
`i + 1` of `cl` (for `i ≥ k`) with `x` replaced by `u`: literal `k` is dropped and the order
of the others is kept; for a variable `x` the replacement is the substitution of `u` for
`x`. -/
theorem rewrite_spec (cl : Clause) (x u : TermList) (k : Nat) (hk : k < cl.length)
    (hlen : cl.length < 2 ^ 32) :
    ∃ out, rewrite cl x u k = Outcome.ret out ∧
      out.length = cl.length - 1 ∧
      (∀ i, i < cl.length - 1 →
        out.get i = EqHelper.replace (cl.get (if i < k then i else i + 1)) x u) ∧
      out.lits = (cl.lits.eraseIdx k).map (fun l => EqHelper.replace l x u) ∧
      ∀ (l : Literal) (v : Nat), x = TermList.var v →
        EqHelper.replace l x u = l.subst (TermList.single v u) := by
  refine ⟨_, rewrite_eq cl x u k hk hlen, ?_, ?_, rfl, ?_⟩
  · simp only [Clause.length, List.length_map]
    rw [List.length_eraseIdx_of_lt hk]
  · intro i hi
    simp only [Clause.length] at hi hk
    simp only [Clause.get, List.getD_eq_getElem?_getD, List.getElem?_map,
      List.getElem?_eraseIdx]
    by_cases hik : i < k
    · have hil : i < cl.lits.length := by omega
      simp [hik, List.getElem?_eq_getElem hil]
    · have hil : i + 1 < cl.lits.length := by omega
      simp [hik, List.getElem?_eq_getElem hil]
  · intro l v hx
    rw [hx, EqHelper.replace_var_eq_subst]

/-- Witness for C16: rewriting `x + 1 ≠ y ∨ q(x, y)` with `x ↦ y + (-1)` and dropping literal 0
gives `q(y + (-1), y)`. -/
theorem rewrite_spec_witness :
    ∃ out, rewrite sampleGaussClause (TermList.var 0)
        (NumTraits.add Sorts.SRT_INTEGER (TermList.var 1)
          (NumTraits.minus Sorts.SRT_INTEGER (sampleNum 1))) 0 = Outcome.ret out ∧
      out.lits = sampleGaussResult.lits := by
  obtain ⟨out, h1, _, _, h4, _⟩ := rewrite_spec sampleGaussClause (TermList.var 0)
    (NumTraits.add Sorts.SRT_INTEGER (TermList.var 1)
      (NumTraits.minus Sorts.SRT_INTEGER (sampleNum 1))) 0 (by decide) (by decide)
  exact ⟨out, h1, h4.trans (by decide)⟩

theorem balanceLoop_buildRhs_ne_some (cl out : Clause) (i : Nat) (lit : Literal) :
    ∀ (fuel : Nat) (it : Rebalancing.BalanceIter),
      balanceLoop Rebalancing.BalanceIter.buildRhs cl i lit fuel it ≠ Run.value (some out) := by
  intro fuel it h
  cases fuel with
  | zero => cases h
  | succ fuel =>
    unfold balanceLoop at h
    simp only [Rebalancing.BalanceIter.buildRhs] at h
    repeat' split at h
    all_goals cases h

theorem performStep_buildRhs_value (cl out : Clause) :
    ∀ (lits : List Literal) (i : Nat),
      performStep Rebalancing.BalanceIter.buildRhs cl lits i = Run.value out → out = cl := by
  intro lits
  induction lits with
  | nil =>
    intro i h
    injection h with h
    exact h.symm
  | cons lit rest ih =>
    intro i h
    unfold performStep at h
    repeat' split at h
    all_goals first
      | exact ih _ h
      | (cases h; done)
      | (rename_i hb
         exact absurd hb (balanceLoop_buildRhs_ne_some cl _ i lit _ _))

/-- C17: on the clause `x + 1 ≠ y ∨ q(x, y)` `simplify` hits the assertion violation of
`buildRhs` instead of returning `q(y - 1, y)`, which the intended `buildRhs` would give; and
since `buildRhs` is unimplemented, `simplify` never returns a clause other than its input. -/
theorem simplify_hits_unimplemented_buildRhs :
    simplify sampleGaussClause = Run.assertionViolation ∧
      simplifyWith Rebalancing.BalanceIter.buildRhsIntended sampleGaussClause =
        Run.value sampleGaussResult ∧
      ∀ cl out : Clause, simplify cl = Run.value out → out = cl :=
  ⟨by decide, by decide, fun cl out h => performStep_buildRhs_value cl out cl.lits 0 h⟩

end GaussianVariableElimination

/-! ## Rebalancing: the path of a yielded rebalancing -/

namespace Rebalancing

namespace BalanceIter

/-- C21: on `f(x + 1) ≠ y` with `f` uninterpreted, the first rebalancing yielded by the
iterator has left-hand side `x` and the path `f(x + 1)` at 0, `x + 1` at 0; `canInvert` holds
for the top node `x + 1` only, not for the node `f(x + 1)`, and inverting along the path (the
intended `buildRhs`) runs into the assertion of `invertTop`. -/
theorem begin_yields_below_uninvertible_node :
    begin sampleNestedLiteral = Run.value sampleNestedIter ∧
      lhs sampleNestedLiteral sampleNestedIter = Outcome.ret (TermList.var 0) ∧
      sampleNestedIter.path.map
          (fun node => Inverters.NumberTheoryInverter.canInvert node.term node.index) =
        [true, false] ∧
      buildRhsIntended sampleNestedLiteral sampleNestedIter = Outcome.assertionViolation := by
  decide

end BalanceIter

end Rebalancing

/-! ## Equality resolution: the length of the child and the cases without a child -/

namespace EqualityResolution

/-- C23: on the clause `f(x) ≠ f(a) ∨ f(x) ≠ f(a) ∨ p(x)`, with unification with abstraction
off, the two sides of the selected literal `f(x) ≠ f(a)` unify, but `ResultFn` skips both
copies of the literal, fills one slot of the two of the child and violates
`ASS_EQ(next, newLen)`. -/
theorem resultFn_duplicate_literal_violates_length :
    (unifySides UnificationWithAbstraction.OFF sampleResolvedLiteral).isSome = true ∧
      sampleResolvedLiteral ∈ sampleDuplicateClause.lits.take sampleDuplicateClause.numSelected ∧
      (sampleDuplicateClause.lits.filter (fun l => decide (l ≠ sampleResolvedLiteral))).length
        = 1 ∧
      sampleDuplicateClause.length - 1 = 2 ∧
      ResultFn UnificationWithAbstraction.OFF sampleDuplicateClause false (fun _ _ => false)
        sampleResolvedLiteral = Outcome.assertionViolation := by
  decide

end EqualityResolution

/-! ## Rebalancing: the iteration of a balancer -/

namespace Rebalancing

namespace BalanceIter

theorem advance_eq_popLoop (it : BalanceIter) : advance it = popLoop it.path it.litIndex := by
  obtain ⟨path, li⟩ := it
  cases path with
  | nil => rfl
  | cons peak rest => rfl

theorem steps_succ_inv (lit : Literal) (n : Nat) (s e : BalanceIter)
    (h : steps lit (n + 1) s = Outcome.ret e) :
    ∃ s1, incrementStep lit s = Outcome.ret s1 ∧ steps lit n s1 = Outcome.ret e := by
  unfold steps at h
  split at h
  · rename_i s1 hs
    exact ⟨s1, hs, h⟩
  · cases h

theorem steps_add (lit : Literal) :
    ∀ (a b : Nat) (s s1 : BalanceIter), steps lit a s = Outcome.ret s1 →
      steps lit (a + b) s = steps lit b s1 := by
  intro a
  induction a with
  | zero =>
    intro b s s1 h
    injection h with h
    subst h
    rw [Nat.zero_add]
  | succ a ih =>
    intro b s s1 h
    obtain ⟨s2, h1, h2⟩ := steps_succ_inv lit a s s1 h
    rw [Nat.succ_add, steps, h1]
    exact ih b s2 s1 h2

theorem visited_add (lit : Literal) :
    ∀ (a b : Nat) (s s1 : BalanceIter), steps lit a s = Outcome.ret s1 →
      visited lit (a + b) s = visited lit a s ++ visited lit b s1 := by
  intro a
  induction a with
  | zero =>
    intro b s s1 h
    injection h with h
    subst h
    rw [Nat.zero_add]
    rfl
  | succ a ih =>
    intro b s s1 h
    obtain ⟨s2, h1, h2⟩ := steps_succ_inv lit a s s1 h
    rw [Nat.succ_add, visited, visited, h1]
    simp only
    rw [ih b s2 s1 h2, List.append_assoc]

theorem getD_of_drop_eq_cons {α : Type} (l : List α) (i : Nat) (a d : α) (rest : List α)
    (h : l.drop i = a :: rest) : l.getD i d = a ∧ l.drop (i + 1) = rest := by
  induction l generalizing i with
  | nil => simp at h
  | cons x xs ih =>
    cases i with
    | zero =>
      simp only [List.drop_zero, List.cons.injEq] at h
      simp [h.1, h.2]
    | succ i =>
      simp only [List.drop_succ_cons] at h
      have := ih i h
      simpa using this

theorem length_of_drop_eq_cons {α : Type} (l : List α) (i : Nat) (a : α) (rest : List α)
    (h : l.drop i = a :: rest) : l.length = i + 1 + rest.length := by
  have := congrArg List.length h
  simp only [List.length_drop, List.length_cons] at this
  omega

theorem incrementStep_var (lit : Literal) (it : BalanceIter) (v : Nat)
    (hd : derefPath lit it = Outcome.ret (TermList.var v)) :
    incrementStep lit it = Outcome.ret (advance it) := by
  unfold incrementStep
  rw [hd]

theorem incrementStep_const (lit : Literal) (it : BalanceIter) (f : Symbol)
    (hd : derefPath lit it = Outcome.ret (TermList.term f [])) :
    incrementStep lit it = Outcome.ret (advance it) := by
  unfold incrementStep
  rw [hd]
  rfl

theorem incrementStep_push (lit : Literal) (it : BalanceIter) (f : Symbol) (a : TermList)
    (as : List TermList)
    (hd : derefPath lit it = Outcome.ret (TermList.term f (a :: as))) :
    incrementStep lit it =
      Outcome.ret { path := { index := 0, term := { functor := f, args := a :: as } } :: it.path,
                    litIndex := it.litIndex } := by
  unfold incrementStep
  rw [hd]
  simp

theorem yields_of_var (lit : Literal) (it : BalanceIter) (v : Nat) (hli : it.litIndex < 2)
    (hd : derefPath lit it = Outcome.ret (TermList.var v)) :
    yields lit it = canInvert it := by
  simp [yields, hd, inRange, hli, TermList.isVar]

theorem yields_of_term (lit : Literal) (it : BalanceIter) (f : Symbol) (args : List TermList)
    (hd : derefPath lit it = Outcome.ret (TermList.term f args)) :
    yields lit it = false := by
  simp [yields, hd, TermList.isVar]

theorem derefPath_cons (lit : Literal) (node : Node) (path : List Node) (li : Nat)
    (hli : li < 2) :
    derefPath lit { path := node :: path, litIndex := li } =
      Outcome.ret (node.term.nthArg node.index) := by
  unfold derefPath
  rw [if_neg (not_not.2 hli)]

mutual
theorem traverse_term (lit : Literal) :
    ∀ (t : TermList) (it : BalanceIter), it.litIndex < 2 → derefPath lit it = Outcome.ret t →
      steps lit t.weight it = Outcome.ret (advance it) ∧
        visited lit t.weight it = Balancer.stopsIn it.path it.litIndex t
  | .var v, it, hli, hd => by
    have hs := incrementStep_var lit it v hd
    constructor
    · simp only [TermList.weight, steps, hs]
    · simp only [TermList.weight, visited, hs, yields_of_var lit it v hli hd,
        Balancer.stopsIn, List.append_nil]
  | .term f [], it, _, hd => by
    have hs := incrementStep_const lit it f hd
    constructor
    · simp only [TermList.weight, TermList.weightArgs, steps, hs]
    · simp [TermList.weight, TermList.weightArgs, visited, hs, yields_of_term lit it f [] hd,
        Balancer.stopsIn, Balancer.stopsInArgs]
  | .term f (a :: as), it, hli, hd => by
    have hs := incrementStep_push lit it f a as hd
    obtain ⟨h1, h2⟩ := traverse_args lit (a :: as) { functor := f, args := a :: as } 0
      it.path it.litIndex hli rfl
    have hw : (TermList.term f (a :: as)).weight = TermList.weightArgs (a :: as) + 1 := by
      rw [TermList.weight, Nat.add_comm]
    constructor
    · rw [hw, steps, hs]
      simp only
      rw [h1 (by simp), advance_eq_popLoop]
    · rw [hw, visited, hs]
      simp only
      rw [yields_of_term lit it f (a :: as) hd, h2 (by simp), Balancer.stopsIn]
      simp
theorem traverse_args (lit : Literal) :
    ∀ (as : List TermList) (tm : Term) (i : Nat) (path : List Node) (li : Nat), li < 2 →
      tm.args.drop i = as →
      (as ≠ [] →
        steps lit (TermList.weightArgs as) { path := { index := i, term := tm } :: path,
                                             litIndex := li } =
          Outcome.ret (popLoop path li)) ∧
        (as ≠ [] →
          visited lit (TermList.weightArgs as) { path := { index := i, term := tm } :: path,
                                                 litIndex := li } =
            Balancer.stopsInArgs path li tm i as)
  | [], _, _, _, _, _, _ => ⟨fun h => absurd rfl h, fun h => absurd rfl h⟩
  | a :: rest, tm, i, path, li, hli, hdrop => by
    obtain ⟨hget, hdrop1⟩ := getD_of_drop_eq_cons tm.args i a (TermList.var 0) rest hdrop
    have hlen := length_of_drop_eq_cons tm.args i a rest hdrop
    have hd : derefPath lit { path := { index := i, term := tm } :: path, litIndex := li } =
        Outcome.ret a := by
      rw [derefPath_cons lit _ _ _ hli]
      simp only [Term.nthArg, hget]
    obtain ⟨h1, h2⟩ := traverse_term lit a
      { path := { index := i, term := tm } :: path, litIndex := li } hli hd
    obtain ⟨r1, r2⟩ := traverse_args lit rest tm (i + 1) path li hli hdrop1
    cases rest with
    | nil =>
      have hadv : advance { path := { index := i, term := tm } :: path, litIndex := li } =
          popLoop path li := by
        simp only [advance, Term.arity]
        rw [if_pos (by simp at hlen; omega)]
      refine ⟨fun _ => ?_, fun _ => ?_⟩
      · simp only [TermList.weightArgs, Nat.add_zero]
        rw [h1, hadv]
      · simp only [TermList.weightArgs, Nat.add_zero]
        rw [h2]
        simp [Balancer.stopsInArgs]
    | cons b rest1 =>
      have hadv : advance { path := { index := i, term := tm } :: path, litIndex := li } =
          { path := { index := i + 1, term := tm } :: path, litIndex := li } := by
        simp only [advance, Term.arity]
        rw [if_neg (by simp at hlen; omega)]
      rw [hadv] at h1
      refine ⟨fun _ => ?_, fun _ => ?_⟩
      · rw [TermList.weightArgs, steps_add lit _ _ _ _ h1]
        exact r1 (by simp)
      · rw [TermList.weightArgs, visited_add lit _ _ _ _ h1, h2, r2 (by simp)]
        rfl
end

end BalanceIter

namespace Balancer

theorem invertiblePath_cons (node : Node) (path : List Node) (litIndex : Nat) :
    BalanceIter.invertiblePath { path := node :: path, litIndex := litIndex } =
      (Inverters.NumberTheoryInverter.canInvert node.term node.index &&
        BalanceIter.invertiblePath { path := path, litIndex := litIndex }) := by
  simp [BalanceIter.invertiblePath]

theorem canInvert_of_invertiblePath (path : List Node) (litIndex : Nat)
    (h : BalanceIter.invertiblePath { path := path, litIndex := litIndex } = true) :
    BalanceIter.canInvert { path := path, litIndex := litIndex } = true := by
  cases path with
  | nil => rfl
  | cons node rest =>
    rw [invertiblePath_cons, Bool.and_eq_true] at h
    simpa [BalanceIter.canInvert] using h.1

mutual
theorem filter_stopsIn (litIndex : Nat) :
    ∀ (t : TermList) (path : List Node),
      (stopsIn path litIndex t).filter BalanceIter.invertiblePath =
        if BalanceIter.invertiblePath { path := path, litIndex := litIndex } then
          reachableIn path litIndex t
        else []
  | .var v, path => by
    rw [stopsIn, reachableIn]
    by_cases hp : BalanceIter.invertiblePath { path := path, litIndex := litIndex } = true
    · rw [if_pos (canInvert_of_invertiblePath path litIndex hp), if_pos hp]
      simp [List.filter, hp]
    · rw [if_neg hp]
      split
      · simp [List.filter, hp]
      · rfl
  | .term f args, path => by
    rw [stopsIn, reachableIn]
    exact filter_stopsInArgs litIndex { functor := f, args := args } args path 0
theorem filter_stopsInArgs (litIndex : Nat) (t : Term) :
    ∀ (as : List TermList) (path : List Node) (i : Nat),
      (stopsInArgs path litIndex t i as).filter BalanceIter.invertiblePath =
        if BalanceIter.invertiblePath { path := path, litIndex := litIndex } then
          reachableInArgs path litIndex t i as
        else []
  | [], path, i => by
    rw [stopsInArgs, reachableInArgs]
    simp
  | a :: as, path, i => by
    rw [stopsInArgs, reachableInArgs, List.filter_append,
      filter_stopsIn litIndex a ({ index := i, term := t } :: path),
      filter_stopsInArgs litIndex t as path (i + 1), invertiblePath_cons]
    by_cases hp : BalanceIter.invertiblePath { path := path, litIndex := litIndex } = true
    · by_cases hc : Inverters.NumberTheoryInverter.canInvert t i = true
      · simp [hp, hc]
      · simp [hp, hc]
    · simp [hp]
end

end Balancer

end Rebalancing

/-! ## Equality resolution: the cases without a child, the constraint literals -/

namespace EqualityResolution

theorem copyLoop_none_ne (subst : RobSubstitution) (greater : Literal → Literal → Bool)
    (numSelected : Nat) (lit : Literal) :
    ∀ (ls : List Literal) (i : Nat),
      copyLoop subst none greater numSelected lit ls i ≠ none := by
  intro ls
  induction ls with
  | nil =>
    intro i h
    simp [copyLoop] at h
  | cons curr rest ih =>
    intro i h
    unfold copyLoop at h
    by_cases hc : curr ≠ lit
    · rw [if_pos hc] at h
      simp only [Bool.false_eq_true, if_false, Option.map_eq_none'] at h
      exact ih _ h
    · rw [if_neg hc] at h
      exact ih _ h

theorem copyLoop_none_iff (subst : RobSubstitution) (la : Literal)
    (greater : Literal → Literal → Bool) (numSelected : Nat) (lit : Literal) :
    ∀ (ls : List Literal) (i : Nat),
      copyLoop subst (some la) greater numSelected lit ls i = none ↔
        ∃ k curr, ls[k]? = some curr ∧ curr ≠ lit ∧ i + k < numSelected ∧
          greater (subst.applyLit curr) la = true := by
  intro ls
  induction ls with
  | nil =>
    intro i
    simp [copyLoop]
  | cons c rest ih =>
    intro i
    unfold copyLoop
    by_cases hc : c ≠ lit
    · rw [if_pos hc]
      simp only
      by_cases hb : (decide (i < numSelected) && greater (subst.applyLit c) la) = true
      · simp only [hb, if_true, true_iff]
        simp only [Bool.and_eq_true, decide_eq_true_eq] at hb
        exact ⟨0, c, by simp, hc, by simpa using hb.1, hb.2⟩
      · simp only [hb, Bool.false_eq_true, if_false, Option.map_eq_none', ih]
        constructor
        · rintro ⟨k, curr, h1, h2, h3, h4⟩
          exact ⟨k + 1, curr, by simpa using h1, h2, by omega, h4⟩
        · rintro ⟨k, curr, h1, h2, h3, h4⟩
          cases k with
          | zero =>
            simp only [List.getElem?_cons_zero, Option.some.injEq] at h1
            subst h1
            exfalso
            apply hb
            simp only [Bool.and_eq_true, decide_eq_true_eq]
            exact ⟨by simpa using h3, h4⟩
          | succ k =>
            exact ⟨k, curr, by simpa using h1, h2, by omega, h4⟩
    · rw [if_neg hc, ih]
      have hcl : c = lit := not_not.1 hc
      constructor
      · rintro ⟨k, curr, h1, h2, h3, h4⟩
        exact ⟨k + 1, curr, by simpa using h1, h2, by omega, h4⟩
      · rintro ⟨k, curr, h1, h2, h3, h4⟩
        cases k with
        | zero =>
          simp only [List.getElem?_cons_zero, Option.some.injEq] at h1
          subst h1
          exact absurd hcl h2
        | succ k =>
          exact ⟨k, curr, by simpa using h1, h2, by omega, h4⟩

theorem copyLoop_eq_none_iff_blocks (cl : Clause) (afterCheck : Bool)
    (greater : Literal → Literal → Bool) (lit : Literal) (σ : RobSubstitution) :
    copyLoop σ
        (if afterCheck && decide (cl.numSelected > 1) then some (σ.applyLit lit) else none)
        greater cl.numSelected lit cl.lits 0 = none ↔
      aftercheckBlocks cl afterCheck greater lit σ := by
  unfold aftercheckBlocks
  by_cases h : (afterCheck && decide (cl.numSelected > 1)) = true
  · rw [if_pos h, copyLoop_none_iff]
    simp only [Bool.and_eq_true, decide_eq_true_eq] at h
    constructor
    · rintro ⟨k, curr, h1, h2, h3, h4⟩
      exact ⟨h.1, h.2, k, curr, by omega, h1, h2, h4⟩
    · rintro ⟨_, _, k, curr, h1, h2, h3, h4⟩
      exact ⟨k, curr, h2, h3, by omega, h4⟩
  · rw [if_neg h]
    constructor
    · intro hn
      exact absurd hn (copyLoop_none_ne _ _ _ _ _ _)
    · rintro ⟨h1, h2, _⟩
      exfalso
      apply h
      simp [h1, h2]

theorem constraintLoop_some (uwa : UnificationWithAbstraction) (σ : RobSubstitution) :
    ∀ (cs : List (TermList × TermList)) (extra : List Literal),
      constraintLoop uwa σ cs = some extra → extra = cs.map (constraintLiteral σ) := by
  intro cs
  induction cs with
  | nil =>
    intro extra h
    simp only [constraintLoop, Option.some.injEq] at h
    simp [← h]
  | cons con rest ih =>
    intro extra h
    unfold constraintLoop at h
    simp only at h
    split at h
    · cases h
    · cases hr : constraintLoop uwa σ rest with
      | none => rw [hr] at h; cases h
      | some ls =>
        rw [hr] at h
        simp only [Option.map_some', Option.some.injEq] at h
        rw [← h, ih ls hr]
        rfl

/-- The outcome of `ResultFn` on a negative equality whose sides unify, in terms of its two
loops. -/
theorem resultFn_eq (uwa : UnificationWithAbstraction) (cl : Clause) (afterCheck : Bool)
    (greater : Literal → Literal → Bool) (lit : Literal) (σ : RobSubstitution)
    (cs : List (TermList × TermList)) (hlit : IsNegativeEqualityFn lit = true)
    (hu : unifySides uwa lit = some (σ, cs)) :
    ResultFn uwa cl afterCheck greater lit =
      match copyLoop σ
          (if afterCheck && decide (cl.numSelected > 1) then some (σ.applyLit lit) else none)
          greater cl.numSelected lit cl.lits 0 with
      | none => Outcome.ret none
      | some copied =>
        match constraintLoop uwa σ cs with
        | none => Outcome.ret none
        | some extra =>
          if (copied ++ extra).length = (cl.length + 2 ^ 32 - 1 + cs.length) % 2 ^ 32 then
            Outcome.ret (some
              { lits := copied ++ extra, inputType := cl.inputType, numSelected := 0 })
          else Outcome.assertionViolation := by
  unfold IsNegativeEqualityFn at hlit
  simp only [Bool.and_eq_true] at hlit
  unfold ResultFn
  simp only [hlit.1, hlit.2, Bool.not_true, Bool.false_eq_true, if_false, hu, buildResult]

theorem weight_pos : ∀ t : TermList, 1 ≤ t.weight
  | .var _ => by simp [TermList.weight]
  | .term _ _ => by simp [TermList.weight]

theorem constraintLoop_none_iff (uwa : UnificationWithAbstraction) (σ : RobSubstitution) :
    ∀ cs : List (TermList × TermList),
      constraintLoop uwa σ cs = none ↔
        ∃ con ∈ cs, uwa = UnificationWithAbstraction.GROUND ∧
          (constraintLiteral σ con).ground = false ∧
          Theory.isInterpretedFunctionTerm (σ.apply con.1) = false ∧
          Theory.isInterpretedConstantTerm (σ.apply con.1) = false ∧
          Theory.isInterpretedFunctionTerm (σ.apply con.2) = false ∧
          Theory.isInterpretedConstantTerm (σ.apply con.2) = false := by
  intro cs
  induction cs with
  | nil => simp [constraintLoop]
  | cons con rest ih =>
    unfold constraintLoop
    simp only
    split
    · rename_i hrej
      simp only [Bool.and_eq_true, decide_eq_true_eq, Bool.not_eq_true'] at hrej
      simp only [true_iff]
      exact ⟨con, List.mem_cons_self _ _, hrej.1.1.1, hrej.1.1.2, hrej.1.2.1, hrej.1.2.2,
        hrej.2.1, hrej.2.2⟩
    · rename_i hrej
      simp only [Option.map_eq_none', ih]
      constructor
      · rintro ⟨c, hc, h⟩
        exact ⟨c, List.mem_cons_of_mem _ hc, h⟩
      · rintro ⟨c, hc, h⟩
        rw [List.mem_cons] at hc
        rcases hc with hc | hc
        · subst hc
          exfalso
          apply hrej
          simp only [Bool.and_eq_true, decide_eq_true_eq, Bool.not_eq_true']
          exact ⟨⟨⟨h.1, h.2.1⟩, h.2.2.1, h.2.2.2.1⟩, h.2.2.2.2.1, h.2.2.2.2.2⟩
        · exact ⟨c, hc, h⟩

/-- C24: for a negative equality, `ResultFn` yields no child exactly when the unification of
the two sides fails, or the literal-maximality aftercheck rejects the inference, or a
constraint of unification with abstraction is rejected; with abstraction off the last case
never arises, so no child is yielded exactly when unification fails or the aftercheck is
enabled, the premise has more than one selected literal and some selected literal other than
the resolved one is greater than the resolved literal after applying the unifier. -/
theorem resultFn_no_child_iff (uwa : UnificationWithAbstraction) (cl : Clause)
    (afterCheck : Bool) (greater : Literal → Literal → Bool) (lit : Literal)
    (hlit : IsNegativeEqualityFn lit = true) :
    (ResultFn uwa cl afterCheck greater lit = Outcome.ret none ↔
        unifySides uwa lit = none ∨
          ∃ σ cs, unifySides uwa lit = some (σ, cs) ∧
            (aftercheckBlocks cl afterCheck greater lit σ ∨ constraintLoop uwa σ cs = none)) ∧
      (uwa = UnificationWithAbstraction.OFF →
        (ResultFn uwa cl afterCheck greater lit = Outcome.ret none ↔
          unifySides uwa lit = none ∨
            ∃ σ cs, unifySides uwa lit = some (σ, cs) ∧
              aftercheckBlocks cl afterCheck greater lit σ)) := by
  have hgen : ResultFn uwa cl afterCheck greater lit = Outcome.ret none ↔
      unifySides uwa lit = none ∨
        ∃ σ cs, unifySides uwa lit = some (σ, cs) ∧
          (aftercheckBlocks cl afterCheck greater lit σ ∨ constraintLoop uwa σ cs = none) := by
    cases hu : unifySides uwa lit with
    | none =>
      have : ResultFn uwa cl afterCheck greater lit = Outcome.ret none := by
        unfold IsNegativeEqualityFn at hlit
        simp only [Bool.and_eq_true] at hlit
        unfold ResultFn
        simp only [hlit.1, hlit.2, Bool.not_true, Bool.false_eq_true, if_false, hu]
      simp [this]
    | some p =>
      obtain ⟨σ, cs⟩ := p
      rw [resultFn_eq uwa cl afterCheck greater lit σ cs hlit hu]
      have hb := copyLoop_eq_none_iff_blocks cl afterCheck greater lit σ
      constructor
      · intro h
        right
        refine ⟨σ, cs, rfl, ?_⟩
        split at h
        · rename_i hc
          exact Or.inl (hb.1 hc)
        · split at h
          · rename_i hc
            exact Or.inr hc
          · split at h <;> cases h
      · rintro (h | ⟨σ1, cs1, h1, h2⟩)
        · cases h
        · injection h1 with h1
          injection h1 with h1 h1'
          subst h1 h1'
          rcases h2 with h2 | h2
          · rw [hb.2 h2]
          · split
            · rfl
            · rw [h2]
  refine ⟨hgen, ?_⟩
  intro hoff
  rw [hgen]
  constructor
  · rintro (h | ⟨σ, cs, h1, h2⟩)
    · exact Or.inl h
    · rcases h2 with h2 | h2
      · exact Or.inr ⟨σ, cs, h1, h2⟩
      · exfalso
        rw [hoff] at h1 h2
        have := unifySides_off lit σ cs h1
        subst this
        simp [constraintLoop] at h2
  · rintro (h | ⟨σ, cs, h1, h2⟩)
    · exact Or.inl h
    · exact Or.inr ⟨σ, cs, h1, Or.inl h2⟩

/-- Witness for C24: on `p(x) ∨ f(x) ≠ f(a)` with both literals selected, the aftercheck enabled
and an ordering that puts `p(a)` above every literal, the two sides of `f(x) ≠ f(a)` unify
and `ResultFn` yields no child. -/
theorem resultFn_no_child_iff_witness :
    (unifySides UnificationWithAbstraction.OFF sampleResolvedLiteral).isSome = true ∧
      ResultFn UnificationWithAbstraction.OFF sampleAftercheckClause true
        (fun l _ => decide (l = sampleP sampleA)) sampleResolvedLiteral = Outcome.ret none :=
  ⟨by decide,
    ((resultFn_no_child_iff UnificationWithAbstraction.OFF sampleAftercheckClause true
      (fun l _ => decide (l = sampleP sampleA)) sampleResolvedLiteral (by decide)).2 rfl).2
      (Or.inr ⟨{ bindings := [(0, sampleA)] }, [], by decide,
        rfl, by decide, 0, sampleP (TermList.var 0), by decide, by decide, by decide,
        by decide⟩)⟩

theorem createEquality_ground (l r : TermList) :
    (Literal.createEquality false l r).ground = false ↔ l.ground = false ∨ r.ground = false := by
  simp only [Literal.ground, Literal.createEquality, TermList.groundArgs]
  cases l.ground <;> cases r.ground <;> simp

theorem constraintLoop_none_iff_rejected (uwa : UnificationWithAbstraction)
    (σ : RobSubstitution) (cs : List (TermList × TermList)) :
    constraintLoop uwa σ cs = none ↔
      uwa = UnificationWithAbstraction.GROUND ∧ ∃ con ∈ cs, rejectedConstraint σ con := by
  rw [constraintLoop_none_iff]
  unfold rejectedConstraint
  constructor
  · rintro ⟨con, hcon, hg, h1, h2⟩
    exact ⟨hg, con, hcon, (createEquality_ground _ _).1 h1, h2⟩
  · rintro ⟨hg, con, hcon, h1, h2⟩
    exact ⟨con, hcon, hg, (createEquality_ground _ _).2 h1, h2⟩

/-- C25, the claim as stated fails: under the GROUND policy, with the constraint `(f(x), a)` on
the stack and the empty unifier, `ResultFn` rejects the inference on `f(x) ≠ a ∨ p(x)`,
although the side `a` of the constraint is ground: it is not so that both sides of a
constraint remain non-ground. -/
theorem buildResult_rejects_half_ground_constraint :
    buildResult UnificationWithAbstraction.GROUND sampleHalfGroundClause false
        (fun _ _ => false) sampleUninterpretedLiteral RobSubstitution.empty
        [(sampleF (TermList.var 0), sampleA)] = Outcome.ret none ∧
      (RobSubstitution.empty.apply sampleA).ground = true ∧
      ¬ ∃ con ∈ [(sampleF (TermList.var 0), sampleA)],
        remainsNonGroundNonTheory RobSubstitution.empty con := by
  refine ⟨by decide, by decide, ?_⟩
  rintro ⟨con, hcon, h⟩
  rw [List.mem_singleton] at hcon
  subst hcon
  exact absurd h.2.1 (by decide)

/-- C25, amended: whatever substitution `σ` and constraint stack `cs` the unification has
left, a child built by `ResultFn` consists of the other literals of the premise under `σ`
followed by exactly one disequality per constraint, in the order of emission; and an
inference that the aftercheck does not reject is rejected exactly when the policy is GROUND
and, for some constraint, after applying `σ`, the constraint literal is not ground (at least
one side is not ground) and neither side is a theory term.  `ResultFn` on a negative equality
whose sides unify is this construction. -/
theorem buildResult_constraint_literals (uwa : UnificationWithAbstraction) (cl : Clause)
    (afterCheck : Bool) (greater : Literal → Literal → Bool) (lit : Literal)
    (σ : RobSubstitution) (cs : List (TermList × TermList)) :
    (∀ child, buildResult uwa cl afterCheck greater lit σ cs = Outcome.ret (some child) →
        child.lits = (cl.lits.filter (fun l => decide (l ≠ lit))).map σ.applyLit ++
          cs.map (constraintLiteral σ)) ∧
      (¬ aftercheckBlocks cl afterCheck greater lit σ →
        (buildResult uwa cl afterCheck greater lit σ cs = Outcome.ret none ↔
          uwa = UnificationWithAbstraction.GROUND ∧ ∃ con ∈ cs, rejectedConstraint σ con)) ∧
      (IsNegativeEqualityFn lit = true → unifySides uwa lit = some (σ, cs) →
        ResultFn uwa cl afterCheck greater lit =
          buildResult uwa cl afterCheck greater lit σ cs) := by
  refine ⟨?_, ?_, ?_⟩
  · intro child hchild
    simp only [buildResult] at hchild
    split at hchild
    · cases hchild
    · rename_i copied hcopy
      split at hchild
      · cases hchild
      · rename_i extra hextra
        split at hchild
        · injection hchild with hchild
          injection hchild with hchild
          rw [← hchild]
          simp only
          rw [copyLoop_some _ _ _ _ _ _ _ _ hcopy, constraintLoop_some _ _ _ _ hextra]
        · cases hchild
  · intro hnb
    rw [← constraintLoop_none_iff_rejected]
    have hb := copyLoop_eq_none_iff_blocks cl afterCheck greater lit σ
    simp only [buildResult]
    constructor
    · intro h
      split at h
      · rename_i hc
        exact absurd (hb.1 hc) hnb
      · split at h
        · rename_i hc
          exact hc
        · split at h <;> cases h
    · intro h
      split
      · rfl
      · rw [h]
  · intro hlit hu
    unfold IsNegativeEqualityFn at hlit
    simp only [Bool.and_eq_true] at hlit
    unfold ResultFn
    simp only [hlit.1, hlit.2, Bool.not_true, Bool.false_eq_true, if_false, hu]

/-- Witness for C25: under the GROUND policy the clash `f(x) ≠ g(y)` is abstracted into one
constraint, whose literal is non-ground with two non-theory sides, and the inference on
`f(x) ≠ g(y) ∨ p(x)` is rejected; under the FULL policy `a + 1 ≠ b * 2 ∨ p(a)` gets the child
`p(a) ∨ a + 1 ≠ b * 2`, with one disequality for its one constraint. -/
theorem buildResult_constraint_literals_witness :
    unifySides UnificationWithAbstraction.GROUND sampleClashLiteral =
        some (RobSubstitution.empty, [(sampleF (TermList.var 0), sampleG (TermList.var 1))]) ∧
      ResultFn UnificationWithAbstraction.GROUND sampleClashClause false (fun _ _ => false)
        sampleClashLiteral = Outcome.ret none ∧
      ResultFn UnificationWithAbstraction.FULL sampleAbstractionClause false (fun _ _ => false)
        sampleAbstractedLiteral = Outcome.ret (some sampleAbstractionChild) ∧
      sampleAbstractionChild.lits =
        (sampleAbstractionClause.lits.filter
            (fun l => decide (l ≠ sampleAbstractedLiteral))).map
          RobSubstitution.empty.applyLit ++
          [(sampleAPlusOne, sampleBTimesTwo)].map (constraintLiteral RobSubstitution.empty) :=
  ⟨by decide,
    ((buildResult_constraint_literals UnificationWithAbstraction.GROUND sampleClashClause false
        (fun _ _ => false) sampleClashLiteral RobSubstitution.empty
        [(sampleF (TermList.var 0), sampleG (TermList.var 1))]).2.2 (by decide)
        (by decide)).trans
      (((buildResult_constraint_literals UnificationWithAbstraction.GROUND sampleClashClause
        false (fun _ _ => false) sampleClashLiteral RobSubstitution.empty
        [(sampleF (TermList.var 0), sampleG (TermList.var 1))]).2.1
        (fun h => by cases h.1)).2
        ⟨rfl, (sampleF (TermList.var 0), sampleG (TermList.var 1)), by simp,
          by unfold rejectedConstraint; decide⟩),
    by decide,
    (buildResult_constraint_literals UnificationWithAbstraction.FULL sampleAbstractionClause
      false (fun _ _ => false) sampleAbstractedLiteral RobSubstitution.empty
      [(sampleAPlusOne, sampleBTimesTwo)]).1 sampleAbstractionChild (by decide)⟩

end EqualityResolution

/-! ## Subsumption: empty alternatives, colors, the encoding -/

namespace SMTSubsumption

open Minisat

theorem checkSubsumption_eq_with (side main : Clause) :
    checkSubsumption side main = checkSubsumptionWith Solver.solve side main := rfl

theorem matchInstance_of_no_alternative (base : Literal) (j : Nat) (inst : Literal)
    (st : PreMatching) (row : List Alt) (h : hasAlternative base inst = false) :
    matchInstance base j inst st row = (st, row) := by
  unfold hasAlternative at h
  unfold matchInstance
  by_cases hh : Literal.headersMatch base inst false = true
  · rw [hh] at h
    simp only [Bool.true_and, Bool.or_eq_false_iff] at h
    obtain ⟨h1, h2⟩ := h
    simp only [hh, Bool.not_true, Bool.false_eq_true, if_false]
    have hf : (if base.arity = 0 then some MapBinder.empty
        else MatchingUtils.matchArgs base inst MapBinder.empty) = none := by
      cases hx : (if base.arity = 0 then some MapBinder.empty
          else MatchingUtils.matchArgs base inst MapBinder.empty) with
      | none => rfl
      | some b => rw [hx] at h1; cases h1
    rw [hf]
    simp only
    by_cases hc : base.commutative = true
    · rw [hc] at h2
      simp only [Bool.true_and] at h2
      rw [if_pos hc]
      cases hx : MatchingUtils.matchReversedArgs base inst MapBinder.empty with
      | none => rfl
      | some b => rw [hx] at h2; cases h2
    · rw [if_neg hc]
  · simp only [Bool.not_eq_true] at hh
    simp [hh]

theorem instanceLoop_of_no_alternative (base : Literal) :
    ∀ (rest : List Literal) (j : Nat) (st : PreMatching) (row : List Alt),
      (∀ d ∈ rest, hasAlternative base d = false) →
      instanceLoop base rest j st row = (st, row) := by
  intro rest
  induction rest with
  | nil =>
    intro j st row _
    rfl
  | cons d rest ih =>
    intro j st row h
    unfold instanceLoop
    simp only
    rw [matchInstance_of_no_alternative base j d st row (h d (List.mem_cons_self _ _))]
    exact ih (j + 1) st row (fun x hx => h x (List.mem_cons_of_mem _ hx))

theorem baseLoop_empty_row (main_lits : List Literal) :
    ∀ (rest : List Literal) (st : PreMatching) (alts : List (List Alt)),
      ((∃ c ∈ rest, ∀ d ∈ main_lits, hasAlternative c d = false) ∨ ∃ v ∈ alts, v = []) →
      ∃ v ∈ (baseLoop main_lits rest st alts).2, v = [] := by
  intro rest
  induction rest with
  | nil =>
    intro st alts h
    rcases h with ⟨c, hc, _⟩ | h
    · cases hc
    · exact h
  | cons base rest ih =>
    intro st alts h
    unfold baseLoop
    simp only
    apply ih
    rcases h with ⟨c, hc, hno⟩ | ⟨v, hv, hv0⟩
    · rw [List.mem_cons] at hc
      rcases hc with hc | hc
      · subst hc
        right
        refine ⟨(instanceLoop c main_lits 0 st []).2, by simp, ?_⟩
        rw [instanceLoop_of_no_alternative c main_lits 0 st [] hno]
      · exact Or.inl ⟨c, hc, hno⟩
    · exact Or.inr ⟨v, List.mem_append_left _ hv, hv0⟩

/-- C26: when some literal of the side premise has no alternative (it matches no literal of the
main premise, in either orientation), `checkSubsumption` returns false, whatever the
procedure called for `solver.solve` would answer: the answer is given before solving.  The
same holds for `SMTSubsumptionImpl::checkSubsumption`. -/
theorem checkSubsumption_false_of_no_alternative (solve : Solver → Bool) (side main : Clause)
    (c : Literal) (hc : c ∈ side.lits) (hno : ∀ d ∈ main.lits, hasAlternative c d = false) :
    checkSubsumptionWith solve side main = false ∧ checkSubsumption side main = false ∧
      SMTSubsumptionImpl.checkSubsumption side main = false := by
  have key : ∀ solve1 : Solver → Bool, checkSubsumptionWith solve1 side main = false := by
    intro solve1
    unfold checkSubsumptionWith
    obtain ⟨v, hv, hv0⟩ := baseLoop_empty_row main.lits side.lits
      { solver := Solver.empty, stc := [],
        possible_base_vars := List.replicate main.length [] } []
      (Or.inl ⟨c, hc, hno⟩)
    have hany : (preMatching side main).2.any (fun v => v.isEmpty) = true := by
      rw [List.any_eq_true]
      exact ⟨v, hv, by rw [hv0]; rfl⟩
    rw [if_pos hany]
  exact ⟨key solve, (checkSubsumption_eq_with side main).trans (key _), key _⟩

/-- Witness for C26: `q(x, y)` matches no literal of `p(a) ∨ r`, so the check of
`p(x) ∨ q(x, y)` against `p(a) ∨ r` is false even with a solver that always answers yes. -/
theorem checkSubsumption_false_of_no_alternative_witness :
    checkSubsumptionWith (fun _ => true) sampleSide sampleMainNoQ = false ∧
      checkSubsumption sampleSide sampleMainNoQ = false ∧
      SMTSubsumptionImpl.checkSubsumption sampleSide sampleMainNoQ = false :=
  checkSubsumption_false_of_no_alternative (fun _ => true) sampleSide sampleMainNoQ
    (sampleSubQ (TermList.var 0) (TermList.var 1)) (by decide) (by decide)

/-- C27: the side premise `p(x) ∨ q(x, y)` is left and the main premise `p(a) ∨ q(a, b) ∨ r`
is right, so their colors clash; the original implementation answers no, but
`SMTSubsumptionImpl::checkSubsumption`, which never reads a color, answers yes. -/
theorem smt_checkSubsumption_ignores_color_clash :
    ColorHelper.compatible (sampleColor sampleMain) (sampleColor sampleSide) = false ∧
      OriginalSubsumption.OriginalSubsumptionImpl.checkSubsumption sampleColor sampleSide
        sampleMain = Outcome.ret false ∧
      SMTSubsumptionImpl.checkSubsumption sampleSide sampleMain = true ∧
      checkSubsumption sampleSide sampleMain = true := by
  decide

/-- C28: the two implementations disagree on the side premise `p(x) ∨ q(x, y)` (left) and the
main premise `p(a) ∨ q(a, b) ∨ r` (right): without the color test both find the match, and
with the clashing colors the original implementation answers no while the SMT-based one
answers yes.  They also part on the unit side premise `p(x)` against `p(a) ∨ q(a, b) ∨ r`,
where the original implementation violates `ASS_G(mlen, 1)`. -/
theorem implementations_disagree_on_color_clash :
    OriginalSubsumption.MLMatcher.nextMatch sampleSide sampleMain = true ∧
      OriginalSubsumption.OriginalSubsumptionImpl.checkSubsumption sampleColor sampleSide
        sampleMain ≠
        Outcome.ret (SMTSubsumptionImpl.checkSubsumption sampleSide sampleMain) ∧
      OriginalSubsumption.OriginalSubsumptionImpl.checkSubsumption sampleColor sampleUnitSide
        sampleMain = Outcome.assertionViolation ∧
      SMTSubsumptionImpl.checkSubsumption sampleUnitSide sampleMain = true := by
  decide

theorem addAlt_fresh (j : Nat) (inst_lit : Literal) (reversed : Bool) (binder : MapBinder)
    (st : PreMatching) (pre row : List Alt) (h : AltsFresh st (pre ++ row))
    (hj : j < st.possible_base_vars.length) :
    AltsFresh (addAlt j inst_lit reversed binder st row).1
        (pre ++ (addAlt j inst_lit reversed binder st row).2) ∧
      (addAlt j inst_lit reversed binder st row).1.possible_base_vars.length =
        st.possible_base_vars.length := by
  obtain ⟨h1, h2⟩ := h
  simp only [addAlt, Solver.newVar]
  refine ⟨⟨?_, ?_⟩, pushBaseVar_length _ _ _⟩
  · intro a ha
    rw [← List.append_assoc, List.mem_append, List.mem_singleton] at ha
    rcases ha with ha | ha
    · obtain ⟨hb, w, hw, hbw⟩ := h1 a ha
      obtain ⟨w1, hw1, hsub, _⟩ := pushBaseVar_get st.solver.nVars st.possible_base_vars j a.j w hw
      exact ⟨Nat.lt_succ_of_lt hb, w1, hw1, hsub _ hbw⟩
    · subst ha
      obtain ⟨w, hw⟩ : ∃ w, st.possible_base_vars[j]? = some w :=
        ⟨st.possible_base_vars[j], List.getElem?_eq_getElem hj⟩
      obtain ⟨w1, hw1, _, hin⟩ := pushBaseVar_get st.solver.nVars st.possible_base_vars j j w hw
      exact ⟨Nat.lt_succ_self _, w1, hw1, hin rfl⟩
  · rw [← List.append_assoc, List.map_append, List.nodup_append]
    refine ⟨h2, by simp, ?_⟩
    intro x hx hx1
    simp only [List.map_cons, List.map_nil, List.mem_singleton] at hx1
    rw [List.mem_map] at hx
    obtain ⟨a, ha, hab⟩ := hx
    have := (h1 a ha).1
    omega

theorem matchInstance_fresh (base : Literal) (j : Nat) (inst_lit : Literal)
    (st : PreMatching) (pre row : List Alt) (h : AltsFresh st (pre ++ row))
    (hj : j < st.possible_base_vars.length) :
    AltsFresh (matchInstance base j inst_lit st row).1
        (pre ++ (matchInstance base j inst_lit st row).2) ∧
      (matchInstance base j inst_lit st row).1.possible_base_vars.length =
        st.possible_base_vars.length := by
  unfold matchInstance
  split
  · exact ⟨h, rfl⟩
  · have hfwd : ∀ r : PreMatching × List Alt,
        r = (match (if base.arity = 0 then some MapBinder.empty
            else MatchingUtils.matchArgs base inst_lit MapBinder.empty) with
          | some binder => addAlt j inst_lit false binder st row
          | none => (st, row)) →
        AltsFresh r.1 (pre ++ r.2) ∧
          r.1.possible_base_vars.length = st.possible_base_vars.length := by
      intro r hr
      cases hm : (if base.arity = 0 then some MapBinder.empty
          else MatchingUtils.matchArgs base inst_lit MapBinder.empty) with
      | none =>
        rw [hm] at hr
        rw [hr]
        exact ⟨h, rfl⟩
      | some binder =>
        rw [hm] at hr
        rw [hr]
        exact addAlt_fresh j inst_lit false binder st pre row h hj
    simp only
    generalize hr : (match (if base.arity = 0 then some MapBinder.empty
        else MatchingUtils.matchArgs base inst_lit MapBinder.empty) with
      | some binder => addAlt j inst_lit false binder st row
      | none => (st, row)) = r
    obtain ⟨hf1, hf2⟩ := hfwd r hr.symm
    split
    · split
      · rename_i binder _
        obtain ⟨g1, g2⟩ := addAlt_fresh j inst_lit true binder r.1 pre r.2 hf1 (by omega)
        exact ⟨g1, g2.trans hf2⟩
      · exact ⟨hf1, hf2⟩
    · exact ⟨hf1, hf2⟩

theorem instanceLoop_fresh (base : Literal) :
    ∀ (rest : List Literal) (j : Nat) (st : PreMatching) (pre row : List Alt),
      AltsFresh st (pre ++ row) → j + rest.length ≤ st.possible_base_vars.length →
      AltsFresh (instanceLoop base rest j st row).1
          (pre ++ (instanceLoop base rest j st row).2) ∧
        (instanceLoop base rest j st row).1.possible_base_vars.length =
          st.possible_base_vars.length := by
  intro rest
  induction rest with
  | nil =>
    intro j st pre row h _
    exact ⟨h, rfl⟩
  | cons inst_lit rest ih =>
    intro j st pre row h hj
    simp only [List.length_cons] at hj
    unfold instanceLoop
    simp only
    obtain ⟨h1, h2⟩ := matchInstance_fresh base j inst_lit st pre row h (by omega)
    obtain ⟨g1, g2⟩ := ih (j + 1) _ pre _ h1 (by omega)
    exact ⟨g1, g2.trans h2⟩

theorem baseLoop_fresh (main_lits : List Literal) :
    ∀ (rest : List Literal) (st : PreMatching) (alts : List (List Alt)),
      AltsFresh st alts.flatten → main_lits.length ≤ st.possible_base_vars.length →
      AltsFresh (baseLoop main_lits rest st alts).1 (baseLoop main_lits rest st alts).2.flatten ∧
        (baseLoop main_lits rest st alts).2.length = alts.length + rest.length := by
  intro rest
  induction rest with
  | nil =>
    intro st alts h _
    exact ⟨h, rfl⟩
  | cons base rest ih =>
    intro st alts h hlen
    unfold baseLoop
    simp only
    obtain ⟨h1, h2⟩ := instanceLoop_fresh base main_lits 0 st alts.flatten [] (by simpa using h)
      (by omega)
    obtain ⟨g1, g2⟩ := ih (instanceLoop base main_lits 0 st []).1
      (alts ++ [(instanceLoop base main_lits 0 st []).2]) (by simpa using h1) (by omega)
    refine ⟨g1, ?_⟩
    rw [g2]
    simp only [List.length_append, List.length_cons, List.length_nil]
    omega

theorem addAltConstraints_atMostOne :
    ∀ (alts : List (List Alt)) (s : Solver),
      ∀ v ∈ alts, 2 ≤ v.length →
        v.map (fun alt => Lit.mk alt.b false) ∈ (addAltConstraints alts s).atMostOnes := by
  intro alts
  induction alts with
  | nil =>
    intro s v hv
    cases hv
  | cons v0 rest ih =>
    intro s v hv hlen
    unfold addAltConstraints
    simp only
    rw [List.mem_cons] at hv
    rcases hv with hv | hv
    · subst hv
      rw [if_pos (by simpa using hlen)]
      exact (addAltConstraints_spec rest _).2.2.1 _
        (by simp [Solver.addConstraint_AtMostOne, Solver.addClause])
    · exact ih _ v hv hlen

theorem lit_value_pos (m : List Bool) (b : Nat) :
    Lit.value m (Lit.mk b false) = m.getD b false := by
  unfold Lit.value
  cases m.getD b false <;> rfl

/-- Two alternatives with different variables that are both selected cannot both have their
literal in a list under an at-most-one constraint that the assignment satisfies. -/
theorem atMostOne_excludes (m : List Bool) (bs : List Nat) (b1 b2 : Nat)
    (hc : ((bs.map (fun b => Lit.mk b false)).filter (Lit.value m)).length ≤ 1)
    (h1 : b1 ∈ bs) (h2 : b2 ∈ bs) (hne : b1 ≠ b2)
    (hs1 : m.getD b1 false = true) (hs2 : m.getD b2 false = true) : False := by
  have hm1 : Lit.mk b1 false ∈ (bs.map (fun b => Lit.mk b false)).filter (Lit.value m) := by
    rw [List.mem_filter]
    exact ⟨List.mem_map.2 ⟨b1, h1, rfl⟩, by rw [lit_value_pos]; exact hs1⟩
  have hm2 : Lit.mk b2 false ∈ (bs.map (fun b => Lit.mk b false)).filter (Lit.value m) := by
    rw [List.mem_filter]
    exact ⟨List.mem_map.2 ⟨b2, h2, rfl⟩, by rw [lit_value_pos]; exact hs2⟩
  have := two_le_length_of_mem_of_ne hm1 hm2 (by
    intro h
    injection h with h
    exact hne h)
  omega

/-- C29: in the encoding handed to the solver, every satisfying assignment selects exactly one
alternative in the row of each side-premise literal (there is one row per literal) and at
most one alternative per main-premise literal; in particular two alternatives of one row
against the same main-premise literal, one forward and one reversed, are never both
selected. -/
theorem encoding_selects_one (side main : Clause) (m : List Bool)
    (hsat : (encoding side main).satisfiedBy m = true) :
    (preMatching side main).2.length = side.length ∧
      (∀ row ∈ (preMatching side main).2,
        ∃ a ∈ row, a.selected m = true ∧ ∀ a1 ∈ row, a1.selected m = true → a1 = a) ∧
      (∀ a ∈ (preMatching side main).2.flatten, ∀ a1 ∈ (preMatching side main).2.flatten,
        a.selected m = true → a1.selected m = true → a.j = a1.j → a = a1) ∧
      (∀ row ∈ (preMatching side main).2, ∀ a ∈ row, ∀ a1 ∈ row,
        a.j = a1.j → a.reversed ≠ a1.reversed →
          ¬ (a.selected m = true ∧ a1.selected m = true)) := by
  obtain ⟨⟨hfresh, hnodup⟩, hlen⟩ := baseLoop_fresh main.lits side.lits
    { solver := Solver.empty, stc := [],
      possible_base_vars := List.replicate main.length [] } []
    ⟨(fun a ha => by cases ha), by simp⟩ (by simp [Clause.length])
  change (∀ a ∈ (preMatching side main).2.flatten,
      a.b < (preMatching side main).1.solver.nVars ∧
        ∃ w, (preMatching side main).1.possible_base_vars[a.j]? = some w ∧ a.b ∈ w) at hfresh
  change (((preMatching side main).2.flatten).map (fun a => a.b)).Nodup at hnodup
  change (preMatching side main).2.length = _ at hlen
  obtain ⟨a1, a2, a3, a4, a5⟩ := addAltConstraints_spec (preMatching side main).2
    ((preMatching side main).1.solver.setSubstitutionTheory (preMatching side main).1.stc)
  have a6 := addAltConstraints_atMostOne (preMatching side main).2
    ((preMatching side main).1.solver.setSubstitutionTheory (preMatching side main).1.stc)
  obtain ⟨b1, b2, b3, b4, b5⟩ :=
    addBaseVarConstraints_spec (preMatching side main).1.possible_base_vars
      (addAltConstraints (preMatching side main).2
        ((preMatching side main).1.solver.setSubstitutionTheory (preMatching side main).1.stc))
  have henc : encoding side main =
      addBaseVarConstraints (preMatching side main).1.possible_base_vars
        (addAltConstraints (preMatching side main).2
          ((preMatching side main).1.solver.setSubstitutionTheory
            (preMatching side main).1.stc)) := rfl
  unfold Solver.satisfiedBy at hsat
  simp only [Bool.and_eq_true, List.all_eq_true, decide_eq_true_eq] at hsat
  obtain ⟨⟨hcl, hamo⟩, _⟩ := hsat
  have hinj : ∀ a ∈ (preMatching side main).2.flatten,
      ∀ a' ∈ (preMatching side main).2.flatten, a.b = a'.b → a = a' :=
    fun a ha a' ha' hb => List.inj_on_of_nodup_map hnodup ha ha' hb
  have hrowmem : ∀ row ∈ (preMatching side main).2, ∀ a ∈ row,
      a ∈ (preMatching side main).2.flatten :=
    fun row hrow a ha => List.mem_flatten.2 ⟨row, hrow, ha⟩
  have huniq : ∀ row ∈ (preMatching side main).2, ∀ a ∈ row, ∀ a' ∈ row,
      a.selected m = true → a'.selected m = true → a' = a := by
    intro row hrow a ha a' ha' hs hs'
    by_contra hne
    have hbne : a'.b ≠ a.b := fun hb =>
      hne (hinj a' (hrowmem row hrow a' ha') a (hrowmem row hrow a ha) hb)
    have hlen2 : 2 ≤ row.length := two_le_length_of_mem_of_ne ha' ha hne
    have hmem := b4 _ (a6 row hrow hlen2)
    have hc := hamo _ (by rw [henc]; exact hmem)
    have hmap : row.map (fun alt => Lit.mk alt.b false) =
        (row.map (fun alt => alt.b)).map (fun b => Lit.mk b false) := by
      rw [List.map_map]
      rfl
    rw [hmap] at hc
    exact atMostOne_excludes m _ a'.b a.b hc (List.mem_map.2 ⟨a', ha', rfl⟩)
      (List.mem_map.2 ⟨a, ha, rfl⟩) hbne hs' hs
  refine ⟨by simpa [Clause.length] using hlen, ?_, ?_, ?_⟩
  · intro row hrow
    have hclause := hcl _ (by rw [henc, b3]; exact a5 row hrow)
    rw [List.any_eq_true] at hclause
    obtain ⟨l, hl, hv⟩ := hclause
    rw [List.mem_map] at hl
    obtain ⟨a, ha, hal⟩ := hl
    subst hal
    rw [lit_value_pos] at hv
    exact ⟨a, ha, hv, fun a' ha' hs' => huniq row hrow a ha a' ha' hv hs'⟩
  · intro a ha a' ha' hs hs' hj
    by_contra hne
    have hbne : a.b ≠ a'.b := fun hb => hne (hinj a ha a' ha' hb)
    obtain ⟨_, w, hw, hbw⟩ := hfresh a ha
    obtain ⟨_, w', hw', hbw'⟩ := hfresh a' ha'
    rw [hj, hw'] at hw
    injection hw with hw
    subst hw
    have hlen2 : 2 ≤ w'.length := two_le_length_of_mem_of_ne hbw hbw' hbne
    have hmem := b5 w' (List.getElem?_mem hw') hlen2
    have hc := hamo _ (by rw [henc]; exact hmem)
    exact atMostOne_excludes m w' a.b a'.b hc hbw hbw' hbne hs hs'
  · intro row hrow a ha a' ha' _ hrev hboth
    have := huniq row hrow a ha a' ha' hboth.1 hboth.2
    rw [this] at hrev
    exact hrev rfl

/-- Witness for C29: for `x = y` against `a = b` the row holds the forward and the reversed
alternative; the assignment that makes the first variable true and the second false satisfies
the encoding and selects one alternative of the row. -/
theorem encoding_selects_one_witness :
    (encoding sampleSideXY sampleMainEq).satisfiedBy [true, false] = true ∧
      ((preMatching sampleSideXY sampleMainEq).2.map (fun row => row.map (fun a => a.reversed)))
        = [[false, true]] ∧
      ∀ row ∈ (preMatching sampleSideXY sampleMainEq).2,
        ∃ a ∈ row, a.selected [true, false] = true ∧
          ∀ a1 ∈ row, a1.selected [true, false] = true → a1 = a :=
  ⟨by decide, by decide,
    (encoding_selects_one sampleSideXY sampleMainEq [true, false] (by decide)).2.1⟩

end SMTSubsumption

/-! ## Induction: the provenance of the produced clauses -/

namespace InductionClauseIterator

theorem ennf_derivesFrom {Formula : Type} (ennf : Formula → Option Formula)
    (u : UnitOf Formula) :
    (NNF.ennf ennf u).inference.DerivesFrom u.inference ∧
      (NNF.ennf ennf u).inference.inductionDepth = u.inference.inductionDepth := by
  unfold NNF.ennf
  cases ennf u.content with
  | none => exact ⟨Inference.DerivesFrom.refl _, rfl⟩
  | some f =>
    exact ⟨Inference.DerivesFrom.step _ u.inference _ (by simp [FormulaTransformation,
      Inference.premises]) (Inference.DerivesFrom.refl _), rfl⟩

theorem clausify_derivesFrom {Formula : Type} (cnf : Formula → List (List Literal))
    (u : UnitOf Formula) (c : UnitOf Clause) (hc : c ∈ NewCNF.clausify cnf u) :
    c.inference.DerivesFrom u.inference ∧
      c.inference.inductionDepth = u.inference.inductionDepth := by
  unfold NewCNF.clausify at hc
  rw [List.mem_map] at hc
  obtain ⟨lits, _, hlits⟩ := hc
  subst hlits
  exact ⟨Inference.DerivesFrom.step _ u.inference _ (by simp [FormulaTransformation,
    Inference.premises]) (Inference.DerivesFrom.refl _), rfl⟩

theorem derivesFrom_trans (i j k : Inference) (h1 : i.DerivesFrom j) (h2 : j.DerivesFrom k) :
    i.DerivesFrom k := by
  induction h1 with
  | refl _ => exact h2
  | step inf parent anc hp _ ih => exact Inference.DerivesFrom.step inf parent k hp (ih h2)

/-- C30: every clause emitted by `produceClauses` derives from the inference record made for
the hypothesis, whose rule is the rule passed in and whose induction depth is the induction
depth of the premise plus one; the clause itself has this induction depth. -/
theorem produceClauses_provenance {Formula : Type} (ennf : Formula → Option Formula)
    (cnf : Formula → List (List Literal))
    (resolve : Clause → Literal → Literal → Clause → List Literal)
    (premise : UnitOf Clause) (origLit : Literal) (hypothesis : Formula)
    (conclusion : Literal) (rule : InferenceRule) (u : UnitOf Clause)
    (hu : u ∈ produceClauses ennf cnf resolve premise origLit hypothesis conclusion rule) :
    (∃ anc : Inference, u.inference.DerivesFrom anc ∧ anc.rule = rule ∧
        anc.inductionDepth = premise.inference.inductionDepth + 1) ∧
      u.inference.inductionDepth = premise.inference.inductionDepth + 1 := by
  unfold produceClauses at hu
  simp only [List.mem_map, List.mem_reverse] at hu
  obtain ⟨c, hc, hcu⟩ := hu
  obtain ⟨h1, h2⟩ := clausify_derivesFrom cnf _ c hc
  obtain ⟨h3, h4⟩ := ennf_derivesFrom ennf
    ({ content := hypothesis
       inference := (NonspecificInference0 rule).setInductionDepth
         (premise.inference.inductionDepth + 1) } : UnitOf Formula)
  have hcd := derivesFrom_trans _ _ _ h1 h3
  have hdepth : c.inference.inductionDepth = premise.inference.inductionDepth + 1 := by
    rw [h2, h4]
    rfl
  split at hcu
  · subst hcu
    refine ⟨⟨_, Inference.DerivesFrom.step _ c.inference _ ?_ hcd, rfl, rfl⟩, ?_⟩
    · simp [BinaryResolution.generateClause, GeneratingInference2, Inference.premises]
    · change max c.inference.inductionDepth premise.inference.inductionDepth = _
      rw [hdepth]
      exact Nat.max_eq_left (Nat.le_succ _)
  · subst hcu
    exact ⟨⟨_, hcd, rfl, rfl⟩, hdepth⟩

/-- Witness for C30: the second clause produced for the premise `¬p(a)` of induction depth 2
is the resolvent `p(b)`, made by the rule `RESOLUTION` from a clause of the hypothesis and the
premise; its induction depth is 3. -/
theorem produceClauses_provenance_witness :
    sampleInductionClauses[1]? = some sampleInductionResolvent ∧
      sampleInductionResolvent.inference.inductionDepth = 2 + 1 :=
  ⟨rfl,
    (produceClauses_provenance (fun _ : Nat => none) _ _ sampleInductionPremise _ 0 _
      InferenceRule.INDUCTION_AXIOM sampleInductionResolvent
      (List.getElem?_mem (rfl : sampleInductionClauses[1]? = some sampleInductionResolvent))).2⟩

end InductionClauseIterator

/-! ## Induction: the gates of the constructor -/

theorem range_map_getD {α : Type} (l : List α) (d : α) :
    (List.range l.length).map (fun i => l.getD i d) = l := by
  apply List.ext_getElem
  · simp
  · intro i h1 h2
    simp [List.getD_eq_getElem?_getD, List.getElem?_eq_getElem h2]

namespace InductionClauseIterator

/-- C31, the claim as stated fails: with `max-induction-depth` 2 and every other gate open, the
unit premise `¬p(a)` of induction depth 2 (a depth that is at most the maximum) is not
processed: `process` is called on none of its literals. -/
theorem constructor_skips_premise_at_max_depth :
    sampleGateOptions.maxInductionDepth ≠ 0 ∧
      sampleInductionPremise.inference.inductionDepth = sampleGateOptions.maxInductionDepth ∧
      sampleInductionPremise.content.length = 1 ∧
      sampleGateOptions.inductionChoice = InductionChoice.ALL ∧
      sampleInductionPremise.content.lits ≠ [] ∧
      ctor sampleGateOptions (fun _ => true) sampleInductionPremise = [] := by
  decide

/-- C31, amended: the constructor calls `process` on every literal of the premise, in order,
when the premise is a unit clause or unit-only is off, the policy is "all" or the premise
derives from the goal, and `max-induction-depth` is 0 or the induction depth of the premise is
strictly below it; otherwise it calls `process` on no literal. -/
theorem constructor_processes_iff (opts : InductionGateOptions)
    (derivedFromGoal : UnitOf Clause → Bool) (premise : UnitOf Clause) :
    (gate opts derivedFromGoal premise = true ↔
        (opts.inductionUnitOnly = true → premise.content.length = 1) ∧
          (opts.inductionChoice = InductionChoice.ALL ∨ derivedFromGoal premise = true) ∧
          (opts.maxInductionDepth = 0 ∨
            premise.inference.inductionDepth < opts.maxInductionDepth)) ∧
      (gate opts derivedFromGoal premise = true →
        ctor opts derivedFromGoal premise = premise.content.lits) ∧
      (gate opts derivedFromGoal premise = false →
        ctor opts derivedFromGoal premise = []) := by
  refine ⟨?_, ?_, ?_⟩
  · cases hk : opts.inductionChoice <;> cases hu : opts.inductionUnitOnly <;>
      simp [gate, hk, hu, and_assoc]
  · intro h
    simp only [ctor, h, if_true, Clause.get, Clause.length]
    exact range_map_getD _ _
  · intro h
    simp [ctor, h]

end InductionClauseIterator

/-! ## The formula builder of the API -/

namespace Api

namespace FormulaBuilder

/-- C36: `FormulaBuilder::function` and `FormulaBuilder::predicate` raise
`InvalidTPTPNameException` exactly when name checking is enabled and the first character of
the name is not a lowercase letter; the empty name has no lowercase first character; in every
other case they return what the registration of the symbol in the signature returns. -/
theorem function_predicate_raise_iff {σ : Type} (b : FormulaBuilder)
    (add : String → Nat → σ → Nat × σ) (name : String) (arity : Nat) (sig : σ) :
    ((∃ e, function b add name arity sig = Except.error e) ↔
        (b._checkNames = true ∧ islower (firstChar name) = false)) ∧
      ((∃ e, predicate b add name arity sig = Except.error e) ↔
        (b._checkNames = true ∧ islower (firstChar name) = false)) ∧
      (¬ (b._checkNames = true ∧ islower (firstChar name) = false) →
        function b add name arity sig = Except.ok (add name arity sig) ∧
          predicate b add name arity sig = Except.ok (add name arity sig)) ∧
      islower (firstChar "") = false ∧
      (b._checkNames = true → ∀ c : Char, (c < 'a' ∨ 'z' < c) →
        ∃ e, function b add (String.mk (c :: name.data)) arity sig = Except.error e) := by
  refine ⟨?_, ?_, ?_, by decide, ?_⟩
  · cases hc : b._checkNames <;> cases hl : islower (firstChar name) <;>
      simp [function, hc, hl]
  · cases hc : b._checkNames <;> cases hl : islower (firstChar name) <;>
      simp [predicate, hc, hl]
  · cases hc : b._checkNames <;> cases hl : islower (firstChar name) <;>
      simp [function, predicate, hc, hl]
  · intro hc c hlt
    have hl : islower (firstChar (String.mk (c :: name.data))) = false := by
      have h1 : firstChar (String.mk (c :: name.data)) = c := rfl
      rw [h1]
      unfold islower
      rcases hlt with h | h
      · have h1 : c.toNat < 'a'.toNat := h
        have ha : 'a'.toNat = 97 := rfl
        have hz : 'z'.toNat = 122 := rfl
        simp only [ha, hz] at h1 ⊢
        simp; omega
      · have h1 : 'z'.toNat < c.toNat := h
        have ha : 'a'.toNat = 97 := rfl
        have hz : 'z'.toNat = 122 := rfl
        simp only [ha, hz] at h1 ⊢
        simp; omega
    simp [function, hc, hl]

end FormulaBuilder

end Api
namespace Api

namespace FormulaBuilder

/-- C37: for a formula built by the same builder, `annotatedFormula(f, a)` succeeds; for a
conjecture the unit stores the negation of `Formula::quantify(f)`, the universal closure of
`f`, and for every other annotation it stores `f`; `annotation()` of the result is `a`, and
`formula()` of the result is the universal closure of `f` for a conjecture and `f` itself
otherwise. -/
theorem annotatedFormula_roundtrip (quantify : Kernel.Formula → Kernel.Formula)
    (b : FormulaBuilder) (f : Formula) (a : Annotation) (name : String)
    (h : f._aux = b._aux) :
    ∃ af fu, annotatedFormula quantify b f a name = Except.ok af ∧
      af.unit = Kernel.UnitRef.formulaUnit fu ∧
      (a = Annotation.CONJECTURE →
        fu.formula = Kernel.Formula.NegatedFormula (quantify f.form) ∧
          AnnotatedFormula.formula quantify af =
            Except.ok { form := quantify f.form, _aux := b._aux }) ∧
      (a ≠ Annotation.CONJECTURE →
        fu.formula = f.form ∧ AnnotatedFormula.formula quantify af = Except.ok f) ∧
      AnnotatedFormula.annotation af = a := by
  cases f with
  | mk form aux =>
    simp only at h
    subst h
    cases a <;>
      simp [annotatedFormula, negation, AnnotatedFormula.formula,
        AnnotatedFormula.annotation, AnnotatedFormula.inputType]

end FormulaBuilder

end Api
namespace Api

namespace FormulaBuilder

/-- Witness for C37: the conjecture `p(x)` is stored as `¬ ∀x. p(x)`, and `formula()` gives
back `∀x. p(x)`; the axiom `p(x)` is given back as it is. -/
theorem annotatedFormula_roundtrip_witness :
    sampleApiP._aux = sampleBuilder._aux ∧
      ∃ af, annotatedFormula Kernel.Formula.quantify sampleBuilder sampleApiP
          Annotation.CONJECTURE "goal" = Except.ok af ∧
        AnnotatedFormula.formula Kernel.Formula.quantify af =
          Except.ok { form := Kernel.Formula.QuantifiedFormula
                        Kernel.QuantifierConnective.FORALL [0]
                        (Kernel.Formula.AtomicFormula (sampleP (TermList.var 0)))
                      _aux := 1 } ∧
        AnnotatedFormula.annotation af = Annotation.CONJECTURE :=
  ⟨rfl,
    let ⟨af, _, h1, _, h3, _, h5⟩ := annotatedFormula_roundtrip Kernel.Formula.quantify
      sampleBuilder sampleApiP Annotation.CONJECTURE "goal" rfl
    ⟨af, h1, (h3 rfl).2, h5⟩⟩

end FormulaBuilder

namespace Formula

theorem formulaArg_junction (nth : List Kernel.Formula → Nat → Outcome (Option Kernel.Formula))
    (c : Kernel.JunctionConnective) (args : List Kernel.Formula) (aux i : Nat) :
    formulaArg nth { form := Kernel.Formula.JunctionFormula c args, _aux := aux } i =
      match nth args i with
      | Outcome.assertionViolation => Outcome.assertionViolation
      | Outcome.ret none =>
        Outcome.ret (Except.error { msg := "Argument index out of bounds" })
      | Outcome.ret (some res) => Outcome.ret (Except.ok { form := res, _aux := aux }) := by
  simp only [formulaArg, formulaArgRes]

/-- The connectives other than `AND` and `OR` check the index themselves: below `argCnt()`
the argument is returned, from `argCnt()` on the `ApiException` is raised, whatever
`List::nth` does. -/
theorem formulaArg_of_not_junction
    (nth : List Kernel.Formula → Nat → Outcome (Option Kernel.Formula)) (f : Formula) (i : Nat)
    (hatom : f.form.connective ≠ Kernel.Connective.LITERAL)
    (hand : f.form.connective ≠ Kernel.Connective.AND)
    (hor : f.form.connective ≠ Kernel.Connective.OR)
    (htl : f.form.connective ≠ Kernel.Connective.TERM_LET)
    (hfl : f.form.connective ≠ Kernel.Connective.FORMULA_LET) :
    ∃ n, argCnt f = Outcome.ret n ∧
      (i < n → ∃ res, formulaArg nth f i = Outcome.ret (Except.ok res)) ∧
      (n ≤ i → formulaArg nth f i =
        Outcome.ret (Except.error { msg := "Argument index out of bounds" })) := by
  cases f with
  | mk form aux =>
    cases form with
    | AtomicFormula l => exact absurd rfl hatom
    | JunctionFormula c args =>
      cases c
      · exact absurd rfl hand
      · exact absurd rfl hor
    | BinaryFormula c l r =>
      refine ⟨2, rfl, ?_, ?_⟩
      · intro h
        rcases i with _ | _ | i
        · exact ⟨_, rfl⟩
        · exact ⟨_, rfl⟩
        · omega
      · intro h
        rcases i with _ | _ | i
        · omega
        · omega
        · simp [formulaArg, formulaArgRes]
    | NegatedFormula u =>
      refine ⟨1, rfl, ?_, ?_⟩
      · intro h
        rcases i with _ | i
        · exact ⟨_, rfl⟩
        · omega
      · intro h
        rcases i with _ | i
        · omega
        · simp [formulaArg, formulaArgRes]
    | QuantifiedFormula c vs q =>
      refine ⟨1, rfl, ?_, ?_⟩
      · intro h
        rcases i with _ | i
        · exact ⟨_, rfl⟩
        · omega
      · intro h
        rcases i with _ | i
        · omega
        · simp [formulaArg, formulaArgRes]
    | IteFormula c t e =>
      refine ⟨3, rfl, ?_, ?_⟩
      · intro h
        rcases i with _ | _ | _ | i
        · exact ⟨_, rfl⟩
        · exact ⟨_, rfl⟩
        · exact ⟨_, rfl⟩
        · omega
      · intro h
        rcases i with _ | _ | _ | i
        · omega
        · omega
        · omega
        · simp [formulaArg, formulaArgRes]
    | constant b =>
      exact ⟨0, rfl, fun h => absurd h (Nat.not_lt_zero _), fun _ => rfl⟩
    | TermLetFormula a b c => exact absurd rfl htl
    | FormulaLetFormula a b c => exact absurd rfl hfl

/-- C40: `FormulaBuilder::formula(AND, p(x), r)` builds a conjunction with `argCnt()` 2;
`formulaArg` returns its arguments at 0 and 1, but at index 2 it hands the index to
`List::nth` without a check: the walk leaves the list and no `ApiException` is raised, while
the implication `p(x) → r` raises it at index 2.  For a junction the exception is raised only
if `nth` itself answers the null pointer beyond the end. -/
theorem formulaArg_junction_misses_index_check :
    FormulaBuilder.formula sampleBuilder Connective.AND sampleApiP sampleApiR =
        Except.ok sampleApiAnd ∧
      argCnt sampleApiAnd = Outcome.ret 2 ∧
      formulaArg nthArg sampleApiAnd 0 = Outcome.ret (Except.ok sampleApiP) ∧
      formulaArg nthArg sampleApiAnd 1 = Outcome.ret (Except.ok sampleApiR) ∧
      formulaArg nthArg sampleApiAnd 2 = Outcome.assertionViolation ∧
      formulaArg nthArg sampleApiImp 2 =
        Outcome.ret (Except.error { msg := "Argument index out of bounds" }) ∧
      (∀ nth : List Kernel.Formula → Nat → Outcome (Option Kernel.Formula),
        formulaArg nth sampleApiAnd 2 =
            Outcome.ret (Except.error { msg := "Argument index out of bounds" }) ↔
          nth [Kernel.Formula.AtomicFormula (sampleP (TermList.var 0)),
            Kernel.Formula.AtomicFormula sampleSubR] 2 = Outcome.ret none) := by
  refine ⟨rfl, rfl, rfl, rfl, rfl, rfl, ?_⟩
  intro nth
  have h := formulaArg_junction nth Kernel.JunctionConnective.AND
    [Kernel.Formula.AtomicFormula (sampleP (TermList.var 0)),
      Kernel.Formula.AtomicFormula sampleSubR] 1 2
  rw [show formulaArg nth sampleApiAnd 2 = _ from h]
  cases hn : nth [Kernel.Formula.AtomicFormula (sampleP (TermList.var 0)),
      Kernel.Formula.AtomicFormula sampleSubR] 2 with
  | assertionViolation => simp
  | ret o =>
    cases o with
    | none => simp
    | some r => simp

end Formula

end Api

/-! ## Induction: the memo of `notDone` -/

namespace InductionClauseIterator

theorem notDone_of_some (resultSort : Symbol → Nat) (st : NotDoneState) (lit : Literal)
    (term : Term) (b1 : TermList) (hl : st.blanks.lookup (resultSort term.functor) = some b1) :
    notDone resultSort st lit term =
      if st.done.contains (TermReplacement.transform term b1 lit) then (false, st)
      else (true, { st with done := TermReplacement.transform term b1 lit :: st.done }) := by
  simp only [notDone, hl, Option.getD_some]

theorem notDone_of_none (resultSort : Symbol → Nat) (st : NotDoneState) (lit : Literal)
    (term : Term) (hl : st.blanks.lookup (resultSort term.functor) = none) :
    notDone resultSort st lit term =
      if st.done.contains (TermReplacement.transform term
          (TermList.term (Symbol.user st.nextFunction) []) lit) then
        (false, { st with
          blanks := (resultSort term.functor,
            TermList.term (Symbol.user st.nextFunction) []) :: st.blanks
          nextFunction := st.nextFunction + 1 })
      else
        (true, { done := TermReplacement.transform term
                   (TermList.term (Symbol.user st.nextFunction) []) lit :: st.done
                 blanks := (resultSort term.functor,
                   TermList.term (Symbol.user st.nextFunction) []) :: st.blanks
                 nextFunction := st.nextFunction + 1 }) := by
  simp only [notDone, hl, List.lookup_cons, beq_self_eq_true, Option.getD_some]

theorem notDone_blanks_stable (resultSort : Symbol → Nat) (st : NotDoneState) (lit : Literal)
    (term : Term) (s : Nat) (b : TermList) (h : st.blanks.lookup s = some b) :
    (notDone resultSort st lit term).2.blanks.lookup s = some b := by
  cases hl : st.blanks.lookup (resultSort term.functor) with
  | some b1 =>
    rw [notDone_of_some resultSort st lit term b1 hl]
    split <;> exact h
  | none =>
    have hne : s ≠ resultSort term.functor := by
      intro e
      rw [e, hl] at h
      cases h
    have h2 : ((resultSort term.functor, TermList.term (Symbol.user st.nextFunction) []) ::
        st.blanks).lookup s = some b := by
      rw [List.lookup_cons]
      have : (s == resultSort term.functor) = false := by simpa using hne
      rw [this]
      exact h
    rw [notDone_of_none resultSort st lit term hl]
    split <;> exact h2

theorem notDone_spec (resultSort : Symbol → Nat) (st : NotDoneState) (lit : Literal)
    (term : Term) :
    ∃ rep, blankedForm resultSort (notDone resultSort st lit term).2 lit term = some rep ∧
      (notDone resultSort st lit term).1 = !st.done.contains rep ∧
      ∀ x, x ∈ (notDone resultSort st lit term).2.done ↔ x = rep ∨ x ∈ st.done := by
  cases hl : st.blanks.lookup (resultSort term.functor) with
  | some b1 =>
    rw [notDone_of_some resultSort st lit term b1 hl]
    refine ⟨TermReplacement.transform term b1 lit, ?_, ?_, ?_⟩
    · unfold blankedForm
      split <;> simp [hl]
    · split <;> simp_all
    · intro x
      split
      · rename_i hc
        replace hc := List.elem_iff.1 hc
        constructor
        · intro hx
          exact Or.inr hx
        · rintro (rfl | hx)
          · exact hc
          · exact hx
      · simp
  | none =>
    rw [notDone_of_none resultSort st lit term hl]
    refine ⟨TermReplacement.transform term (TermList.term (Symbol.user st.nextFunction) [])
      lit, ?_, ?_, ?_⟩
    · unfold blankedForm
      split <;> simp [List.lookup_cons]
    · split <;> simp_all
    · intro x
      split
      · rename_i hc
        replace hc := List.elem_iff.1 hc
        constructor
        · intro hx
          exact Or.inr hx
        · rintro (rfl | hx)
          · exact hc
          · exact hx
      · simp

theorem blankedForm_stable_step (resultSort : Symbol → Nat) (st : NotDoneState)
    (lit lit1 : Literal) (term term1 : Term) (rep : Literal)
    (h : blankedForm resultSort st lit1 term1 = some rep) :
    blankedForm resultSort (notDone resultSort st lit term).2 lit1 term1 = some rep := by
  unfold blankedForm at h ⊢
  cases hl : st.blanks.lookup (resultSort term1.functor) with
  | none => rw [hl] at h; cases h
  | some b =>
    rw [notDone_blanks_stable resultSort st lit term _ b hl]
    rw [hl] at h
    exact h

theorem blankedForm_stable (resultSort : Symbol → Nat) (calls : List (Literal × Term)) :
    ∀ (st : NotDoneState) (lit1 : Literal) (term1 : Term) (rep : Literal),
      blankedForm resultSort st lit1 term1 = some rep →
      blankedForm resultSort (notDoneCalls resultSort st calls).2 lit1 term1 = some rep := by
  induction calls with
  | nil => intro st lit1 term1 rep h; exact h
  | cons c calls ih =>
    intro st lit1 term1 rep h
    obtain ⟨lit, term⟩ := c
    simp only [notDoneCalls]
    exact ih _ lit1 term1 rep (blankedForm_stable_step resultSort st lit lit1 term term1 rep h)

theorem notDoneCalls_length (resultSort : Symbol → Nat) (calls : List (Literal × Term)) :
    ∀ st : NotDoneState, (notDoneCalls resultSort st calls).1.length = calls.length := by
  induction calls with
  | nil => intro st; rfl
  | cons c calls ih =>
    intro st
    obtain ⟨lit, term⟩ := c
    simp only [notDoneCalls, List.length_cons, ih]

/-- C34: in a sequence of calls of `notDone`, started in any state of its memo, every pair has
a blanked form (the literal with the term replaced by the blank constant of the sort of the
term, which stays the same once it is made), and the call number `i` answers true exactly when
that blanked form was not in the memo at the start and is the blanked form of no earlier
pair of the sequence: the first call with a blanked form is answered true, every later call
with the same blanked form false, and pairs with other blanked forms have no influence. -/
theorem notDone_true_iff_first (resultSort : Symbol → Nat) (calls : List (Literal × Term))
    (st0 : NotDoneState) (i : Nat) (lit : Literal) (term : Term)
    (hi : calls[i]? = some (lit, term)) :
    ∃ rep b,
      blankedForm resultSort (notDoneCalls resultSort st0 calls).2 lit term = some rep ∧
      (notDoneCalls resultSort st0 calls).1[i]? = some b ∧
      (b = true ↔ rep ∉ st0.done ∧
        ∀ j l2 t2, j < i → calls[j]? = some (l2, t2) →
          blankedForm resultSort (notDoneCalls resultSort st0 calls).2 l2 t2 ≠ some rep) := by
  induction calls generalizing st0 i with
  | nil => simp at hi
  | cons c calls ih =>
    obtain ⟨lit0, term0⟩ := c
    obtain ⟨rep0, hrep0, hres0, hdone0⟩ := notDone_spec resultSort st0 lit0 term0
    have hst0 := blankedForm_stable resultSort calls _ lit0 term0 rep0 hrep0
    cases i with
    | zero =>
      simp only [List.getElem?_cons_zero, Option.some.injEq, Prod.mk.injEq] at hi
      obtain ⟨rfl, rfl⟩ := hi
      refine ⟨rep0, (notDone resultSort st0 lit0 term0).1, ?_, ?_, ?_⟩
      · simpa only [notDoneCalls] using hst0
      · simp only [notDoneCalls, List.getElem?_cons_zero]
      · rw [hres0]
        simp
    | succ k =>
      simp only [List.getElem?_cons_succ] at hi
      obtain ⟨rep, b, hrep, hb, hiff⟩ := ih (notDone resultSort st0 lit0 term0).2 k hi
      refine ⟨rep, b, ?_, ?_, ?_⟩
      · simpa only [notDoneCalls] using hrep
      · simpa only [notDoneCalls, List.getElem?_cons_succ] using hb
      · rw [hiff]
        simp only [notDoneCalls]
        constructor
        · rintro ⟨hnd, hall⟩
          have hnd2 : ¬ (rep = rep0 ∨ rep ∈ st0.done) := fun hx => hnd ((hdone0 rep).2 hx)
          refine ⟨fun hx => hnd2 (Or.inr hx), ?_⟩
          intro j l2 t2 hj hc
          cases j with
          | zero =>
            simp only [List.getElem?_cons_zero, Option.some.injEq, Prod.mk.injEq] at hc
            obtain ⟨rfl, rfl⟩ := hc
            rw [hst0]
            intro e
            injection e with e
            exact hnd2 (Or.inl e.symm)
          | succ j =>
            simp only [List.getElem?_cons_succ] at hc
            exact hall j l2 t2 (by omega) hc
        · rintro ⟨hnd, hall⟩
          refine ⟨?_, ?_⟩
          · intro hx
            rcases (hdone0 rep).1 hx with e | hx
            · have := hall 0 lit0 term0 (by omega) (by simp)
              rw [hst0, e] at this
              exact this rfl
            · exact hnd hx
          · intro j l2 t2 hj hc
            exact hall (j + 1) l2 t2 (by omega) (by simpa using hc)

/-- Witness for C34: with `a` and `b` of one sort, the calls on `(p(a), a)`, `(p(b), b)` and
`(q(a, b), a)` are answered true, false and true: the second pair has the blanked form of the
first, the third has another one. -/
theorem notDone_true_iff_first_witness :
    (notDoneCalls (fun _ => 0) { done := [], blanks := [], nextFunction := 100 }
        sampleNotDoneCalls).1 = [true, false, true] ∧
      ∃ rep b,
        blankedForm (fun _ => 0)
          (notDoneCalls (fun _ => 0) { done := [], blanks := [], nextFunction := 100 }
            sampleNotDoneCalls).2 (sampleSubP sampleB) sampleTermB = some rep ∧
        (notDoneCalls (fun _ => 0) { done := [], blanks := [], nextFunction := 100 }
          sampleNotDoneCalls).1[1]? = some b ∧
        (b = true ↔ rep ∉ ([] : List Literal) ∧
          ∀ j l2 t2, j < 1 → sampleNotDoneCalls[j]? = some (l2, t2) →
            blankedForm (fun _ => 0)
              (notDoneCalls (fun _ => 0) { done := [], blanks := [], nextFunction := 100 }
                sampleNotDoneCalls).2 l2 t2 ≠ some rep) :=
  ⟨by decide,
    notDone_true_iff_first (fun _ => 0) sampleNotDoneCalls
      { done := [], blanks := [], nextFunction := 100 } 1 (sampleSubP sampleB) sampleTermB rfl⟩

end InductionClauseIterator

/-! ## Equality axiomatization -/

namespace Lib

theorem DHSet.mem_insert {α : Type} [DecidableEq α] (s : List α) (x y : α) :
    y ∈ DHSet.insert s x ↔ y = x ∨ y ∈ s := by
  unfold DHSet.insert
  split
  · constructor
    · intro h; exact Or.inr h
    · rintro (rfl | h)
      · assumption
      · exact h
  · simp

theorem DHSet.mem_loadFromIterator {α : Type} [DecidableEq α] (xs : List α) :
    ∀ (s : List α) (y : α), y ∈ DHSet.loadFromIterator s xs ↔ y ∈ s ∨ y ∈ xs := by
  induction xs with
  | nil => intro s y; simp [DHSet.loadFromIterator]
  | cons x xs ih =>
    intro s y
    have h := ih (DHSet.insert s x) y
    simp only [DHSet.loadFromIterator, List.foldl_cons] at h ⊢
    rw [h, DHSet.mem_insert]
    simp only [List.mem_cons]
    tauto

theorem length_filter_lt_of_imp {α : Type} (p q : α → Bool) (l : List α)
    (hqp : ∀ x, q x = true → p x = true) (x : α) (hx : x ∈ l) (hp : p x = true)
    (hq : q x = false) : (l.filter q).length < (l.filter p).length := by
  induction l with
  | nil => cases hx
  | cons a l ih =>
    have hmono : (l.filter q).length ≤ (l.filter p).length :=
      (List.monotone_filter_right l hqp).length_le
    rcases List.mem_cons.1 hx with rfl | hx
    · simp only [List.filter_cons, hp, hq, if_true, List.length_cons]
      simp only [Bool.false_eq_true, if_false]
      omega
    · have := ih hx
      simp only [List.filter_cons]
      cases hqa : q a
      · cases hpa : p a
        · simpa using this
        · simp only [if_true, List.length_cons, Bool.false_eq_true, if_false]
          omega
      · rw [hqp a hqa]
        simpa using this

namespace ImplicationSetClosure

theorem fire_some (impls : List (Nat × Nat)) (s : List Nat) (p : Nat × Nat)
    (h : fire impls s = some p) : p ∈ impls ∧ p.1 ∈ s ∧ p.2 ∉ s := by
  unfold fire at h
  have h1 := List.mem_of_find?_eq_some h
  have h2 := List.find?_some h
  simp only [Bool.and_eq_true, decide_eq_true_eq, Bool.not_eq_true', decide_eq_false_iff_not]
    at h2
  exact ⟨h1, h2.1, h2.2⟩

theorem fire_none (impls : List (Nat × Nat)) (s : List Nat) (h : fire impls s = none) :
    ∀ p ∈ impls, p.1 ∈ s → p.2 ∈ s := by
  unfold fire at h
  rw [List.find?_eq_none] at h
  intro p hp h1
  have := h p hp
  simp only [Bool.and_eq_true, decide_eq_true_eq, Bool.not_eq_true', decide_eq_false_iff_not,
    not_and, not_not] at this
  exact this h1

theorem closureLoop_subset (impls : List (Nat × Nat)) :
    ∀ (fuel : Nat) (s : List Nat) (x : Nat), x ∈ s → x ∈ closureLoop impls fuel s := by
  intro fuel
  induction fuel with
  | zero => intro s x h; exact h
  | succ fuel ih =>
    intro s x h
    simp only [closureLoop]
    cases hf : fire impls s with
    | none => exact h
    | some p => exact ih _ x (List.mem_cons_of_mem _ h)

theorem closureLoop_least (impls : List (Nat × Nat)) (T : Nat → Prop)
    (hT : ∀ p ∈ impls, T p.1 → T p.2) :
    ∀ (fuel : Nat) (s : List Nat), (∀ x ∈ s, T x) → ∀ x ∈ closureLoop impls fuel s, T x := by
  intro fuel
  induction fuel with
  | zero => intro s hs x h; exact hs x h
  | succ fuel ih =>
    intro s hs x h
    simp only [closureLoop] at h
    cases hf : fire impls s with
    | none =>
      rw [hf] at h
      exact hs x h
    | some p =>
      rw [hf] at h
      obtain ⟨hp, h1, _⟩ := fire_some impls s p hf
      refine ih (p.2 :: s) ?_ x h
      intro y hy
      rcases List.mem_cons.1 hy with rfl | hy
      · exact hT p hp (hs _ h1)
      · exact hs y hy

theorem closureLoop_closed (impls : List (Nat × Nat)) :
    ∀ (fuel : Nat) (s : List Nat),
      (impls.filter (fun p => !decide (p.2 ∈ s))).length ≤ fuel →
      ∀ p ∈ impls, p.1 ∈ closureLoop impls fuel s → p.2 ∈ closureLoop impls fuel s := by
  intro fuel
  induction fuel with
  | zero =>
    intro s hm p hp _
    have hnil : impls.filter (fun p => !decide (p.2 ∈ s)) = [] :=
      List.eq_nil_of_length_eq_zero (Nat.le_zero.1 hm)
    have := List.filter_eq_nil_iff.1 hnil p hp
    simpa using this
  | succ fuel ih =>
    intro s hm p hp h1
    simp only [closureLoop] at h1 ⊢
    cases hf : fire impls s with
    | none =>
      rw [hf] at h1
      exact fire_none impls s hf p hp h1
    | some q =>
      rw [hf] at h1
      obtain ⟨hq, _, hq2⟩ := fire_some impls s q hf
      refine ih (q.2 :: s) ?_ p hp h1
      have hlt := length_filter_lt_of_imp (fun p => !decide (p.2 ∈ s))
        (fun p => !decide (p.2 ∈ q.2 :: s)) impls
        (by
          intro x hx
          simp only [Bool.not_eq_true', decide_eq_false_iff_not, List.mem_cons, not_or] at hx ⊢
          exact hx.2)
        q hq (by simpa using hq2) (by simp)
      omega

/-- The closure contains the added elements, is closed under the added implications, and lies
in every set with these two properties. -/
theorem closure_spec (isc : ImplicationSetClosure) :
    (∀ x ∈ isc.elements, x ∈ isc.closure) ∧
      (∀ p ∈ isc.implications, p.1 ∈ isc.closure → p.2 ∈ isc.closure) ∧
      (∀ T : Nat → Prop, (∀ x ∈ isc.elements, T x) →
        (∀ p ∈ isc.implications, T p.1 → T p.2) → ∀ x ∈ isc.closure, T x) := by
  refine ⟨?_, ?_, ?_⟩
  · intro x hx
    exact closureLoop_subset _ _ _ x hx
  · exact closureLoop_closed isc.implications isc.implications.length isc.elements
      (List.length_filter_le _ _)
  · intro T h1 h2 x hx
    exact closureLoop_least isc.implications T h2 _ _ h1 x hx

end ImplicationSetClosure

end Lib

namespace EqualityAxiomatizer

theorem addFnImplications_spec (ft : FunctionType) (args : List Nat) :
    ∀ isc : Lib.ImplicationSetClosure,
      (addFnImplications ft args isc).elements = isc.elements ∧
      ∀ p, p ∈ (addFnImplications ft args isc).implications ↔
        p ∈ isc.implications ∨ (p.1 ∈ args ∧ p.1 ≠ ft.result ∧ p.2 = ft.result) := by
  induction args with
  | nil => intro isc; simp [addFnImplications]
  | cons a args ih =>
    intro isc
    simp only [addFnImplications]
    split
    · rename_i ha
      obtain ⟨h1, h2⟩ := ih isc
      refine ⟨h1, ?_⟩
      intro p
      rw [h2 p]
      simp only [List.mem_cons]
      constructor
      · rintro (h | ⟨h3, h4, h5⟩)
        · exact Or.inl h
        · exact Or.inr ⟨Or.inr h3, h4, h5⟩
      · rintro (h | ⟨h3 | h3, h4, h5⟩)
        · exact Or.inl h
        · exact absurd (h3.trans ha) h4
        · exact Or.inr ⟨h3, h4, h5⟩
    · rename_i ha
      obtain ⟨h1, h2⟩ := ih (isc.addImplication a ft.result)
      refine ⟨h1, ?_⟩
      intro p
      rw [h2 p]
      simp only [Lib.ImplicationSetClosure.addImplication, List.mem_append, List.mem_cons,
        List.not_mem_nil, or_false]
      constructor
      · rintro ((h | h) | ⟨h3, h4, h5⟩)
        · exact Or.inl h
        · subst h
          exact Or.inr ⟨Or.inl rfl, ha, rfl⟩
        · exact Or.inr ⟨Or.inr h3, h4, h5⟩
      · rintro (h | ⟨h3 | h3, h4, h5⟩)
        · exact Or.inl (Or.inl h)
        · refine Or.inl (Or.inr ?_)
          obtain ⟨p1, p2⟩ := p
          simp only at h3 h5
          rw [h3, h5]
        · exact Or.inr ⟨h3, h4, h5⟩

theorem addImplications_spec (fnType : Symbol → FunctionType) (fns : List Symbol) :
    ∀ isc : Lib.ImplicationSetClosure,
      (addImplications fnType fns isc).elements = isc.elements ∧
      ∀ p, p ∈ (addImplications fnType fns isc).implications ↔
        p ∈ isc.implications ∨
          ∃ fn ∈ fns, p.1 ∈ (fnType fn).args ∧ p.1 ≠ (fnType fn).result ∧
            p.2 = (fnType fn).result := by
  induction fns with
  | nil => intro isc; simp [addImplications]
  | cons fn fns ih =>
    intro isc
    simp only [addImplications]
    obtain ⟨h1, h2⟩ := ih (addFnImplications (fnType fn) (fnType fn).args isc)
    obtain ⟨h3, h4⟩ := addFnImplications_spec (fnType fn) (fnType fn).args isc
    refine ⟨h1.trans h3, ?_⟩
    intro p
    rw [h2 p, h4 p]
    simp only [List.mem_cons, exists_eq_or_imp]
    tauto

/-- After `saturateEqSorts` the set of equality sorts contains the sorts it held before, is
closed under "an argument sort of a collected function is in the set, so its result sort
is", and lies in every set with these two properties; the collected functions are kept. -/
theorem saturateEqSorts_spec (fnType : Symbol → FunctionType) (ea : EqualityAxiomatizer) :
    (saturateEqSorts fnType ea)._fns = ea._fns ∧
      (∀ s ∈ ea._eqSorts, s ∈ (saturateEqSorts fnType ea)._eqSorts) ∧
      (∀ fn ∈ ea._fns, ∀ a ∈ (fnType fn).args, a ∈ (saturateEqSorts fnType ea)._eqSorts →
        (fnType fn).result ∈ (saturateEqSorts fnType ea)._eqSorts) ∧
      (∀ T : Nat → Prop, (∀ s ∈ ea._eqSorts, T s) →
        (∀ fn ∈ ea._fns, ∀ a ∈ (fnType fn).args, T a → T (fnType fn).result) →
        ∀ s ∈ (saturateEqSorts fnType ea)._eqSorts, T s) := by
  unfold saturateEqSorts
  split
  · rename_i hemp
    have hnil : ea._eqSorts = [] := List.isEmpty_iff.1 hemp
    refine ⟨rfl, fun s hs => hs, ?_, ?_⟩
    · intro fn _ a _ ha
      rw [hnil] at ha
      cases ha
    · intro T h1 _ s hs
      exact h1 s hs
  · obtain ⟨he, hi⟩ := addImplications_spec fnType ea._fns
      (Lib.ImplicationSetClosure.empty.addFromIterator ea._eqSorts)
    obtain ⟨c1, c2, c3⟩ := Lib.ImplicationSetClosure.closure_spec
      (addImplications fnType ea._fns
        (Lib.ImplicationSetClosure.empty.addFromIterator ea._eqSorts))
    have hel : (addImplications fnType ea._fns
        (Lib.ImplicationSetClosure.empty.addFromIterator ea._eqSorts)).elements
          = ea._eqSorts := by
      rw [he]
      simp [Lib.ImplicationSetClosure.addFromIterator, Lib.ImplicationSetClosure.empty]
    have himp : ∀ p, p ∈ (addImplications fnType ea._fns
        (Lib.ImplicationSetClosure.empty.addFromIterator ea._eqSorts)).implications ↔
          ∃ fn ∈ ea._fns, p.1 ∈ (fnType fn).args ∧ p.1 ≠ (fnType fn).result ∧
            p.2 = (fnType fn).result := by
      intro p
      rw [hi p]
      simp [Lib.ImplicationSetClosure.addFromIterator, Lib.ImplicationSetClosure.empty]
    rw [hel] at c1 c3
    refine ⟨rfl, ?_, ?_, ?_⟩
    · intro s hs
      exact (Lib.DHSet.mem_loadFromIterator _ _ _).2 (Or.inl hs)
    · intro fn hfn a ha hmem
      simp only at hmem ⊢
      have hcl : a ∈ (addImplications fnType ea._fns
          (Lib.ImplicationSetClosure.empty.addFromIterator ea._eqSorts)).closure := by
        rcases (Lib.DHSet.mem_loadFromIterator _ _ _).1 hmem with h | h
        · exact c1 a h
        · exact h
      by_cases hres : a = (fnType fn).result
      · rw [← hres]
        exact hmem
      · refine (Lib.DHSet.mem_loadFromIterator _ _ _).2 (Or.inr ?_)
        exact c2 (a, (fnType fn).result) ((himp _).2 ⟨fn, hfn, ha, hres, rfl⟩) hcl
    · intro T h1 h2 s hs
      simp only at hs
      rcases (Lib.DHSet.mem_loadFromIterator _ _ _).1 hs with h | h
      · exact h1 s h
      · refine c3 T h1 ?_ s h
        intro p hp hT
        obtain ⟨fn, hfn, ha, _, hr⟩ := (himp p).1 hp
        rw [hr]
        exact h2 fn hfn p.1 ha hT

end EqualityAxiomatizer
namespace EqualityAxiomatizer

theorem scanLiteral_eqSorts (eqArgSort : Literal → Nat) (ea : EqualityAxiomatizer)
    (lit : Literal) (s : Nat) :
    s ∈ (scanLiteral eqArgSort ea lit)._eqSorts ↔
      s ∈ ea._eqSorts ∨ (lit.arity ≠ 0 ∧ lit.isEquality = true ∧ eqArgSort lit = s) := by
  unfold scanLiteral
  by_cases ha : lit.arity = 0
  · simp [ha]
  · by_cases he : lit.isEquality = true
    · simp only [ha, he, if_false, if_true, Lib.DHSet.mem_insert]
      constructor
      · rintro (h | h)
        · exact Or.inr ⟨ha, trivial, h.symm⟩
        · exact Or.inl h
      · rintro (h | ⟨_, _, h⟩)
        · exact Or.inr h
        · exact Or.inl h.symm
    · simp [ha, he]

theorem foldl_scanLiteral_eqSorts (eqArgSort : Literal → Nat) (lits : List Literal) :
    ∀ (ea : EqualityAxiomatizer) (s : Nat),
      s ∈ (lits.foldl (scanLiteral eqArgSort) ea)._eqSorts ↔
        s ∈ ea._eqSorts ∨
          ∃ lit ∈ lits, lit.arity ≠ 0 ∧ lit.isEquality = true ∧ eqArgSort lit = s := by
  induction lits with
  | nil => intro ea s; simp
  | cons l lits ih =>
    intro ea s
    rw [List.foldl_cons, ih, scanLiteral_eqSorts]
    simp only [List.mem_cons, exists_eq_or_imp]
    tauto

theorem scanLoop_eqSorts (eqArgSort : Literal → Nat) (units : List Clause) :
    ∀ (ea : EqualityAxiomatizer) (s : Nat),
      s ∈ (scanLoop eqArgSort units ea)._eqSorts ↔
        s ∈ ea._eqSorts ∨
          ∃ cl ∈ units, ∃ lit ∈ cl.lits,
            lit.arity ≠ 0 ∧ lit.isEquality = true ∧ eqArgSort lit = s := by
  induction units with
  | nil => intro ea s; simp [scanLoop]
  | cons cl units ih =>
    intro ea s
    rw [scanLoop, ih, foldl_scanLiteral_eqSorts]
    simp only [List.mem_cons, exists_eq_or_imp, or_assoc]

/-- C38: after `scan(units)` on a fresh object, which ends with `saturateEqSorts`, the set of
equality sorts contains the sort of every equality literal of the units; whenever an argument
sort of a collected function is in the set, so is its result sort; and the set lies in every
set of sorts with these two properties. -/
theorem scan_eqSorts_least_closed (fnType : Symbol → FunctionType)
    (eqArgSort : Literal → Nat) (units : List Clause) :
    (∀ cl ∈ units, ∀ lit ∈ cl.lits, lit.isEquality = true → lit.arity ≠ 0 →
        eqArgSort lit ∈ (scan fnType eqArgSort fresh units)._eqSorts) ∧
      (∀ fn ∈ (scan fnType eqArgSort fresh units)._fns, ∀ a ∈ (fnType fn).args,
        a ∈ (scan fnType eqArgSort fresh units)._eqSorts →
        (fnType fn).result ∈ (scan fnType eqArgSort fresh units)._eqSorts) ∧
      (∀ T : Nat → Prop,
        (∀ cl ∈ units, ∀ lit ∈ cl.lits, lit.isEquality = true → lit.arity ≠ 0 →
          T (eqArgSort lit)) →
        (∀ fn ∈ (scan fnType eqArgSort fresh units)._fns, ∀ a ∈ (fnType fn).args,
          T a → T (fnType fn).result) →
        ∀ s ∈ (scan fnType eqArgSort fresh units)._eqSorts, T s) := by
  obtain ⟨hf, h1, h2, h3⟩ := saturateEqSorts_spec fnType (scanLoop eqArgSort units fresh)
  have hs := scanLoop_eqSorts eqArgSort units fresh
  unfold scan
  rw [hf]
  refine ⟨?_, h2, ?_⟩
  · intro cl hcl lit hlit he ha
    exact h1 _ ((hs _).2 (Or.inr ⟨cl, hcl, lit, hlit, ha, he, rfl⟩))
  · intro T ht1 ht2 s hmem
    refine h3 T ?_ ht2 s hmem
    intro s1 hs1
    rcases (hs s1).1 hs1 with h | ⟨cl, hcl, lit, hlit, ha, he, rfl⟩
    · cases h
    · exact ht1 cl hcl lit hlit he ha

/-- C39: the unit clause `f(a) = b`, with `f` from sort 1 to sort 2, is scanned: `f` is
collected and its result sort 2 is an equality sort, but its only argument sort 1 is not, so
`getArgumentEqualityLiterals` pushes no literal and answers false, and `getFnCongruenceAxiom`
violates `ALWAYS(getArgumentEqualityLiterals(…))`; `getPredCongruenceAxiom` returns the null
pointer in the same situation. -/
theorem getFnCongruenceAxiom_violates_always :
    scan sampleFnType sampleEqArgSort fresh [sampleSortedClause] =
        { _eqSorts := [2], _fns := [Symbol.user 5], _preds := [] } ∧
      (sampleFnType (Symbol.user 5)).result ∈
        (scan sampleFnType sampleEqArgSort fresh [sampleSortedClause])._eqSorts ∧
      (∀ a ∈ (sampleFnType (Symbol.user 5)).args,
        a ∉ (scan sampleFnType sampleEqArgSort fresh [sampleSortedClause])._eqSorts) ∧
      getArgumentEqualityLiterals
          (scan sampleFnType sampleEqArgSort fresh [sampleSortedClause])
          (sampleFnType (Symbol.user 5)) =
        (false, [], [TermList.var 0], [TermList.var 0]) ∧
      getFnCongruenceAxiom sampleFnType
          (scan sampleFnType sampleEqArgSort fresh [sampleSortedClause]) (Symbol.user 5) =
        Outcome.assertionViolation ∧
      getPredCongruenceAxiom (fun _ => { args := [1], result := 0 })
          (scan sampleFnType sampleEqArgSort fresh [sampleSortedClause]) (PredSymbol.user 10) =
        Outcome.ret none := by
  decide

end EqualityAxiomatizer

/-! ## Induction: generalisation over subsets of occurrences -/

namespace LiteralSubsetReplacement

end LiteralSubsetReplacement
namespace LiteralSubsetReplacement

end LiteralSubsetReplacement
namespace LiteralSubsetReplacement

theorem transformSubterm_unconditional (s : LiteralSubsetReplacement)
    (h : s._occurrences > s._maxOccurrences) (t : TermList) (mc : Nat) :
    transformSubterm s mc t = (TermReplacement.transformSubterm s._o s._r t, mc) := by
  simp only [transformSubterm, TermReplacement.transformSubterm, if_pos h]
  split <;> rfl

mutual
theorem transformTerm_unconditional (s : LiteralSubsetReplacement)
    (h : s._occurrences > s._maxOccurrences) :
    ∀ (t : TermList) (mc : Nat),
      transformTerm s t mc = (TermReplacement.transformTerm s._o s._r t, mc)
  | .var v, mc => by
    rw [transformTerm, TermReplacement.transformTerm, transformSubterm_unconditional s h]
  | .term f args, mc => by
    have ih := transformArgs_unconditional s h args mc
    rw [transformTerm, TermReplacement.transformTerm]
    simp only [transformSubterm_unconditional s h, ih]
    split <;> rfl
theorem transformArgs_unconditional (s : LiteralSubsetReplacement)
    (h : s._occurrences > s._maxOccurrences) :
    ∀ (ts : List TermList) (mc : Nat),
      transformArgs s ts mc = (TermReplacement.transformArgs s._o s._r ts, mc)
  | [], mc => by simp [transformArgs, TermReplacement.transformArgs]
  | t :: ts, mc => by
    have ih1 := transformTerm_unconditional s h t mc
    have ih2 := transformArgs_unconditional s h ts mc
    simp only [transformArgs, TermReplacement.transformArgs, ih1, ih2]
end

theorem kept_of_popcount_one (b occ m : Nat) (h : popcount m = 1) : kept b occ m = true := by
  simp only [kept, h, Bool.not_eq_true', Bool.and_eq_false_imp, Bool.and_eq_true,
    decide_eq_true_eq, decide_eq_false_iff_not]
  intro h1
  omega

end LiteralSubsetReplacement
namespace LiteralSubsetReplacement

/-- C33: the literal `¬q(a, …, a)` has 21 occurrences of `a`, more than `_maxOccurrences`; the
first call of `transformSubset` replaces all of them, and sets the rule to
`GEN_INDUCTION_AXIOM`, because the counter, which is 1, has one set bit and not 21. -/
theorem transformSubset_full_replacement_marked_generalized :
    sampleManyReplacement._occurrences > sampleManyReplacement._maxOccurrences ∧
      transformSubset 0 sampleManyReplacement InferenceRule.INDUCTION_AXIOM =
        Run.value (some { functor := PredSymbol.user 14, polarity := false,
                          args := List.replicate 21 samplePlaceholder },
          InferenceRule.GEN_INDUCTION_AXIOM,
          { sampleManyReplacement with _iteration := 1 }) ∧
      TermReplacement.transform sampleTermA samplePlaceholder sampleManyReplacement._lit =
        { functor := PredSymbol.user 14, polarity := false,
          args := List.replicate 21 samplePlaceholder } := by
  decide

end LiteralSubsetReplacement

/-! ## Structural induction, scheme I -/

namespace InductionClauseIterator

theorem range_succ_map_var (var n : Nat) :
    TermList.var var :: (List.range n).map (fun j => TermList.var (var + 1 + j)) =
      (List.range (n + 1)).map (fun j => TermList.var (var + j)) := by
  rw [List.range_succ_eq_map, List.map_cons, List.map_map]
  simp only [Nat.add_zero, List.cons.injEq, true_and]
  apply List.map_congr_left
  intro j _
  simp only [Function.comp, Nat.succ_eq_add_one]
  congr 1
  omega

theorem argTermsLoop_spec (sorts : List Nat) :
    ∀ var : Nat, var + sorts.length < 2 ^ 32 →
      argTermsLoop sorts var =
        ((List.range sorts.length).map (fun j => TermList.var (var + j)), var + sorts.length) := by
  induction sorts with
  | nil => intro var _; rfl
  | cons a rest ih =>
    intro var h
    simp only [List.length_cons] at h
    have hmod : (var + 1) % 2 ^ 32 = var + 1 := Nat.mod_eq_of_lt (by omega)
    simp only [argTermsLoop, hmod, ih (var + 1) (by omega), List.length_cons]
    rw [range_succ_map_var]
    congr 1
    omega

theorem taVarsLoop_spec (S : Nat) (sorts : List Nat) :
    ∀ var : Nat, var + sorts.length < 2 ^ 32 →
      taVarsLoop S sorts var =
        ((List.range sorts.length).map (fun j => TermList.var (var + j)),
          ((((List.range sorts.length).map (fun j => TermList.var (var + j))).zip sorts).filter
            (fun p => decide (p.2 = S))).map (fun p => p.1),
          var + sorts.length) := by
  induction sorts with
  | nil => intro var _; rfl
  | cons a rest ih =>
    intro var h
    simp only [List.length_cons] at h
    have hmod : (var + 1) % 2 ^ 32 = var + 1 := Nat.mod_eq_of_lt (by omega)
    simp only [taVarsLoop, hmod, ih (var + 1) (by omega), List.length_cons]
    rw [← range_succ_map_var var rest.length]
    have e : var + 1 + rest.length = var + (rest.length + 1) := by omega
    by_cases ha : a = S
    · simp [ha, e]
    · simp [ha, e]

theorem conj_map_eq (f : TermList → Kernel.Formula) (l : List TermList) :
    (match l with
      | [x] => f x
      | ta_vars => Kernel.Formula.JunctionFormula Kernel.JunctionConnective.AND
          (ta_vars.map f)) = conj (l.map f) := by
  match l with
  | [] => rfl
  | [x] => rfl
  | x :: y :: rest => rfl

theorem constructorFormula_spec (S : Nat) (clit : Literal) (term : Term)
    (con : TermAlgebraConstructor) (var : Nat) (hS : con.rangeSort = S)
    (h : var + con.arity < 2 ^ 32) :
    constructorFormula S clit term con var =
      Outcome.ret (schemeOneCase (fun s => TermReplacement.transform term s clit) S con
        ((List.range con.arity).map (fun j => TermList.var (var + j))), var + con.arity) := by
  unfold constructorFormula schemeOneCase
  cases hrec : con.recursive with
  | false =>
    simp only [Bool.not_false, if_true, Bool.false_eq_true, if_false]
    by_cases ha : con.arity = 0
    · simp [ha]
    · rw [if_neg ha]
      have := argTermsLoop_spec con.argSorts var h
      simp only [this, TermAlgebraConstructor.arity]
  | true =>
    simp only [Bool.not_true, Bool.false_eq_true, if_false, if_true]
    have hex : ∃ srt ∈ con.argSorts, srt = con.rangeSort := by
      simpa [TermAlgebraConstructor.recursive] using hrec
    obtain ⟨srt, hmem, hsrt⟩ := hex
    have hpos : con.arity > 0 := by
      unfold TermAlgebraConstructor.arity
      exact List.length_pos_of_mem hmem
    have hloop := taVarsLoop_spec S con.argSorts var h
    have hlen : ((((List.range con.argSorts.length).map (fun j => TermList.var (var + j))).zip
        con.argSorts).filter (fun p => decide (p.2 = S))).length ≥ 1 := by
      obtain ⟨i, hi, hget⟩ := List.getElem_of_mem hmem
      have hz : (TermList.var (var + i), srt) ∈
          ((List.range con.argSorts.length).map (fun j => TermList.var (var + j))).zip
            con.argSorts := by
        rw [List.mem_iff_getElem]
        refine ⟨i, by simpa using hi, ?_⟩
        simp [hget]
      have hf : (TermList.var (var + i), srt) ∈
          ((((List.range con.argSorts.length).map (fun j => TermList.var (var + j))).zip
            con.argSorts).filter (fun p => decide (p.2 = S))) := by
        rw [List.mem_filter]
        exact ⟨hz, by simp [hsrt, hS]⟩
      exact List.length_pos_of_mem hf
    rw [if_neg (by omega)]
    simp only [hloop, List.length_map]
    rw [if_neg (by omega)]
    simp only [TermAlgebraConstructor.arity]
    rw [conj_map_eq (fun x => Kernel.Formula.AtomicFormula
      (TermReplacement.transform term x clit))]
    simp only [List.map_map]
    rfl

theorem caseVars_length (cons : List TermAlgebraConstructor) :
    ∀ start : Nat, (caseVars cons start).length = cons.length := by
  induction cons with
  | nil => intro start; rfl
  | cons c cs ih => intro start; simp [caseVars, ih]

theorem totalArity_cons (c : TermAlgebraConstructor) (cs : List TermAlgebraConstructor) :
    totalArity (c :: cs) = c.arity + totalArity cs := by
  simp [totalArity]

theorem constructorLoop_spec (S : Nat) (clit : Literal) (term : Term)
    (cons : List TermAlgebraConstructor) :
    ∀ (formulas : List Kernel.Formula) (var : Nat),
      (∀ c ∈ cons, c.rangeSort = S) → var + totalArity cons < 2 ^ 32 →
      constructorLoop S clit term cons formulas var =
        Outcome.ret
          ((schemeOneCases (fun s => TermReplacement.transform term s clit) S cons var).reverse
            ++ formulas, var + totalArity cons) := by
  induction cons with
  | nil =>
    intro formulas var _ _
    simp [constructorLoop, schemeOneCases, caseVars, totalArity]
  | cons c cs ih =>
    intro formulas var hS h
    rw [totalArity_cons] at h
    have hc := constructorFormula_spec S clit term c var (hS c (List.mem_cons_self _ _))
      (by omega)
    have hrest := ih (schemeOneCase (fun s => TermReplacement.transform term s clit) S c
        ((List.range c.arity).map (fun j => TermList.var (var + j))) :: formulas)
      (var + c.arity) (fun c1 hc1 => hS c1 (List.mem_cons_of_mem _ hc1)) (by omega)
    simp only [constructorLoop, hc, hrest, schemeOneCases, caseVars, List.zipWith_cons_cons,
      List.reverse_cons, List.append_assoc, List.singleton_append, totalArity_cons]
    congr 2
    omega

theorem caseVars_flatten (cons : List TermAlgebraConstructor) :
    ∀ start : Nat, (caseVars cons start).flatten =
      (List.range (totalArity cons)).map (fun j => TermList.var (start + j)) := by
  induction cons with
  | nil => intro start; simp [caseVars, totalArity]
  | cons c cs ih =>
    intro start
    rw [caseVars, List.flatten_cons, ih, totalArity_cons, List.range_add, List.map_append,
      List.map_map]
    congr 1
    apply List.map_congr_left
    intro j _
    simp only [Function.comp]
    congr 1
    omega

/-- C35, the claim as stated fails: for the literal `¬p(l)` with `l` a list, and the list
algebra with the constructors `nil` and `cons(h, t)`, the hypothesis that
`performStructInductionOne` hands over has the formula of `cons` before the formula of `nil`,
`(∀t h. ((p(t) → p(cons(h, t))) ∧ p(nil))) → ∀y. p(y)`; it is not the formula with `p(nil)`
first. -/
theorem performStructInductionOne_lists_cons_before_nil :
    performStructInductionOne Kernel.Formula.quantify sampleListAlgebra sampleListLiteral
          sampleListTerm =
        Outcome.ret
          (Kernel.Formula.BinaryFormula Kernel.BinaryConnective.IMP
            (Kernel.Formula.QuantifiedFormula Kernel.QuantifierConnective.FORALL [1, 0]
              (Kernel.Formula.JunctionFormula Kernel.JunctionConnective.AND
                [Kernel.Formula.BinaryFormula Kernel.BinaryConnective.IMP
                   (Kernel.Formula.AtomicFormula (sampleP (TermList.var 1)))
                   (Kernel.Formula.AtomicFormula
                     (sampleP (TermList.term (Symbol.user 21)
                       [TermList.var 0, TermList.var 1]))),
                 Kernel.Formula.AtomicFormula (sampleP (TermList.term (Symbol.user 20) []))]))
            (Kernel.Formula.QuantifiedFormula Kernel.QuantifierConnective.FORALL [2]
              (Kernel.Formula.AtomicFormula (sampleP (TermList.var 2)))),
            sampleP (TermList.var 2)) ∧
      performStructInductionOne Kernel.Formula.quantify sampleListAlgebra sampleListLiteral
          sampleListTerm ≠
        Outcome.ret
          (schemeOneInOrder Kernel.Formula.quantify
            (fun s => TermReplacement.transform sampleListTerm s
              sampleListLiteral.complementaryLiteral) sampleListAlgebra,
            sampleP (TermList.var 2)) := by
  refine ⟨rfl, ?_⟩
  intro h
  have h1 := congrArg (fun o => match o with
    | Outcome.ret (Kernel.Formula.BinaryFormula _
        (Kernel.Formula.QuantifiedFormula _ _
          (Kernel.Formula.JunctionFormula _ (Kernel.Formula.AtomicFormula _ :: _))) _, _) => true
    | _ => false) h
  revert h1
  decide

/-- C35, amended: for a term algebra with at least one constructor, all of them constructors
of its sort, `performStructInductionOne` hands over the hypothesis `(∀. ⋀_i F_i) → ∀y. ~L[y]`
and the conclusion `~L[y]`, where `~L[s]` is the complement of the literal with `s` in the
place of the term (§4.8), `F_i` is `~L[c_i(x)]` for a constructor that is not recursive and
`(⋀ ~L[x_j]) → ~L[c_i(x)]`, over the arguments `x_j` of the sort of the algebra, for a
recursive one; the conjuncts stand in the reverse order of the constructors, the arguments of
all constructors are the pairwise different variables 0, 1, …, and `y` is the next
variable. -/
theorem performStructInductionOne_scheme (quantify : Kernel.Formula → Kernel.Formula)
    (ta : TermAlgebra) (lit : Literal) (term : Term) (hne : ta.constructors ≠ [])
    (hsort : ∀ c ∈ ta.constructors, c.rangeSort = ta.sort)
    (hlt : totalArity ta.constructors < 2 ^ 32) :
    performStructInductionOne quantify ta lit term =
        Outcome.ret
          (schemeOne quantify
            (fun s => TermReplacement.transform term s lit.complementaryLiteral) ta,
            TermReplacement.transform term (TermList.var (totalArity ta.constructors))
              lit.complementaryLiteral) ∧
      (caseVars ta.constructors 0).flatten =
        (List.range (totalArity ta.constructors)).map TermList.var ∧
      ((List.range (totalArity ta.constructors + 1)).map TermList.var).Nodup := by
  refine ⟨?_, ?_, ?_⟩
  · have hloop := constructorLoop_spec ta.sort lit.complementaryLiteral term ta.constructors []
      0 hsort (by omega)
    have hlen : ((schemeOneCases
        (fun s => TermReplacement.transform term s lit.complementaryLiteral) ta.sort
        ta.constructors 0).reverse ++ []).length > 0 := by
      simp only [List.append_nil, List.length_reverse, schemeOneCases, List.length_zipWith,
        caseVars_length, Nat.min_self]
      exact List.length_pos.2 hne
    simp only [performStructInductionOne, hloop]
    rw [if_neg (by omega)]
    simp only [List.append_nil, Nat.zero_add, schemeOne]
    congr 2
  · have := caseVars_flatten ta.constructors 0
    simpa using this
  · refine (List.nodup_range _).map ?_
    intro a b h
    injection h

end InductionClauseIterator

namespace InductionClauseIterator

/-- Witness for C35: for the literal `¬p(f(f(nil)))`, the term `f(nil)` and the list algebra
with the constructors `nil` and `cons(h, t)`, the hypothesis is
`(∀t h. ((p(f(t)) → p(f(cons(h, t)))) ∧ p(f(nil)))) → ∀y. p(f(y))`, the complement of the
literal being `p(f(f(nil)))`, and the conclusion is `p(f(y))`; `h`, `t` and `y` are the
variables 0, 1 and 2. -/
theorem performStructInductionOne_scheme_witness :
    sampleListAlgebra.constructors ≠ [] ∧
      (∀ c ∈ sampleListAlgebra.constructors, c.rangeSort = sampleListAlgebra.sort) ∧
      totalArity sampleListAlgebra.constructors < 2 ^ 32 ∧
      schemeOne Kernel.Formula.quantify
          (fun s => TermReplacement.transform sampleNestedListTerm s
            sampleNestedListLiteral.complementaryLiteral) sampleListAlgebra =
        Kernel.Formula.BinaryFormula Kernel.BinaryConnective.IMP
          (Kernel.Formula.QuantifiedFormula Kernel.QuantifierConnective.FORALL [1, 0]
            (Kernel.Formula.JunctionFormula Kernel.JunctionConnective.AND
              [Kernel.Formula.BinaryFormula Kernel.BinaryConnective.IMP
                 (Kernel.Formula.AtomicFormula (sampleP (sampleListF (TermList.var 1))))
                 (Kernel.Formula.AtomicFormula
                   (sampleP (sampleListF (TermList.term (Symbol.user 21)
                     [TermList.var 0, TermList.var 1])))),
               Kernel.Formula.AtomicFormula
                 (sampleP (sampleListF (TermList.term (Symbol.user 20) [])))]))
          (Kernel.Formula.QuantifiedFormula Kernel.QuantifierConnective.FORALL [2]
            (Kernel.Formula.AtomicFormula (sampleP (sampleListF (TermList.var 2))))) ∧
      performStructInductionOne Kernel.Formula.quantify sampleListAlgebra
          sampleNestedListLiteral sampleNestedListTerm =
        Outcome.ret
          (schemeOne Kernel.Formula.quantify
            (fun s => TermReplacement.transform sampleNestedListTerm s
              sampleNestedListLiteral.complementaryLiteral) sampleListAlgebra,
            sampleP (sampleListF (TermList.var 2))) :=
  ⟨by decide, by decide, by decide, rfl,
    (performStructInductionOne_scheme Kernel.Formula.quantify sampleListAlgebra
      sampleNestedListLiteral sampleNestedListTerm (by decide) (by decide) (by decide)).1⟩

end InductionClauseIterator

end Vampire
